import Mathlib

/-!
# Chess engine: bitboards, move generation, make/unmake, perft, evaluation, search

A shallow embedding of `src/bitboard.c` (board representation, attack queries,
pseudo-legal and legal move generation, `applyMove`/`unmakeMove`, `countMoves`,
move printing), of `src/evaluation.c` (static evaluation, move ordering,
`quiescence`, `minimax`, `search`) and of `src/main.c` (`findBestMove` and the
coordinate-move adapter `applyUciMove`).

Conventions of the embedding.
* `U64` values are natural numbers below `2 ^ 64`; the complement `~x` is
  `x ^^^ (2 ^ 64 - 1)` and additions on `uint64_t` are reduced modulo `2 ^ 64`.
* C `int` values are integers (`Int`); `/` and `%` are the truncating
  `Int.tdiv` and `Int.tmod`, `>>` and `&` on `int` are `>>>` and `Int.land`.
* Functions that mutate a `Board *` return the new board (state passing).
* `while` loops are written with a fuel argument; the fuel handed over by the
  callers is the number of iterations the loop can perform on 64-bit input.
* Recursive searches return `Option`: `none` stands for a recursion that does
  not come back within the levels given to it.
* The fields `from` and `to` of `Move` and `Undo` are named `from_` and `to_`.
-/

namespace Chess

/-! ## Types and constants (`bitboard.c`, lines 12-65) -/

/-- A 64-bit set of squares (`typedef uint64_t U64`). -/
abbrev U64 := Nat

/-- All 64 bits set: the mask used for the complement on `U64`. -/
def U64_MAX : Nat := 0xFFFFFFFFFFFFFFFF

/-- Complement on 64 bits (`~x`). -/
def not64 (x : U64) : U64 := x ^^^ U64_MAX

@[simp] def WHITE : Int := 0
@[simp] def BLACK : Int := 8
@[simp] def PAWN : Int := 1
@[simp] def KNIGHT : Int := 2
@[simp] def BISHOP : Int := 3
@[simp] def ROOK : Int := 4
@[simp] def QUEEN : Int := 5
@[simp] def KING : Int := 6
@[simp] def COLOR_MASK : Int := 8

/-- The `Board` struct. -/
@[ext]
structure Board where
  wp : U64
  wn : U64
  wb : U64
  wr : U64
  wq : U64
  wk : U64
  bp : U64
  bn : U64
  bb : U64
  br : U64
  bq : U64
  bk : U64
  whitePieces : U64
  blackPieces : U64
  occupied : U64
  shortBlack : Bool
  longBlack : Bool
  shortWhite : Bool
  longWhite : Bool
  enPassantSquare : Int
  mover : Int
deriving DecidableEq, Repr

/-- The `Move` struct (`from`, `to`, `promotionPiece`, `score`). -/
structure Move where
  from_ : Int
  to_ : Int
  promotionPiece : Int
  score : Int
deriving DecidableEq, Repr

/-- The `Undo` struct. -/
structure Undo where
  from_ : Int
  to_ : Int
  movedPieceCode : Int
  capturedPieceCode : Int
  capturedSquare : Int
  prevShortBlack : Bool
  prevLongBlack : Bool
  prevShortWhite : Bool
  prevLongWhite : Bool
  prevEnPassant : Int
  prevMover : Int
  rookFromSq : Int
  rookToSq : Int
  rookPieceCode : Int
  wasEnPassant : Bool
deriving DecidableEq, Repr

/-! ## Small helpers (`bitboard.c`, lines 75-110) -/

/-- The single-square set `1ULL << sq` (the source asserts `0 <= sq < 64`). -/
def bit (sq : Int) : U64 := (1 <<< sq.toNat) % 2 ^ 64

/-- The rank of a square, `sq >> 3`. -/
def rankOf (sq : Int) : Int := sq >>> (3 : Nat)

/-- The file of a square, `sq & 7`. -/
def fileOf (sq : Int) : Int := Int.land sq 7

/-- The square index `rank * 8 + file`. -/
def sq_index (rank file : Int) : Int := rank * 8 + file

/-- Number of trailing zero bits, by halving (`__builtin_ctzll`; the builtin is
undefined on `0`, where this function returns `0` once the fuel is used). -/
def ctzFuel : Nat → Nat → Nat
  | 0, _ => 0
  | fuel + 1, x => if x % 2 = 1 then 0 else ctzFuel fuel (x / 2) + 1

/-- The builtin `__builtin_ctzll` on a 64-bit value. -/
def ctzll (x : U64) : Int := (ctzFuel 64 x : Nat)

/-- The helper `pop_lsb`: index of the least significant set bit, and the value
with that bit cleared (`bb & (bb - 1)`). -/
def pop_lsb (bb : U64) : Int × U64 := (ctzll bb, bb &&& (bb - 1))

/-- Board bounds test `insideFileRank`. -/
def insideFileRank (r f : Int) : Bool := decide (0 ≤ r) && decide (r < 8) && decide (0 ≤ f) && decide (f < 8)

def knightOffsets : List (Int × Int) :=
  [(-2, -1), (-2, 1), (-1, -2), (-1, 2), (1, -2), (1, 2), (2, -1), (2, 1)]

def kingOffsets : List (Int × Int) :=
  [(-1, -1), (-1, 0), (-1, 1), (0, -1), (0, 1), (1, -1), (1, 0), (1, 1)]

def bishopOffsets : List (Int × Int) := [(-1, -1), (-1, 1), (1, -1), (1, 1)]

def rookOffsets : List (Int × Int) := [(-1, 0), (0, -1), (0, 1), (1, 0)]

/-! ## Ray walk (`bitboard.c`, lines 226-241) -/

/-- The `while (1)` loop of `rayAttacksFrom`, from the current `(r, f)` with the
attacks collected so far; `none` when the fuel runs out before a `break`. -/
def rayWalk : Nat → Int → Int → Int → Int → U64 → U64 → Option U64
  | 0, _, _, _, _, _, _ => none
  | fuel + 1, r, f, dr, df, occupancy, attacks =>
    if insideFileRank (r + dr) (f + df) then
      if occupancy &&& bit (sq_index (r + dr) (f + df)) ≠ 0 then
        some (attacks ||| bit (sq_index (r + dr) (f + df)))
      else
        rayWalk fuel (r + dr) (f + df) dr df occupancy (attacks ||| bit (sq_index (r + dr) (f + df)))
    else
      some attacks

/-- The function `rayAttacksFrom`: a walk leaves an 8x8 board within 8 steps. -/
def rayAttacksFrom (sq dr df : Int) (occupancy : U64) : U64 :=
  (rayWalk 8 (rankOf sq) (fileOf sq) dr df occupancy 0).getD 0

/-! ## Attack tables (`bitboard.c`, lines 99-146) -/

/-- One of the two offset loops in the body of `initAttackTables`. -/
def offsetAttacks (offsets : List (Int × Int)) (r f : Int) : U64 :=
  offsets.foldl
    (fun acc o =>
      if insideFileRank (r + o.1) (f + o.2) then acc ||| bit (sq_index (r + o.1) (f + o.2)) else acc)
    0

/-- Entry `sq` of the table `knightAttacks` after `initAttackTables`. -/
def knightAttacks (sq : Int) : U64 := offsetAttacks knightOffsets (rankOf sq) (fileOf sq)

/-- Entry `sq` of the table `kingAttacks` after `initAttackTables`. -/
def kingAttacks (sq : Int) : U64 := offsetAttacks kingOffsets (rankOf sq) (fileOf sq)

/-- Entry `sq` of the table `bishopAttacks` after `initAttackTables`. -/
def bishopAttacks (sq : Int) : U64 :=
  bishopOffsets.foldl (fun bA o => bA ||| rayAttacksFrom sq o.1 o.2 0) 0

/-! ## Board helpers (`bitboard.c`, lines 167-222) -/

/-- Recompute the derived occupancies (`updateOccupancies`). -/
def updateOccupancies (b : Board) : Board :=
  { b with
    whitePieces := b.wp ||| b.wn ||| b.wb ||| b.wr ||| b.wq ||| b.wk
    blackPieces := b.bp ||| b.bn ||| b.bb ||| b.br ||| b.bq ||| b.bk
    occupied := (b.wp ||| b.wn ||| b.wb ||| b.wr ||| b.wq ||| b.wk) |||
      (b.bp ||| b.bn ||| b.bb ||| b.br ||| b.bq ||| b.bk) }

/-- The piece code on a square, `0` when empty (`pieceAt`). -/
def pieceAt (b : Board) (sq : Int) : Int :=
  if b.wp &&& bit sq ≠ 0 then Int.lor PAWN WHITE
  else if b.wn &&& bit sq ≠ 0 then Int.lor KNIGHT WHITE
  else if b.wb &&& bit sq ≠ 0 then Int.lor BISHOP WHITE
  else if b.wr &&& bit sq ≠ 0 then Int.lor ROOK WHITE
  else if b.wq &&& bit sq ≠ 0 then Int.lor QUEEN WHITE
  else if b.wk &&& bit sq ≠ 0 then Int.lor KING WHITE
  else if b.bp &&& bit sq ≠ 0 then Int.lor PAWN BLACK
  else if b.bn &&& bit sq ≠ 0 then Int.lor KNIGHT BLACK
  else if b.bb &&& bit sq ≠ 0 then Int.lor BISHOP BLACK
  else if b.br &&& bit sq ≠ 0 then Int.lor ROOK BLACK
  else if b.bq &&& bit sq ≠ 0 then Int.lor QUEEN BLACK
  else if b.bk &&& bit sq ≠ 0 then Int.lor KING BLACK
  else 0

/-- Clear a square in all twelve bitboards (`clearSquare`). -/
def clearSquare (b : Board) (sq : Int) : Board :=
  { b with
    wp := b.wp &&& not64 (bit sq)
    wn := b.wn &&& not64 (bit sq)
    wb := b.wb &&& not64 (bit sq)
    wr := b.wr &&& not64 (bit sq)
    wq := b.wq &&& not64 (bit sq)
    wk := b.wk &&& not64 (bit sq)
    bp := b.bp &&& not64 (bit sq)
    bn := b.bn &&& not64 (bit sq)
    bb := b.bb &&& not64 (bit sq)
    br := b.br &&& not64 (bit sq)
    bq := b.bq &&& not64 (bit sq)
    bk := b.bk &&& not64 (bit sq) }

/-- The two `switch` statements of `setPiece`, on an already cleared square. -/
def orPiece (b : Board) (sq : Int) (pieceCode : Int) : Board :=
  if Int.land pieceCode COLOR_MASK = WHITE then
    if Int.land pieceCode 7 = PAWN then { b with wp := b.wp ||| bit sq }
    else if Int.land pieceCode 7 = KNIGHT then { b with wn := b.wn ||| bit sq }
    else if Int.land pieceCode 7 = BISHOP then { b with wb := b.wb ||| bit sq }
    else if Int.land pieceCode 7 = ROOK then { b with wr := b.wr ||| bit sq }
    else if Int.land pieceCode 7 = QUEEN then { b with wq := b.wq ||| bit sq }
    else if Int.land pieceCode 7 = KING then { b with wk := b.wk ||| bit sq }
    else b
  else
    if Int.land pieceCode 7 = PAWN then { b with bp := b.bp ||| bit sq }
    else if Int.land pieceCode 7 = KNIGHT then { b with bn := b.bn ||| bit sq }
    else if Int.land pieceCode 7 = BISHOP then { b with bb := b.bb ||| bit sq }
    else if Int.land pieceCode 7 = ROOK then { b with br := b.br ||| bit sq }
    else if Int.land pieceCode 7 = QUEEN then { b with bq := b.bq ||| bit sq }
    else if Int.land pieceCode 7 = KING then { b with bk := b.bk ||| bit sq }
    else b

/-- Put a piece on a square, clearing the square first (`setPiece`). -/
def setPiece (b : Board) (sq : Int) (pieceCode : Int) : Board :=
  orPiece (clearSquare b sq) sq pieceCode

/-- The function `findPieceCodeAt`. -/
def findPieceCodeAt (b : Board) (sq : Int) : Int := pieceAt b sq

/-! ## Attack query (`bitboard.c`, lines 242-313) -/

/-- One iteration of the pawn loop of `isAttacked`: is there a pawn of the set
`pawns` on `(pr, pf)`, when that square is on the board. -/
def pawnOn (pawns : U64) (pr pf : Int) : Bool :=
  insideFileRank pr pf && decide (pawns &&& bit (sq_index pr pf) ≠ 0)

/-- Is the square `(row, col)` attacked by the colour opposite to `color`
(`isAttacked`). -/
def isAttacked (board : Board) (row col color : Int) : Bool :=
  let sq := sq_index row col
  let attackerColor := if color = WHITE then BLACK else WHITE
  let atkN := if attackerColor = WHITE then board.wn else board.bn
  let atkB := if attackerColor = WHITE then board.wb else board.bb
  let atkR := if attackerColor = WHITE then board.wr else board.br
  let atkQ := if attackerColor = WHITE then board.wq else board.bq
  let atkK := if attackerColor = WHITE then board.wk else board.bk
  if knightAttacks sq &&& atkN ≠ 0 then true
  else if kingAttacks sq &&& atkK ≠ 0 then true
  else if (if attackerColor = WHITE then
      pawnOn board.wp (row - 1) (col + -1) || pawnOn board.wp (row - 1) (col + 1)
    else
      pawnOn board.bp (row + 1) (col + -1) || pawnOn board.bp (row + 1) (col + 1)) then true
  else if rookOffsets.any (fun d => decide (rayAttacksFrom sq d.1 d.2 board.occupied &&& (atkR ||| atkQ) ≠ 0)) then true
  else if bishopOffsets.any (fun d => decide (rayAttacksFrom sq d.1 d.2 board.occupied &&& (atkB ||| atkQ) ≠ 0)) then true
  else false

/-! ## Move lists (`bitboard.c`, lines 150-163 and 317-323) -/

/-- Append a move to a move list (`addMove` on the growing `MoveList`). -/
def addMove (mL : List Move) (move : Move) : List Move := mL ++ [move]

/-- The function `addMoveToListFromTo`. The source leaves `score` unset; it is
overwritten with `0` by `addMoveToArray` before anything reads it. -/
def addMoveToListFromTo (mL : List Move) (fromSq toSq promo : Int) : List Move :=
  addMove mL { from_ := fromSq, to_ := toSq, promotionPiece := promo, score := 0 }

/-- The loop `while (t) { int sq = pop_lsb(&t); body }` over the set bits of a
bitboard, least significant first; a 64-bit value has at most 64 set bits. -/
def forEachBit {α : Type} (body : Int → α → α) : Nat → U64 → α → α
  | 0, _, acc => acc
  | fuel + 1, t, acc =>
    if t = 0 then acc else forEachBit body fuel (pop_lsb t).2 (body (pop_lsb t).1 acc)

/-! ## Pseudo-legal move generation (`bitboard.c`, lines 325-493) -/

/-- The loop `for (int p = 2; p <= 5; ++p) addMoveToListFromTo(mL, sq, toSq, p)`. -/
def addPromotions (mL : List Move) (sq toSq : Int) : List Move :=
  [2, 3, 4, 5].foldl (fun acc p => addMoveToListFromTo acc sq toSq p) mL

/-- The push part of `pawnMoves`: single push (with promotion) and double push. -/
def pawnPushes (b : Board) (mL : List Move) (sq colorBit : Int) : List Move :=
  let dir : Int := if colorBit = WHITE then 1 else -1
  let startRank : Int := if colorBit = WHITE then 1 else 6
  let promotionRank : Int := if colorBit = WHITE then 7 else 0
  let r := rankOf sq
  let f := fileOf sq
  let toR := r + dir
  if insideFileRank toR f ∧ ¬ (b.occupied &&& bit (sq_index toR f) ≠ 0) then
    let mL1 :=
      if toR = promotionRank then addPromotions mL sq (sq_index toR f)
      else addMoveToListFromTo mL sq (sq_index toR f) 0
    let rr := r + 2 * dir
    if r = startRank ∧ insideFileRank rr f ∧ ¬ (b.occupied &&& bit (sq_index rr f) ≠ 0) then
      addMoveToListFromTo mL1 sq (sq_index rr f) 0
    else mL1
  else mL

/-- One iteration (file offset `df`) of the capture loop of `pawnMoves`. -/
def pawnCapture (b : Board) (sq colorBit : Int) (mL : List Move) (df : Int) : List Move :=
  let dir : Int := if colorBit = WHITE then 1 else -1
  let promotionRank : Int := if colorBit = WHITE then 7 else 0
  let r := rankOf sq
  let f := fileOf sq
  let toR := r + dir
  let tf := f + df
  if ¬ insideFileRank toR tf then mL
  else
    let toSq := sq_index toR tf
    let targetCode := findPieceCodeAt b toSq
    if targetCode ≠ 0 then
      if Int.land targetCode COLOR_MASK ≠ colorBit then
        if toR = promotionRank then addPromotions mL sq toSq
        else addMoveToListFromTo mL sq toSq 0
      else mL
    else if b.enPassantSquare = toSq then
      let capSq := sq_index (toR - dir) tf
      let capCode := findPieceCodeAt b capSq
      if capCode ≠ 0 ∧ Int.land capCode 7 = PAWN ∧ Int.land capCode COLOR_MASK ≠ colorBit then
        addMoveToListFromTo mL sq toSq 0
      else mL
    else mL

/-- The function `pawnMoves`. -/
def pawnMoves (b : Board) (mL : List Move) (sq : Int) : List Move :=
  let colorBit : Int :=
    if b.wp &&& bit sq ≠ 0 then WHITE else if b.bp &&& bit sq ≠ 0 then BLACK else -1
  if colorBit = -1 then mL
  else [-1, 1].foldl (pawnCapture b sq colorBit) (pawnPushes b mL sq colorBit)

/-- The function `knightMoves`. -/
def knightMoves (b : Board) (mL : List Move) (sq : Int) : List Move :=
  let colorBit : Int :=
    if b.wn &&& bit sq ≠ 0 then WHITE else if b.bn &&& bit sq ≠ 0 then BLACK else -1
  if colorBit = -1 then mL
  else
    forEachBit (fun toSq acc => addMoveToListFromTo acc sq toSq 0) 64
      (knightAttacks sq &&& not64 (if colorBit = WHITE then b.whitePieces else b.blackPieces)) mL

/-- The inner `while (1)` loop of `slidingMoves` for one direction, from the
current `(r, f)`; `none` when the fuel runs out before a `break`. -/
def slideWalk (b : Board) (sq colorBit dr df : Int) : Nat → Int → Int → List Move → Option (List Move)
  | 0, _, _, _ => none
  | fuel + 1, r, f, mL =>
    if insideFileRank (r + dr) (f + df) then
      if findPieceCodeAt b (sq_index (r + dr) (f + df)) = 0 then
        slideWalk b sq colorBit dr df fuel (r + dr) (f + df)
          (addMoveToListFromTo mL sq (sq_index (r + dr) (f + df)) 0)
      else if Int.land (findPieceCodeAt b (sq_index (r + dr) (f + df))) COLOR_MASK ≠ colorBit then
        some (addMoveToListFromTo mL sq (sq_index (r + dr) (f + df)) 0)
      else some mL
    else some mL

/-- The function `slidingMoves`; a walk leaves an 8x8 board within 8 steps. -/
def slidingMoves (b : Board) (mL : List Move) (sq : Int) (directions : List (Int × Int))
    (dirCount : Nat) : List Move :=
  if findPieceCodeAt b sq = 0 then mL
  else
    (directions.take dirCount).foldl
      (fun acc d =>
        (slideWalk b sq (Int.land (findPieceCodeAt b sq) COLOR_MASK) d.1 d.2 8
          (rankOf sq) (fileOf sq) acc).getD acc)
      mL

/-- The function `bishopMoves`. -/
def bishopMoves (b : Board) (mL : List Move) (sq : Int) : List Move :=
  slidingMoves b mL sq bishopOffsets 4

/-- The function `rookMoves`. -/
def rookMoves (b : Board) (mL : List Move) (sq : Int) : List Move :=
  slidingMoves b mL sq rookOffsets 4

/-- The function `queenMoves`. -/
def queenMoves (b : Board) (mL : List Move) (sq : Int) : List Move :=
  rookMoves b (bishopMoves b mL sq) sq

/-- The two white castling blocks of `kingMoves`. -/
def whiteCastling (b : Board) (mL : List Move) (sq : Int) : List Move :=
  let mL1 :=
    if b.shortWhite = true ∧
        ¬ (b.occupied &&& bit (sq_index 0 5) ≠ 0) ∧
        ¬ (b.occupied &&& bit (sq_index 0 6) ≠ 0) ∧
        isAttacked b 0 4 WHITE = false ∧
        isAttacked b 0 5 WHITE = false ∧
        isAttacked b 0 6 WHITE = false then
      addMoveToListFromTo mL sq (sq_index 0 6) 0
    else mL
  if b.longWhite = true ∧
      ¬ (b.occupied &&& bit (sq_index 0 3) ≠ 0) ∧
      ¬ (b.occupied &&& bit (sq_index 0 2) ≠ 0) ∧
      ¬ (b.occupied &&& bit (sq_index 0 1) ≠ 0) ∧
      isAttacked b 0 4 WHITE = false ∧
      isAttacked b 0 3 WHITE = false ∧
      isAttacked b 0 2 WHITE = false then
    addMoveToListFromTo mL1 sq (sq_index 0 2) 0
  else mL1

/-- The two black castling blocks of `kingMoves`. -/
def blackCastling (b : Board) (mL : List Move) (sq : Int) : List Move :=
  let mL1 :=
    if b.shortBlack = true ∧
        ¬ (b.occupied &&& bit (sq_index 7 5) ≠ 0) ∧
        ¬ (b.occupied &&& bit (sq_index 7 6) ≠ 0) ∧
        isAttacked b 7 4 BLACK = false ∧
        isAttacked b 7 5 BLACK = false ∧
        isAttacked b 7 6 BLACK = false then
      addMoveToListFromTo mL sq (sq_index 7 6) 0
    else mL
  if b.longBlack = true ∧
      ¬ (b.occupied &&& bit (sq_index 7 3) ≠ 0) ∧
      ¬ (b.occupied &&& bit (sq_index 7 2) ≠ 0) ∧
      ¬ (b.occupied &&& bit (sq_index 7 1) ≠ 0) ∧
      isAttacked b 7 4 BLACK = false ∧
      isAttacked b 7 3 BLACK = false ∧
      isAttacked b 7 2 BLACK = false then
    addMoveToListFromTo mL1 sq (sq_index 7 2) 0
  else mL1

/-- The function `kingMoves`: the steps to the neighbouring squares, then castling. -/
def kingMoves (b : Board) (mL : List Move) (sq : Int) : List Move :=
  if findPieceCodeAt b sq = 0 then mL
  else
    let colorBit := Int.land (findPieceCodeAt b sq) COLOR_MASK
    let mL1 :=
      forEachBit (fun toSq acc => addMoveToListFromTo acc sq toSq 0) 64
        (kingAttacks sq &&& not64 (if colorBit = WHITE then b.whitePieces else b.blackPieces)) mL
    let mL2 := if colorBit = WHITE ∧ sq = sq_index 0 4 then whiteCastling b mL1 sq else mL1
    if colorBit = BLACK ∧ sq = sq_index 7 4 then blackCastling b mL2 sq else mL2

/-! ## Make / unmake (`bitboard.c`, lines 497-706) -/

/-- Remove the piece found first on a square and return its code
(`removePieceAt`). -/
def removePieceAt (b : Board) (sq : Int) : Board × Int :=
  if b.wp &&& bit sq ≠ 0 then ({ b with wp := b.wp &&& not64 (bit sq) }, Int.lor PAWN WHITE)
  else if b.wn &&& bit sq ≠ 0 then ({ b with wn := b.wn &&& not64 (bit sq) }, Int.lor KNIGHT WHITE)
  else if b.wb &&& bit sq ≠ 0 then ({ b with wb := b.wb &&& not64 (bit sq) }, Int.lor BISHOP WHITE)
  else if b.wr &&& bit sq ≠ 0 then ({ b with wr := b.wr &&& not64 (bit sq) }, Int.lor ROOK WHITE)
  else if b.wq &&& bit sq ≠ 0 then ({ b with wq := b.wq &&& not64 (bit sq) }, Int.lor QUEEN WHITE)
  else if b.wk &&& bit sq ≠ 0 then ({ b with wk := b.wk &&& not64 (bit sq) }, Int.lor KING WHITE)
  else if b.bp &&& bit sq ≠ 0 then ({ b with bp := b.bp &&& not64 (bit sq) }, Int.lor PAWN BLACK)
  else if b.bn &&& bit sq ≠ 0 then ({ b with bn := b.bn &&& not64 (bit sq) }, Int.lor KNIGHT BLACK)
  else if b.bb &&& bit sq ≠ 0 then ({ b with bb := b.bb &&& not64 (bit sq) }, Int.lor BISHOP BLACK)
  else if b.br &&& bit sq ≠ 0 then ({ b with br := b.br &&& not64 (bit sq) }, Int.lor ROOK BLACK)
  else if b.bq &&& bit sq ≠ 0 then ({ b with bq := b.bq &&& not64 (bit sq) }, Int.lor QUEEN BLACK)
  else if b.bk &&& bit sq ≠ 0 then ({ b with bk := b.bk &&& not64 (bit sq) }, Int.lor KING BLACK)
  else (b, 0)

/-- Put a piece on a square unless the code is `0` (`placePieceAt`). -/
def placePieceAt (b : Board) (sq : Int) (pieceCode : Int) : Board :=
  if pieceCode = 0 then b else setPiece b sq pieceCode

/-- Section "SAVE UNDO STATE" of `applyMove`. -/
def saveUndo (b : Board) (mv : Move) : Undo :=
  { from_ := mv.from_
    to_ := mv.to_
    movedPieceCode := findPieceCodeAt b mv.from_
    capturedPieceCode := findPieceCodeAt b mv.to_
    capturedSquare := mv.to_
    prevShortWhite := b.shortWhite
    prevLongWhite := b.longWhite
    prevShortBlack := b.shortBlack
    prevLongBlack := b.longBlack
    prevEnPassant := b.enPassantSquare
    prevMover := b.mover
    wasEnPassant := false
    rookFromSq := -1
    rookToSq := -1
    rookPieceCode := 0 }

/-- The condition of section "EN PASSANT CAPTURE" of `applyMove`. -/
def isEnPassantCapture (b : Board) (mv : Move) : Prop :=
  Int.land (findPieceCodeAt b mv.from_) 7 = PAWN ∧
    Int.tmod mv.from_ 8 ≠ Int.tmod mv.to_ 8 ∧
    findPieceCodeAt b mv.to_ = 0 ∧
    b.enPassantSquare = mv.to_

instance (b : Board) (mv : Move) : Decidable (isEnPassantCapture b mv) := by
  unfold isEnPassantCapture; infer_instance

/-- The condition of section "CASTLING ROOK MOVE" of `applyMove`. -/
def isKingTwoFiles (movingCode : Int) (mv : Move) : Prop :=
  Int.land movingCode 7 = KING ∧ Int.natAbs (Int.tmod mv.from_ 8 - Int.tmod mv.to_ 8) = 2

instance (movingCode : Int) (mv : Move) : Decidable (isKingTwoFiles movingCode mv) := by
  unfold isKingTwoFiles; infer_instance

/-- The rook's start square chosen in section "CASTLING ROOK MOVE". -/
def castleRookFrom (mv : Move) : Int :=
  if Int.tmod mv.to_ 8 = 6 then Int.tdiv mv.to_ 8 * 8 + 7 else Int.tdiv mv.to_ 8 * 8 + 0

/-- The rook's target square chosen in section "CASTLING ROOK MOVE". -/
def castleRookTo (mv : Move) : Int :=
  if Int.tmod mv.to_ 8 = 6 then Int.tdiv mv.to_ 8 * 8 + 5 else Int.tdiv mv.to_ 8 * 8 + 3

/-- Revoke both castling rights of a colour. -/
def revokeBoth (b : Board) (moverColor : Int) : Board :=
  if moverColor = WHITE then { b with shortWhite := false, longWhite := false }
  else { b with shortBlack := false, longBlack := false }

/-- The four `if (sq == corner)` lines that revoke the right of a corner. -/
def revokeCorner (b : Board) (sq : Int) : Board :=
  let b1 := if sq = 0 then { b with longWhite := false } else b
  let b2 := if sq = 7 then { b1 with shortWhite := false } else b1
  let b3 := if sq = 56 then { b2 with longBlack := false } else b2
  if sq = 63 then { b3 with shortBlack := false } else b3

/-- The undo record written by `applyMove` (all sections). -/
def applyMoveUndo (b : Board) (mv : Move) (boardAfterMove : Board) : Undo :=
  let u := saveUndo b mv
  let moverColor := Int.land u.movedPieceCode COLOR_MASK
  let dir : Int := if moverColor = WHITE then 1 else -1
  let u1 : Undo :=
    if isEnPassantCapture b mv then
      { u with
        wasEnPassant := true
        capturedSquare := mv.to_ - dir * 8
        capturedPieceCode := findPieceCodeAt b (mv.to_ - dir * 8) }
    else u
  if isKingTwoFiles u.movedPieceCode mv then
    { u1 with
      rookFromSq := castleRookFrom mv
      rookToSq := castleRookTo mv
      rookPieceCode := findPieceCodeAt boardAfterMove (castleRookFrom mv) }
  else u1

/-- Sections "EN PASSANT CAPTURE", "NORMAL CAPTURE" and "MOVE PIECE" of
`applyMove`: the board after the moving piece has been put on its target. -/
def applyMovePieces (b : Board) (mv : Move) : Board :=
  let movingCode := findPieceCodeAt b mv.from_
  let moverColor := Int.land movingCode COLOR_MASK
  let dir : Int := if moverColor = WHITE then 1 else -1
  let b1 := if isEnPassantCapture b mv then (removePieceAt b (mv.to_ - dir * 8)).1 else b
  let b2 :=
    if ¬ isEnPassantCapture b mv ∧ findPieceCodeAt b mv.to_ ≠ 0 then (removePieceAt b1 mv.to_).1
    else b1
  let b3 := (removePieceAt b2 mv.from_).1
  if mv.promotionPiece ≠ 0 then placePieceAt b3 mv.to_ (Int.lor mv.promotionPiece moverColor)
  else placePieceAt b3 mv.to_ movingCode

/-- Section "CASTLING ROOK MOVE" of `applyMove`, on the board. -/
def applyCastlingRook (b4 : Board) (mv : Move) (movingCode : Int) : Board :=
  if isKingTwoFiles movingCode mv then
    let rm := removePieceAt b4 (castleRookFrom mv)
    let b5 := if rm.2 ≠ 0 then placePieceAt rm.1 (castleRookTo mv) rm.2 else rm.1
    revokeBoth b5 (Int.land movingCode COLOR_MASK)
  else b4

/-- Section "UPDATE CASTLING RIGHTS" of `applyMove`. -/
def updateCastlingRights (b5 : Board) (mv : Move) (movingCode capturedPieceCode : Int) : Board :=
  let b6 := if Int.land movingCode 7 = KING then revokeBoth b5 (Int.land movingCode COLOR_MASK) else b5
  let b7 := if Int.land movingCode 7 = ROOK then revokeCorner b6 mv.from_ else b6
  if Int.land capturedPieceCode 7 = ROOK then revokeCorner b7 mv.to_ else b7

/-- Section "EN PASSANT SQUARE" of `applyMove`. -/
def updateEnPassantSquare (b : Board) (mv : Move) (movingCode : Int) : Board :=
  if Int.land movingCode 7 = PAWN ∧ Int.natAbs (Int.tdiv mv.to_ 8 - Int.tdiv mv.from_ 8) = 2 then
    { b with
      enPassantSquare :=
        Int.tdiv (Int.tdiv mv.from_ 8 + Int.tdiv mv.to_ 8) 2 * 8 + Int.tmod mv.from_ 8 }
  else { b with enPassantSquare := -1 }

/-- Section "FINALIZE" of `applyMove`. -/
def finalizeMove (b : Board) : Board :=
  { updateOccupancies b with mover := if b.mover = WHITE then BLACK else WHITE }

/-- The function `applyMove`: the returned flag, the board and the undo record.
When the from-square is empty the board is returned untouched, with the undo
record as saved so far. -/
def applyMove (b : Board) (mv : Move) : Bool × Board × Undo :=
  if findPieceCodeAt b mv.from_ = 0 then (false, b, saveUndo b mv)
  else
    let movingCode := findPieceCodeAt b mv.from_
    let b4 := applyMovePieces b mv
    let u := applyMoveUndo b mv b4
    let b5 := applyCastlingRook b4 mv movingCode
    let b8 := updateCastlingRights b5 mv movingCode u.capturedPieceCode
    (true, finalizeMove (updateEnPassantSquare b8 mv movingCode), u)

/-- The function `unmakeMove`. -/
def unmakeMove (b : Board) (u : Undo) : Board :=
  let b1 := { b with mover := u.prevMover }
  let b2 := clearSquare b1 u.from_
  let b3 := clearSquare b2 u.to_
  let b4 := placePieceAt b3 u.from_ u.movedPieceCode
  let b5 :=
    if u.capturedPieceCode ≠ 0 ∧ u.capturedSquare ≠ -1 then
      placePieceAt b4 u.capturedSquare u.capturedPieceCode
    else b4
  let b6 :=
    if u.rookFromSq ≠ -1 then placePieceAt (clearSquare b5 u.rookToSq) u.rookFromSq u.rookPieceCode
    else b5
  updateOccupancies
    { b6 with
      shortBlack := u.prevShortBlack
      longBlack := u.prevLongBlack
      shortWhite := u.prevShortWhite
      longWhite := u.prevLongWhite
      enPassantSquare := u.prevEnPassant }

/-! ## Move generation drivers (`bitboard.c`, lines 710-833) -/

/-- The helper `addMoveToArray`: the array and its count are a list. -/
def addMoveToArray (moves : List Move) (maxMoves : Nat) (m : Move) : List Move :=
  if moves.length < maxMoves then moves ++ [{ m with score := 0 }] else moves

/-- The function `generateMoves`: the board with its occupancies recomputed, and
the pseudo-legal moves appended to the move list. -/
def generateMoves (b : Board) (moveList : List Move) : Board × List Move :=
  let b := updateOccupancies b
  let pawns := if b.mover = WHITE then b.wp else b.bp
  let knights := if b.mover = WHITE then b.wn else b.bn
  let bishops := if b.mover = WHITE then b.wb else b.bb
  let rooks := if b.mover = WHITE then b.wr else b.br
  let queens := if b.mover = WHITE then b.wq else b.bq
  let kings := if b.mover = WHITE then b.wk else b.bk
  let mL := forEachBit (fun sq acc => pawnMoves b acc sq) 64 pawns moveList
  let mL := forEachBit (fun sq acc => knightMoves b acc sq) 64 knights mL
  let mL := forEachBit (fun sq acc => bishopMoves b acc sq) 64 bishops mL
  let mL := forEachBit (fun sq acc => rookMoves b acc sq) 64 rooks mL
  let mL := forEachBit (fun sq acc => queenMoves b acc sq) 64 queens mL
  let mL := forEachBit (fun sq acc => kingMoves b acc sq) 64 kings mL
  (b, mL)

/-- The function `generateMovesToArray`. -/
def generateMovesToArray (b : Board) (maxMoves : Nat) : Board × List Move :=
  let g := generateMoves b []
  (g.1, g.2.foldl (fun moves m => addMoveToArray moves maxMoves m) [])

/-- The test made on the board after a move in `generateLegalMovesToArray`:
the king of `moverColor` is on the board and its square is not attacked. -/
def kingSafe (board : Board) (moverColor : Int) : Bool :=
  let kings := if moverColor = WHITE then board.wk else board.bk
  let kingPos : Int := if kings ≠ 0 then ctzll kings else -1
  if kingPos = -1 then false
  else if isAttacked board (rankOf kingPos) (fileOf kingPos) moverColor then false
  else true

/-- The `for` loop of `generateLegalMovesToArray` over the pseudo-legal moves
still to be tried, with the board and the output collected so far. -/
def legalLoop (maxMoves : Nat) : List Move → Board → List Move → Board × List Move
  | [], board, outMoves => (board, outMoves)
  | m :: rest, board, outMoves =>
    if (applyMove board m).1 = false then legalLoop maxMoves rest (applyMove board m).2.1 outMoves
    else
      legalLoop maxMoves rest (unmakeMove (applyMove board m).2.1 (applyMove board m).2.2)
        (if kingSafe (applyMove board m).2.1 (applyMove board m).2.2.prevMover = true ∧
            outMoves.length < maxMoves then outMoves ++ [m]
          else outMoves)

/-- The function `generateLegalMovesToArray`: the board as left by the
apply/unmake pairs, and the legal moves. -/
def generateLegalMovesToArray (board : Board) (maxMoves : Nat) : Board × List Move :=
  let g := generateMovesToArray board 512
  legalLoop maxMoves g.2 g.1 []

/-! ## Start position and perft (`bitboard.c`, lines 895-946) -/

/-- The function `boardSetup`: the argument is overwritten. -/
def boardSetup (_b : Board) : Board :=
  updateOccupancies
    { wr := bit (sq_index 0 0) ||| bit (sq_index 0 7)
      wn := bit (sq_index 0 1) ||| bit (sq_index 0 6)
      wb := bit (sq_index 0 2) ||| bit (sq_index 0 5)
      wq := bit (sq_index 0 3)
      wk := bit (sq_index 0 4)
      wp := (List.range 8).foldl (fun acc f => acc ||| bit (sq_index 1 (f : Nat))) 0
      br := bit (sq_index 7 0) ||| bit (sq_index 7 7)
      bn := bit (sq_index 7 1) ||| bit (sq_index 7 6)
      bb := bit (sq_index 7 2) ||| bit (sq_index 7 5)
      bq := bit (sq_index 7 3)
      bk := bit (sq_index 7 4)
      bp := (List.range 8).foldl (fun acc f => acc ||| bit (sq_index 6 (f : Nat))) 0
      whitePieces := 0
      blackPieces := 0
      occupied := 0
      shortBlack := true
      shortWhite := true
      longBlack := true
      longWhite := true
      enPassantSquare := -1
      mover := WHITE }

/-- The `for` loop of `countMoves` over the legal moves still to be tried;
`child` is the recursive call at `depth - 1`. -/
def countLoop (child : Board → Board × Nat) : List Move → Board → Nat → Board × Nat
  | [], board, count => (board, count)
  | m :: rest, board, count =>
    countLoop child rest
      (unmakeMove (child (applyMove board m).2.1).1 (applyMove board m).2.2)
      ((count + (child (applyMove board m).2.1).2) % 2 ^ 64)

/-- The function `countMoves` (perft): the board as left by the walk, and the
number of leaves (a `uint64_t`). -/
def countMoves : Nat → Board → Board × Nat
  | 0, board => (board, 1)
  | depth + 1, board =>
    countLoop (countMoves depth) (generateLegalMovesToArray board 512).2
      (generateLegalMovesToArray board 512).1 0

/-! ## Coordinate moves (`main.c`, lines 39-63) -/

/-- The character `moveStr[i]` of a NUL-terminated string, as an `int`. -/
def charAt (moveStr : String) (i : Nat) : Int := ((moveStr.toList.getD i (Char.ofNat 0)).toNat : Nat)

/-- The move decoded by `applyUciMove` before it is applied. -/
def decodeUciMove (moveStr : String) : Move :=
  let fromFile := charAt moveStr 0 - 97
  let fromRank := charAt moveStr 1 - 49
  let toFile := charAt moveStr 2 - 97
  let toRank := charAt moveStr 3 - 49
  { from_ := fromRank * 8 + fromFile
    to_ := toRank * 8 + toFile
    promotionPiece :=
      if 5 ≤ moveStr.length then
        if charAt moveStr 4 = 113 ∨ charAt moveStr 4 = 81 then QUEEN
        else if charAt moveStr 4 = 114 ∨ charAt moveStr 4 = 82 then ROOK
        else if charAt moveStr 4 = 98 ∨ charAt moveStr 4 = 66 then BISHOP
        else if charAt moveStr 4 = 110 ∨ charAt moveStr 4 = 78 then KNIGHT
        else 0
      else 0
    score := 0 }

/-- The function `applyUciMove`. -/
def applyUciMove (board : Board) (moveStr : String) : Board :=
  (applyMove board (decodeUciMove moveStr)).2.1

/-! ## Predicates and auxiliary definitions used by the theorems -/

/-- A square index of the board. -/
def InRange (sq : Int) : Prop := 0 ≤ sq ∧ sq < 64

instance (sq : Int) : Decidable (InRange sq) := by unfold InRange; infer_instance

def Bounded (b : Board) : Prop :=
  b.wp < 2 ^ 64 ∧ b.wn < 2 ^ 64 ∧ b.wb < 2 ^ 64 ∧ b.wr < 2 ^ 64 ∧ b.wq < 2 ^ 64 ∧ b.wk < 2 ^ 64 ∧
  b.bp < 2 ^ 64 ∧ b.bn < 2 ^ 64 ∧ b.bb < 2 ^ 64 ∧ b.br < 2 ^ 64 ∧ b.bq < 2 ^ 64 ∧ b.bk < 2 ^ 64

def PiecesDisjoint (b : Board) : Prop :=
  List.Pairwise (fun x y => x &&& y = 0)
    [b.wp, b.wn, b.wb, b.wr, b.wq, b.wk, b.bp, b.bn, b.bb, b.br, b.bq, b.bk]

/-- The piece code that `pieceAt` finds for bit `n` of the bitboards. -/
def codeAt (b : Board) (n : Nat) : Int :=
  if b.wp.testBit n then 1
  else if b.wn.testBit n then 2
  else if b.wb.testBit n then 3
  else if b.wr.testBit n then 4
  else if b.wq.testBit n then 5
  else if b.wk.testBit n then 6
  else if b.bp.testBit n then 9
  else if b.bn.testBit n then 10
  else if b.bb.testBit n then 11
  else if b.br.testBit n then 12
  else if b.bq.testBit n then 13
  else if b.bk.testBit n then 14
  else 0

/-- Every bitboard holds exactly the squares on which `codeAt` finds its code. -/
def Agree (b : Board) : Prop :=
  ∀ n : Nat,
    b.wp.testBit n = decide (codeAt b n = 1) ∧
    b.wn.testBit n = decide (codeAt b n = 2) ∧
    b.wb.testBit n = decide (codeAt b n = 3) ∧
    b.wr.testBit n = decide (codeAt b n = 4) ∧
    b.wq.testBit n = decide (codeAt b n = 5) ∧
    b.wk.testBit n = decide (codeAt b n = 6) ∧
    b.bp.testBit n = decide (codeAt b n = 9) ∧
    b.bn.testBit n = decide (codeAt b n = 10) ∧
    b.bb.testBit n = decide (codeAt b n = 11) ∧
    b.br.testBit n = decide (codeAt b n = 12) ∧
    b.bq.testBit n = decide (codeAt b n = 13) ∧
    b.bk.testBit n = decide (codeAt b n = 14)

/-- The twelve piece codes. -/
def ValidCode (c : Int) : Prop :=
  c = 1 ∨ c = 2 ∨ c = 3 ∨ c = 4 ∨ c = 5 ∨ c = 6 ∨ c = 9 ∨ c = 10 ∨ c = 11 ∨ c = 12 ∨ c = 13 ∨ c = 14

/-- The twelve piece bitboards of a board. -/
def pieces (b : Board) : List Nat :=
  [b.wp, b.wn, b.wb, b.wr, b.wq, b.wk, b.bp, b.bn, b.bb, b.br, b.bq, b.bk]

/-- The bitboards are 64-bit values and pairwise disjoint (in the form `Agree`). -/
def WF (b : Board) : Prop := Bounded b ∧ Agree b

/-- The derived occupancies are the unions of the piece bitboards. -/
def OccupanciesConsistent (b : Board) : Prop :=
  b.whitePieces = (b.wp ||| b.wn ||| b.wb ||| b.wr ||| b.wq ||| b.wk) ∧
  b.blackPieces = (b.bp ||| b.bn ||| b.bb ||| b.br ||| b.bq ||| b.bk) ∧
  b.occupied = (b.whitePieces ||| b.blackPieces)

/-- The square whose piece `applyMove` removes as the captured piece. -/
def captureSquare (b : Board) (mv : Move) : Int :=
  if isEnPassantCapture b mv then
    mv.to_ - (if Int.land (findPieceCodeAt b mv.from_) COLOR_MASK = WHITE then 1 else -1) * 8
  else mv.to_

/-- The piece code that `applyMove` puts on the target square. -/
def placedCode (b : Board) (mv : Move) : Int :=
  if mv.promotionPiece ≠ 0 then
    Int.lor mv.promotionPiece (Int.land (findPieceCodeAt b mv.from_) COLOR_MASK)
  else findPieceCodeAt b mv.from_

/-- The piece part of `unmakeMove`: the board before the rights, the en-passant
square and the occupancies are restored. -/
def unmakePieces (b : Board) (u : Undo) : Board :=
  let b4 := placePieceAt (clearSquare (clearSquare b u.from_) u.to_) u.from_ u.movedPieceCode
  let b5 :=
    if u.capturedPieceCode ≠ 0 ∧ u.capturedSquare ≠ -1 then
      placePieceAt b4 u.capturedSquare u.capturedPieceCode
    else b4
  if u.rookFromSq ≠ -1 then placePieceAt (clearSquare b5 u.rookToSq) u.rookFromSq u.rookPieceCode
  else b5

/-- The conditions on a move under which `applyMove` followed by `unmakeMove`
restores the board: both squares on the board and distinct, a piece on the
from-square, a piece code to put on the target, the en-passant victim square on
the board and off the from-square, and for a king moved two files the rook
squares on the board, off the king's squares, with an empty rook target. -/
def Reversible (b : Board) (mv : Move) : Prop :=
  InRange mv.from_ ∧ InRange mv.to_ ∧ mv.from_ ≠ mv.to_ ∧ findPieceCodeAt b mv.from_ ≠ 0 ∧
  ValidCode (placedCode b mv) ∧
  (isEnPassantCapture b mv → InRange (captureSquare b mv) ∧ captureSquare b mv ≠ mv.from_) ∧
  (isKingTwoFiles (findPieceCodeAt b mv.from_) mv →
    InRange (castleRookFrom mv) ∧ InRange (castleRookTo mv) ∧
    castleRookFrom mv ≠ mv.from_ ∧ castleRookFrom mv ≠ mv.to_ ∧
    castleRookTo mv ≠ mv.from_ ∧ castleRookTo mv ≠ mv.to_ ∧
    castleRookFrom mv ≠ castleRookTo mv ∧ findPieceCodeAt b (castleRookTo mv) = 0)

/-- What `pawnMoves` emits for a pawn of colour `c` on `sq`: a single push, a
double push, a capture or an en-passant capture, with the promotion piece set
exactly on the promotion rank. -/
def PawnGen (b : Board) (sq c : Int) (mv : Move) : Prop :=
  mv.from_ = sq ∧ mv.score = 0 ∧
  ((mv.to_ = sq_index (rankOf sq + (if c = WHITE then 1 else -1)) (fileOf sq) ∧
      insideFileRank (rankOf sq + (if c = WHITE then 1 else -1)) (fileOf sq) = true ∧
      ¬ (b.occupied &&& bit mv.to_ ≠ 0) ∧
      (if rankOf sq + (if c = WHITE then 1 else -1) = (if c = WHITE then 7 else 0) then
        mv.promotionPiece = 2 ∨ mv.promotionPiece = 3 ∨ mv.promotionPiece = 4 ∨ mv.promotionPiece = 5
      else mv.promotionPiece = 0)) ∨
    (mv.to_ = sq_index (rankOf sq + 2 * (if c = WHITE then 1 else -1)) (fileOf sq) ∧
      rankOf sq = (if c = WHITE then 1 else 6) ∧
      insideFileRank (rankOf sq + 2 * (if c = WHITE then 1 else -1)) (fileOf sq) = true ∧
      ¬ (b.occupied &&& bit (sq_index (rankOf sq + (if c = WHITE then 1 else -1)) (fileOf sq)) ≠ 0) ∧
      ¬ (b.occupied &&& bit mv.to_ ≠ 0) ∧
      mv.promotionPiece = 0) ∨
    (∃ df : Int, (df = -1 ∨ df = 1) ∧
      mv.to_ = sq_index (rankOf sq + (if c = WHITE then 1 else -1)) (fileOf sq + df) ∧
      insideFileRank (rankOf sq + (if c = WHITE then 1 else -1)) (fileOf sq + df) = true ∧
      findPieceCodeAt b mv.to_ ≠ 0 ∧
      Int.land (findPieceCodeAt b mv.to_) COLOR_MASK ≠ c ∧
      (if rankOf sq + (if c = WHITE then 1 else -1) = (if c = WHITE then 7 else 0) then
        mv.promotionPiece = 2 ∨ mv.promotionPiece = 3 ∨ mv.promotionPiece = 4 ∨ mv.promotionPiece = 5
      else mv.promotionPiece = 0)) ∨
    (∃ df : Int, (df = -1 ∨ df = 1) ∧
      mv.to_ = sq_index (rankOf sq + (if c = WHITE then 1 else -1)) (fileOf sq + df) ∧
      insideFileRank (rankOf sq + (if c = WHITE then 1 else -1)) (fileOf sq + df) = true ∧
      findPieceCodeAt b mv.to_ = 0 ∧
      b.enPassantSquare = mv.to_ ∧
      findPieceCodeAt b (sq_index (rankOf sq) (fileOf sq + df)) ≠ 0 ∧
      Int.land (findPieceCodeAt b (sq_index (rankOf sq) (fileOf sq + df))) 7 = PAWN ∧
      Int.land (findPieceCodeAt b (sq_index (rankOf sq) (fileOf sq + df))) COLOR_MASK ≠ c ∧
      mv.promotionPiece = 0))

/-- What the step loops of `knightMoves` and `kingMoves` emit from `sq`: a move
by one of the offsets to a square on the board that is not in `own`. -/
def StepGen (sq : Int) (offsets : List (Int × Int)) (own : U64) (mv : Move) : Prop :=
  mv.from_ = sq ∧ mv.promotionPiece = 0 ∧ mv.score = 0 ∧ InRange mv.to_ ∧
  ¬ (own &&& bit mv.to_ ≠ 0) ∧
  ∃ o ∈ offsets, insideFileRank (rankOf sq + o.1) (fileOf sq + o.2) = true ∧
    mv.to_ = sq_index (rankOf sq + o.1) (fileOf sq + o.2)

/-- What `slidingMoves` emits from `sq`: a move to a square on the board that is
empty or holds a piece of the other colour. -/
def SlideGen (b : Board) (sq : Int) (mv : Move) : Prop :=
  mv.from_ = sq ∧ mv.promotionPiece = 0 ∧ mv.score = 0 ∧ InRange mv.to_ ∧
  (findPieceCodeAt b mv.to_ = 0 ∨
    Int.land (findPieceCodeAt b mv.to_) COLOR_MASK ≠ Int.land (findPieceCodeAt b sq) COLOR_MASK)

/-- What the castling blocks of `kingMoves` emit for the king on `sq`: the king
move two files towards the rook, under the guards tested by the source. -/
def CastleGen (b : Board) (sq : Int) (mv : Move) : Prop :=
  mv.from_ = sq ∧ mv.promotionPiece = 0 ∧ mv.score = 0 ∧
  ((Int.land (findPieceCodeAt b sq) COLOR_MASK = WHITE ∧ sq = sq_index 0 4 ∧
      mv.to_ = sq_index 0 6 ∧ b.shortWhite = true ∧
      ¬ (b.occupied &&& bit (sq_index 0 5) ≠ 0) ∧ ¬ (b.occupied &&& bit (sq_index 0 6) ≠ 0) ∧
      isAttacked b 0 4 WHITE = false ∧ isAttacked b 0 5 WHITE = false ∧
      isAttacked b 0 6 WHITE = false) ∨
    (Int.land (findPieceCodeAt b sq) COLOR_MASK = WHITE ∧ sq = sq_index 0 4 ∧
      mv.to_ = sq_index 0 2 ∧ b.longWhite = true ∧
      ¬ (b.occupied &&& bit (sq_index 0 3) ≠ 0) ∧ ¬ (b.occupied &&& bit (sq_index 0 2) ≠ 0) ∧
      ¬ (b.occupied &&& bit (sq_index 0 1) ≠ 0) ∧
      isAttacked b 0 4 WHITE = false ∧ isAttacked b 0 3 WHITE = false ∧
      isAttacked b 0 2 WHITE = false) ∨
    (Int.land (findPieceCodeAt b sq) COLOR_MASK = BLACK ∧ sq = sq_index 7 4 ∧
      mv.to_ = sq_index 7 6 ∧ b.shortBlack = true ∧
      ¬ (b.occupied &&& bit (sq_index 7 5) ≠ 0) ∧ ¬ (b.occupied &&& bit (sq_index 7 6) ≠ 0) ∧
      isAttacked b 7 4 BLACK = false ∧ isAttacked b 7 5 BLACK = false ∧
      isAttacked b 7 6 BLACK = false) ∨
    (Int.land (findPieceCodeAt b sq) COLOR_MASK = BLACK ∧ sq = sq_index 7 4 ∧
      mv.to_ = sq_index 7 2 ∧ b.longBlack = true ∧
      ¬ (b.occupied &&& bit (sq_index 7 3) ≠ 0) ∧ ¬ (b.occupied &&& bit (sq_index 7 2) ≠ 0) ∧
      ¬ (b.occupied &&& bit (sq_index 7 1) ≠ 0) ∧
      isAttacked b 7 4 BLACK = false ∧ isAttacked b 7 3 BLACK = false ∧
      isAttacked b 7 2 BLACK = false))

/-- What `generateMoves` emits on a board (with recomputed occupancies): for
some square of one of the mover's bitboards, a move of the matching generator. -/
def Generated (b : Board) (mv : Move) : Prop :=
  ∃ sq, InRange sq ∧
    (((if b.mover = WHITE then b.wp else b.bp).testBit sq.toNat = true ∧
        ((b.wp &&& bit sq ≠ 0 ∧ PawnGen b sq WHITE mv) ∨
          (¬ (b.wp &&& bit sq ≠ 0) ∧ b.bp &&& bit sq ≠ 0 ∧ PawnGen b sq BLACK mv))) ∨
      ((if b.mover = WHITE then b.wn else b.bn).testBit sq.toNat = true ∧
        ((b.wn &&& bit sq ≠ 0 ∧ StepGen sq knightOffsets b.whitePieces mv) ∨
          (¬ (b.wn &&& bit sq ≠ 0) ∧ b.bn &&& bit sq ≠ 0 ∧
            StepGen sq knightOffsets b.blackPieces mv))) ∨
      ((if b.mover = WHITE then b.wb else b.bb).testBit sq.toNat = true ∧
        findPieceCodeAt b sq ≠ 0 ∧ SlideGen b sq mv) ∨
      ((if b.mover = WHITE then b.wr else b.br).testBit sq.toNat = true ∧
        findPieceCodeAt b sq ≠ 0 ∧ SlideGen b sq mv) ∨
      ((if b.mover = WHITE then b.wq else b.bq).testBit sq.toNat = true ∧
        findPieceCodeAt b sq ≠ 0 ∧ SlideGen b sq mv) ∨
      ((if b.mover = WHITE then b.wk else b.bk).testBit sq.toNat = true ∧
        findPieceCodeAt b sq ≠ 0 ∧
        (StepGen sq kingOffsets
            (if Int.land (findPieceCodeAt b sq) COLOR_MASK = WHITE then b.whitePieces
              else b.blackPieces) mv ∨
          CastleGen b sq mv)))

/-- A set castling right implies king and rook on their home squares. -/
def CastlingConsistent (b : Board) : Prop :=
  (b.shortWhite = true → b.wk &&& bit 4 ≠ 0 ∧ b.wr &&& bit 7 ≠ 0) ∧
  (b.longWhite = true → b.wk &&& bit 4 ≠ 0 ∧ b.wr &&& bit 0 ≠ 0) ∧
  (b.shortBlack = true → b.bk &&& bit 60 ≠ 0 ∧ b.br &&& bit 63 ≠ 0) ∧
  (b.longBlack = true → b.bk &&& bit 60 ≠ 0 ∧ b.br &&& bit 56 ≠ 0)

/-- The en-passant square is `-1` or a square of rank 2 or rank 5. -/
def EnPassantConsistent (b : Board) : Prop :=
  b.enPassantSquare = -1 ∨ (16 ≤ b.enPassantSquare ∧ b.enPassantSquare < 24) ∨
    (40 ≤ b.enPassantSquare ∧ b.enPassantSquare < 48)

/-- The data-model invariants of a board: 64-bit bitboards, pairwise disjoint,
consistent occupancies, castling rights backed by king and rook, and a valid
en-passant square. -/
def Invariants (b : Board) : Prop :=
  Bounded b ∧ PiecesDisjoint b ∧ OccupanciesConsistent b ∧ CastlingConsistent b ∧
    EnPassantConsistent b

instance (b : Board) : Decidable (Bounded b) := by unfold Bounded; infer_instance

instance (b : Board) : Decidable (PiecesDisjoint b) := by unfold PiecesDisjoint; infer_instance

instance (b : Board) : Decidable (OccupanciesConsistent b) := by
  unfold OccupanciesConsistent; infer_instance

instance (b : Board) : Decidable (CastlingConsistent b) := by
  unfold CastlingConsistent; infer_instance

instance (b : Board) : Decidable (EnPassantConsistent b) := by
  unfold EnPassantConsistent; infer_instance

instance (b : Board) : Decidable (Invariants b) := by unfold Invariants; infer_instance

/-- The legal moves of a board: the pseudo-legal moves (the first 512 of them)
that leave the king of the side that moved on the board and not attacked. -/
def legalMoves (b : Board) : List Move :=
  ((generateMoves b []).2.take 512).filter (fun m => kingSafe (applyMove b m).2.1 b.mover)

/-- A board with no piece on it, White to move. -/
def emptyBoard : Board :=
  ⟨0, 0, 0, 0, 0, 0, 0, 0, 0, 0, 0, 0, 0, 0, 0, false, false, false, false, -1, 0⟩

/-- The start position, as left by `boardSetup`. -/
def startBoard : Board :=
  ⟨65280, 66, 36, 129, 8, 16, 71776119061217280, 4755801206503243776, 2594073385365405696,
    9295429630892703744, 576460752303423488, 1152921504606846976, 65535, 18446462598732840960,
    18446462598732906495, true, true, true, true, -1, 0⟩

/-- The reference perft function over the legal moves of a board, with the
64-bit accumulator of `countMoves`. -/
def perft : Nat → Board → Nat
  | 0, _ => 1
  | d + 1, b => ((legalMoves b).map (fun m => perft d (applyMove b m).2.1)).sum % 2 ^ 64

/-- A board whose occupancies are consistent but whose square d1 is set in
both the white pawn and the white knight bitboard; the white king is on h1, a
black rook on a1, the black king on a8, White to move. -/
def overlapBoard : Board :=
  ⟨8, 8, 0, 0, 0, 128, 0, 0, 0, 1, 0, 72057594037927936, 136, 72057594037927937,
    72057594037928073, false, false, false, false, -1, 0⟩

/-- Bit `n` is the square reached from `(r, f)` after `k ≥ 1` steps of
`(dr, df)`, that square is on the board, and no square passed before it is set
in `occ`. -/
def RayHit (occ : U64) (r f dr df : Int) (n : Nat) : Prop :=
  ∃ k : Nat, 0 < k ∧ insideFileRank (r + k * dr) (f + k * df) = true ∧
    (sq_index (r + k * dr) (f + k * df)).toNat = n ∧
    ∀ j : Nat, 0 < j → j < k → occ &&& bit (sq_index (r + j * dr) (f + j * df)) = 0

/-- The eight unit directions of the ray walks. -/
def UnitDir (dr df : Int) : Prop :=
  (dr = -1 ∨ dr = 0 ∨ dr = 1) ∧ (df = -1 ∨ df = 0 ∨ df = 1) ∧ (dr ≠ 0 ∨ df ≠ 0)

/-- The set `bb` has the bit of the board square `(r, f)`. -/
def PieceOn (bb : U64) (r f : Int) : Prop :=
  insideFileRank r f = true ∧ bb &&& bit (sq_index r f) ≠ 0

/-- The square `(r2, f2)` is a knight's jump away from `(r, f)`. -/
def KnightJump (r f r2 f2 : Int) : Prop :=
  ((r2 - r).natAbs = 1 ∧ (f2 - f).natAbs = 2) ∨ ((r2 - r).natAbs = 2 ∧ (f2 - f).natAbs = 1)

/-- The square `(r2, f2)` is adjacent to `(r, f)`. -/
def Adjacent (r f r2 f2 : Int) : Prop :=
  (r2 - r).natAbs ≤ 1 ∧ (f2 - f).natAbs ≤ 1 ∧ (r2 ≠ r ∨ f2 ≠ f)

/-- Two different squares on the same rank or on the same file. -/
def SameRankOrFile (r f r2 f2 : Int) : Prop := (r2 = r ∧ f2 ≠ f) ∨ (f2 = f ∧ r2 ≠ r)

/-- Two different squares on a shared diagonal. -/
def SameDiagonal (r f r2 f2 : Int) : Prop := (r2 - r).natAbs = (f2 - f).natAbs ∧ r2 ≠ r

/-- The square `(x, y)` lies strictly between `(r, f)` and `(r2, f2)` on their
common rank, file or diagonal. -/
def StrictlyBetween (r f r2 f2 x y : Int) : Prop :=
  (r2 = r ∧ x = r ∧ ((f < y ∧ y < f2) ∨ (f2 < y ∧ y < f))) ∨
  (f2 = f ∧ y = f ∧ ((r < x ∧ x < r2) ∨ (r2 < x ∧ x < r))) ∨
  (r2 - r = f2 - f ∧ x - r = y - f ∧ ((r < x ∧ x < r2) ∨ (r2 < x ∧ x < r))) ∨
  (r2 - r = f - f2 ∧ x - r = f - y ∧ ((r < x ∧ x < r2) ∨ (r2 < x ∧ x < r)))

/-- No square strictly between `(r, f)` and `(r2, f2)` is set in `occ`. -/
def NoneBetween (occ : U64) (r f r2 f2 : Int) : Prop :=
  ∀ x y : Int, StrictlyBetween r f r2 f2 x y → occ &&& bit (sq_index x y) = 0

/-- Some piece of colour `attacker` attacks the square `(row, col)`: a knight a
knight's jump away, a king on an adjacent square, a pawn on `(row - 1, col ± 1)`
for White or `(row + 1, col ± 1)` for Black, a rook or queen on the same rank
or file, or a bishop or queen on a shared diagonal, with no occupied square
strictly between. -/
def Attacked (b : Board) (row col attacker : Int) : Prop :=
  (∃ r2 f2, PieceOn (if attacker = WHITE then b.wn else b.bn) r2 f2 ∧ KnightJump row col r2 f2) ∨
  (∃ r2 f2, PieceOn (if attacker = WHITE then b.wk else b.bk) r2 f2 ∧ Adjacent row col r2 f2) ∨
  (attacker = WHITE ∧ (PieceOn b.wp (row - 1) (col - 1) ∨ PieceOn b.wp (row - 1) (col + 1))) ∨
  (attacker ≠ WHITE ∧ (PieceOn b.bp (row + 1) (col - 1) ∨ PieceOn b.bp (row + 1) (col + 1))) ∨
  (∃ r2 f2, (PieceOn (if attacker = WHITE then b.wr else b.br) r2 f2 ∨
        PieceOn (if attacker = WHITE then b.wq else b.bq) r2 f2) ∧
      SameRankOrFile row col r2 f2 ∧ NoneBetween b.occupied row col r2 f2) ∨
  (∃ r2 f2, (PieceOn (if attacker = WHITE then b.wb else b.bb) r2 f2 ∨
        PieceOn (if attacker = WHITE then b.wq else b.bq) r2 f2) ∧
      SameDiagonal row col r2 f2 ∧ NoneBetween b.occupied row col r2 f2)

/-- A board with a white rook on a1 and a black king on a8 only. -/
def rookFileBoard : Board :=
  ⟨0, 0, 0, 1, 0, 0, 0, 0, 0, 0, 0, 72057594037927936, 1, 72057594037927936, 72057594037927937,
    false, false, false, false, -1, 8⟩

/-- A board with the white king on e1, white rooks on a1 and h1, the black king
on e8, and both white castling rights. -/
def castleBoard : Board :=
  ⟨0, 0, 0, 129, 0, 16, 0, 0, 0, 0, 0, 1152921504606846976, 145, 1152921504606846976,
    1152921504606846993, false, false, true, true, -1, 0⟩

/-- A blocked position: White has the king on square `wk` and pawns on a3, c2,
c1, h5 and f6; Black has the king on square `bk` and pawns on a4, c3, h6, f7
and f8; no castling rights, no en-passant square. -/
def fortress (wk bk : Nat) (mover : Int) : Board :=
  updateOccupancies
    ⟨2 ^ 16 + 2 ^ 10 + 2 ^ 2 + 2 ^ 39 + 2 ^ 45, 0, 0, 0, 0, 2 ^ wk,
      2 ^ 24 + 2 ^ 18 + 2 ^ 47 + 2 ^ 53 + 2 ^ 61, 0, 0, 0, 0, 2 ^ bk, 0, 0, 0,
      false, false, false, false, -1, mover⟩

/-- The blocked positions with the white king on a1, b1 or a2 and the black
king on h8, g8 or h7, either side to move. -/
def fortressBoards : List Board :=
  [fortress 0 63 0, fortress 0 63 8, fortress 0 62 0, fortress 0 62 8, fortress 0 55 0,
    fortress 0 55 8, fortress 1 63 0, fortress 1 63 8, fortress 1 62 0, fortress 1 62 8,
    fortress 1 55 0, fortress 1 55 8, fortress 8 63 0, fortress 8 63 8, fortress 8 62 0,
    fortress 8 62 8, fortress 8 55 0, fortress 8 55 8]

/-- Every blocked position satisfies the invariants and has exactly two legal
moves, each leading to a blocked position. -/
def fortressClosed : Bool :=
  fortressBoards.all (fun b =>
    decide (Invariants b) && decide ((legalMoves b).length = 2) &&
      (legalMoves b).all (fun m => decide ((applyMove b m).2.1 ∈ fortressBoards)))

/-- The exponent `k` of `2 ^ k` for `k < 64`, at byte `2 ^ k % 67` (the residues
of the powers of two modulo 67 are distinct). -/
def tabLog : Nat :=
  29113689166386177134818256396961932302781203400706803559705696567742888307168314405381828066598888384665765789059139004609172552720167866580779411794375181664256

/-- Index of the least significant set bit, from the lowest set bit
`x - (x & (x - 1))`, a power of two. -/
def ctzN (x : Nat) : Nat :=
  Nat.mod (Nat.shiftRight tabLog (Nat.mul 8 (Nat.mod (Nat.sub x (Nat.land x (Nat.sub x 1))) 67))) 256

/-- The table `tabLog` gives the exponent of each power of two below `2 ^ 64`. -/
def tabLogOk : Bool :=
  (List.range 64).all (fun k =>
    Nat.beq (Nat.mod (Nat.shiftRight tabLog (Nat.mul 8 (Nat.mod (Nat.pow 2 k) 67))) 256) k)

/-- Do two bit sets meet. -/
def hit (a b : Nat) : Bool := not (Nat.beq (Nat.land a b) 0)

/-- Bit `n` of `x`. -/
def tb (x n : Nat) : Bool := not (Nat.beq (Nat.land (Nat.shiftRight x n) 1) 0)

/-- The 64 knight attack sets, one 64-bit entry per square, packed. -/
def tabKN : Nat :=
  513939535912691777675632830011314898194612868029098360788517199561153632360406287452469109921090029698114425320511691469180503624690071133954665309682317447505780739491788685048416700897327620659745902605802696430297961450200268425332944049383185148369223528330439800441197926362238200126652358551104433140497789202355307276162240116430102839360120878296204950686823717631493367403576510439598103059035343160276044408216342803499555101107085528045691350899994579156777018351127119723015753172986895766332197406491253478552711097499909679833419414576282712542406106965384281063637808107231968998742999958036519973142249350932304167305501418470704596678220421902490246580304221474909000167222200763169813152501802161863983313579227611473803372101476770760294741791360951077356762934883557847973079680852337689320494327269472839170065566149946887756665039031904635843323511631451053562729556809490860561307009918991079054605855227952036817493563105358979477217702024037472831578118855801448679925611578237463313179849913088468384479981680546071020278998756413789778820890932323795886748438660975812028136352263239122318622786183510870777191943352166511473301685502175834015151244991679547389588504429729025520828055705008466544428032

/-- The 64 king attack sets, one 64-bit entry per square, packed. -/
def tabKG : Nat :=
  264156953404303221942965456845520169943338131686959457571923483305847700807756015278523080229634291642515512720379625415998002953236261368416231289172962087581631836949632484485374128384042241167767238328839609345999581058902843519220522533010089460509691504134318410705948550815871684624129262584144679450375577516853549321385304640527173977257963981185058145004392430004920757193513662022124161582037751993358113738392556746340778223921459532777419462161470159266292566629421223289735171488785910795161776385657266694147649333362115172351610523231845668460090962715276894573444254369990775232331132268849557724313065912683493668947829856478151951159284505866793138560624849509035187602156442778386411887663101274153823504021964272696893363867973003949169458187179211139044512649965423452258986954306563254194786172624618451824331366376025123799638401059200901742783754479523040980614231175115032572832547924504908033089381101247160924230235416582352026291471553731394765306357524221954697451753155896736924948517990760551476725952332195597056043425041586896526499384433277760923261309259860007430758778948226609719614370898027585215358197905351625343647359059509511991184097756641626351018122181186174494715689259616627757261259522

/-- The 64 rank and file lines, one 64-bit entry per square, packed. -/
def tabRL : Nat :=
  520162617974660346981845518616461283565234421151987262381002981280839005768782713804470394062871872270895264130940356991886598086090966009304222163689705687623539901117395287591246832914594373695039104196805959674389900079247680901716948771052680493791135285008528685329733175011922456785345289084443926305192954766995269959287371046337556811760014872912798238833239259208042536776810213242569052560232020738963941627370236784416657666470547785947582793471060262671794307039935803364183467482102292442650463813132350600957920513949131070974677579332570719717200667226777104152131366661787792537108427637534918229097158638026427002199531094321898320442699543627572646867607144211013577838309324848968897960974311096512631436614441221468447741824362415678520730126585268792291948931276204170122097125430191129944295317184684669691162680418887672009615793012660797142427095488205293843522218948520139519763505468584661999441960199431621474573555472013263144650960745887123622825002569946446867445185661341844178713678600949173850939564633444346367075641927078426419089671400373932045954778937805941279410926304630661279614609323672031957169446166633921936321760829805325132244052507350037809700038131077895240459623841755422721178665470

/-- The 64 diagonal lines, one 64-bit entry per square, packed. -/
def tabBL : Nat :=
  1021906928975687384265988033387715044153200301833517015574968816956799043818650966810933654876480788850185756452623199078362198455475200610098551518786327293426961390249020069711892637602926816899518383906441484588724587055988534492421243365096800007624840035748611616331346028887606144015470601459537366837889930200706917010119699153308817875398420077065305999892091346076762390735210288196804051317146620918959402024062641527149131484591284219574673356959978741423950054048185364993530887428619357549839023568848246138898067517945360392874787536547346163658151518752074434961944863452519700859239712236720803757087328901413757053044934838655496899168391538796804065909422613635576591691840588370932094920249460703580912386918676000334045730726502838434945462854748054331640702394761655133165790697808432950699092964787445048953362867821097446938781625911016549286985545823519945044328698762423103867447415243491387223184289118486438692315534059376223565022782125937908134445689893325790853937999147817952189262765262453716415409988395401591238233906820903664417217735781498915758089153401887185883518672622241702049005600846556135247803903599236610484217454799874691101115169385651854082430278589331813459688962052349327019606528

/-- The 64 squares from which a white pawn attacks, one 64-bit entry per square, packed. -/
def tabWP : Nat :=
  1019911017005031744954388474106547957830446532819824865637424702751423942605091129573414096099401157566464148906908757062213082244518632734656167194404760826181748082332986764997008609077906636798488726508565455113635908187465992144139942889910557682545413143509285036977379050008942752814621682131791807852127629111149814609076672369273230500273862846386327288921516473043069399897098558554481923066943455909276212593105950018176901031799139300841412575577857892114676949413939629208627376770295559966939757376552237703283410498027783649080774598445250419503391810684961257845014960588908371952026213072038162040440122009555204125286978735160250069595193182419578403263365457953683689498712930621147266461958734684180502849953524961539245535064975116407601777786309690666445879910359494034220691617338852649554716904884361064769115345466716359792533114885985444691069097498171275121431694439582622700538199296391035709042425762954797738106090200756900136951514405060571161285007935520234085968037400058725262608367755322912322621843073440065484729043256244034037718414165095381568274100862341602354279611600446063590774642418638979910449312360494948896117343503748034958687486237911218437345967181114975298393971231969370410319872

/-- The 64 squares from which a black pawn attacks, one 64-bit entry per square, packed. -/
def tabBP : Nat :=
  19473520333640844693766330994436405777381462865882702427023720668687200719882857200515382076677738678281688635017816796234516480712896873665785053448087528085041583601915586158693949554496097669976882159541587443243743628631859713660612328521181344871504483826000444588407753126362270488929972876331724246445713926576280899687124350129344644887038778418124721320026238643655825963159467109305103818989456330140438181252428713358436815996764222244847865593838624259516093945136900240838700435453158815443183892840513613527005246791122399944368098954063000579248072304755680571249250639698127663125045025753830411939025853137586168689652585975002130400098196663151100504695247859028551524471827919169596881288427122095343374213356006830233099758386592927524493860309847246152060652557789940919368804706202721872524252122808545098303387217369128116733047967191466567723745385020676420670769188800230701751565889747131152464866604035939621549746367235880273509054187968525780642907449448694536017431339557361030426227238511314942480657168368622082354319988917073598024901531774484992

/-- Entry `n` of a packed table of 64-bit values. -/
def look (t n : Nat) : Nat := Nat.mod (Nat.shiftRight t (Nat.mul 64 n)) 18446744073709551616

/-- The squares on the lines from `sq` in the given directions, on an empty
board (as `bishopAttacks` in `initAttackTables`). -/
def lineMask (offsets : List (Int × Int)) (sq : Int) : U64 :=
  offsets.foldl (fun a d => a ||| rayAttacksFrom sq d.1 d.2 0) 0

/-- The two squares `(pr, col ± 1)` tested by the pawn loop of `isAttacked`. -/
def pawnMask (pr col : Int) : U64 :=
  (if insideFileRank pr (col + -1) then bit (sq_index pr (col + -1)) else 0) |||
    (if insideFileRank pr (col + 1) then bit (sq_index pr (col + 1)) else 0)

/-- The packed tables hold the values the source computes. -/
def tablesOk : Bool :=
  (List.range 64).all (fun n =>
    Nat.beq (look tabKN n) (knightAttacks (Int.ofNat n)) &&
    Nat.beq (look tabKG n) (kingAttacks (Int.ofNat n)) &&
    Nat.beq (look tabRL n) (lineMask rookOffsets (Int.ofNat n)) &&
    Nat.beq (look tabBL n) (lineMask bishopOffsets (Int.ofNat n)) &&
    Nat.beq (look tabWP n) (pawnMask (Int.ofNat (n / 8) - 1) (Int.ofNat (n % 8))) &&
    Nat.beq (look tabBP n) (pawnMask (Int.ofNat (n / 8) + 1) (Int.ofNat (n % 8))))

/-- The attack test of `isAttacked` on explicit attacker sets, by table
lookups; `slow` is the answer of the ray walks, used only when a slider stands
on a line through the square. -/
def attackedBy (n k p rq bq pawnTab sq : Nat) (slow : Bool) : Bool :=
  cond (hit (look tabKN sq) n) true
    (cond (hit (look tabKG sq) k) true
      (cond (hit (look pawnTab sq) p) true
        (cond (hit (look tabRL sq) rq) slow
          (cond (hit (look tabBL sq) bq) slow false))))

/-- The mask that clears the squares `f` and `t`. -/
def moveMask (f t : Nat) : Nat :=
  Nat.xor 18446744073709551615 (Nat.lor (Nat.shiftLeft 1 f) (Nat.shiftLeft 1 t))

/-- One bitboard after a plain move from `f` to `t`: both squares are cleared,
and `t` is set when the bitboard held the moving piece. -/
def moveBits (x f t : Nat) : Nat :=
  cond (tb x f) (Nat.lor (Nat.land x (moveMask f t)) (Nat.shiftLeft 1 t)) (Nat.land x (moveMask f t))

/-- The twelve piece bitboards after a plain move from `f` to `t`. -/
def movePiecesF (b : Board) (f t : Nat) : Board :=
  { b with
    wp := moveBits b.wp f t
    wn := moveBits b.wn f t
    wb := moveBits b.wb f t
    wr := moveBits b.wr f t
    wq := moveBits b.wq f t
    wk := moveBits b.wk f t
    bp := moveBits b.bp f t
    bn := moveBits b.bn f t
    bb := moveBits b.bb f t
    br := moveBits b.br f t
    bq := moveBits b.bq f t
    bk := moveBits b.bk f t }

/-- The test `c == WHITE`. -/
def isWhite (c : Int) : Bool :=
  match c with
  | Int.ofNat 0 => true
  | _ => false

/-- The files `a` and `b` are two apart. -/
def twoApart (a b : Nat) : Bool := or (Nat.beq (Nat.add a 2) b) (Nat.beq (Nat.add b 2) a)

/-- A move from `f` to `t` that is neither an en-passant capture nor a king
move across two files. -/
def plainMove (b : Board) (f t : Nat) : Bool :=
  and
    (match b.enPassantSquare with
      | Int.ofNat e => not (Nat.beq e t)
      | Int.negSucc _ => true)
    (not (and (tb (Nat.lor b.wk b.bk) f) (twoApart (Nat.mod f 8) (Nat.mod t 8))))

/-- The board after `applyMove`, with the bitboards of a plain move computed by
masking. -/
def applyF (b : Board) (m : Move) : Board :=
  match m.from_, m.to_, m.promotionPiece with
  | Int.ofNat f, Int.ofNat t, Int.ofNat 0 =>
    cond (plainMove b f t)
      { (applyMove b m).2.1 with
        wp := moveBits b.wp f t
        wn := moveBits b.wn f t
        wb := moveBits b.wb f t
        wr := moveBits b.wr f t
        wq := moveBits b.wq f t
        wk := moveBits b.wk f t
        bp := moveBits b.bp f t
        bn := moveBits b.bn f t
        bb := moveBits b.bb f t
        br := moveBits b.br f t
        bq := moveBits b.bq f t
        bk := moveBits b.bk f t
        whitePieces := moveBits b.whitePieces f t
        blackPieces := moveBits b.blackPieces f t
        occupied := moveBits b.occupied f t
        mover := cond (isWhite b.mover) BLACK WHITE }
      (applyMove b m).2.1
  | _, _, _ => (applyMove b m).2.1

/-- The test `kingSafe` with the attack test by table lookups. -/
def kingSafeF (B : Board) (c : Int) : Bool :=
  cond (isWhite c)
    (cond (Nat.beq B.wk 0) false
      (not (attackedBy B.bn B.bk B.bp (Nat.lor B.br B.bq) (Nat.lor B.bb B.bq) tabBP (ctzN B.wk)
        (isAttacked B (Int.ofNat (Nat.div (ctzN B.wk) 8)) (Int.ofNat (Nat.mod (ctzN B.wk) 8)) c))))
    (cond (Nat.beq B.bk 0) false
      (not (attackedBy B.wn B.wk B.wp (Nat.lor B.wr B.wq) (Nat.lor B.wb B.wq) tabWP (ctzN B.bk)
        (isAttacked B (Int.ofNat (Nat.div (ctzN B.bk) 8)) (Int.ofNat (Nat.mod (ctzN B.bk) 8)) c))))

/-- The mask `bit sq`, by direct shifts. -/
def bitF : Int → Nat
  | Int.ofNat n => Nat.mod (Nat.shiftLeft 1 n) 18446744073709551616
  | Int.negSucc _ => 1

/-- The test `insideFileRank`, on the constructors of `Int`. -/
def insideF : Int → Int → Bool
  | Int.ofNat r, Int.ofNat f => and (Nat.blt r 8) (Nat.blt f 8)
  | _, _ => false

/-- The square index `sq_index`, on the constructors of `Int`. -/
def sqF : Int → Int → Int
  | Int.ofNat r, Int.ofNat f => Int.ofNat (Nat.add (Nat.mul r 8) f)
  | r, f => sq_index r f

/-- The rank `rankOf`, on the constructors of `Int`. -/
def rankF : Int → Int
  | Int.ofNat n => Int.ofNat (Nat.div n 8)
  | sq => rankOf sq

/-- The file `fileOf`, on the constructors of `Int`. -/
def fileF : Int → Int
  | Int.ofNat n => Int.ofNat (Nat.mod n 8)
  | sq => fileOf sq

/-- The test `c == 0` on a piece code. -/
def isZeroI : Int → Bool
  | Int.ofNat 0 => true
  | _ => false

/-- Complement on 64 bits, by a direct `xor`. -/
def notF (x : Nat) : Nat := Nat.xor x 18446744073709551615

/-- The loop of `forEachBit` with the index of the lowest set bit from `ctzN`. -/
def forEachBitF {α : Type} (body : Int → α → α) : Nat → Nat → α → α
  | 0, _, acc => acc
  | fuel + 1, t, acc =>
    cond (Nat.beq t 0) acc
      (forEachBitF body fuel (Nat.land t (Nat.sub t 1)) (body (Int.ofNat (ctzN t)) acc))

/-- The test `a != b` on two `int` values. -/
def neI : Int → Int → Bool
  | Int.ofNat x, Int.ofNat y => not (Nat.beq x y)
  | Int.negSucc x, Int.negSucc y => not (Nat.beq x y)
  | _, _ => true

/-- The value `a & b` on two `int` values. -/
def landI : Int → Int → Int
  | Int.ofNat x, Int.ofNat y => Int.ofNat (Nat.land x y)
  | a, b => Int.land a b

/-- The piece code on a square (`pieceAt`), looking at the occupancies first. -/
def pieceAtO (b : Board) (sq : Int) : Int :=
  cond (hit b.occupied (bitF sq))
    (cond (hit b.whitePieces (bitF sq))
      (cond (hit b.wp (bitF sq)) 1
        (cond (hit b.wn (bitF sq)) 2
          (cond (hit b.wb (bitF sq)) 3
            (cond (hit b.wr (bitF sq)) 4
              (cond (hit b.wq (bitF sq)) 5
                (cond (hit b.wk (bitF sq)) 6
                  (cond (hit b.bp (bitF sq)) 9
                    (cond (hit b.bn (bitF sq)) 10
                      (cond (hit b.bb (bitF sq)) 11
                        (cond (hit b.br (bitF sq)) 12
                          (cond (hit b.bq (bitF sq)) 13
                            (cond (hit b.bk (bitF sq)) 14 0))))))))))))
      (cond (hit b.bp (bitF sq)) 9
        (cond (hit b.bn (bitF sq)) 10
          (cond (hit b.bb (bitF sq)) 11
            (cond (hit b.br (bitF sq)) 12
              (cond (hit b.bq (bitF sq)) 13
                (cond (hit b.bk (bitF sq)) 14 0)))))))
    0

/-- The walk `slideWalk` with the tests computed by `insideF` and `pieceAtO`. -/
def slideWalkF (b : Board) (sq colorBit dr df : Int) : Nat → Int → Int → List Move → Option (List Move)
  | 0, _, _, _ => none
  | fuel + 1, r, f, mL =>
    cond (insideF (Int.add r dr) (Int.add f df))
      (cond (isZeroI (pieceAtO b (sqF (Int.add r dr) (Int.add f df))))
        (slideWalkF b sq colorBit dr df fuel (Int.add r dr) (Int.add f df)
          (addMoveToListFromTo mL sq (sqF (Int.add r dr) (Int.add f df)) 0))
        (cond (neI (landI (pieceAtO b (sqF (Int.add r dr) (Int.add f df))) 8) colorBit)
          (some (addMoveToListFromTo mL sq (sqF (Int.add r dr) (Int.add f df)) 0))
          (some mL)))
      (some mL)

/-- The function `slidingMoves` over `slideWalkF`. -/
def slidingMovesF (b : Board) (mL : List Move) (sq : Int) (directions : List (Int × Int))
    (dirCount : Nat) : List Move :=
  cond (isZeroI (pieceAtO b sq)) mL
    ((directions.take dirCount).foldl
      (fun acc d =>
        (slideWalkF b sq (landI (pieceAtO b sq) 8) d.1 d.2 8 (rankF sq) (fileF sq) acc).getD acc)
      mL)

/-- The test `a == b` on two `int` values. -/
def eqI (a b : Int) : Bool := not (neI a b)

/-- The push part of `pawnMoves` for the direction `dir` (twice: `dir2`), the
start rank and the promotion rank of the pawn's colour. -/
def pawnPushesK (b : Board) (mL : List Move) (sq dir dir2 startRank promotionRank : Int) :
    List Move :=
  cond (and (insideF (Int.add (rankF sq) dir) (fileF sq))
      (not (hit b.occupied (bitF (sqF (Int.add (rankF sq) dir) (fileF sq))))))
    (cond (and (eqI (rankF sq) startRank)
        (and (insideF (Int.add (rankF sq) dir2) (fileF sq))
          (not (hit b.occupied (bitF (sqF (Int.add (rankF sq) dir2) (fileF sq)))))))
      (addMoveToListFromTo
        (cond (eqI (Int.add (rankF sq) dir) promotionRank)
          (addPromotions mL sq (sqF (Int.add (rankF sq) dir) (fileF sq)))
          (addMoveToListFromTo mL sq (sqF (Int.add (rankF sq) dir) (fileF sq)) 0))
        sq (sqF (Int.add (rankF sq) dir2) (fileF sq)) 0)
      (cond (eqI (Int.add (rankF sq) dir) promotionRank)
        (addPromotions mL sq (sqF (Int.add (rankF sq) dir) (fileF sq)))
        (addMoveToListFromTo mL sq (sqF (Int.add (rankF sq) dir) (fileF sq)) 0)))
    mL

/-- One iteration of the capture loop of `pawnMoves` for the direction `dir`
and the promotion rank of the pawn's colour. -/
def pawnCaptureK (b : Board) (sq colorBit dir promotionRank : Int) (mL : List Move) (df : Int) :
    List Move :=
  cond (insideF (Int.add (rankF sq) dir) (Int.add (fileF sq) df))
    (cond (isZeroI (pieceAtO b (sqF (Int.add (rankF sq) dir) (Int.add (fileF sq) df))))
      (cond (eqI b.enPassantSquare (sqF (Int.add (rankF sq) dir) (Int.add (fileF sq) df)))
        (cond
          (and (not (isZeroI (pieceAtO b (sqF (Int.add (rankF sq) dir - dir) (Int.add (fileF sq) df)))))
            (and
              (eqI (landI (pieceAtO b (sqF (Int.add (rankF sq) dir - dir) (Int.add (fileF sq) df))) 7) 1)
              (neI (landI (pieceAtO b (sqF (Int.add (rankF sq) dir - dir) (Int.add (fileF sq) df))) 8)
                colorBit)))
          (addMoveToListFromTo mL sq (sqF (Int.add (rankF sq) dir) (Int.add (fileF sq) df)) 0)
          mL)
        mL)
      (cond (neI (landI (pieceAtO b (sqF (Int.add (rankF sq) dir) (Int.add (fileF sq) df))) 8) colorBit)
        (cond (eqI (Int.add (rankF sq) dir) promotionRank)
          (addPromotions mL sq (sqF (Int.add (rankF sq) dir) (Int.add (fileF sq) df)))
          (addMoveToListFromTo mL sq (sqF (Int.add (rankF sq) dir) (Int.add (fileF sq) df)) 0))
        mL))
    mL

/-- The function `pawnMoves`, with the constants of the pawn's colour. -/
def pawnMovesF (b : Board) (mL : List Move) (sq : Int) : List Move :=
  cond (hit b.wp (bitF sq))
    (pawnCaptureK b sq 0 1 7 (pawnCaptureK b sq 0 1 7 (pawnPushesK b mL sq 1 2 1 7) (-1)) 1)
    (cond (hit b.bp (bitF sq))
      (pawnCaptureK b sq 8 (-1) 0 (pawnCaptureK b sq 8 (-1) 0 (pawnPushesK b mL sq (-1) (-2) 6 0) (-1)) 1)
      mL)

/-- Entry `sq` of the table `knightAttacks`, from the packed table. -/
def knightAttacksF : Int → Nat
  | Int.ofNat n => cond (Nat.blt n 64) (look tabKN n) (knightAttacks (Int.ofNat n))
  | sq => knightAttacks sq

/-- Entry `sq` of the table `kingAttacks`, from the packed table. -/
def kingAttacksF : Int → Nat
  | Int.ofNat n => cond (Nat.blt n 64) (look tabKG n) (kingAttacks (Int.ofNat n))
  | sq => kingAttacks sq

/-- The function `knightMoves` over the packed table. -/
def knightMovesF (b : Board) (mL : List Move) (sq : Int) : List Move :=
  cond (hit b.wn (bitF sq))
    (forEachBitF (fun toSq acc => addMoveToListFromTo acc sq toSq 0) 64
      (Nat.land (knightAttacksF sq) (notF b.whitePieces)) mL)
    (cond (hit b.bn (bitF sq))
      (forEachBitF (fun toSq acc => addMoveToListFromTo acc sq toSq 0) 64
        (Nat.land (knightAttacksF sq) (notF b.blackPieces)) mL)
      mL)

/-- The two white castling blocks of `kingMoves`, the occupancy tests first. -/
def whiteCastlingF (b : Board) (mL : List Move) (sq : Int) : List Move :=
  cond
    (and (not (hit b.occupied 8)) (and (not (hit b.occupied 4)) (and (not (hit b.occupied 2))
      (and b.longWhite (and (not (isAttacked b 0 4 WHITE)) (and (not (isAttacked b 0 3 WHITE))
        (not (isAttacked b 0 2 WHITE))))))))
    (addMoveToListFromTo
      (cond
        (and (not (hit b.occupied 32)) (and (not (hit b.occupied 64)) (and b.shortWhite
          (and (not (isAttacked b 0 4 WHITE)) (and (not (isAttacked b 0 5 WHITE))
            (not (isAttacked b 0 6 WHITE)))))))
        (addMoveToListFromTo mL sq 6 0) mL)
      sq 2 0)
    (cond
      (and (not (hit b.occupied 32)) (and (not (hit b.occupied 64)) (and b.shortWhite
        (and (not (isAttacked b 0 4 WHITE)) (and (not (isAttacked b 0 5 WHITE))
          (not (isAttacked b 0 6 WHITE)))))))
      (addMoveToListFromTo mL sq 6 0) mL)

/-- The two black castling blocks of `kingMoves`, the occupancy tests first. -/
def blackCastlingF (b : Board) (mL : List Move) (sq : Int) : List Move :=
  cond
    (and (not (hit b.occupied 576460752303423488)) (and (not (hit b.occupied 288230376151711744))
      (and (not (hit b.occupied 144115188075855872))
        (and b.longBlack (and (not (isAttacked b 7 4 BLACK)) (and (not (isAttacked b 7 3 BLACK))
          (not (isAttacked b 7 2 BLACK))))))))
    (addMoveToListFromTo
      (cond
        (and (not (hit b.occupied 2305843009213693952))
          (and (not (hit b.occupied 4611686018427387904)) (and b.shortBlack
            (and (not (isAttacked b 7 4 BLACK)) (and (not (isAttacked b 7 5 BLACK))
              (not (isAttacked b 7 6 BLACK)))))))
        (addMoveToListFromTo mL sq 62 0) mL)
      sq 58 0)
    (cond
      (and (not (hit b.occupied 2305843009213693952))
        (and (not (hit b.occupied 4611686018427387904)) (and b.shortBlack
          (and (not (isAttacked b 7 4 BLACK)) (and (not (isAttacked b 7 5 BLACK))
            (not (isAttacked b 7 6 BLACK)))))))
      (addMoveToListFromTo mL sq 62 0) mL)

/-- The function `kingMoves` over the packed table. -/
def kingMovesF (b : Board) (mL : List Move) (sq : Int) : List Move :=
  cond (isZeroI (pieceAtO b sq)) mL
    (cond (isWhite (landI (pieceAtO b sq) 8))
      (cond (eqI sq 4)
        (whiteCastlingF b
          (forEachBitF (fun toSq acc => addMoveToListFromTo acc sq toSq 0) 64
            (Nat.land (kingAttacksF sq) (notF b.whitePieces)) mL) sq)
        (forEachBitF (fun toSq acc => addMoveToListFromTo acc sq toSq 0) 64
          (Nat.land (kingAttacksF sq) (notF b.whitePieces)) mL))
      (cond (and (eqI (landI (pieceAtO b sq) 8) 8) (eqI sq 60))
        (blackCastlingF b
          (forEachBitF (fun toSq acc => addMoveToListFromTo acc sq toSq 0) 64
            (Nat.land (kingAttacksF sq) (notF b.blackPieces)) mL) sq)
        (forEachBitF (fun toSq acc => addMoveToListFromTo acc sq toSq 0) 64
          (Nat.land (kingAttacksF sq) (notF b.blackPieces)) mL)))

/-- The function `generateMoves` on a board with consistent occupancies, over
the generators that use the packed tables. -/
def generateMovesF (b : Board) : List Move :=
  cond (isWhite b.mover)
    (forEachBitF (fun sq acc => kingMovesF b acc sq) 64 b.wk
      (forEachBitF
        (fun sq acc => slidingMovesF b (slidingMovesF b acc sq bishopOffsets 4) sq rookOffsets 4)
        64 b.wq
        (forEachBitF (fun sq acc => slidingMovesF b acc sq rookOffsets 4) 64 b.wr
          (forEachBitF (fun sq acc => slidingMovesF b acc sq bishopOffsets 4) 64 b.wb
            (forEachBitF (fun sq acc => knightMovesF b acc sq) 64 b.wn
              (forEachBitF (fun sq acc => pawnMovesF b acc sq) 64 b.wp []))))))
    (forEachBitF (fun sq acc => kingMovesF b acc sq) 64 b.bk
      (forEachBitF
        (fun sq acc => slidingMovesF b (slidingMovesF b acc sq bishopOffsets 4) sq rookOffsets 4)
        64 b.bq
        (forEachBitF (fun sq acc => slidingMovesF b acc sq rookOffsets 4) 64 b.br
          (forEachBitF (fun sq acc => slidingMovesF b acc sq bishopOffsets 4) 64 b.bb
            (forEachBitF (fun sq acc => knightMovesF b acc sq) 64 b.bn
              (forEachBitF (fun sq acc => pawnMovesF b acc sq) 64 b.bp []))))))

/-- The legal moves of a board, computed by `generateMovesF`, `applyF` and
`kingSafeF`. -/
def legalMovesF (b : Board) : List Move :=
  ((generateMovesF b).take 512).filter (fun m => kingSafeF (applyF b m) b.mover)

/-- The perft function computed with `legalMovesF` and `applyF`. -/
def perftF : Nat → Board → Nat
  | 0, _ => 1
  | d + 1, b => ((legalMovesF b).map (fun m => perftF d (applyF b m))).sum % 2 ^ 64

/-- No castling right is set in `b2` that is not set in `b1`. -/
def RightsLe (b2 b1 : Board) : Prop :=
  (b2.shortWhite = true → b1.shortWhite = true) ∧ (b2.longWhite = true → b1.longWhite = true) ∧
  (b2.shortBlack = true → b1.shortBlack = true) ∧ (b2.longBlack = true → b1.longBlack = true)

/-- The four castling rights of a board. -/
def rights (b : Board) : Bool × Bool × Bool × Bool :=
  (b.shortWhite, b.longWhite, b.shortBlack, b.longBlack)

/-- No bitboard has a piece on the square: the twelve tests of `pieceAt` fail. -/
def SquareEmpty (b : Board) (sq : Int) : Prop :=
  b.wp &&& bit sq = 0 ∧ b.wn &&& bit sq = 0 ∧ b.wb &&& bit sq = 0 ∧ b.wr &&& bit sq = 0 ∧
  b.wq &&& bit sq = 0 ∧ b.wk &&& bit sq = 0 ∧ b.bp &&& bit sq = 0 ∧ b.bn &&& bit sq = 0 ∧
  b.bb &&& bit sq = 0 ∧ b.br &&& bit sq = 0 ∧ b.bq &&& bit sq = 0 ∧ b.bk &&& bit sq = 0

instance (b : Board) (sq : Int) : Decidable (SquareEmpty b sq) := by
  unfold SquareEmpty; infer_instance

/-- The piece-placement invariant: the twelve bitboards are pairwise disjoint,
`whitePieces` and `blackPieces` are the unions of the six bitboards of their
colour and are disjoint, and `occupied` is their union. -/
def PlacementInvariant (b : Board) : Prop :=
  PiecesDisjoint b ∧
  b.whitePieces = (b.wp ||| b.wn ||| b.wb ||| b.wr ||| b.wq ||| b.wk) ∧
  b.blackPieces = (b.bp ||| b.bn ||| b.bb ||| b.br ||| b.bq ||| b.bk) ∧
  b.whitePieces &&& b.blackPieces = 0 ∧
  b.occupied = (b.whitePieces ||| b.blackPieces)

instance (b : Board) : Decidable (PlacementInvariant b) := by
  unfold PlacementInvariant; infer_instance

/-- A board with a white pawn on a2 whose derived occupancies were never
computed. -/
def staleBoard : Board :=
  ⟨256, 0, 0, 0, 0, 0, 0, 0, 0, 0, 0, 0, 0, 0, 0, false, false, false, false, -1, 0⟩

/-- A position with one king each in which the black queen on e2 attacks the
white king on e1, Black to move, White still holding the king-side right. -/
def kingCaptureBoard : Board :=
  ⟨0, 0, 0, 128, 0, 16, 0, 0, 0, 0, 4096, 1152921504606846976, 144, 1152921504606851072,
    1152921504606851216, false, false, true, false, -1, 8⟩

/-- White king on e1 with both rooks on their corners and both white rights,
black king on e8. -/
def castleReadyBoard : Board :=
  ⟨0, 0, 0, 129, 0, 16, 0, 0, 0, 0, 0, 1152921504606846976, 145, 1152921504606846976,
    1152921504606847121, false, false, true, true, -1, 0⟩

/-! ## Evaluation (`evaluation.c`, lines 8-145 and 306-456; constants of `bitboard.h`)

The C `int` arithmetic of the evaluation is modelled in `Int` (signed overflow
is undefined in C). The piece-square tables are declared `extern` in
`bitboard.h` and defined outside the sources at hand: they are a parameter. -/

def PAWN_PHASE : Int := 0

def KNIGHT_PHASE : Int := 1

def BISHOP_PHASE : Int := 1

def ROOK_PHASE : Int := 2

def QUEEN_PHASE : Int := 4

/-- The macro `MAX_PHASE`, which is 24. -/
def MAX_PHASE : Int :=
  PAWN_PHASE * 16 + KNIGHT_PHASE * 4 + BISHOP_PHASE * 4 + ROOK_PHASE * 4 + QUEEN_PHASE * 2

def DOUBLED_PAWN_BONUS : Int := -10

def ISOLATED_PAWN_BONUS_MG : Int := -10

def ISOLATED_PAWN_BONUS_EG : Int := -20

def PASSED_PAWN_BONUS_MG : Int := 10

def PASSED_PAWN_BONUS_EG : Int := 30

/-- The twelve piece-square tables `int PST_...[8][8]`, indexed by rank and
file. -/
structure PieceSquareTables where
  PST_PAWN : Int → Int → Int
  PST_PAWN_END : Int → Int → Int
  PST_KNIGHT : Int → Int → Int
  PST_KNIGHT_END : Int → Int → Int
  PST_BISHOP : Int → Int → Int
  PST_BISHOP_END : Int → Int → Int
  PST_ROOK : Int → Int → Int
  PST_ROOK_END : Int → Int → Int
  PST_QUEEN : Int → Int → Int
  PST_QUEEN_END : Int → Int → Int
  PST_KING_MID : Int → Int → Int
  PST_KING_END : Int → Int → Int

/-- The builtin `__builtin_popcountll` on a 64-bit value. -/
def popcountll (x : U64) : Int := (((List.range 64).filter (fun i => x.testBit i)).length : Nat)

/-- The function `computePhase`. -/
def computePhase (board : Board) : Int :=
  let phase := MAX_PHASE
  let phase := phase - popcountll board.wn * KNIGHT_PHASE
  let phase := phase - popcountll board.bn * KNIGHT_PHASE
  let phase := phase - popcountll board.wb * BISHOP_PHASE
  let phase := phase - popcountll board.bb * BISHOP_PHASE
  let phase := phase - popcountll board.wr * ROOK_PHASE
  let phase := phase - popcountll board.br * ROOK_PHASE
  let phase := phase - popcountll board.wq * QUEEN_PHASE
  let phase := phase - popcountll board.bq * QUEEN_PHASE
  if phase < 0 then 0 else phase

/-- The helper `pawn_files_from_bitboard`: the array `files[8]` as a list. -/
def pawn_files_from_bitboard (pawns : U64) : List Int :=
  forEachBit
    (fun sq files => files.set (fileOf sq).toNat (files.getD (fileOf sq).toNat 0 + 1))
    64 pawns (List.replicate 8 0)

/-- The function `doubledPawns`. -/
def doubledPawns (board : Board) (color : Int) : Int :=
  let pawns := if color = WHITE then board.wp else board.bp
  let files := pawn_files_from_bitboard pawns
  (List.range 8).foldl
    (fun dbl f => if files.getD f 0 > 1 then dbl + (files.getD f 0 - 1) else dbl) 0

/-- The function `isolatedPawns`. -/
def isolatedPawns (board : Board) (color : Int) : Int :=
  let pawns := if color = WHITE then board.wp else board.bp
  let files := pawn_files_from_bitboard pawns
  forEachBit
    (fun sq isolated =>
      let f := fileOf sq
      let left := if f > 0 then files.getD (f - 1).toNat 0 else 0
      let right := if f < 7 then files.getD (f + 1).toNat 0 else 0
      if left = 0 ∧ right = 0 then isolated + 1 else isolated)
    64 pawns 0

/-- The loop `for (; r >= 0 && r < 8; r += dir)` of `isPassedPawn`; the rank
stays on the board for at most 8 iterations. -/
def passedWalk (enemyPawns : U64) (col dir : Int) : Nat → Int → Bool
  | 0, _ => true
  | fuel + 1, r =>
    if r ≥ 0 ∧ r < 8 then
      if [(-1 : Int), 0, 1].any (fun df =>
          !(decide (col + df < 0) || decide (col + df > 7)) &&
            decide (enemyPawns &&& bit (sq_index r (col + df)) ≠ 0)) then false
      else passedWalk enemyPawns col dir fuel (r + dir)
    else true

/-- The function `isPassedPawn`. -/
def isPassedPawn (board : Board) (row col color : Int) : Bool :=
  let enemyPawns := if color = WHITE then board.bp else board.wp
  let dir : Int := if color = WHITE then 1 else -1
  passedWalk enemyPawns col dir 9 (row + dir)

/-- The function `passedPawns`. -/
def passedPawns (board : Board) (color : Int) : Int :=
  let pawns := if color = WHITE then board.wp else board.bp
  forEachBit
    (fun sq count => if isPassedPawn board (rankOf sq) (fileOf sq) color then count + 1 else count)
    64 pawns 0

/-- The function `kingSafetyMG`. -/
def kingSafetyMG (b : Board) (color : Int) : Int :=
  let king := if color = WHITE then b.wk else b.bk
  if king = 0 then -200
  else
    let sq := ctzll king
    let r := sq >>> (3 : Nat)
    let f := Int.land sq 7
    let score : Int := if (color = WHITE ∧ r ≤ 1) ∨ (color = BLACK ∧ r ≥ 6) then 10 else -5
    let dir : Int := if color = WHITE then 1 else -1
    let fr := r + dir
    if fr ≥ 0 ∧ fr < 8 then
      let pawns := if color = WHITE then b.wp else b.bp
      [(-1 : Int), 0, 1].foldl
        (fun score df =>
          if f + df < 0 ∨ f + df > 7 then score
          else if pawns &&& bit (fr * 8 + (f + df)) ≠ 0 then score + 5
          else score)
        score
    else score

/-- The function `knightMobility`. -/
def knightMobility (b : Board) (color : Int) : Int :=
  let knights := if color = WHITE then b.wn else b.bn
  let own := if color = WHITE then b.whitePieces else b.blackPieces
  forEachBit (fun sq m => m + popcountll (knightAttacks sq &&& not64 own)) 64 knights 0

/-- The function `bishopMobility`. -/
def bishopMobility (b : Board) (color : Int) : Int :=
  let bishops := if color = WHITE then b.wb else b.bb
  let own := if color = WHITE then b.whitePieces else b.blackPieces
  forEachBit (fun sq m => m + popcountll (bishopAttacks sq &&& not64 own)) 64 bishops 0

/-- One `while (tmp)` loop of section "MATERIAL + PST" of `evaluate` over a
white bitboard: each piece adds its value and its table entries to `(mg, eg)`. -/
def addMaterial (tmp : U64) (value : Int) (mgTable egTable : Int → Int → Int)
    (acc : Int × Int) : Int × Int :=
  forEachBit
    (fun sq a =>
      (a.1 + (value + mgTable (sq >>> (3 : Nat)) (Int.land sq 7)),
        a.2 + (value + egTable (sq >>> (3 : Nat)) (Int.land sq 7))))
    64 tmp acc

/-- One `while (tmp)` loop of section "MATERIAL + PST" of `evaluate` over a
black bitboard: each piece subtracts its value and its table entries from
`(mg, eg)`. -/
def subMaterial (tmp : U64) (value : Int) (mgTable egTable : Int → Int → Int)
    (acc : Int × Int) : Int × Int :=
  forEachBit
    (fun sq a =>
      (a.1 - (value + mgTable (sq >>> (3 : Nat)) (Int.land sq 7)),
        a.2 - (value + egTable (sq >>> (3 : Nat)) (Int.land sq 7))))
    64 tmp acc

/-- Section "MATERIAL + PST" of `evaluate`: the sums `(mg, eg)` after the twelve
loops. -/
def evalMaterial (pst : PieceSquareTables) (b : Board) : Int × Int :=
  let a := addMaterial b.wp 100 pst.PST_PAWN pst.PST_PAWN_END (0, 0)
  let a := addMaterial b.wn 300 pst.PST_KNIGHT pst.PST_KNIGHT_END a
  let a := addMaterial b.wb 300 pst.PST_BISHOP pst.PST_BISHOP_END a
  let a := addMaterial b.wr 500 pst.PST_ROOK pst.PST_ROOK_END a
  let a := addMaterial b.wq 900 pst.PST_QUEEN pst.PST_QUEEN_END a
  let a := addMaterial b.wk 20000 pst.PST_KING_MID pst.PST_KING_END a
  let a := subMaterial b.bp 100 pst.PST_PAWN pst.PST_PAWN a
  let a := subMaterial b.bn 300 pst.PST_KNIGHT pst.PST_KNIGHT a
  let a := subMaterial b.bb 300 pst.PST_BISHOP pst.PST_BISHOP a
  let a := subMaterial b.br 500 pst.PST_ROOK pst.PST_ROOK a
  let a := subMaterial b.bq 900 pst.PST_QUEEN pst.PST_QUEEN a
  subMaterial b.bk 20000 pst.PST_KING_MID pst.PST_KING_END a

/-- Section "PAWN STRUCTURE" of `evaluate`, on the sums `(mg, eg)`. -/
def evalPawnStructure (b : Board) (acc : Int × Int) : Int × Int :=
  let dp := doubledPawns b WHITE - doubledPawns b BLACK
  let ip := isolatedPawns b WHITE - isolatedPawns b BLACK
  let pp := passedPawns b WHITE - passedPawns b BLACK
  let mg := acc.1 - DOUBLED_PAWN_BONUS * dp
  let eg := acc.2 - DOUBLED_PAWN_BONUS * dp
  let mg := mg - ISOLATED_PAWN_BONUS_MG * ip
  let eg := eg - ISOLATED_PAWN_BONUS_EG * ip
  let mg := mg + PASSED_PAWN_BONUS_MG * pp
  let eg := eg + PASSED_PAWN_BONUS_EG * pp
  (mg, eg)

/-- Section "POSITIONAL" of `evaluate`, on the sums `(mg, eg)`. -/
def evalPositional (b : Board) (acc : Int × Int) : Int × Int :=
  let mg := acc.1 + kingSafetyMG b WHITE
  let mg := mg - kingSafetyMG b BLACK
  (mg, acc.2)

/-- Section "MOBILITY" of `evaluate`, on the sums `(mg, eg)`. -/
def evalMobility (b : Board) (acc : Int × Int) : Int × Int :=
  let mg := acc.1 + knightMobility b WHITE * 2
  let mg := mg + bishopMobility b WHITE * 2
  let mg := mg - knightMobility b BLACK * 2
  let mg := mg - bishopMobility b BLACK * 2
  let eg := acc.2 + knightMobility b WHITE
  let eg := eg - knightMobility b BLACK
  (mg, eg)

/-- The sums `(mg, eg)` of `evaluate` when it reaches section "PHASE". -/
def evalSums (pst : PieceSquareTables) (b : Board) : Int × Int :=
  evalMobility b (evalPositional b (evalPawnStructure b (evalMaterial pst b)))

/-- The function `evaluate`. -/
def evaluate (pst : PieceSquareTables) (b : Board) : Int :=
  let mg := (evalSums pst b).1
  let eg := (evalSums pst b).2
  let phase := computePhase b
  let s := Int.tdiv (mg * phase + eg * (MAX_PHASE - phase)) MAX_PHASE
  if b.mover = WHITE then s else -s

/-- Kings on e1 and e8, white pawns on a2, a3 and b2, black pawns on a7 and b7,
White to move: White has one doubled pawn, and no pawn is isolated or
passed. -/
def doubledBoard : Board :=
  ⟨66304, 0, 0, 0, 0, 16, 844424930131968, 0, 0, 0, 0, 1152921504606846976, 66320,
    1153765929536978944, 1153765929537045264, false, false, false, false, -1, 0⟩

/-! ## Printing moves (`bitboard.c`, lines 866-884) -/

/-- The function `fileChar`: `(char)('a' + file)`, as the byte it denotes. -/
def fileChar (file : Int) : Char := Char.ofNat ((97 + file) % 256).toNat

/-- The function `rankChar`: `(char)('1' + rank)`, as the byte it denotes. -/
def rankChar (rank : Int) : Char := Char.ofNat ((49 + rank) % 256).toNat

/-- The function `promotionChar`. -/
def promotionChar (promotion : Int) : Char :=
  if promotion = KNIGHT then 'N'
  else if promotion = BISHOP then 'B'
  else if promotion = ROOK then 'R'
  else if promotion = QUEEN then 'Q'
  else Char.ofNat 0

/-- The characters that `printMove` writes before the newline: the four
coordinate characters, then the promotion character when `promotionPiece` is
not zero. -/
def printMove (m : Move) : List Char :=
  [fileChar (Int.tmod m.from_ 8), rankChar (Int.tdiv m.from_ 8),
    fileChar (Int.tmod m.to_ 8), rankChar (Int.tdiv m.to_ 8)] ++
  (if m.promotionPiece ≠ 0 then [promotionChar m.promotionPiece] else [])

/-- The coordinate string of a move as `printMove` writes it, with the
promotion character in lower case when `lower` is set. -/
def coordinateString (m : Move) (lower : Bool) : String :=
  String.mk ((printMove m).map (fun c => if lower then c.toLower else c))

/-- A board with the white king on c1 and the black king on e8, no castling
right, White to move. -/
def cornerKingBoard : Board :=
  ⟨0, 0, 0, 0, 0, 4, 0, 0, 0, 0, 0, 1152921504606846976, 4, 1152921504606846976,
    1152921504606846980, false, false, false, false, -1, 0⟩

/-! ## Move ordering and search (`evaluation.c`, lines 5-6, 146-304 and 457-509;
`main.c`, lines 7-36; constants of `bitboard.h`)

The global tables `killerMoves` and `historyTable` are passed and returned
explicitly. The table `MVV_LVA` is declared `extern` in `bitboard.h` and defined
outside the sources at hand: it is a parameter, like the piece-square tables. -/

def SCORE_PROMO : Int := 9000000

def SCORE_CAPTURE : Int := 8000000

def SCORE_KILLER : Int := 7000000

def SCORE_HISTORY : Int := 0

/-- The constant `INT_MIN` of a 32-bit `int`. -/
def INT_MIN : Int := -2147483648

/-- The global tables `Move killerMoves[KILLERS_PER_DEPTH][MAX_DEPTH]` and
`int historyTable[64][64]`, as functions of their two indices (an index outside
the arrays is outside the C semantics). -/
structure SearchTables where
  killerMoves : Int → Int → Move
  historyTable : Int → Int → Int

/-- The call `memset(historyTable, 0, sizeof(historyTable))`. -/
def memsetHistoryTable (t : SearchTables) : SearchTables :=
  { t with historyTable := fun _ _ => 0 }

/-- The call `memset(killerMoves, 0, sizeof(killerMoves))`. -/
def memsetKillerMoves (t : SearchTables) : SearchTables :=
  { t with killerMoves := fun _ _ => ⟨0, 0, 0, 0⟩ }

/-- The function `inCheck_bit`. -/
def inCheck_bit (board : Board) (color : Int) : Bool :=
  let kings := if color = WHITE then board.wk else board.bk
  if kings = 0 then false
  else isAttacked board (rankOf (ctzll kings)) (fileOf (ctzll kings)) color

/-- The function `isCapture`: the target square is occupied. -/
def isCapture (b : Board) (m : Move) : Bool := decide (b.occupied &&& bit m.to_ ≠ 0)

/-- The function `pieceValue`. -/
def pieceValue (piece : Int) : Int :=
  if piece = PAWN then 100
  else if piece = KNIGHT then 300
  else if piece = BISHOP then 301
  else if piece = ROOK then 500
  else if piece = QUEEN then 900
  else if piece = KING then 20000
  else 0

/-- The function `getCapturedPiece`: the index (0 pawn .. 5 king) of the piece of
the side not to move on `toSq`, or `-1`. -/
def getCapturedPiece (b : Board) (toSq : Int) : Int :=
  if b.mover = WHITE then
    if b.bp &&& bit toSq ≠ 0 then 0
    else if b.bn &&& bit toSq ≠ 0 then 1
    else if b.bb &&& bit toSq ≠ 0 then 2
    else if b.br &&& bit toSq ≠ 0 then 3
    else if b.bq &&& bit toSq ≠ 0 then 4
    else if b.bk &&& bit toSq ≠ 0 then 5
    else -1
  else
    if b.wp &&& bit toSq ≠ 0 then 0
    else if b.wn &&& bit toSq ≠ 0 then 1
    else if b.wb &&& bit toSq ≠ 0 then 2
    else if b.wr &&& bit toSq ≠ 0 then 3
    else if b.wq &&& bit toSq ≠ 0 then 4
    else if b.wk &&& bit toSq ≠ 0 then 5
    else -1

/-- The function `getAttackerPiece`: the index (0 pawn .. 5 king) of the piece of
the side to move on `fromSq`, or `-1`. -/
def getAttackerPiece (b : Board) (fromSq : Int) : Int :=
  if b.mover = WHITE then
    if b.wp &&& bit fromSq ≠ 0 then 0
    else if b.wn &&& bit fromSq ≠ 0 then 1
    else if b.wb &&& bit fromSq ≠ 0 then 2
    else if b.wr &&& bit fromSq ≠ 0 then 3
    else if b.wq &&& bit fromSq ≠ 0 then 4
    else if b.wk &&& bit fromSq ≠ 0 then 5
    else -1
  else
    if b.bp &&& bit fromSq ≠ 0 then 0
    else if b.bn &&& bit fromSq ≠ 0 then 1
    else if b.bb &&& bit fromSq ≠ 0 then 2
    else if b.br &&& bit fromSq ≠ 0 then 3
    else if b.bq &&& bit fromSq ≠ 0 then 4
    else if b.bk &&& bit fromSq ≠ 0 then 5
    else -1

/-- The function `sameMove`: equal `from`, `to` and `promotionPiece`. -/
def sameMove (a b : Move) : Bool :=
  decide (a.from_ = b.from_) && decide (a.to_ = b.to_) &&
    decide (a.promotionPiece = b.promotionPiece)

/-- The function `scoreMove`. -/
def scoreMove (MVV_LVA : Int → Int → Int) (t : SearchTables) (b : Board) (m : Move)
    (ply : Int) : Int :=
  if m.promotionPiece ≠ 0 then SCORE_PROMO + pieceValue m.promotionPiece
  else if getCapturedPiece b m.to_ ≠ -1 then
    if getAttackerPiece b m.from_ = -1 then SCORE_CAPTURE
    else SCORE_CAPTURE + MVV_LVA (getCapturedPiece b m.to_) (getAttackerPiece b m.from_)
  else if sameMove m (t.killerMoves 0 ply) then SCORE_KILLER
  else if sameMove m (t.killerMoves 1 ply) then SCORE_KILLER - 1
  else SCORE_HISTORY + t.historyTable m.from_ m.to_

/-- The first loop of `orderMoves`: every move gets its score. -/
def scoreMoves (MVV_LVA : Int → Int → Int) (t : SearchTables) (b : Board) (moves : List Move)
    (depth : Int) : List Move :=
  moves.map (fun m => { m with score := scoreMove MVV_LVA t b m depth })

/-- The inner loop `for (j = i + 1; j < count; j++)` of `orderMoves`: `cur` is
`moves[i]`, the list holds `moves[j..]`; the result is the final `moves[i]` and
the entries left behind in `moves[j..]`. -/
def orderInner : Move → List Move → Move × List Move
  | cur, [] => (cur, [])
  | cur, x :: rest =>
    if x.score > cur.score then ((orderInner x rest).1, cur :: (orderInner x rest).2)
    else ((orderInner cur rest).1, x :: (orderInner cur rest).2)

/-- The outer loop `for (i = 0; i + 1 < count; i++)` of `orderMoves`, with the
number of iterations still to run and the part `moves[i..]` of the array. -/
def orderOuter : Nat → List Move → List Move
  | 0, moves => moves
  | _ + 1, [] => []
  | k + 1, cur :: rest => (orderInner cur rest).1 :: orderOuter k (orderInner cur rest).2

/-- The function `orderMoves`. -/
def orderMoves (MVV_LVA : Int → Int → Int) (t : SearchTables) (b : Board) (moves : List Move)
    (depth : Int) : List Move :=
  orderOuter (moves.length - 1) (scoreMoves MVV_LVA t b moves depth)

/-- The `for` loop of `quiescence` over the legal moves still to be tried;
`child` is the recursive call. -/
def quiescenceLoop (child : Board → Int → Int → Option (Board × Int)) (beta : Int) :
    List Move → Board → Int → Int → Option (Board × Int)
  | [], b, _, stand_pat => some (b, stand_pat)
  | m :: rest, b, alpha, stand_pat =>
    if isCapture b m = false then quiescenceLoop child beta rest b alpha stand_pat
    else
      match child (applyMove b m).2.1 (-beta) (-alpha) with
      | none => none
      | some r =>
        if -r.2 ≥ beta then some (unmakeMove r.1 (applyMove b m).2.2, -r.2)
        else
          quiescenceLoop child beta rest (unmakeMove r.1 (applyMove b m).2.2)
            (if -r.2 > alpha then -r.2 else alpha) (if -r.2 > stand_pat then -r.2 else stand_pat)

/-- The function `quiescence`: the board as left by the walk, and the value.
The first argument bounds the depth of the recursion; `none` when it is used
up. -/
def quiescence (pst : PieceSquareTables) : Nat → Board → Int → Int → Option (Board × Int)
  | 0, _, _, _ => none
  | fuel + 1, b, alpha, beta =>
    if evaluate pst b ≥ beta then some (b, beta)
    else
      quiescenceLoop (quiescence pst fuel) beta (generateLegalMovesToArray b 256).2
        (generateLegalMovesToArray b 256).1
        (if evaluate pst b > alpha then evaluate pst b else alpha) (evaluate pst b)

/-- The block of `minimax` run at a beta cutoff by a quiet move: the history
counter of the move grows by `depth * depth`, killer slot 0 of `ply` moves to
slot 1 and the move is written to slot 0. -/
def storeKiller (t : SearchTables) (m : Move) (depth ply : Int) : SearchTables :=
  { historyTable := fun i j =>
      if i = m.from_ ∧ j = m.to_ then t.historyTable i j + depth * depth else t.historyTable i j
    killerMoves := fun k p =>
      if p = ply ∧ k = 0 then m
      else if p = ply ∧ k = 1 then t.killerMoves 0 ply
      else t.killerMoves k p }

/-- The `for` loop of `minimax` over the ordered moves still to be tried;
`child` is the recursive call at `depth - 1` and `ply + 1`. -/
def minimaxLoop (child : Board → SearchTables → Int → Int → Option (Board × SearchTables × Int))
    (depth ply beta : Int) :
    List Move → Board → SearchTables → Int → Option (Board × SearchTables × Int)
  | [], board, t, alpha => some (board, t, alpha)
  | m :: rest, board, t, alpha =>
    match child (applyMove board m).2.1 t (-beta) (-alpha) with
    | none => none
    | some r =>
      if -r.2.2 ≥ beta then
        if getCapturedPiece board m.to_ ≠ -1 then
          some (unmakeMove r.1 (applyMove board m).2.2, r.2.1, beta)
        else some (unmakeMove r.1 (applyMove board m).2.2, storeKiller r.2.1 m depth ply, beta)
      else
        minimaxLoop child depth ply beta rest (unmakeMove r.1 (applyMove board m).2.2) r.2.1
          (if -r.2.2 > alpha then -r.2.2 else alpha)

/-- The function `minimax`: the board and the tables as left by the walk, and
the value. The recursion of `quiescence` is given 65 levels: each of its
recursive calls follows a capture, and a board holds at most 64 pieces. -/
def minimax (pst : PieceSquareTables) (MVV_LVA : Int → Int → Int) :
    Nat → Board → SearchTables → Int → Int → Int → Option (Board × SearchTables × Int)
  | 0, board, t, alpha, beta, _ =>
    match quiescence pst 65 board alpha beta with
    | none => none
    | some r => some (r.1, t, r.2)
  | depth + 1, board, t, alpha, beta, ply =>
    if (generateLegalMovesToArray board 512).2.length = 0 then
      if inCheck_bit (generateLegalMovesToArray board 512).1
          (generateLegalMovesToArray board 512).1.mover = true then
        some ((generateLegalMovesToArray board 512).1, t, -100000 - ((depth + 1 : Nat) : Int))
      else some ((generateLegalMovesToArray board 512).1, t, 0)
    else
      minimaxLoop (fun b t' a be => minimax pst MVV_LVA depth b t' a be (ply + 1))
        ((depth + 1 : Nat) : Int) ply beta
        (orderMoves MVV_LVA t (generateLegalMovesToArray board 512).1
          (generateLegalMovesToArray board 512).2 ((depth + 1 : Nat) : Int))
        (generateLegalMovesToArray board 512).1 t alpha

/-- The function `search`. A negative depth never reaches the test
`depth == 0` of `minimax`: it has no result here. -/
def search (pst : PieceSquareTables) (MVV_LVA : Int → Int → Int) (t : SearchTables) (b : Board)
    (depth : Int) : Option (Board × SearchTables × Int) :=
  if depth < 0 then none
  else minimax pst MVV_LVA depth.toNat b (memsetKillerMoves (memsetHistoryTable t)) (-10000000)
    10000000 1

/-- The `for` loop of `findBestMove` over the legal moves still to be tried;
`child` is the call `search(board, depth - 1)`. -/
def findBestLoop (child : Board → SearchTables → Option (Board × SearchTables × Int)) :
    List Move → Board → SearchTables → Int → Move → Option (Board × SearchTables × Move)
  | [], board, t, _, bestMove => some (board, t, bestMove)
  | m :: rest, board, t, bestScore, bestMove =>
    match child (applyMove board m).2.1 t with
    | none => none
    | some r =>
      if -r.2.2 > bestScore then
        findBestLoop child rest (unmakeMove r.1 (applyMove board m).2.2) r.2.1 (-r.2.2) m
      else findBestLoop child rest (unmakeMove r.1 (applyMove board m).2.2) r.2.1 bestScore bestMove

/-- The function `findBestMove` (`main.c`): the board and the tables as left by
the walk, and the move returned. -/
def findBestMove (pst : PieceSquareTables) (MVV_LVA : Int → Int → Int) (t : SearchTables)
    (board : Board) (depth : Int) : Option (Board × SearchTables × Move) :=
  if (generateLegalMovesToArray board 512).2.length = 0 then
    some ((generateLegalMovesToArray board 512).1, t, ⟨0, 0, 0, 0⟩)
  else
    findBestLoop (fun b t' => search pst MVV_LVA t' b (depth - 1))
      (generateLegalMovesToArray board 512).2 (generateLegalMovesToArray board 512).1 t INT_MIN
      ((generateLegalMovesToArray board 512).2.headD ⟨0, 0, 0, 0⟩)

/-- Piece-square tables with every entry zero. -/
def flatTables : PieceSquareTables :=
  ⟨fun _ _ => 0, fun _ _ => 0, fun _ _ => 0, fun _ _ => 0, fun _ _ => 0, fun _ _ => 0,
    fun _ _ => 0, fun _ _ => 0, fun _ _ => 0, fun _ _ => 0, fun _ _ => 0, fun _ _ => 0⟩

/-- A table `MVV_LVA` with the usual shape: ten times the victim index minus
the attacker index. -/
def flatMvvLva : Int → Int → Int := fun victim attacker => 10 * victim - attacker

/-- Killer and history tables with every entry zero. -/
def emptySearchTables : SearchTables := ⟨fun _ _ => ⟨0, 0, 0, 0⟩, fun _ _ => 0⟩

/-- A back-rank mate: white king g1 behind the pawns f2, g2, h2, black rook on
e1, black king a8, White to move. -/
def backRankMateBoard : Board :=
  ⟨57344, 0, 0, 0, 0, 64, 0, 0, 0, 16, 0, 72057594037927936, 57408, 72057594037927952,
    72057594037985360, false, false, false, false, -1, 0⟩

/-- The twenty legal moves of the start position, in the order of generation. -/
def startMoves : List Move :=
  [⟨8, 16, 0, 0⟩, ⟨8, 24, 0, 0⟩, ⟨9, 17, 0, 0⟩, ⟨9, 25, 0, 0⟩, ⟨10, 18, 0, 0⟩,
    ⟨10, 26, 0, 0⟩, ⟨11, 19, 0, 0⟩, ⟨11, 27, 0, 0⟩, ⟨12, 20, 0, 0⟩, ⟨12, 28, 0, 0⟩,
    ⟨13, 21, 0, 0⟩, ⟨13, 29, 0, 0⟩, ⟨14, 22, 0, 0⟩, ⟨14, 30, 0, 0⟩, ⟨15, 23, 0, 0⟩,
    ⟨15, 31, 0, 0⟩, ⟨1, 16, 0, 0⟩, ⟨1, 18, 0, 0⟩, ⟨6, 21, 0, 0⟩, ⟨6, 23, 0, 0⟩]

/-- The king bitboard of a colour, as `generateLegalMovesToArray` and
`inCheck_bit` select it. -/
def kingOf (c : Int) (b : Board) : U64 := if c = WHITE then b.wk else b.bk

/-- The piece code `d` is written by `setPiece` to the king bitboard of colour
`c`. -/
def KingCode (c d : Int) : Prop :=
  Int.land d 7 = KING ∧ (Int.land d COLOR_MASK = WHITE ↔ c = WHITE)

/-- The promotion pieces that the move generator emits. -/
def PromotionOk (m : Move) : Prop :=
  m.promotionPiece = 0 ∨ m.promotionPiece = 2 ∨ m.promotionPiece = 3 ∨ m.promotionPiece = 4 ∨
    m.promotionPiece = 5

/-- A board without a white king: a white pawn on e2, the black king on e8,
White to move. -/
def noKingBoard : Board :=
  ⟨4096, 0, 0, 0, 0, 0, 0, 0, 0, 0, 0, 1152921504606846976, 4096, 1152921504606846976,
    1152921504606851072, false, false, false, false, -1, 0⟩

/-- The number of occupied squares, `popcount(occupied)`. -/
def pieceCount (b : Board) : Nat := ((List.range 64).filter (fun i => b.occupied.testBit i)).length

/-- The selection made by the loop of `findBestMove` over moves with the values
`f`: the running best score and best move are replaced whenever the value of a
move is greater than the best score. -/
def pickBest (f : Move → Int) : List Move → Int → Move → Move
  | [], _, best => best
  | m :: rest, bestScore, best =>
    if f m > bestScore then pickBest f rest (f m) m else pickBest f rest bestScore best

/-- The value `-search(board after the move, depth - 1)` that `findBestMove`
compares for a move (`0` if `search` has no result). -/
def rootScore (pst : PieceSquareTables) (MVV_LVA : Int → Int → Int) (b : Board) (depth : Int)
    (m : Move) : Int :=
  match search pst MVV_LVA emptySearchTables (applyMove b m).2.1 (depth - 1) with
  | some r => -r.2.2
  | none => 0

/-- The squares that the loop `while (t) { int sq = pop_lsb(&t); ... }` visits,
in the order of the visits. -/
def bitSquares : Nat → U64 → List Int
  | 0, _ => []
  | fuel + 1, t => if t = 0 then [] else (pop_lsb t).1 :: bitSquares fuel (pop_lsb t).2

/-- The sum, over the squares of a bitboard as the evaluation loops visit
them, of the material value plus the table entry of the square. -/
def pieceTerms (x : U64) (value : Int) (table : Int → Int → Int) : Int :=
  ((bitSquares 64 x).map (fun sq : Int => value + table (sq >>> (3 : Nat)) (Int.land sq 7))).sum

/-- The sums `(mg, eg)` of `evaluate` after the six loops over the white
bitboards. -/
def whiteMaterial (pst : PieceSquareTables) (b : Board) : Int × Int :=
  addMaterial b.wk 20000 pst.PST_KING_MID pst.PST_KING_END
    (addMaterial b.wq 900 pst.PST_QUEEN pst.PST_QUEEN_END
      (addMaterial b.wr 500 pst.PST_ROOK pst.PST_ROOK_END
        (addMaterial b.wb 300 pst.PST_BISHOP pst.PST_BISHOP_END
          (addMaterial b.wn 300 pst.PST_KNIGHT pst.PST_KNIGHT_END
            (addMaterial b.wp 100 pst.PST_PAWN pst.PST_PAWN_END (0, 0))))))

/-- Piece-square tables with every entry zero except those of `PST_KING_END`,
which are all `7`. -/
def kingEndTables : PieceSquareTables :=
  ⟨fun _ _ => 0, fun _ _ => 0, fun _ _ => 0, fun _ _ => 0, fun _ _ => 0, fun _ _ => 0,
    fun _ _ => 0, fun _ _ => 0, fun _ _ => 0, fun _ _ => 0, fun _ _ => 0, fun _ _ => 7⟩

/-- A board with the black king on e8 and nothing else, White to move. -/
def blackKingBoard : Board :=
  ⟨0, 0, 0, 0, 0, 0, 0, 0, 0, 0, 0, 1152921504606846976, 0, 1152921504606846976,
    1152921504606846976, false, false, false, false, -1, 0⟩

/-- No move that comes after the first move of score `s` in the list has a
score greater than `s`. -/
def noGreaterAfter (s : Int) : List Move → Bool
  | [] => true
  | x :: l => if x.score = s then l.all (fun y => decide (y.score ≤ s)) else noGreaterAfter s l

/-- The moves of score `s`, in the order of the list. -/
def scoreClass (s : Int) (l : List Move) : List Move := l.filter (fun x => decide (x.score = s))

/-- The position after 1. e4 d5, White to move. -/
def exchangeBoard : Board := applyUciMove (applyUciMove startBoard "e2e4") "d7d5"

/-- The number of moves of a list with the given `from`, `to` and
`promotionPiece`. -/
def promoCount (f t p : Int) (l : List Move) : Nat :=
  l.countP (fun x => decide (x.from_ = f ∧ x.to_ = t ∧ x.promotionPiece = p))

/-- The moving piece is a pawn and the destination is on its promotion rank:
rank index 7 for a white pawn, 0 for a black pawn. -/
def PromotionMove (b : Board) (m : Move) : Prop :=
  (findPieceCodeAt b m.from_ = Int.lor PAWN WHITE ∧ rankOf m.to_ = 7) ∨
    (findPieceCodeAt b m.from_ = Int.lor PAWN BLACK ∧ rankOf m.to_ = 0)

/-- A white pawn on a7 and on g7, a black knight on b8, the kings on e1 and e8,
White to move. -/
def promotionBoard : Board :=
  ⟨18295873486192640, 0, 0, 0, 0, 16, 0, 144115188075855872, 0, 0, 0, 1152921504606846976,
    18295873486192656, 1297036692682702848, 1315332566168895504, false, false, false, false, -1,
    0⟩

/-! ## Theorems -/

theorem bit_eq_two_pow {sq : Int} (h : InRange sq) : bit sq = 2 ^ sq.toNat := by
  unfold bit
  rw [Nat.one_shiftLeft]
  apply Nat.mod_eq_of_lt
  apply Nat.pow_lt_pow_right (by norm_num)
  have := h.1; have := h.2
  omega

theorem bit_lt (sq : Int) : bit sq < 2 ^ 64 := by
  unfold bit
  exact Nat.mod_lt _ (by norm_num)

theorem testBit_bit {sq : Int} (h : InRange sq) (i : Nat) :
    (bit sq).testBit i = decide (sq.toNat = i) := by
  rw [bit_eq_two_pow h, Nat.testBit_two_pow]

theorem and_bit_ne_zero_iff (x : Nat) {sq : Int} (h : InRange sq) :
    x &&& bit sq ≠ 0 ↔ x.testBit sq.toNat = true := by
  rw [bit_eq_two_pow h]
  constructor
  · intro hne
    by_contra hb
    apply hne
    apply Nat.eq_of_testBit_eq
    intro i
    simp only [Nat.testBit_and, Nat.testBit_two_pow, Nat.zero_testBit]
    by_cases hi : sq.toNat = i
    · subst hi; simp [hb]
    · simp [hi]
  · intro hb hz
    have := congrArg (fun y => y.testBit sq.toNat) hz
    simp [Nat.testBit_and, Nat.testBit_two_pow, hb] at this

theorem testBit_not64 (x i : Nat) : (not64 x).testBit i = (x.testBit i ^^ decide (i < 64)) := by
  unfold not64 U64_MAX
  rw [Nat.testBit_xor]
  have : (0xFFFFFFFFFFFFFFFF : Nat) = 2 ^ 64 - 1 := by norm_num
  rw [this, Nat.testBit_two_pow_sub_one]

theorem testBit_eq_false_of_lt {x : Nat} (hx : x < 2 ^ 64) {i : Nat} (hi : 64 ≤ i) :
    x.testBit i = false := by
  apply Nat.testBit_lt_two_pow
  exact lt_of_lt_of_le hx (Nat.pow_le_pow_right (by norm_num) hi)

theorem and_eq_zero_iff_testBit (x y : Nat) :
    x &&& y = 0 ↔ ∀ n, x.testBit n = true → y.testBit n = false := by
  constructor
  · intro h n hx
    have := congrArg (fun z => z.testBit n) h
    simpa [Nat.testBit_and, hx] using this
  · intro h
    apply Nat.eq_of_testBit_eq
    intro n
    rw [Nat.testBit_and, Nat.zero_testBit]
    cases hx : x.testBit n
    · rfl
    · simp [h n hx]

theorem agree_of_disjoint {b : Board} (h : PiecesDisjoint b) : Agree b := by
  unfold PiecesDisjoint at h
  simp only [List.pairwise_cons, List.mem_cons, List.mem_singleton, forall_eq_or_imp, forall_eq,
    List.not_mem_nil, IsEmpty.forall_iff, implies_true, List.Pairwise.nil, and_true,
    and_eq_zero_iff_testBit] at h
  obtain ⟨⟨a1, a2, a3, a4, a5, a6, a7, a8, a9, a10, a11⟩, ⟨b2, b3, b4, b5, b6, b7, b8, b9, b10, b11⟩,
      ⟨c3, c4, c5, c6, c7, c8, c9, c10, c11⟩, ⟨d4, d5, d6, d7, d8, d9, d10, d11⟩,
      ⟨e5, e6, e7, e8, e9, e10, e11⟩, ⟨f6, f7, f8, f9, f10, f11⟩, ⟨g7, g8, g9, g10, g11⟩,
      ⟨h8, h9, h10, h11⟩, ⟨i9, i10, i11⟩, ⟨j10, j11⟩, k11⟩ := h
  intro n
  unfold codeAt
  by_cases t1 : b.wp.testBit n = true
  · simp [t1, a1 n t1, a2 n t1, a3 n t1, a4 n t1, a5 n t1, a6 n t1, a7 n t1, a8 n t1, a9 n t1, a10 n t1, a11 n t1]
  by_cases t2 : b.wn.testBit n = true
  · simp [t1, t2, b2 n t2, b3 n t2, b4 n t2, b5 n t2, b6 n t2, b7 n t2, b8 n t2, b9 n t2, b10 n t2, b11 n t2]
  by_cases t3 : b.wb.testBit n = true
  · simp [t1, t2, t3, c3 n t3, c4 n t3, c5 n t3, c6 n t3, c7 n t3, c8 n t3, c9 n t3, c10 n t3, c11 n t3]
  by_cases t4 : b.wr.testBit n = true
  · simp [t1, t2, t3, t4, d4 n t4, d5 n t4, d6 n t4, d7 n t4, d8 n t4, d9 n t4, d10 n t4, d11 n t4]
  by_cases t5 : b.wq.testBit n = true
  · simp [t1, t2, t3, t4, t5, e5 n t5, e6 n t5, e7 n t5, e8 n t5, e9 n t5, e10 n t5, e11 n t5]
  by_cases t6 : b.wk.testBit n = true
  · simp [t1, t2, t3, t4, t5, t6, f6 n t6, f7 n t6, f8 n t6, f9 n t6, f10 n t6, f11 n t6]
  by_cases t7 : b.bp.testBit n = true
  · simp [t1, t2, t3, t4, t5, t6, t7, g7 n t7, g8 n t7, g9 n t7, g10 n t7, g11 n t7]
  by_cases t8 : b.bn.testBit n = true
  · simp [t1, t2, t3, t4, t5, t6, t7, t8, h8 n t8, h9 n t8, h10 n t8, h11 n t8]
  by_cases t9 : b.bb.testBit n = true
  · simp [t1, t2, t3, t4, t5, t6, t7, t8, t9, i9 n t9, i10 n t9, i11 n t9]
  by_cases t10 : b.br.testBit n = true
  · simp [t1, t2, t3, t4, t5, t6, t7, t8, t9, t10, j10 n t10, j11 n t10]
  by_cases t11 : b.bq.testBit n = true
  · simp [t1, t2, t3, t4, t5, t6, t7, t8, t9, t10, t11, k11 n t11]
  by_cases t12 : b.bk.testBit n = true
  · simp [t1, t2, t3, t4, t5, t6, t7, t8, t9, t10, t11, t12]
  · simp [t1, t2, t3, t4, t5, t6, t7, t8, t9, t10, t11, t12]

theorem disjoint_of_agree {b : Board} (h : Agree b) : PiecesDisjoint b := by
  unfold PiecesDisjoint
  simp only [List.pairwise_cons, List.mem_cons, List.mem_singleton, forall_eq_or_imp, forall_eq,
    List.not_mem_nil, IsEmpty.forall_iff, implies_true, List.Pairwise.nil, and_true,
    and_eq_zero_iff_testBit]
  refine ⟨⟨?_, ?_, ?_, ?_, ?_, ?_, ?_, ?_, ?_, ?_, ?_⟩, ⟨?_, ?_, ?_, ?_, ?_, ?_, ?_, ?_, ?_, ?_⟩,
      ⟨?_, ?_, ?_, ?_, ?_, ?_, ?_, ?_, ?_⟩, ⟨?_, ?_, ?_, ?_, ?_, ?_, ?_, ?_⟩,
      ⟨?_, ?_, ?_, ?_, ?_, ?_, ?_⟩, ⟨?_, ?_, ?_, ?_, ?_, ?_⟩, ⟨?_, ?_, ?_, ?_, ?_⟩,
      ⟨?_, ?_, ?_, ?_⟩, ⟨?_, ?_, ?_⟩, ⟨?_, ?_⟩, ?_⟩ <;> intro n hn <;>
    (obtain ⟨q1, q2, q3, q4, q5, q6, q7, q8, q9, q10, q11, q12⟩ := h n
     simp_all)

theorem testBit_and_not64_bit (x : Nat) {s : Int} (h : InRange s) (n : Nat) :
    (x &&& not64 (bit s)).testBit n = (x.testBit n && (decide (n < 64) && !decide (s.toNat = n))) := by
  rw [Nat.testBit_and, testBit_not64, testBit_bit h]
  by_cases h1 : s.toNat = n
  · have : n < 64 := by have := h.1; have := h.2; omega
    simp [h1, this]
  · simp [h1]

theorem testBit_or_bit (x : Nat) {s : Int} (h : InRange s) (n : Nat) :
    (x ||| bit s).testBit n = (x.testBit n || decide (s.toNat = n)) := by
  rw [Nat.testBit_or, testBit_bit h]

theorem pieceAt_eq_codeAt (b : Board) {sq : Int} (h : InRange sq) :
    pieceAt b sq = codeAt b sq.toNat := by
  unfold pieceAt codeAt
  simp only [and_bit_ne_zero_iff _ h]
  rfl

theorem codeAt_clearSquare (b : Board) {s : Int} (h : InRange s) (n : Nat) :
    codeAt (clearSquare b s) n = if n < 64 ∧ s.toNat ≠ n then codeAt b n else 0 := by
  simp only [codeAt, clearSquare, testBit_and_not64_bit _ h]
  by_cases h1 : n < 64 <;> by_cases h2 : s.toNat = n <;> simp [h1, h2]

theorem bounded_clearSquare {b : Board} (hb : Bounded b) (s : Int) : Bounded (clearSquare b s) := by
  obtain ⟨h1, h2, h3, h4, h5, h6, h7, h8, h9, h10, h11, h12⟩ := hb
  exact ⟨lt_of_le_of_lt Nat.and_le_left (by assumption), lt_of_le_of_lt Nat.and_le_left (by assumption),
    lt_of_le_of_lt Nat.and_le_left (by assumption), lt_of_le_of_lt Nat.and_le_left (by assumption),
    lt_of_le_of_lt Nat.and_le_left (by assumption), lt_of_le_of_lt Nat.and_le_left (by assumption),
    lt_of_le_of_lt Nat.and_le_left (by assumption), lt_of_le_of_lt Nat.and_le_left (by assumption),
    lt_of_le_of_lt Nat.and_le_left (by assumption), lt_of_le_of_lt Nat.and_le_left (by assumption),
    lt_of_le_of_lt Nat.and_le_left (by assumption), lt_of_le_of_lt Nat.and_le_left (by assumption)⟩

theorem agree_clearSquare {b : Board} (ha : Agree b) {s : Int} (h : InRange s) :
    Agree (clearSquare b s) := by
  intro n
  have hc := codeAt_clearSquare b h n
  obtain ⟨q1, q2, q3, q4, q5, q6, q7, q8, q9, q10, q11, q12⟩ := ha n
  rw [hc]
  simp only [clearSquare, testBit_and_not64_bit _ h]
  by_cases h1 : n < 64 <;> by_cases h2 : s.toNat = n <;>
    simp [h1, h2, q1, q2, q3, q4, q5, q6, q7, q8, q9, q10, q11, q12]

theorem codeAt_valid (b : Board) (n : Nat) : codeAt b n = 0 ∨ ValidCode (codeAt b n) := by
  by_cases t1 : b.wp.testBit n = true
  · simp [codeAt, ValidCode, t1]
  by_cases t2 : b.wn.testBit n = true
  · simp [codeAt, ValidCode, t1, t2]
  by_cases t3 : b.wb.testBit n = true
  · simp [codeAt, ValidCode, t1, t2, t3]
  by_cases t4 : b.wr.testBit n = true
  · simp [codeAt, ValidCode, t1, t2, t3, t4]
  by_cases t5 : b.wq.testBit n = true
  · simp [codeAt, ValidCode, t1, t2, t3, t4, t5]
  by_cases t6 : b.wk.testBit n = true
  · simp [codeAt, ValidCode, t1, t2, t3, t4, t5, t6]
  by_cases t7 : b.bp.testBit n = true
  · simp [codeAt, ValidCode, t1, t2, t3, t4, t5, t6, t7]
  by_cases t8 : b.bn.testBit n = true
  · simp [codeAt, ValidCode, t1, t2, t3, t4, t5, t6, t7, t8]
  by_cases t9 : b.bb.testBit n = true
  · simp [codeAt, ValidCode, t1, t2, t3, t4, t5, t6, t7, t8, t9]
  by_cases t10 : b.br.testBit n = true
  · simp [codeAt, ValidCode, t1, t2, t3, t4, t5, t6, t7, t8, t9, t10]
  by_cases t11 : b.bq.testBit n = true
  · simp [codeAt, ValidCode, t1, t2, t3, t4, t5, t6, t7, t8, t9, t10, t11]
  by_cases t12 : b.bk.testBit n = true
  · simp [codeAt, ValidCode, t1, t2, t3, t4, t5, t6, t7, t8, t9, t10, t11, t12]
  simp [codeAt, t1, t2, t3, t4, t5, t6, t7, t8, t9, t10, t11, t12]

theorem orPiece_1 (b : Board) (s : Int) : orPiece b s 1 = { b with wp := b.wp ||| bit s } := rfl

theorem orPiece_2 (b : Board) (s : Int) : orPiece b s 2 = { b with wn := b.wn ||| bit s } := rfl

theorem orPiece_3 (b : Board) (s : Int) : orPiece b s 3 = { b with wb := b.wb ||| bit s } := rfl

theorem orPiece_4 (b : Board) (s : Int) : orPiece b s 4 = { b with wr := b.wr ||| bit s } := rfl

theorem orPiece_5 (b : Board) (s : Int) : orPiece b s 5 = { b with wq := b.wq ||| bit s } := rfl

theorem orPiece_6 (b : Board) (s : Int) : orPiece b s 6 = { b with wk := b.wk ||| bit s } := rfl

theorem orPiece_9 (b : Board) (s : Int) : orPiece b s 9 = { b with bp := b.bp ||| bit s } := rfl

theorem orPiece_10 (b : Board) (s : Int) : orPiece b s 10 = { b with bn := b.bn ||| bit s } := rfl

theorem orPiece_11 (b : Board) (s : Int) : orPiece b s 11 = { b with bb := b.bb ||| bit s } := rfl

theorem orPiece_12 (b : Board) (s : Int) : orPiece b s 12 = { b with br := b.br ||| bit s } := rfl

theorem orPiece_13 (b : Board) (s : Int) : orPiece b s 13 = { b with bq := b.bq ||| bit s } := rfl

theorem orPiece_14 (b : Board) (s : Int) : orPiece b s 14 = { b with bk := b.bk ||| bit s } := rfl

theorem codeAt_setPiece (b : Board) {s : Int} (h : InRange s) {c : Int} (hc : ValidCode c)
    (n : Nat) (hn : n < 64) :
    codeAt (setPiece b s c) n = if s.toNat = n then c else codeAt b n := by
  rcases hc with rfl | rfl | rfl | rfl | rfl | rfl | rfl | rfl | rfl | rfl | rfl | rfl
  · rw [setPiece, orPiece_1]
    simp only [codeAt, clearSquare, testBit_or_bit _ h, testBit_and_not64_bit _ h]
    by_cases h1 : s.toNat = n <;> simp [h1, hn]
  · rw [setPiece, orPiece_2]
    simp only [codeAt, clearSquare, testBit_or_bit _ h, testBit_and_not64_bit _ h]
    by_cases h1 : s.toNat = n <;> simp [h1, hn]
  · rw [setPiece, orPiece_3]
    simp only [codeAt, clearSquare, testBit_or_bit _ h, testBit_and_not64_bit _ h]
    by_cases h1 : s.toNat = n <;> simp [h1, hn]
  · rw [setPiece, orPiece_4]
    simp only [codeAt, clearSquare, testBit_or_bit _ h, testBit_and_not64_bit _ h]
    by_cases h1 : s.toNat = n <;> simp [h1, hn]
  · rw [setPiece, orPiece_5]
    simp only [codeAt, clearSquare, testBit_or_bit _ h, testBit_and_not64_bit _ h]
    by_cases h1 : s.toNat = n <;> simp [h1, hn]
  · rw [setPiece, orPiece_6]
    simp only [codeAt, clearSquare, testBit_or_bit _ h, testBit_and_not64_bit _ h]
    by_cases h1 : s.toNat = n <;> simp [h1, hn]
  · rw [setPiece, orPiece_9]
    simp only [codeAt, clearSquare, testBit_or_bit _ h, testBit_and_not64_bit _ h]
    by_cases h1 : s.toNat = n <;> simp [h1, hn]
  · rw [setPiece, orPiece_10]
    simp only [codeAt, clearSquare, testBit_or_bit _ h, testBit_and_not64_bit _ h]
    by_cases h1 : s.toNat = n <;> simp [h1, hn]
  · rw [setPiece, orPiece_11]
    simp only [codeAt, clearSquare, testBit_or_bit _ h, testBit_and_not64_bit _ h]
    by_cases h1 : s.toNat = n <;> simp [h1, hn]
  · rw [setPiece, orPiece_12]
    simp only [codeAt, clearSquare, testBit_or_bit _ h, testBit_and_not64_bit _ h]
    by_cases h1 : s.toNat = n <;> simp [h1, hn]
  · rw [setPiece, orPiece_13]
    simp only [codeAt, clearSquare, testBit_or_bit _ h, testBit_and_not64_bit _ h]
    by_cases h1 : s.toNat = n <;> simp [h1, hn]
  · rw [setPiece, orPiece_14]
    simp only [codeAt, clearSquare, testBit_or_bit _ h, testBit_and_not64_bit _ h]
    by_cases h1 : s.toNat = n <;> simp [h1, hn]

theorem bounded_setPiece {b : Board} (hb : Bounded b) (s c : Int) : Bounded (setPiece b s c) := by
  have hc := bounded_clearSquare hb s
  obtain ⟨h1, h2, h3, h4, h5, h6, h7, h8, h9, h10, h11, h12⟩ := hc
  have hs := bit_lt s
  unfold setPiece orPiece
  split_ifs <;>
    exact ⟨by first | assumption | exact Nat.or_lt_two_pow (by assumption) hs,
      by first | assumption | exact Nat.or_lt_two_pow (by assumption) hs,
      by first | assumption | exact Nat.or_lt_two_pow (by assumption) hs,
      by first | assumption | exact Nat.or_lt_two_pow (by assumption) hs,
      by first | assumption | exact Nat.or_lt_two_pow (by assumption) hs,
      by first | assumption | exact Nat.or_lt_two_pow (by assumption) hs,
      by first | assumption | exact Nat.or_lt_two_pow (by assumption) hs,
      by first | assumption | exact Nat.or_lt_two_pow (by assumption) hs,
      by first | assumption | exact Nat.or_lt_two_pow (by assumption) hs,
      by first | assumption | exact Nat.or_lt_two_pow (by assumption) hs,
      by first | assumption | exact Nat.or_lt_two_pow (by assumption) hs,
      by first | assumption | exact Nat.or_lt_two_pow (by assumption) hs⟩

theorem agree_setPiece {b : Board} (ha : Agree b) {s : Int} (h : InRange s) {c : Int}
    (hc : ValidCode c) : Agree (setPiece b s c) := by
  intro n
  have hx := ha n
  simp only [codeAt] at hx
  rcases hc with rfl | rfl | rfl | rfl | rfl | rfl | rfl | rfl | rfl | rfl | rfl | rfl
  · rw [setPiece, orPiece_1]
    simp only [codeAt, clearSquare, testBit_or_bit _ h, testBit_and_not64_bit _ h]
    by_cases h1 : s.toNat = n
    · have hn : n < 64 := by have := h.1; have := h.2; omega
      simp [h1, hn]
    · by_cases h2 : n < 64
      · simpa [h1, h2] using hx
      · simp [h1, h2]
  · rw [setPiece, orPiece_2]
    simp only [codeAt, clearSquare, testBit_or_bit _ h, testBit_and_not64_bit _ h]
    by_cases h1 : s.toNat = n
    · have hn : n < 64 := by have := h.1; have := h.2; omega
      simp [h1, hn]
    · by_cases h2 : n < 64
      · simpa [h1, h2] using hx
      · simp [h1, h2]
  · rw [setPiece, orPiece_3]
    simp only [codeAt, clearSquare, testBit_or_bit _ h, testBit_and_not64_bit _ h]
    by_cases h1 : s.toNat = n
    · have hn : n < 64 := by have := h.1; have := h.2; omega
      simp [h1, hn]
    · by_cases h2 : n < 64
      · simpa [h1, h2] using hx
      · simp [h1, h2]
  · rw [setPiece, orPiece_4]
    simp only [codeAt, clearSquare, testBit_or_bit _ h, testBit_and_not64_bit _ h]
    by_cases h1 : s.toNat = n
    · have hn : n < 64 := by have := h.1; have := h.2; omega
      simp [h1, hn]
    · by_cases h2 : n < 64
      · simpa [h1, h2] using hx
      · simp [h1, h2]
  · rw [setPiece, orPiece_5]
    simp only [codeAt, clearSquare, testBit_or_bit _ h, testBit_and_not64_bit _ h]
    by_cases h1 : s.toNat = n
    · have hn : n < 64 := by have := h.1; have := h.2; omega
      simp [h1, hn]
    · by_cases h2 : n < 64
      · simpa [h1, h2] using hx
      · simp [h1, h2]
  · rw [setPiece, orPiece_6]
    simp only [codeAt, clearSquare, testBit_or_bit _ h, testBit_and_not64_bit _ h]
    by_cases h1 : s.toNat = n
    · have hn : n < 64 := by have := h.1; have := h.2; omega
      simp [h1, hn]
    · by_cases h2 : n < 64
      · simpa [h1, h2] using hx
      · simp [h1, h2]
  · rw [setPiece, orPiece_9]
    simp only [codeAt, clearSquare, testBit_or_bit _ h, testBit_and_not64_bit _ h]
    by_cases h1 : s.toNat = n
    · have hn : n < 64 := by have := h.1; have := h.2; omega
      simp [h1, hn]
    · by_cases h2 : n < 64
      · simpa [h1, h2] using hx
      · simp [h1, h2]
  · rw [setPiece, orPiece_10]
    simp only [codeAt, clearSquare, testBit_or_bit _ h, testBit_and_not64_bit _ h]
    by_cases h1 : s.toNat = n
    · have hn : n < 64 := by have := h.1; have := h.2; omega
      simp [h1, hn]
    · by_cases h2 : n < 64
      · simpa [h1, h2] using hx
      · simp [h1, h2]
  · rw [setPiece, orPiece_11]
    simp only [codeAt, clearSquare, testBit_or_bit _ h, testBit_and_not64_bit _ h]
    by_cases h1 : s.toNat = n
    · have hn : n < 64 := by have := h.1; have := h.2; omega
      simp [h1, hn]
    · by_cases h2 : n < 64
      · simpa [h1, h2] using hx
      · simp [h1, h2]
  · rw [setPiece, orPiece_12]
    simp only [codeAt, clearSquare, testBit_or_bit _ h, testBit_and_not64_bit _ h]
    by_cases h1 : s.toNat = n
    · have hn : n < 64 := by have := h.1; have := h.2; omega
      simp [h1, hn]
    · by_cases h2 : n < 64
      · simpa [h1, h2] using hx
      · simp [h1, h2]
  · rw [setPiece, orPiece_13]
    simp only [codeAt, clearSquare, testBit_or_bit _ h, testBit_and_not64_bit _ h]
    by_cases h1 : s.toNat = n
    · have hn : n < 64 := by have := h.1; have := h.2; omega
      simp [h1, hn]
    · by_cases h2 : n < 64
      · simpa [h1, h2] using hx
      · simp [h1, h2]
  · rw [setPiece, orPiece_14]
    simp only [codeAt, clearSquare, testBit_or_bit _ h, testBit_and_not64_bit _ h]
    by_cases h1 : s.toNat = n
    · have hn : n < 64 := by have := h.1; have := h.2; omega
      simp [h1, hn]
    · by_cases h2 : n < 64
      · simpa [h1, h2] using hx
      · simp [h1, h2]

theorem and_not64_bit_eq_self {x : Nat} (hx : x < 2 ^ 64) {s : Int} (h : InRange s)
    (hb : ¬ x.testBit s.toNat = true) : x &&& not64 (bit s) = x := by
  apply Nat.eq_of_testBit_eq
  intro n
  rw [testBit_and_not64_bit _ h]
  by_cases h1 : s.toNat = n
  · subst h1; simp at hb; simp [hb]
  · by_cases h2 : n < 64
    · simp [h1, h2]
    · simp [h1, h2, testBit_eq_false_of_lt hx (not_lt.mp h2)]

theorem removePieceAt_snd (b : Board) (s : Int) : (removePieceAt b s).2 = pieceAt b s := by
  unfold removePieceAt pieceAt
  by_cases t1 : b.wp &&& bit s ≠ 0
  · rw [if_pos t1, if_pos t1]
  rw [if_neg t1, if_neg t1]
  by_cases t2 : b.wn &&& bit s ≠ 0
  · rw [if_pos t2, if_pos t2]
  rw [if_neg t2, if_neg t2]
  by_cases t3 : b.wb &&& bit s ≠ 0
  · rw [if_pos t3, if_pos t3]
  rw [if_neg t3, if_neg t3]
  by_cases t4 : b.wr &&& bit s ≠ 0
  · rw [if_pos t4, if_pos t4]
  rw [if_neg t4, if_neg t4]
  by_cases t5 : b.wq &&& bit s ≠ 0
  · rw [if_pos t5, if_pos t5]
  rw [if_neg t5, if_neg t5]
  by_cases t6 : b.wk &&& bit s ≠ 0
  · rw [if_pos t6, if_pos t6]
  rw [if_neg t6, if_neg t6]
  by_cases t7 : b.bp &&& bit s ≠ 0
  · rw [if_pos t7, if_pos t7]
  rw [if_neg t7, if_neg t7]
  by_cases t8 : b.bn &&& bit s ≠ 0
  · rw [if_pos t8, if_pos t8]
  rw [if_neg t8, if_neg t8]
  by_cases t9 : b.bb &&& bit s ≠ 0
  · rw [if_pos t9, if_pos t9]
  rw [if_neg t9, if_neg t9]
  by_cases t10 : b.br &&& bit s ≠ 0
  · rw [if_pos t10, if_pos t10]
  rw [if_neg t10, if_neg t10]
  by_cases t11 : b.bq &&& bit s ≠ 0
  · rw [if_pos t11, if_pos t11]
  rw [if_neg t11, if_neg t11]
  by_cases t12 : b.bk &&& bit s ≠ 0
  · rw [if_pos t12, if_pos t12]
  rw [if_neg t12, if_neg t12]

theorem removePieceAt_fst {b : Board} (hb : Bounded b) (ha : Agree b) {s : Int} (h : InRange s) :
    (removePieceAt b s).1 = clearSquare b s := by
  obtain ⟨b1, b2, b3, b4, b5, b6, b7, b8, b9, b10, b11, b12⟩ := hb
  have hx := ha s.toNat
  simp only [codeAt] at hx
  unfold removePieceAt
  by_cases t1 : b.wp &&& bit s ≠ 0
  · rw [if_pos t1]
    have u1 := (and_bit_ne_zero_iff _ h).mp t1
    simp [u1] at hx
    ext <;> simp only [clearSquare] <;> first | rfl | (symm; apply and_not64_bit_eq_self (by assumption) h; simp [hx, u1])
  rw [if_neg t1]
  have u1 := (not_congr (and_bit_ne_zero_iff b.wp h)).mp t1
  by_cases t2 : b.wn &&& bit s ≠ 0
  · rw [if_pos t2]
    have u2 := (and_bit_ne_zero_iff _ h).mp t2
    simp [u1, u2] at hx
    ext <;> simp only [clearSquare] <;> first | rfl | (symm; apply and_not64_bit_eq_self (by assumption) h; simp [hx, u1, u2])
  rw [if_neg t2]
  have u2 := (not_congr (and_bit_ne_zero_iff b.wn h)).mp t2
  by_cases t3 : b.wb &&& bit s ≠ 0
  · rw [if_pos t3]
    have u3 := (and_bit_ne_zero_iff _ h).mp t3
    simp [u1, u2, u3] at hx
    ext <;> simp only [clearSquare] <;> first | rfl | (symm; apply and_not64_bit_eq_self (by assumption) h; simp [hx, u1, u2, u3])
  rw [if_neg t3]
  have u3 := (not_congr (and_bit_ne_zero_iff b.wb h)).mp t3
  by_cases t4 : b.wr &&& bit s ≠ 0
  · rw [if_pos t4]
    have u4 := (and_bit_ne_zero_iff _ h).mp t4
    simp [u1, u2, u3, u4] at hx
    ext <;> simp only [clearSquare] <;> first | rfl | (symm; apply and_not64_bit_eq_self (by assumption) h; simp [hx, u1, u2, u3, u4])
  rw [if_neg t4]
  have u4 := (not_congr (and_bit_ne_zero_iff b.wr h)).mp t4
  by_cases t5 : b.wq &&& bit s ≠ 0
  · rw [if_pos t5]
    have u5 := (and_bit_ne_zero_iff _ h).mp t5
    simp [u1, u2, u3, u4, u5] at hx
    ext <;> simp only [clearSquare] <;> first | rfl | (symm; apply and_not64_bit_eq_self (by assumption) h; simp [hx, u1, u2, u3, u4, u5])
  rw [if_neg t5]
  have u5 := (not_congr (and_bit_ne_zero_iff b.wq h)).mp t5
  by_cases t6 : b.wk &&& bit s ≠ 0
  · rw [if_pos t6]
    have u6 := (and_bit_ne_zero_iff _ h).mp t6
    simp [u1, u2, u3, u4, u5, u6] at hx
    ext <;> simp only [clearSquare] <;> first | rfl | (symm; apply and_not64_bit_eq_self (by assumption) h; simp [hx, u1, u2, u3, u4, u5, u6])
  rw [if_neg t6]
  have u6 := (not_congr (and_bit_ne_zero_iff b.wk h)).mp t6
  by_cases t7 : b.bp &&& bit s ≠ 0
  · rw [if_pos t7]
    have u7 := (and_bit_ne_zero_iff _ h).mp t7
    simp [u1, u2, u3, u4, u5, u6, u7] at hx
    ext <;> simp only [clearSquare] <;> first | rfl | (symm; apply and_not64_bit_eq_self (by assumption) h; simp [hx, u1, u2, u3, u4, u5, u6, u7])
  rw [if_neg t7]
  have u7 := (not_congr (and_bit_ne_zero_iff b.bp h)).mp t7
  by_cases t8 : b.bn &&& bit s ≠ 0
  · rw [if_pos t8]
    have u8 := (and_bit_ne_zero_iff _ h).mp t8
    simp [u1, u2, u3, u4, u5, u6, u7, u8] at hx
    ext <;> simp only [clearSquare] <;> first | rfl | (symm; apply and_not64_bit_eq_self (by assumption) h; simp [hx, u1, u2, u3, u4, u5, u6, u7, u8])
  rw [if_neg t8]
  have u8 := (not_congr (and_bit_ne_zero_iff b.bn h)).mp t8
  by_cases t9 : b.bb &&& bit s ≠ 0
  · rw [if_pos t9]
    have u9 := (and_bit_ne_zero_iff _ h).mp t9
    simp [u1, u2, u3, u4, u5, u6, u7, u8, u9] at hx
    ext <;> simp only [clearSquare] <;> first | rfl | (symm; apply and_not64_bit_eq_self (by assumption) h; simp [hx, u1, u2, u3, u4, u5, u6, u7, u8, u9])
  rw [if_neg t9]
  have u9 := (not_congr (and_bit_ne_zero_iff b.bb h)).mp t9
  by_cases t10 : b.br &&& bit s ≠ 0
  · rw [if_pos t10]
    have u10 := (and_bit_ne_zero_iff _ h).mp t10
    simp [u1, u2, u3, u4, u5, u6, u7, u8, u9, u10] at hx
    ext <;> simp only [clearSquare] <;> first | rfl | (symm; apply and_not64_bit_eq_self (by assumption) h; simp [hx, u1, u2, u3, u4, u5, u6, u7, u8, u9, u10])
  rw [if_neg t10]
  have u10 := (not_congr (and_bit_ne_zero_iff b.br h)).mp t10
  by_cases t11 : b.bq &&& bit s ≠ 0
  · rw [if_pos t11]
    have u11 := (and_bit_ne_zero_iff _ h).mp t11
    simp [u1, u2, u3, u4, u5, u6, u7, u8, u9, u10, u11] at hx
    ext <;> simp only [clearSquare] <;> first | rfl | (symm; apply and_not64_bit_eq_self (by assumption) h; simp [hx, u1, u2, u3, u4, u5, u6, u7, u8, u9, u10, u11])
  rw [if_neg t11]
  have u11 := (not_congr (and_bit_ne_zero_iff b.bq h)).mp t11
  by_cases t12 : b.bk &&& bit s ≠ 0
  · rw [if_pos t12]
    have u12 := (and_bit_ne_zero_iff _ h).mp t12
    simp [u1, u2, u3, u4, u5, u6, u7, u8, u9, u10, u11, u12] at hx
    ext <;> simp only [clearSquare] <;> first | rfl | (symm; apply and_not64_bit_eq_self (by assumption) h; simp [hx, u1, u2, u3, u4, u5, u6, u7, u8, u9, u10, u11, u12])
  rw [if_neg t12]
  have u12 := (not_congr (and_bit_ne_zero_iff b.bk h)).mp t12
  ext <;> simp only [clearSquare] <;> first | rfl | (symm; apply and_not64_bit_eq_self (by assumption) h; assumption)

theorem codeAt_congr {b b' : Board} (h : pieces b = pieces b') (n : Nat) :
    codeAt b n = codeAt b' n := by
  simp only [pieces, List.cons.injEq, and_true] at h
  obtain ⟨h1, h2, h3, h4, h5, h6, h7, h8, h9, h10, h11, h12⟩ := h
  simp only [codeAt, h1, h2, h3, h4, h5, h6, h7, h8, h9, h10, h11, h12]

theorem wf_congr {b b' : Board} (h : pieces b = pieces b') (hw : WF b) : WF b' := by
  have hc := codeAt_congr h
  simp only [pieces, List.cons.injEq, and_true] at h
  obtain ⟨h1, h2, h3, h4, h5, h6, h7, h8, h9, h10, h11, h12⟩ := h
  obtain ⟨hb, ha⟩ := hw
  constructor
  · unfold Bounded at hb ⊢
    rw [← h1, ← h2, ← h3, ← h4, ← h5, ← h6, ← h7, ← h8, ← h9, ← h10, ← h11, ← h12]
    exact hb
  · intro n
    have := ha n
    rw [← hc n, ← h1, ← h2, ← h3, ← h4, ← h5, ← h6, ← h7, ← h8, ← h9, ← h10, ← h11, ← h12]
    exact this

theorem pieces_ext {b b' : Board} (hw : WF b) (hw' : WF b')
    (h : ∀ n, n < 64 → codeAt b n = codeAt b' n) : pieces b = pieces b' := by
  obtain ⟨⟨b1, b2, b3, b4, b5, b6, b7, b8, b9, b10, b11, b12⟩, ha⟩ := hw
  obtain ⟨⟨c1, c2, c3, c4, c5, c6, c7, c8, c9, c10, c11, c12⟩, ha'⟩ := hw'
  have key : ∀ (x y : Nat) (c : Int), x < 2 ^ 64 → y < 2 ^ 64 →
      (∀ n, x.testBit n = decide (codeAt b n = c)) →
      (∀ n, y.testBit n = decide (codeAt b' n = c)) → x = y := by
    intro x y c hx hy h1 h2
    apply Nat.eq_of_testBit_eq
    intro n
    by_cases hn : n < 64
    · rw [h1 n, h2 n, h n hn]
    · rw [testBit_eq_false_of_lt hx (not_lt.mp hn), testBit_eq_false_of_lt hy (not_lt.mp hn)]
  simp only [pieces, List.cons.injEq, and_true]
  exact ⟨key _ _ 1 b1 c1 (fun n => (ha n).1) (fun n => (ha' n).1),
    key _ _ 2 b2 c2 (fun n => (ha n).2.1) (fun n => (ha' n).2.1),
    key _ _ 3 b3 c3 (fun n => (ha n).2.2.1) (fun n => (ha' n).2.2.1),
    key _ _ 4 b4 c4 (fun n => (ha n).2.2.2.1) (fun n => (ha' n).2.2.2.1),
    key _ _ 5 b5 c5 (fun n => (ha n).2.2.2.2.1) (fun n => (ha' n).2.2.2.2.1),
    key _ _ 6 b6 c6 (fun n => (ha n).2.2.2.2.2.1) (fun n => (ha' n).2.2.2.2.2.1),
    key _ _ 9 b7 c7 (fun n => (ha n).2.2.2.2.2.2.1) (fun n => (ha' n).2.2.2.2.2.2.1),
    key _ _ 10 b8 c8 (fun n => (ha n).2.2.2.2.2.2.2.1) (fun n => (ha' n).2.2.2.2.2.2.2.1),
    key _ _ 11 b9 c9 (fun n => (ha n).2.2.2.2.2.2.2.2.1) (fun n => (ha' n).2.2.2.2.2.2.2.2.1),
    key _ _ 12 b10 c10 (fun n => (ha n).2.2.2.2.2.2.2.2.2.1) (fun n => (ha' n).2.2.2.2.2.2.2.2.2.1),
    key _ _ 13 b11 c11 (fun n => (ha n).2.2.2.2.2.2.2.2.2.2.1) (fun n => (ha' n).2.2.2.2.2.2.2.2.2.2.1),
    key _ _ 14 b12 c12 (fun n => (ha n).2.2.2.2.2.2.2.2.2.2.2) (fun n => (ha' n).2.2.2.2.2.2.2.2.2.2.2)⟩

theorem wf_clearSquare {b : Board} (hw : WF b) {s : Int} (h : InRange s) : WF (clearSquare b s) :=
  ⟨bounded_clearSquare hw.1 s, agree_clearSquare hw.2 h⟩

theorem wf_setPiece {b : Board} (hw : WF b) {s : Int} (h : InRange s) {c : Int}
    (hc : ValidCode c) : WF (setPiece b s c) :=
  ⟨bounded_setPiece hw.1 s c, agree_setPiece hw.2 h hc⟩

theorem wf_placePieceAt {b : Board} (hw : WF b) {s : Int} (h : InRange s) {c : Int}
    (hc : c = 0 ∨ ValidCode c) : WF (placePieceAt b s c) := by
  unfold placePieceAt
  rcases hc with rfl | hc
  · simpa using hw
  · split_ifs
    · exact hw
    · exact wf_setPiece hw h hc

theorem codeAt_placePieceAt (b : Board) {s : Int} (h : InRange s) {c : Int}
    (hc : c = 0 ∨ ValidCode c) (n : Nat) (hn : n < 64) :
    codeAt (placePieceAt b s c) n = if s.toNat = n ∧ c ≠ 0 then c else codeAt b n := by
  unfold placePieceAt
  rcases hc with rfl | hc
  · simp
  · by_cases h0 : c = 0
    · simp [h0]
    · rw [if_neg h0, codeAt_setPiece b h hc n hn]
      simp [h0]

theorem codeAt_ge (b : Board) (hw : WF b) {n : Nat} (hn : 64 ≤ n) : codeAt b n = 0 := by
  obtain ⟨⟨b1, b2, b3, b4, b5, b6, b7, b8, b9, b10, b11, b12⟩, -⟩ := hw
  simp [codeAt, testBit_eq_false_of_lt b1 hn, testBit_eq_false_of_lt b2 hn,
    testBit_eq_false_of_lt b3 hn, testBit_eq_false_of_lt b4 hn, testBit_eq_false_of_lt b5 hn,
    testBit_eq_false_of_lt b6 hn, testBit_eq_false_of_lt b7 hn, testBit_eq_false_of_lt b8 hn,
    testBit_eq_false_of_lt b9 hn, testBit_eq_false_of_lt b10 hn, testBit_eq_false_of_lt b11 hn,
    testBit_eq_false_of_lt b12 hn]

theorem clearSquare_pieces_of_empty {b : Board} (hw : WF b) {s : Int} (h : InRange s)
    (he : codeAt b s.toNat = 0) : pieces (clearSquare b s) = pieces b := by
  apply pieces_ext (wf_clearSquare hw h) hw
  intro n hn
  rw [codeAt_clearSquare b h]
  by_cases h1 : s.toNat = n
  · subst h1; simp [he]
  · simp [h1, hn]

theorem updateOccupancies_eq_self {b : Board} (h : OccupanciesConsistent b) :
    updateOccupancies b = b := by
  obtain ⟨h1, h2, h3⟩ := h
  unfold updateOccupancies
  ext <;> simp only [] <;> first | rfl | (rw [h3, h1, h2]) | (rw [h1]) | (rw [h2])

theorem pieces_updateOccupancies (b : Board) : pieces (updateOccupancies b) = pieces b := rfl

theorem pieces_revokeBoth (b : Board) (c : Int) : pieces (revokeBoth b c) = pieces b := by
  unfold revokeBoth; split_ifs <;> rfl

theorem pieces_revokeCorner (b : Board) (s : Int) : pieces (revokeCorner b s) = pieces b := by
  unfold revokeCorner; simp only []; split_ifs <;> rfl

theorem pieces_updateCastlingRights (b : Board) (mv : Move) (c d : Int) :
    pieces (updateCastlingRights b mv c d) = pieces b := by
  unfold updateCastlingRights; simp only []
  split_ifs <;> simp only [pieces_revokeBoth, pieces_revokeCorner]

theorem pieces_updateEnPassantSquare (b : Board) (mv : Move) (c : Int) :
    pieces (updateEnPassantSquare b mv c) = pieces b := by
  unfold updateEnPassantSquare; split_ifs <;> rfl

theorem pieces_finalizeMove (b : Board) : pieces (finalizeMove b) = pieces b := rfl

theorem clearSquare_of_empty {b : Board} (hw : WF b) {s : Int} (h : InRange s)
    (he : codeAt b s.toNat = 0) : clearSquare b s = b := by
  have hp := clearSquare_pieces_of_empty hw h he
  simp only [pieces, List.cons.injEq, and_true] at hp
  obtain ⟨h1, h2, h3, h4, h5, h6, h7, h8, h9, h10, h11, h12⟩ := hp
  ext <;> first | assumption | rfl

theorem codeAt_ne_zero_valid (b : Board) (n : Nat) (h : codeAt b n ≠ 0) : ValidCode (codeAt b n) := by
  rcases codeAt_valid b n with h0 | hv
  · exact absurd h0 h
  · exact hv

theorem applyMovePieces_eq {b : Board} (hw : WF b) {mv : Move} (hfrom : InRange mv.from_)
    (hto : InRange mv.to_) (hcs : InRange (captureSquare b mv)) :
    applyMovePieces b mv =
      placePieceAt (clearSquare (clearSquare b (captureSquare b mv)) mv.from_) mv.to_
        (placedCode b mv) := by
  unfold applyMovePieces captureSquare placedCode
  simp only []
  unfold captureSquare at hcs
  by_cases hep : isEnPassantCapture b mv
  · simp only [hep, if_true, not_true_eq_false, false_and, if_false] at hcs ⊢
    rw [removePieceAt_fst hw.1 hw.2 hcs]
    rw [removePieceAt_fst (wf_clearSquare hw hcs).1 (wf_clearSquare hw hcs).2 hfrom]
    split_ifs <;> rfl
  · simp only [hep, if_false, not_false_eq_true, true_and] at hcs ⊢
    by_cases hcap : findPieceCodeAt b mv.to_ = 0
    · simp only [hcap, ne_eq, not_true_eq_false, if_false]
      have he : codeAt b mv.to_.toNat = 0 := by
        rw [← pieceAt_eq_codeAt b hto]; exact hcap
      rw [clearSquare_of_empty hw hto he]
      rw [removePieceAt_fst hw.1 hw.2 hfrom]
      split_ifs <;> rfl
    · simp only [hcap, ne_eq, not_false_eq_true, if_true]
      rw [removePieceAt_fst hw.1 hw.2 hto]
      rw [removePieceAt_fst (wf_clearSquare hw hto).1 (wf_clearSquare hw hto).2 hfrom]
      split_ifs <;> rfl

theorem pieces_setMover (b : Board) (m : Int) : pieces { b with mover := m } = pieces b := rfl

theorem clearSquare_setMover (b : Board) (m : Int) (s : Int) :
    clearSquare { b with mover := m } s = { clearSquare b s with mover := m } := rfl

theorem orPiece_setMover (b : Board) (m : Int) (s c : Int) :
    orPiece { b with mover := m } s c = { orPiece b s c with mover := m } := by
  unfold orPiece
  split_ifs <;> rfl

theorem placePieceAt_setMover (b : Board) (m : Int) (s c : Int) :
    placePieceAt { b with mover := m } s c = { placePieceAt b s c with mover := m } := by
  unfold placePieceAt setPiece
  split_ifs
  · rfl
  · rw [clearSquare_setMover, orPiece_setMover]

theorem unmakeMove_eq (b : Board) (u : Undo) :
    unmakeMove b u =
      updateOccupancies
        { unmakePieces b u with
          mover := u.prevMover
          shortBlack := u.prevShortBlack
          longBlack := u.prevLongBlack
          shortWhite := u.prevShortWhite
          longWhite := u.prevLongWhite
          enPassantSquare := u.prevEnPassant } := by
  unfold unmakeMove unmakePieces
  simp only [clearSquare_setMover, placePieceAt_setMover]
  split_ifs <;> simp only [clearSquare_setMover, placePieceAt_setMover]

theorem wf_unmakePieces {b : Board} (hw : WF b) {u : Undo} (hf : InRange u.from_)
    (ht : InRange u.to_) (hm : u.movedPieceCode = 0 ∨ ValidCode u.movedPieceCode)
    (hc : u.capturedPieceCode = 0 ∨ ValidCode u.capturedPieceCode)
    (hcs : InRange u.capturedSquare)
    (hr : u.rookFromSq ≠ -1 → InRange u.rookFromSq ∧ InRange u.rookToSq)
    (hrc : u.rookPieceCode = 0 ∨ ValidCode u.rookPieceCode) : WF (unmakePieces b u) := by
  unfold unmakePieces
  simp only []
  have w4 := wf_placePieceAt (wf_clearSquare (wf_clearSquare hw hf) ht) hf hm
  have w5 : WF (if u.capturedPieceCode ≠ 0 ∧ u.capturedSquare ≠ -1 then
      placePieceAt (placePieceAt (clearSquare (clearSquare b u.from_) u.to_) u.from_ u.movedPieceCode)
        u.capturedSquare u.capturedPieceCode
    else placePieceAt (clearSquare (clearSquare b u.from_) u.to_) u.from_ u.movedPieceCode) := by
    split_ifs
    · exact wf_placePieceAt w4 hcs hc
    · exact w4
  by_cases h1 : u.rookFromSq ≠ -1
  · rw [if_pos h1]; exact wf_placePieceAt (wf_clearSquare w5 (hr h1).2) (hr h1).1 hrc
  · rw [if_neg h1]; exact w5

theorem codeAt_unmakePieces (b : Board) {u : Undo} (hf : InRange u.from_)
    (ht : InRange u.to_) (hm : u.movedPieceCode = 0 ∨ ValidCode u.movedPieceCode)
    (hc : u.capturedPieceCode = 0 ∨ ValidCode u.capturedPieceCode)
    (hcs : InRange u.capturedSquare)
    (hr : u.rookFromSq ≠ -1 → InRange u.rookFromSq ∧ InRange u.rookToSq)
    (hrc : u.rookPieceCode = 0 ∨ ValidCode u.rookPieceCode) (n : Nat) (hn : n < 64) :
    codeAt (unmakePieces b u) n =
      if u.rookFromSq ≠ -1 ∧ u.rookFromSq.toNat = n ∧ u.rookPieceCode ≠ 0 then u.rookPieceCode
      else if u.rookFromSq ≠ -1 ∧ u.rookToSq.toNat = n then 0
      else if u.capturedPieceCode ≠ 0 ∧ u.capturedSquare.toNat = n then u.capturedPieceCode
      else if u.from_.toNat = n ∧ u.movedPieceCode ≠ 0 then u.movedPieceCode
      else if u.to_.toNat = n ∨ u.from_.toNat = n then 0
      else codeAt b n := by
  have hcs1 : u.capturedSquare ≠ -1 := by have := hcs.1; omega
  unfold unmakePieces
  simp only []
  by_cases h1 : u.rookFromSq ≠ -1
  · rw [if_pos h1, codeAt_placePieceAt _ (hr h1).1 hrc n hn, codeAt_clearSquare _ (hr h1).2]
    by_cases h2 : u.capturedPieceCode ≠ 0
    · have h2' : u.capturedPieceCode ≠ 0 ∧ u.capturedSquare ≠ -1 := ⟨h2, hcs1⟩
      rw [if_pos h2', codeAt_placePieceAt _ hcs hc n hn, codeAt_placePieceAt _ hf hm n hn,
        codeAt_clearSquare _ ht, codeAt_clearSquare _ hf]
      simp only [h1, h2, hn, ne_eq, not_false_eq_true, true_and, and_true]
      split_ifs <;> simp_all
    · have h2' : ¬ (u.capturedPieceCode ≠ 0 ∧ u.capturedSquare ≠ -1) := fun h => h2 h.1
      rw [if_neg h2', codeAt_placePieceAt _ hf hm n hn,
        codeAt_clearSquare _ ht, codeAt_clearSquare _ hf]
      simp only [h1, h2, hn, ne_eq, not_false_eq_true, true_and, and_true, false_and, if_false]
      split_ifs <;> simp_all
  · rw [if_neg h1]
    by_cases h2 : u.capturedPieceCode ≠ 0
    · have h2' : u.capturedPieceCode ≠ 0 ∧ u.capturedSquare ≠ -1 := ⟨h2, hcs1⟩
      rw [if_pos h2', codeAt_placePieceAt _ hcs hc n hn, codeAt_placePieceAt _ hf hm n hn,
        codeAt_clearSquare _ ht, codeAt_clearSquare _ hf]
      simp only [h1, h2, hn, ne_eq, not_false_eq_true, true_and, and_true, false_and, if_false]
      split_ifs <;> simp_all
    · have h2' : ¬ (u.capturedPieceCode ≠ 0 ∧ u.capturedSquare ≠ -1) := fun h => h2 h.1
      rw [if_neg h2', codeAt_placePieceAt _ hf hm n hn,
        codeAt_clearSquare _ ht, codeAt_clearSquare _ hf]
      simp only [h1, h2, hn, ne_eq, not_false_eq_true, true_and, and_true, false_and, if_false]
      split_ifs <;> simp_all

theorem undo_from (b : Board) (mv : Move) (b4 : Board) : (applyMoveUndo b mv b4).from_ = mv.from_ := by
  unfold applyMoveUndo saveUndo; simp only []; split_ifs <;> rfl

theorem undo_to (b : Board) (mv : Move) (b4 : Board) : (applyMoveUndo b mv b4).to_ = mv.to_ := by
  unfold applyMoveUndo saveUndo; simp only []; split_ifs <;> rfl

theorem undo_moved (b : Board) (mv : Move) (b4 : Board) :
    (applyMoveUndo b mv b4).movedPieceCode = findPieceCodeAt b mv.from_ := by
  unfold applyMoveUndo saveUndo; simp only []; split_ifs <;> rfl

theorem undo_capturedSquare (b : Board) (mv : Move) (b4 : Board) :
    (applyMoveUndo b mv b4).capturedSquare = captureSquare b mv := by
  unfold applyMoveUndo saveUndo captureSquare; simp only []; split_ifs <;> rfl

theorem undo_captured (b : Board) (mv : Move) (b4 : Board) :
    (applyMoveUndo b mv b4).capturedPieceCode = findPieceCodeAt b (captureSquare b mv) := by
  unfold applyMoveUndo saveUndo captureSquare; simp only []; split_ifs <;> rfl

theorem undo_rookFrom (b : Board) (mv : Move) (b4 : Board) :
    (applyMoveUndo b mv b4).rookFromSq =
      if isKingTwoFiles (findPieceCodeAt b mv.from_) mv then castleRookFrom mv else -1 := by
  unfold applyMoveUndo saveUndo; simp only []; split_ifs <;> rfl

theorem undo_rookTo (b : Board) (mv : Move) (b4 : Board) :
    (applyMoveUndo b mv b4).rookToSq =
      if isKingTwoFiles (findPieceCodeAt b mv.from_) mv then castleRookTo mv else -1 := by
  unfold applyMoveUndo saveUndo; simp only []; split_ifs <;> rfl

theorem undo_rookCode (b : Board) (mv : Move) (b4 : Board) :
    (applyMoveUndo b mv b4).rookPieceCode =
      if isKingTwoFiles (findPieceCodeAt b mv.from_) mv then findPieceCodeAt b4 (castleRookFrom mv)
      else 0 := by
  unfold applyMoveUndo saveUndo; simp only []; split_ifs <;> rfl

theorem undo_prevMover (b : Board) (mv : Move) (b4 : Board) :
    (applyMoveUndo b mv b4).prevMover = b.mover := by
  unfold applyMoveUndo saveUndo; simp only []; split_ifs <;> rfl

theorem undo_prevEnPassant (b : Board) (mv : Move) (b4 : Board) :
    (applyMoveUndo b mv b4).prevEnPassant = b.enPassantSquare := by
  unfold applyMoveUndo saveUndo; simp only []; split_ifs <;> rfl

theorem undo_prevShortWhite (b : Board) (mv : Move) (b4 : Board) :
    (applyMoveUndo b mv b4).prevShortWhite = b.shortWhite := by
  unfold applyMoveUndo saveUndo; simp only []; split_ifs <;> rfl

theorem undo_prevLongWhite (b : Board) (mv : Move) (b4 : Board) :
    (applyMoveUndo b mv b4).prevLongWhite = b.longWhite := by
  unfold applyMoveUndo saveUndo; simp only []; split_ifs <;> rfl

theorem undo_prevShortBlack (b : Board) (mv : Move) (b4 : Board) :
    (applyMoveUndo b mv b4).prevShortBlack = b.shortBlack := by
  unfold applyMoveUndo saveUndo; simp only []; split_ifs <;> rfl

theorem undo_prevLongBlack (b : Board) (mv : Move) (b4 : Board) :
    (applyMoveUndo b mv b4).prevLongBlack = b.longBlack := by
  unfold applyMoveUndo saveUndo; simp only []; split_ifs <;> rfl

theorem pieceAt_valid (b : Board) {s : Int} (h : InRange s) :
    pieceAt b s = 0 ∨ ValidCode (pieceAt b s) := by
  rw [pieceAt_eq_codeAt b h]; exact codeAt_valid b _

theorem wf_applyMovePieces {b : Board} (hw : WF b) {mv : Move} (hfrom : InRange mv.from_)
    (hto : InRange mv.to_) (hcs : InRange (captureSquare b mv)) (hp : ValidCode (placedCode b mv)) :
    WF (applyMovePieces b mv) := by
  rw [applyMovePieces_eq hw hfrom hto hcs]
  exact wf_placePieceAt (wf_clearSquare (wf_clearSquare hw hcs) hfrom) hto (Or.inr hp)

theorem validCode_ne_zero {c : Int} (h : ValidCode c) : c ≠ 0 := by
  unfold ValidCode at h; omega

theorem codeAt_applyMovePieces {b : Board} (hw : WF b) {mv : Move} (hfrom : InRange mv.from_)
    (hto : InRange mv.to_) (hcs : InRange (captureSquare b mv)) (hp : ValidCode (placedCode b mv))
    (n : Nat) (hn : n < 64) :
    codeAt (applyMovePieces b mv) n =
      if mv.to_.toNat = n then placedCode b mv
      else if mv.from_.toNat = n then 0
      else if (captureSquare b mv).toNat = n then 0
      else codeAt b n := by
  rw [applyMovePieces_eq hw hfrom hto hcs, codeAt_placePieceAt _ hto (Or.inr hp) n hn,
    codeAt_clearSquare _ hfrom, codeAt_clearSquare _ hcs]
  have := validCode_ne_zero hp
  split_ifs <;> simp_all

theorem applyCastlingRook_pieces {b4 : Board} (hw : WF b4) (mv : Move) (code : Int)
    (hrf : InRange (castleRookFrom mv)) :
    pieces (applyCastlingRook b4 mv code) =
      pieces (if isKingTwoFiles code mv then
        placePieceAt (clearSquare b4 (castleRookFrom mv)) (castleRookTo mv)
          (findPieceCodeAt b4 (castleRookFrom mv))
      else b4) := by
  unfold applyCastlingRook
  by_cases hc : isKingTwoFiles code mv
  · rw [if_pos hc, if_pos hc]
    simp only [pieces_revokeBoth]
    rw [removePieceAt_snd, removePieceAt_fst hw.1 hw.2 hrf]
    unfold findPieceCodeAt
    by_cases h0 : pieceAt b4 (castleRookFrom mv) = 0
    · rw [if_neg (by simpa using h0), h0]
      rfl
    · rw [if_pos h0]
  · rw [if_neg hc, if_neg hc]

theorem roundtrip_core_plain (c : Nat → Int) (f t cs n : Nat) (pc : Int)
    (d1 : f ≠ t) (e1 : cs ≠ f) (e2 : cs = t ∨ c t = 0) (hcode : c f ≠ 0) :
    (if c cs ≠ 0 ∧ cs = n then c cs
      else if f = n ∧ c f ≠ 0 then c f
      else if t = n ∨ f = n then 0
      else if t = n then pc
      else if f = n then 0
      else if cs = n then 0 else c n) = c n := by
  by_cases h1 : cs = n
  · subst h1
    by_cases h2 : c cs = 0
    · rcases e2 with e | e
      · subst e; simp [h2, d1, hcode]
      · by_cases h3 : t = cs
        · subst h3; simp [h2, d1]
        · simp [h2, e1.symm, h3]
    · simp [h2]
  · by_cases h2 : f = n
    · subst h2; simp [h1, hcode]
    · by_cases h3 : t = n
      · subst h3
        rcases e2 with e | e
        · exact absurd e h1
        · simp [h1, h2, e]
      · simp [h1, h2, h3]

theorem roundtrip_core_castle (c : Nat → Int) (f t rf rt n : Nat) (pc : Int)
    (d1 : f ≠ t) (c1 : rf ≠ f) (c2 : rf ≠ t) (c3 : rt ≠ f) (c4 : rt ≠ t) (c5 : rf ≠ rt)
    (c6 : c rt = 0) (hcode : c f ≠ 0) :
    (if rf = n ∧ c rf ≠ 0 then c rf
      else if rt = n then 0
      else if c t ≠ 0 ∧ t = n then c t
      else if f = n ∧ c f ≠ 0 then c f
      else if t = n ∨ f = n then 0
      else if rt = n ∧ c rf ≠ 0 then c rf
      else if rf = n then 0
      else if t = n then pc
      else if f = n then 0
      else if t = n then 0 else c n) = c n := by
  by_cases h1 : rf = n
  · subst h1
    by_cases h2 : c rf = 0
    · simp [h2, c5.symm, c2.symm, c1.symm]
    · simp [h2]
  · by_cases h2 : rt = n
    · subst h2; simp [h1, c6]
    · by_cases h3 : t = n
      · subst h3
        by_cases h4 : c t = 0
        · simp [h1, h2, h4, d1]
        · simp [h1, h2, h4]
      · by_cases h4 : f = n
        · subst h4; simp [h1, h2, h3, hcode]
        · simp [h1, h2, h3, h4]

theorem wf_applyCastlingRook {b4 : Board} (hw : WF b4) (mv : Move) (code : Int)
    (hrf : InRange (castleRookFrom mv)) (hrt : InRange (castleRookTo mv)) :
    WF (applyCastlingRook b4 mv code) := by
  apply wf_congr (applyCastlingRook_pieces hw mv code hrf).symm
  split_ifs
  · exact wf_placePieceAt (wf_clearSquare hw hrf) hrt (pieceAt_valid b4 hrf)
  · exact hw

theorem codeAt_applyCastlingRook {b4 : Board} (hw : WF b4) (mv : Move) (code : Int)
    (hrf : InRange (castleRookFrom mv)) (hrt : InRange (castleRookTo mv)) (n : Nat) (hn : n < 64) :
    codeAt (applyCastlingRook b4 mv code) n =
      if isKingTwoFiles code mv then
        if (castleRookTo mv).toNat = n ∧ codeAt b4 (castleRookFrom mv).toNat ≠ 0 then
          codeAt b4 (castleRookFrom mv).toNat
        else if (castleRookFrom mv).toNat = n then 0
        else codeAt b4 n
      else codeAt b4 n := by
  rw [codeAt_congr (applyCastlingRook_pieces hw mv code hrf)]
  by_cases hc : isKingTwoFiles code mv
  · rw [if_pos hc, if_pos hc]
    unfold findPieceCodeAt
    rw [codeAt_placePieceAt _ hrt (pieceAt_valid b4 hrf) n hn, codeAt_clearSquare _ hrf,
      pieceAt_eq_codeAt b4 hrf]
    split_ifs <;> simp_all
  · rw [if_neg hc, if_neg hc]

theorem tdiv8 {s : Int} (h : InRange s) : Int.tdiv s 8 = s / 8 :=
  Int.tdiv_eq_ediv h.1 (by norm_num)

theorem tmod8 {s : Int} (h : InRange s) : Int.tmod s 8 = s % 8 :=
  Int.tmod_eq_emod h.1 (by norm_num)

theorem castleRookFrom_inRange {mv : Move} (h : InRange mv.to_) : InRange (castleRookFrom mv) := by
  unfold castleRookFrom
  rw [tdiv8 h]
  have := h.1; have := h.2
  unfold InRange
  split_ifs <;> omega

theorem castleRookTo_inRange {mv : Move} (h : InRange mv.to_) : InRange (castleRookTo mv) := by
  unfold castleRookTo
  rw [tdiv8 h]
  have := h.1; have := h.2
  unfold InRange
  split_ifs <;> omega

theorem toNat_ne {s t : Int} (hs : InRange s) (ht : InRange t) (h : s ≠ t) : s.toNat ≠ t.toNat := by
  have := hs.1; have := ht.1
  omega

theorem toNat_lt {s : Int} (hs : InRange s) : s.toNat < 64 := by
  have := hs.1; have := hs.2
  omega

theorem unmake_apply {b : Board} (hw : WF b) (ho : OccupanciesConsistent b) {mv : Move}
    (hr : Reversible b mv) :
    unmakeMove (applyMove b mv).2.1 (applyMove b mv).2.2 = b := by
  obtain ⟨hfrom, hto, hne, hcode, hplaced, hep, hcastle⟩ := hr
  have hcs : InRange (captureSquare b mv) := by
    by_cases h : isEnPassantCapture b mv
    · exact (hep h).1
    · unfold captureSquare; rw [if_neg h]; exact hto
  have hrf := castleRookFrom_inRange hto
  have hrt := castleRookTo_inRange hto
  have hb4 := wf_applyMovePieces hw hfrom hto hcs hplaced
  have hb5 := wf_applyCastlingRook hb4 mv (findPieceCodeAt b mv.from_) hrf hrt
  unfold applyMove
  rw [if_neg hcode]
  simp only []
  rw [unmakeMove_eq]
  have hF : pieces (finalizeMove (updateEnPassantSquare (updateCastlingRights
      (applyCastlingRook (applyMovePieces b mv) mv (findPieceCodeAt b mv.from_)) mv
      (findPieceCodeAt b mv.from_)
      (applyMoveUndo b mv (applyMovePieces b mv)).capturedPieceCode) mv
      (findPieceCodeAt b mv.from_))) =
      pieces (applyCastlingRook (applyMovePieces b mv) mv (findPieceCodeAt b mv.from_)) := by
    rw [pieces_finalizeMove, pieces_updateEnPassantSquare, pieces_updateCastlingRights]
  have hwF := wf_congr hF.symm hb5
  generalize hFdef : finalizeMove (updateEnPassantSquare (updateCastlingRights
      (applyCastlingRook (applyMovePieces b mv) mv (findPieceCodeAt b mv.from_)) mv
      (findPieceCodeAt b mv.from_)
      (applyMoveUndo b mv (applyMovePieces b mv)).capturedPieceCode) mv
      (findPieceCodeAt b mv.from_)) = F at hF hwF ⊢
  generalize hu : applyMoveUndo b mv (applyMovePieces b mv) = u
  have u1 : u.from_ = mv.from_ := by rw [← hu]; exact undo_from _ _ _
  have u2 : u.to_ = mv.to_ := by rw [← hu]; exact undo_to _ _ _
  have u3 : u.movedPieceCode = findPieceCodeAt b mv.from_ := by rw [← hu]; exact undo_moved _ _ _
  have u4 : u.capturedSquare = captureSquare b mv := by rw [← hu]; exact undo_capturedSquare _ _ _
  have u5 : u.capturedPieceCode = findPieceCodeAt b (captureSquare b mv) := by
    rw [← hu]; exact undo_captured _ _ _
  have u6 := undo_rookFrom b mv (applyMovePieces b mv)
  have u7 := undo_rookTo b mv (applyMovePieces b mv)
  have u8 := undo_rookCode b mv (applyMovePieces b mv)
  have u9 := undo_prevMover b mv (applyMovePieces b mv)
  have u10 := undo_prevEnPassant b mv (applyMovePieces b mv)
  have u11 := undo_prevShortWhite b mv (applyMovePieces b mv)
  have u12 := undo_prevLongWhite b mv (applyMovePieces b mv)
  have u13 := undo_prevShortBlack b mv (applyMovePieces b mv)
  have u14 := undo_prevLongBlack b mv (applyMovePieces b mv)
  rw [hu] at u6 u7 u8 u9 u10 u11 u12 u13 u14
  have hvm : u.movedPieceCode = 0 ∨ ValidCode u.movedPieceCode := by
    rw [u3]; exact pieceAt_valid b hfrom
  have hvc : u.capturedPieceCode = 0 ∨ ValidCode u.capturedPieceCode := by
    rw [u5]; exact pieceAt_valid b hcs
  have hvr : u.rookPieceCode = 0 ∨ ValidCode u.rookPieceCode := by
    rw [u8]; split_ifs
    · exact pieceAt_valid _ hrf
    · exact Or.inl rfl
  have hrr : u.rookFromSq ≠ -1 → InRange u.rookFromSq ∧ InRange u.rookToSq := by
    intro h
    rw [u6, u7]
    rw [u6] at h
    split_ifs at h ⊢
    · exact ⟨hrf, hrt⟩
    · exact absurd rfl h
  have hUf : InRange u.from_ := by rw [u1]; exact hfrom
  have hUt : InRange u.to_ := by rw [u2]; exact hto
  have hUc : InRange u.capturedSquare := by rw [u4]; exact hcs
  have hwU := wf_unmakePieces hwF hUf hUt hvm hvc hUc hrr hvr
  have hp : pieces (unmakePieces F u) = pieces b := by
    apply pieces_ext hwU hw
    intro n hn
    rw [codeAt_unmakePieces F hUf hUt hvm hvc hUc hrr hvr n hn, codeAt_congr hF n,
      codeAt_applyCastlingRook hb4 mv _ hrf hrt n hn,
      codeAt_applyMovePieces hw hfrom hto hcs hplaced n hn,
      codeAt_applyMovePieces hw hfrom hto hcs hplaced _ (toNat_lt hrf)]
    rw [u1, u2, u3, u4, u5, u6, u7, u8]
    unfold findPieceCodeAt at *
    rw [pieceAt_eq_codeAt _ hrf, codeAt_applyMovePieces hw hfrom hto hcs hplaced _ (toNat_lt hrf),
      pieceAt_eq_codeAt b hfrom, pieceAt_eq_codeAt b hcs]
    rw [pieceAt_eq_codeAt b hfrom] at hcode
    have d1 := toNat_ne hfrom hto hne
    have e1 : (captureSquare b mv).toNat ≠ mv.from_.toNat := by
      by_cases h : isEnPassantCapture b mv
      · exact toNat_ne hcs hfrom (hep h).2
      · unfold captureSquare; rw [if_neg h]; exact fun h' => d1 h'.symm
    have e2 : (captureSquare b mv).toNat = mv.to_.toNat ∨ codeAt b mv.to_.toNat = 0 := by
      by_cases h : isEnPassantCapture b mv
      · right
        rw [← pieceAt_eq_codeAt b hto]
        exact h.2.2.1
      · left; unfold captureSquare; rw [if_neg h]
    by_cases hk : isKingTwoFiles (codeAt b mv.from_.toNat) mv
    · obtain ⟨-, -, c1, c2, c3, c4, c5, c6⟩ := hcastle (by rw [pieceAt_eq_codeAt b hfrom]; exact hk)
      have c1' := toNat_ne hrf hfrom c1
      have c2' := toNat_ne hrf hto c2
      have c3' := toNat_ne hrt hfrom c3
      have c4' := toNat_ne hrt hto c4
      have c5' := toNat_ne hrf hrt c5
      rw [pieceAt_eq_codeAt b hrt] at c6
      have hnep : ¬ isEnPassantCapture b mv := by
        intro h
        have h1 := h.1
        have h2 := hk.1
        unfold findPieceCodeAt at h1
        rw [pieceAt_eq_codeAt b hfrom] at h1
        rw [h1] at h2
        exact absurd h2 (by decide)
      have e3 : (captureSquare b mv).toNat = mv.to_.toNat := by
        unfold captureSquare; rw [if_neg hnep]
      have hm1 : (castleRookFrom mv) ≠ -1 := by have := hrf.1; omega
      simp only [hk, if_true, hm1, ne_eq, not_false_eq_true, true_and, e3, Ne.symm c1', Ne.symm c2',
        if_false]
      exact roundtrip_core_castle (codeAt b) _ _ _ _ n (placedCode b mv) d1 c1' c2' c3' c4' c5' c6 hcode
    · simp only [hk, if_false, ne_eq, not_true_eq_false, false_and]
      exact roundtrip_core_plain (codeAt b) _ _ _ n (placedCode b mv) d1 e1 e2 hcode
  simp only [pieces, List.cons.injEq, and_true] at hp
  obtain ⟨p1, p2, p3, p4, p5, p6, p7, p8, p9, p10, p11, p12⟩ := hp
  obtain ⟨o1, o2, o3⟩ := ho
  rw [u9, u10, u11, u12, u13, u14]
  ext <;> simp only [updateOccupancies] <;>
    first
    | assumption
    | rfl
    | (rw [p1, p2, p3, p4, p5, p6, p7, p8, p9, p10, p11, p12, ← o1, ← o2, ← o3])
    | (rw [p1, p2, p3, p4, p5, p6, ← o1])
    | (rw [p7, p8, p9, p10, p11, p12, ← o2])

theorem rankOf_eq (sq : Int) : rankOf sq = sq / 8 := by
  unfold rankOf
  rw [Int.shiftRight_eq_div_pow]
  norm_num

theorem fileOf_eq {sq : Int} (h : 0 ≤ sq) : fileOf sq = sq % 8 := by
  unfold fileOf
  obtain ⟨n, rfl⟩ := Int.eq_ofNat_of_zero_le h
  show Int.land (Int.ofNat n) (Int.ofNat 7) = _
  simp only [Int.land]
  have := Nat.and_pow_two_sub_one_eq_mod n 3
  norm_num at this
  rw [this]
  norm_cast

theorem insideFileRank_iff (r f : Int) :
    insideFileRank r f = true ↔ 0 ≤ r ∧ r < 8 ∧ 0 ≤ f ∧ f < 8 := by
  unfold insideFileRank
  simp only [Bool.and_eq_true, decide_eq_true_eq]
  tauto

theorem inRange_sq_index {r f : Int} (h : insideFileRank r f = true) : InRange (sq_index r f) := by
  rw [insideFileRank_iff] at h
  unfold InRange sq_index
  omega

theorem sq_index_rank_file {sq : Int} (h : InRange sq) : sq_index (rankOf sq) (fileOf sq) = sq := by
  rw [rankOf_eq, fileOf_eq h.1]
  unfold sq_index
  omega

theorem inside_rank_file {sq : Int} (h : InRange sq) :
    0 ≤ rankOf sq ∧ rankOf sq < 8 ∧ 0 ≤ fileOf sq ∧ fileOf sq < 8 := by
  rw [rankOf_eq, fileOf_eq h.1]
  have := h.1; have := h.2
  omega

theorem ctzFuel_spec (fuel : Nat) : ∀ t : Nat, t ≠ 0 → t < 2 ^ fuel →
    t.testBit (ctzFuel fuel t) = true ∧ ctzFuel fuel t < fuel := by
  induction fuel with
  | zero => intro t h0 h1; simp at h1; exact absurd h1 h0
  | succ k ih =>
    intro t h0 h1
    unfold ctzFuel
    by_cases hodd : t % 2 = 1
    · rw [if_pos hodd]
      constructor
      · rw [Nat.testBit_zero]; simp [hodd]
      · omega
    · rw [if_neg hodd]
      have h2 : t / 2 ≠ 0 := by omega
      have h3 : t / 2 < 2 ^ k := by
        rw [Nat.pow_succ] at h1; omega
      obtain ⟨i1, i2⟩ := ih (t / 2) h2 h3
      constructor
      · rw [Nat.testBit_succ]; exact i1
      · omega

theorem ctzll_spec {t : Nat} (h0 : t ≠ 0) (h1 : t < 2 ^ 64) :
    InRange (ctzll t) ∧ t.testBit (ctzll t).toNat = true := by
  obtain ⟨i1, i2⟩ := ctzFuel_spec 64 t h0 h1
  unfold ctzll InRange
  refine ⟨⟨by omega, by omega⟩, ?_⟩
  simpa using i1

theorem forEachBit_mem {g : Int → List Move → List Move} {Q : Int → Move → Prop}
    (hbody : ∀ sq acc mv, InRange sq → mv ∈ g sq acc → mv ∈ acc ∨ Q sq mv) (mv : Move) :
    ∀ (fuel : Nat) (t : Nat) (acc : List Move), t < 2 ^ 64 →
      mv ∈ forEachBit g fuel t acc →
      mv ∈ acc ∨ ∃ sq, InRange sq ∧ t.testBit sq.toNat = true ∧ Q sq mv := by
  intro fuel
  induction fuel with
  | zero => intro t acc _ h; exact Or.inl h
  | succ k ih =>
    intro t acc ht h
    unfold forEachBit at h
    by_cases h0 : t = 0
    · rw [if_pos h0] at h; exact Or.inl h
    · rw [if_neg h0] at h
      have hlt : (pop_lsb t).2 < 2 ^ 64 := lt_of_le_of_lt Nat.and_le_left ht
      obtain ⟨r1, r2⟩ := ctzll_spec h0 ht
      rcases ih _ _ hlt h with h1 | ⟨sq, s1, s2, s3⟩
      · rcases hbody _ _ _ r1 h1 with h2 | h2
        · exact Or.inl h2
        · exact Or.inr ⟨_, r1, r2, h2⟩
      · refine Or.inr ⟨sq, s1, ?_, s3⟩
        unfold pop_lsb at s2
        simp only [Nat.testBit_and, Bool.and_eq_true] at s2
        exact s2.1

theorem mem_addMoveToListFromTo (mL : List Move) (a t p : Int) (mv : Move) :
    mv ∈ addMoveToListFromTo mL a t p ↔
      mv ∈ mL ∨ mv = { from_ := a, to_ := t, promotionPiece := p, score := 0 } := by
  unfold addMoveToListFromTo addMove
  simp

theorem mem_addPromotions (mL : List Move) (a t : Int) (mv : Move) :
    mv ∈ addPromotions mL a t ↔
      mv ∈ mL ∨ mv = { from_ := a, to_ := t, promotionPiece := 2, score := 0 } ∨
        mv = { from_ := a, to_ := t, promotionPiece := 3, score := 0 } ∨
        mv = { from_ := a, to_ := t, promotionPiece := 4, score := 0 } ∨
        mv = { from_ := a, to_ := t, promotionPiece := 5, score := 0 } := by
  unfold addPromotions
  simp only [List.foldl, mem_addMoveToListFromTo]
  tauto

theorem mem_pawnPushes {b : Board} {mL : List Move} {sq c : Int} {mv : Move}
    (h : mv ∈ pawnPushes b mL sq c) : mv ∈ mL ∨ PawnGen b sq c mv := by
  unfold pawnPushes at h
  unfold PawnGen
  simp only [] at h
  generalize (if c = WHITE then (1 : Int) else -1) = dir at h ⊢
  generalize (if c = WHITE then (1 : Int) else 6) = startRank at h ⊢
  generalize (if c = WHITE then (7 : Int) else 0) = promotionRank at h ⊢
  by_cases h1 : insideFileRank (rankOf sq + dir) (fileOf sq) = true ∧
      ¬ (b.occupied &&& bit (sq_index (rankOf sq + dir) (fileOf sq)) ≠ 0)
  · rw [if_pos h1] at h
    by_cases h3 : rankOf sq = startRank ∧ insideFileRank (rankOf sq + 2 * dir) (fileOf sq) = true ∧
        ¬ (b.occupied &&& bit (sq_index (rankOf sq + 2 * dir) (fileOf sq)) ≠ 0)
    · rw [if_pos h3, mem_addMoveToListFromTo] at h
      rcases h with h | h
      · by_cases h2 : rankOf sq + dir = promotionRank
        · rw [if_pos h2, mem_addPromotions] at h
          rcases h with h | h | h | h | h
          · exact Or.inl h
          all_goals
            subst h
            right
            exact ⟨rfl, rfl, Or.inl ⟨rfl, h1.1, h1.2, by rw [if_pos h2]; simp⟩⟩
        · rw [if_neg h2, mem_addMoveToListFromTo] at h
          rcases h with h | h
          · exact Or.inl h
          · subst h
            right
            exact ⟨rfl, rfl, Or.inl ⟨rfl, h1.1, h1.2, by rw [if_neg h2]⟩⟩
      · subst h
        right
        exact ⟨rfl, rfl, Or.inr (Or.inl ⟨rfl, h3.1, h3.2.1, h1.2, h3.2.2, rfl⟩)⟩
    · rw [if_neg h3] at h
      by_cases h2 : rankOf sq + dir = promotionRank
      · rw [if_pos h2, mem_addPromotions] at h
        rcases h with h | h | h | h | h
        · exact Or.inl h
        all_goals
          subst h
          right
          exact ⟨rfl, rfl, Or.inl ⟨rfl, h1.1, h1.2, by rw [if_pos h2]; simp⟩⟩
      · rw [if_neg h2, mem_addMoveToListFromTo] at h
        rcases h with h | h
        · exact Or.inl h
        · subst h
          right
          exact ⟨rfl, rfl, Or.inl ⟨rfl, h1.1, h1.2, by rw [if_neg h2]⟩⟩
  · rw [if_neg h1] at h
    exact Or.inl h

theorem mem_pawnCapture {b : Board} {mL : List Move} {sq c df : Int} {mv : Move}
    (hdf : df = -1 ∨ df = 1) (h : mv ∈ pawnCapture b sq c mL df) : mv ∈ mL ∨ PawnGen b sq c mv := by
  unfold pawnCapture at h
  unfold PawnGen
  simp only [] at h
  generalize (if c = WHITE then (1 : Int) else -1) = dir at h ⊢
  generalize (if c = WHITE then (7 : Int) else 0) = promotionRank at h ⊢
  by_cases h1 : insideFileRank (rankOf sq + dir) (fileOf sq + df) = true
  · rw [if_neg (by simpa using h1)] at h
    by_cases h2 : findPieceCodeAt b (sq_index (rankOf sq + dir) (fileOf sq + df)) ≠ 0
    · rw [if_pos h2] at h
      by_cases h3 : Int.land (findPieceCodeAt b (sq_index (rankOf sq + dir) (fileOf sq + df)))
          COLOR_MASK ≠ c
      · rw [if_pos h3] at h
        by_cases h4 : rankOf sq + dir = promotionRank
        · rw [if_pos h4, mem_addPromotions] at h
          rcases h with h | h | h | h | h
          · exact Or.inl h
          all_goals
            subst h
            right
            exact ⟨rfl, rfl, Or.inr (Or.inr (Or.inl ⟨df, hdf, rfl, h1, h2, h3,
              by rw [if_pos h4]; simp⟩))⟩
        · rw [if_neg h4, mem_addMoveToListFromTo] at h
          rcases h with h | h
          · exact Or.inl h
          · subst h
            right
            exact ⟨rfl, rfl, Or.inr (Or.inr (Or.inl ⟨df, hdf, rfl, h1, h2, h3,
              by rw [if_neg h4]⟩))⟩
      · rw [if_neg h3] at h
        exact Or.inl h
    · rw [if_neg h2] at h
      by_cases h5 : b.enPassantSquare = sq_index (rankOf sq + dir) (fileOf sq + df)
      · rw [if_pos h5] at h
        by_cases h6 : findPieceCodeAt b (sq_index (rankOf sq + dir - dir) (fileOf sq + df)) ≠ 0 ∧
            Int.land (findPieceCodeAt b (sq_index (rankOf sq + dir - dir) (fileOf sq + df))) 7 = PAWN ∧
            Int.land (findPieceCodeAt b (sq_index (rankOf sq + dir - dir) (fileOf sq + df)))
              COLOR_MASK ≠ c
        · rw [if_pos h6, mem_addMoveToListFromTo] at h
          rcases h with h | h
          · exact Or.inl h
          · subst h
            right
            have e : rankOf sq + dir - dir = rankOf sq := by omega
            rw [e] at h6
            exact ⟨rfl, rfl, Or.inr (Or.inr (Or.inr ⟨df, hdf, rfl, h1, by simpa using h2,
              h5, h6.1, h6.2.1, h6.2.2, rfl⟩))⟩
        · rw [if_neg h6] at h
          exact Or.inl h
      · rw [if_neg h5] at h
        exact Or.inl h
  · rw [if_pos (by simpa using h1)] at h
    exact Or.inl h

theorem mem_pawnMoves {b : Board} {mL : List Move} {sq : Int} {mv : Move}
    (h : mv ∈ pawnMoves b mL sq) :
    mv ∈ mL ∨ (b.wp &&& bit sq ≠ 0 ∧ PawnGen b sq WHITE mv) ∨
      (¬ (b.wp &&& bit sq ≠ 0) ∧ b.bp &&& bit sq ≠ 0 ∧ PawnGen b sq BLACK mv) := by
  unfold pawnMoves at h
  simp only [List.foldl] at h
  by_cases hw : b.wp &&& bit sq ≠ 0
  · rw [if_pos hw] at h
    rw [if_neg (by decide)] at h
    rcases mem_pawnCapture (Or.inr rfl) h with h | h
    · rcases mem_pawnCapture (Or.inl rfl) h with h | h
      · rcases mem_pawnPushes h with h | h
        · exact Or.inl h
        · exact Or.inr (Or.inl ⟨hw, h⟩)
      · exact Or.inr (Or.inl ⟨hw, h⟩)
    · exact Or.inr (Or.inl ⟨hw, h⟩)
  · rw [if_neg hw] at h
    by_cases hb : b.bp &&& bit sq ≠ 0
    · rw [if_pos hb] at h
      rw [if_neg (by decide)] at h
      rcases mem_pawnCapture (Or.inr rfl) h with h | h
      · rcases mem_pawnCapture (Or.inl rfl) h with h | h
        · rcases mem_pawnPushes h with h | h
          · exact Or.inl h
          · exact Or.inr (Or.inr ⟨hw, hb, h⟩)
        · exact Or.inr (Or.inr ⟨hw, hb, h⟩)
      · exact Or.inr (Or.inr ⟨hw, hb, h⟩)
    · rw [if_neg hb] at h
      simp at h
      exact Or.inl h

theorem testBit_offsetAttacks_fold (r f : Int) (n : Nat) (offs : List (Int × Int)) :
    ∀ acc : Nat,
      (offs.foldl (fun acc o =>
          if insideFileRank (r + o.1) (f + o.2) then acc ||| bit (sq_index (r + o.1) (f + o.2))
          else acc) acc).testBit n = true ↔
        acc.testBit n = true ∨
          ∃ o ∈ offs, insideFileRank (r + o.1) (f + o.2) = true ∧
            (sq_index (r + o.1) (f + o.2)).toNat = n := by
  induction offs with
  | nil => intro acc; simp
  | cons o rest ih =>
    intro acc
    rw [List.foldl_cons, ih]
    by_cases h : insideFileRank (r + o.1) (f + o.2) = true
    · rw [if_pos h, testBit_or_bit _ (inRange_sq_index h)]
      simp only [Bool.or_eq_true, decide_eq_true_eq, List.mem_cons, exists_eq_or_imp, h, true_and]
      tauto
    · rw [if_neg h]
      simp [h]

theorem testBit_offsetAttacks (offs : List (Int × Int)) (r f : Int) (n : Nat) :
    (offsetAttacks offs r f).testBit n = true ↔
      ∃ o ∈ offs, insideFileRank (r + o.1) (f + o.2) = true ∧
        (sq_index (r + o.1) (f + o.2)).toNat = n := by
  unfold offsetAttacks
  rw [testBit_offsetAttacks_fold]
  simp

theorem offsetAttacks_lt (offs : List (Int × Int)) (r f : Int) : offsetAttacks offs r f < 2 ^ 64 := by
  apply Nat.lt_pow_two_of_testBit
  intro i hi
  by_contra hc
  have ht : (offsetAttacks offs r f).testBit i = true := by simpa using hc
  rw [testBit_offsetAttacks] at ht
  obtain ⟨o, -, h1, h2⟩ := ht
  have := toNat_lt (inRange_sq_index h1)
  omega

theorem toNat_inj {s t : Int} (hs : InRange s) (ht : InRange t) (h : s.toNat = t.toNat) : s = t := by
  have := hs.1; have := ht.1
  omega

theorem mem_stepLoop {sq : Int} {offs : List (Int × Int)} {own : U64} {mL : List Move} {mv : Move}
    (h : mv ∈ forEachBit (fun toSq acc => addMoveToListFromTo acc sq toSq 0) 64
      (offsetAttacks offs (rankOf sq) (fileOf sq) &&& not64 own) mL) :
    mv ∈ mL ∨ StepGen sq offs own mv := by
  have hlt : offsetAttacks offs (rankOf sq) (fileOf sq) &&& not64 own < 2 ^ 64 :=
    lt_of_le_of_lt Nat.and_le_left (offsetAttacks_lt _ _ _)
  have key := forEachBit_mem
    (g := fun toSq acc => addMoveToListFromTo acc sq toSq 0)
    (Q := fun toSq mv => mv = { from_ := sq, to_ := toSq, promotionPiece := 0, score := 0 })
    (fun s acc m _ hm => by rwa [mem_addMoveToListFromTo] at hm) mv 64 _ mL hlt h
  rcases key with h1 | ⟨t, t1, t2, t3⟩
  · exact Or.inl h1
  · right
    subst t3
    rw [Nat.testBit_and, Bool.and_eq_true, testBit_not64, testBit_offsetAttacks] at t2
    obtain ⟨⟨o, o1, o2, o3⟩, t4⟩ := t2
    refine ⟨rfl, rfl, rfl, t1, ?_, o, o1, o2, ?_⟩
    · rw [not_not]
      have := toNat_lt t1
      simp only [this, decide_True, Bool.xor_true, Bool.not_eq_true'] at t4
      by_contra hc
      have hc' := (and_bit_ne_zero_iff own t1).mp hc
      rw [hc'] at t4
      exact absurd t4 (by decide)
    · exact (toNat_inj (inRange_sq_index o2) t1 o3).symm

theorem mem_knightMoves {b : Board} {mL : List Move} {sq : Int} {mv : Move}
    (h : mv ∈ knightMoves b mL sq) :
    mv ∈ mL ∨ (b.wn &&& bit sq ≠ 0 ∧ StepGen sq knightOffsets b.whitePieces mv) ∨
      (¬ (b.wn &&& bit sq ≠ 0) ∧ b.bn &&& bit sq ≠ 0 ∧ StepGen sq knightOffsets b.blackPieces mv) := by
  unfold knightMoves at h
  simp only [] at h
  by_cases hw : b.wn &&& bit sq ≠ 0
  · rw [if_pos hw, if_neg (by decide), if_pos rfl] at h
    rcases mem_stepLoop h with h | h
    · exact Or.inl h
    · exact Or.inr (Or.inl ⟨hw, h⟩)
  · rw [if_neg hw] at h
    by_cases hb : b.bn &&& bit sq ≠ 0
    · rw [if_pos hb, if_neg (by decide), if_neg (by decide)] at h
      rcases mem_stepLoop h with h | h
      · exact Or.inl h
      · exact Or.inr (Or.inr ⟨hw, hb, h⟩)
    · rw [if_neg hb] at h
      simp at h
      exact Or.inl h

theorem mem_slideWalk {b : Board} {sq c dr df : Int} {mv : Move} (hc : c = Int.land (findPieceCodeAt b sq) COLOR_MASK) :
    ∀ (fuel : Nat) (r f : Int) (mL res : List Move),
      slideWalk b sq c dr df fuel r f mL = some res → mv ∈ res → mv ∈ mL ∨ SlideGen b sq mv := by
  intro fuel
  induction fuel with
  | zero => intro r f mL res h; simp [slideWalk] at h
  | succ k ih =>
    intro r f mL res h hm
    unfold slideWalk at h
    by_cases h1 : insideFileRank (r + dr) (f + df) = true
    · rw [if_pos h1] at h
      by_cases h2 : findPieceCodeAt b (sq_index (r + dr) (f + df)) = 0
      · rw [if_pos h2] at h
        rcases ih _ _ _ _ h hm with h3 | h3
        · rw [mem_addMoveToListFromTo] at h3
          rcases h3 with h3 | h3
          · exact Or.inl h3
          · subst h3
            exact Or.inr ⟨rfl, rfl, rfl, inRange_sq_index h1, Or.inl h2⟩
        · exact Or.inr h3
      · rw [if_neg h2] at h
        by_cases h3 : Int.land (findPieceCodeAt b (sq_index (r + dr) (f + df))) COLOR_MASK ≠ c
        · rw [if_pos h3] at h
          simp only [Option.some.injEq] at h
          subst h
          rw [mem_addMoveToListFromTo] at hm
          rcases hm with hm | hm
          · exact Or.inl hm
          · subst hm
            exact Or.inr ⟨rfl, rfl, rfl, inRange_sq_index h1, Or.inr (by rw [← hc]; exact h3)⟩
        · rw [if_neg h3] at h
          simp only [Option.some.injEq] at h
          subst h
          exact Or.inl hm
    · rw [if_neg h1] at h
      simp only [Option.some.injEq] at h
      subst h
      exact Or.inl hm

theorem mem_slidingMoves {b : Board} {sq : Int} {dirs : List (Int × Int)} {k : Nat} {mv : Move}
    {mL : List Move} (h : mv ∈ slidingMoves b mL sq dirs k) :
    mv ∈ mL ∨ (findPieceCodeAt b sq ≠ 0 ∧ SlideGen b sq mv) := by
  unfold slidingMoves at h
  by_cases h0 : findPieceCodeAt b sq = 0
  · rw [if_pos h0] at h; exact Or.inl h
  · rw [if_neg h0] at h
    generalize dirs.take k = ds at h
    induction ds generalizing mL with
    | nil => exact Or.inl h
    | cons d rest ih =>
      rw [List.foldl_cons] at h
      rcases ih h with h1 | h1
      · cases hw : slideWalk b sq (Int.land (findPieceCodeAt b sq) COLOR_MASK) d.1 d.2 8 (rankOf sq)
            (fileOf sq) mL with
        | none => rw [hw] at h1; exact Or.inl h1
        | some res =>
          rw [hw] at h1
          rcases mem_slideWalk rfl _ _ _ _ _ hw h1 with h2 | h2
          · exact Or.inl h2
          · exact Or.inr ⟨h0, h2⟩
      · exact Or.inr h1

theorem mem_whiteCastling {b : Board} {mL : List Move} {sq : Int} {mv : Move}
    (hc : Int.land (findPieceCodeAt b sq) COLOR_MASK = WHITE) (hs : sq = sq_index 0 4)
    (h : mv ∈ whiteCastling b mL sq) : mv ∈ mL ∨ CastleGen b sq mv := by
  unfold whiteCastling at h
  simp only [] at h
  split_ifs at h with h1 h2 h2
  · rw [mem_addMoveToListFromTo, mem_addMoveToListFromTo] at h
    rcases h with (h | h) | h
    · exact Or.inl h
    · subst h
      exact Or.inr ⟨rfl, rfl, rfl, Or.inl ⟨hc, hs, rfl, h2⟩⟩
    · subst h
      exact Or.inr ⟨rfl, rfl, rfl, Or.inr (Or.inl ⟨hc, hs, rfl, h1⟩)⟩
  · rw [mem_addMoveToListFromTo] at h
    rcases h with h | h
    · exact Or.inl h
    · subst h
      exact Or.inr ⟨rfl, rfl, rfl, Or.inr (Or.inl ⟨hc, hs, rfl, h1⟩)⟩
  · rw [mem_addMoveToListFromTo] at h
    rcases h with h | h
    · exact Or.inl h
    · subst h
      exact Or.inr ⟨rfl, rfl, rfl, Or.inl ⟨hc, hs, rfl, h2⟩⟩
  · exact Or.inl h

theorem mem_blackCastling {b : Board} {mL : List Move} {sq : Int} {mv : Move}
    (hc : Int.land (findPieceCodeAt b sq) COLOR_MASK = BLACK) (hs : sq = sq_index 7 4)
    (h : mv ∈ blackCastling b mL sq) : mv ∈ mL ∨ CastleGen b sq mv := by
  unfold blackCastling at h
  simp only [] at h
  split_ifs at h with h1 h2 h2
  · rw [mem_addMoveToListFromTo, mem_addMoveToListFromTo] at h
    rcases h with (h | h) | h
    · exact Or.inl h
    · subst h
      exact Or.inr ⟨rfl, rfl, rfl, Or.inr (Or.inr (Or.inl ⟨hc, hs, rfl, h2⟩))⟩
    · subst h
      exact Or.inr ⟨rfl, rfl, rfl, Or.inr (Or.inr (Or.inr ⟨hc, hs, rfl, h1⟩))⟩
  · rw [mem_addMoveToListFromTo] at h
    rcases h with h | h
    · exact Or.inl h
    · subst h
      exact Or.inr ⟨rfl, rfl, rfl, Or.inr (Or.inr (Or.inr ⟨hc, hs, rfl, h1⟩))⟩
  · rw [mem_addMoveToListFromTo] at h
    rcases h with h | h
    · exact Or.inl h
    · subst h
      exact Or.inr ⟨rfl, rfl, rfl, Or.inr (Or.inr (Or.inl ⟨hc, hs, rfl, h2⟩))⟩
  · exact Or.inl h

theorem mem_kingMoves {b : Board} {mL : List Move} {sq : Int} {mv : Move}
    (h : mv ∈ kingMoves b mL sq) :
    mv ∈ mL ∨ (findPieceCodeAt b sq ≠ 0 ∧
      (StepGen sq kingOffsets
          (if Int.land (findPieceCodeAt b sq) COLOR_MASK = WHITE then b.whitePieces
            else b.blackPieces) mv ∨
        CastleGen b sq mv)) := by
  unfold kingMoves at h
  by_cases h0 : findPieceCodeAt b sq = 0
  · rw [if_pos h0] at h; exact Or.inl h
  · rw [if_neg h0] at h
    simp only [] at h
    have step : ∀ {m : Move}, m ∈ forEachBit (fun toSq acc => addMoveToListFromTo acc sq toSq 0) 64
        (kingAttacks sq &&& not64 (if Int.land (findPieceCodeAt b sq) COLOR_MASK = WHITE then
          b.whitePieces else b.blackPieces)) mL →
        m ∈ mL ∨ StepGen sq kingOffsets
          (if Int.land (findPieceCodeAt b sq) COLOR_MASK = WHITE then b.whitePieces
            else b.blackPieces) m := fun hm => mem_stepLoop hm
    by_cases hb : Int.land (findPieceCodeAt b sq) COLOR_MASK = BLACK ∧ sq = sq_index 7 4
    · rw [if_pos hb] at h
      have hnw : ¬ (Int.land (findPieceCodeAt b sq) COLOR_MASK = WHITE ∧ sq = sq_index 0 4) := by
        intro hw; rw [hw.1] at hb; exact absurd hb.1 (by decide)
      rw [if_neg hnw] at h
      rcases mem_blackCastling hb.1 hb.2 h with h | h
      · rcases step h with h | h
        · exact Or.inl h
        · exact Or.inr ⟨h0, Or.inl h⟩
      · exact Or.inr ⟨h0, Or.inr h⟩
    · rw [if_neg hb] at h
      by_cases hw : Int.land (findPieceCodeAt b sq) COLOR_MASK = WHITE ∧ sq = sq_index 0 4
      · rw [if_pos hw] at h
        rcases mem_whiteCastling hw.1 hw.2 h with h | h
        · rcases step h with h | h
          · exact Or.inl h
          · exact Or.inr ⟨h0, Or.inl h⟩
        · exact Or.inr ⟨h0, Or.inr h⟩
      · rw [if_neg hw] at h
        rcases step h with h | h
        · exact Or.inl h
        · exact Or.inr ⟨h0, Or.inl h⟩

theorem bounded_updateOccupancies {b : Board} (h : Bounded b) : Bounded (updateOccupancies b) := h

theorem mem_generateMoves {b : Board} (hb : Bounded b) {mL : List Move} {mv : Move}
    (h : mv ∈ (generateMoves b mL).2) : mv ∈ mL ∨ Generated (updateOccupancies b) mv := by
  unfold generateMoves at h
  simp only [] at h
  obtain ⟨b1, b2, b3, b4, b5, b6, b7, b8, b9, b10, b11, b12⟩ := bounded_updateOccupancies hb
  generalize updateOccupancies b = B at *
  have lt : ∀ (x y : Nat), x < 2 ^ 64 → y < 2 ^ 64 → (if B.mover = WHITE then x else y) < 2 ^ 64 := by
    intro x y hx hy; split_ifs <;> assumption
  rcases forEachBit_mem (Q := fun sq m => B.mover = B.mover ∧ findPieceCodeAt B sq ≠ 0 ∧
      (StepGen sq kingOffsets
            (if Int.land (findPieceCodeAt B sq) COLOR_MASK = WHITE then B.whitePieces
              else B.blackPieces) m ∨ CastleGen B sq m))
      (fun sq acc m _ hm => by
        rcases mem_kingMoves hm with h | h
        · exact Or.inl h
        · exact Or.inr ⟨rfl, h⟩) mv 64 _ _ (lt _ _ b6 b12) h with h | ⟨sq, s1, s2, -, s3⟩
  swap
  · exact Or.inr ⟨sq, s1, Or.inr (Or.inr (Or.inr (Or.inr (Or.inr ⟨s2, s3⟩))))⟩
  rcases forEachBit_mem (Q := fun sq m => findPieceCodeAt B sq ≠ 0 ∧ SlideGen B sq m)
      (fun sq acc m _ hm => by
        unfold queenMoves rookMoves bishopMoves at hm
        rcases mem_slidingMoves hm with h | h
        · rcases mem_slidingMoves h with h | h
          · exact Or.inl h
          · exact Or.inr h
        · exact Or.inr h) mv 64 _ _ (lt _ _ b5 b11) h with h | ⟨sq, s1, s2, s3⟩
  swap
  · exact Or.inr ⟨sq, s1, Or.inr (Or.inr (Or.inr (Or.inr (Or.inl ⟨s2, s3⟩))))⟩
  rcases forEachBit_mem (Q := fun sq m => findPieceCodeAt B sq ≠ 0 ∧ SlideGen B sq m)
      (fun sq acc m _ hm => by
        unfold rookMoves at hm
        rcases mem_slidingMoves hm with h | h
        · exact Or.inl h
        · exact Or.inr h) mv 64 _ _ (lt _ _ b4 b10) h with h | ⟨sq, s1, s2, s3⟩
  swap
  · exact Or.inr ⟨sq, s1, Or.inr (Or.inr (Or.inr (Or.inl ⟨s2, s3⟩)))⟩
  rcases forEachBit_mem (Q := fun sq m => findPieceCodeAt B sq ≠ 0 ∧ SlideGen B sq m)
      (fun sq acc m _ hm => by
        unfold bishopMoves at hm
        rcases mem_slidingMoves hm with h | h
        · exact Or.inl h
        · exact Or.inr h) mv 64 _ _ (lt _ _ b3 b9) h with h | ⟨sq, s1, s2, s3⟩
  swap
  · exact Or.inr ⟨sq, s1, Or.inr (Or.inr (Or.inl ⟨s2, s3⟩))⟩
  rcases forEachBit_mem (Q := fun sq m =>
      (B.wn &&& bit sq ≠ 0 ∧ StepGen sq knightOffsets B.whitePieces m) ∨
          (¬ (B.wn &&& bit sq ≠ 0) ∧ B.bn &&& bit sq ≠ 0 ∧
            StepGen sq knightOffsets B.blackPieces m))
      (fun sq acc m _ hm => mem_knightMoves hm) mv 64 _ _ (lt _ _ b2 b8) h with h | ⟨sq, s1, s2, s3⟩
  swap
  · exact Or.inr ⟨sq, s1, Or.inr (Or.inl ⟨s2, s3⟩)⟩
  rcases forEachBit_mem (Q := fun sq m =>
      (B.wp &&& bit sq ≠ 0 ∧ PawnGen B sq WHITE m) ∨
          (¬ (B.wp &&& bit sq ≠ 0) ∧ B.bp &&& bit sq ≠ 0 ∧ PawnGen B sq BLACK m))
      (fun sq acc m _ hm => mem_pawnMoves hm) mv 64 _ _ (lt _ _ b1 b7) h with h | ⟨sq, s1, s2, s3⟩
  swap
  · exact Or.inr ⟨sq, s1, Or.inl ⟨s2, s3⟩⟩
  exact Or.inl h

theorem codeAt_cases (b : Board) (n : Nat) :
    codeAt b n = 0 ∨ codeAt b n = 1 ∨ codeAt b n = 2 ∨ codeAt b n = 3 ∨ codeAt b n = 4 ∨
    codeAt b n = 5 ∨ codeAt b n = 6 ∨ codeAt b n = 9 ∨ codeAt b n = 10 ∨ codeAt b n = 11 ∨
    codeAt b n = 12 ∨ codeAt b n = 13 ∨ codeAt b n = 14 := by
  rcases codeAt_valid b n with h | h
  · exact Or.inl h
  · exact Or.inr h

theorem white_iff {b : Board} (ho : OccupanciesConsistent b) (ha : Agree b) {s : Int}
    (h : InRange s) :
    b.whitePieces &&& bit s ≠ 0 ↔
      (codeAt b s.toNat = 1 ∨ codeAt b s.toNat = 2 ∨ codeAt b s.toNat = 3 ∨ codeAt b s.toNat = 4 ∨
        codeAt b s.toNat = 5 ∨ codeAt b s.toNat = 6) := by
  rw [and_bit_ne_zero_iff _ h, ho.1]
  obtain ⟨q1, q2, q3, q4, q5, q6, -⟩ := ha s.toNat
  simp only [Nat.testBit_or, q1, q2, q3, q4, q5, q6, Bool.or_eq_true, decide_eq_true_eq]
  tauto

theorem black_iff {b : Board} (ho : OccupanciesConsistent b) (ha : Agree b) {s : Int}
    (h : InRange s) :
    b.blackPieces &&& bit s ≠ 0 ↔
      (codeAt b s.toNat = 9 ∨ codeAt b s.toNat = 10 ∨ codeAt b s.toNat = 11 ∨
        codeAt b s.toNat = 12 ∨ codeAt b s.toNat = 13 ∨ codeAt b s.toNat = 14) := by
  rw [and_bit_ne_zero_iff _ h, ho.2.1]
  obtain ⟨-, -, -, -, -, -, q7, q8, q9, q10, q11, q12⟩ := ha s.toNat
  simp only [Nat.testBit_or, q7, q8, q9, q10, q11, q12, Bool.or_eq_true, decide_eq_true_eq]
  tauto

theorem occupied_iff {b : Board} (ho : OccupanciesConsistent b) (ha : Agree b) {s : Int}
    (h : InRange s) : b.occupied &&& bit s ≠ 0 ↔ codeAt b s.toNat ≠ 0 := by
  have hw := white_iff ho ha h
  have hk := black_iff ho ha h
  rw [and_bit_ne_zero_iff _ h] at hw hk ⊢
  rw [ho.2.2, Nat.testBit_or, Bool.or_eq_true, hw, hk]
  rcases codeAt_cases b s.toNat with c | c | c | c | c | c | c | c | c | c | c | c | c <;>
    rw [c] <;> decide

theorem reversible_simple {b : Board} {mv : Move} (hfrom : InRange mv.from_)
    (hto : InRange mv.to_) (hne : mv.from_ ≠ mv.to_) (hcode : findPieceCodeAt b mv.from_ ≠ 0)
    (hpromo : mv.promotionPiece = 0) (hnp : Int.land (findPieceCodeAt b mv.from_) 7 ≠ PAWN)
    (hnk : ¬ isKingTwoFiles (findPieceCodeAt b mv.from_) mv) : Reversible b mv := by
  refine ⟨hfrom, hto, hne, hcode, ?_, ?_, ?_⟩
  · unfold placedCode
    rw [if_neg (by simpa using hpromo)]
    rcases pieceAt_valid b hfrom with h | h
    · exact absurd h hcode
    · exact h
  · intro h; exact absurd h.1 hnp
  · intro h; exact absurd h hnk

theorem codeAt_of_testBit {b : Board} (ha : Agree b) (n : Nat) :
    (b.wp.testBit n = true → codeAt b n = 1) ∧ (b.wn.testBit n = true → codeAt b n = 2) ∧
    (b.wb.testBit n = true → codeAt b n = 3) ∧ (b.wr.testBit n = true → codeAt b n = 4) ∧
    (b.wq.testBit n = true → codeAt b n = 5) ∧ (b.wk.testBit n = true → codeAt b n = 6) ∧
    (b.bp.testBit n = true → codeAt b n = 9) ∧ (b.bn.testBit n = true → codeAt b n = 10) ∧
    (b.bb.testBit n = true → codeAt b n = 11) ∧ (b.br.testBit n = true → codeAt b n = 12) ∧
    (b.bq.testBit n = true → codeAt b n = 13) ∧ (b.bk.testBit n = true → codeAt b n = 14) := by
  obtain ⟨q1, q2, q3, q4, q5, q6, q7, q8, q9, q10, q11, q12⟩ := ha n
  refine ⟨?_, ?_, ?_, ?_, ?_, ?_, ?_, ?_, ?_, ?_, ?_, ?_⟩ <;> intro h
  · rw [q1] at h; simpa using h
  · rw [q2] at h; simpa using h
  · rw [q3] at h; simpa using h
  · rw [q4] at h; simpa using h
  · rw [q5] at h; simpa using h
  · rw [q6] at h; simpa using h
  · rw [q7] at h; simpa using h
  · rw [q8] at h; simpa using h
  · rw [q9] at h; simpa using h
  · rw [q10] at h; simpa using h
  · rw [q11] at h; simpa using h
  · rw [q12] at h; simpa using h

theorem reversible_slide {b : Board} (ha : Agree b) {mv : Move} {sq : Int} (hs : InRange sq)
    (hc : codeAt b sq.toNat = 3 ∨ codeAt b sq.toNat = 4 ∨ codeAt b sq.toNat = 5 ∨
      codeAt b sq.toNat = 11 ∨ codeAt b sq.toNat = 12 ∨ codeAt b sq.toNat = 13)
    (h : SlideGen b sq mv) : Reversible b mv := by
  obtain ⟨h1, h2, -, h4, h5⟩ := h
  subst h1
  unfold findPieceCodeAt at *
  have hcode : pieceAt b mv.from_ ≠ 0 := by
    rw [pieceAt_eq_codeAt b hs]; omega
  apply reversible_simple hs h4 _ hcode h2
  · unfold findPieceCodeAt
    rw [pieceAt_eq_codeAt b hs]
    rcases hc with c | c | c | c | c | c <;> rw [c] <;> decide
  · intro hk
    have := hk.1
    unfold findPieceCodeAt at this
    rw [pieceAt_eq_codeAt b hs] at this
    rcases hc with c | c | c | c | c | c <;> rw [c] at this <;> exact absurd this (by decide)
  · intro he
    rw [← he] at h5
    rcases h5 with h5 | h5
    · exact hcode h5
    · exact h5 rfl

theorem reversible_knight {b : Board} (ho : OccupanciesConsistent b) (ha : Agree b) {mv : Move}
    {sq : Int} (hs : InRange sq)
    (h : (b.wn &&& bit sq ≠ 0 ∧ StepGen sq knightOffsets b.whitePieces mv) ∨
      (¬ (b.wn &&& bit sq ≠ 0) ∧ b.bn &&& bit sq ≠ 0 ∧ StepGen sq knightOffsets b.blackPieces mv)) :
    Reversible b mv := by
  obtain ⟨-, k2, -, -, -, -, -, k8, -⟩ := codeAt_of_testBit ha sq.toNat
  rcases h with ⟨hb, h1, h2, -, h4, h5, -⟩ | ⟨-, hb, h1, h2, -, h4, h5, -⟩
  · subst h1
    have hc := k2 ((and_bit_ne_zero_iff _ hs).mp hb)
    have hcode : findPieceCodeAt b mv.from_ = 2 := by
      unfold findPieceCodeAt; rw [pieceAt_eq_codeAt b hs]; exact hc
    apply reversible_simple hs h4 _ (by rw [hcode]; decide) h2 (by rw [hcode]; decide)
      (fun hk => absurd hk.1 (by rw [hcode]; decide))
    intro he
    rw [← he] at h5
    exact h5 ((white_iff ho ha hs).mpr (Or.inr (Or.inl hc)))
  · subst h1
    have hc := k8 ((and_bit_ne_zero_iff _ hs).mp hb)
    have hcode : findPieceCodeAt b mv.from_ = 10 := by
      unfold findPieceCodeAt; rw [pieceAt_eq_codeAt b hs]; exact hc
    apply reversible_simple hs h4 _ (by rw [hcode]; decide) h2 (by rw [hcode]; decide)
      (fun hk => absurd hk.1 (by rw [hcode]; decide))
    intro he
    rw [← he] at h5
    exact h5 ((black_iff ho ha hs).mpr (Or.inr (Or.inl hc)))

theorem kingOffsets_file {o : Int × Int} (h : o ∈ kingOffsets) : -1 ≤ o.2 ∧ o.2 ≤ 1 := by
  unfold kingOffsets at h
  simp only [List.mem_cons, List.mem_singleton, List.not_mem_nil, or_false] at h
  rcases h with h | h | h | h | h | h | h | h <;> subst h <;> decide

theorem file_sq_index {r f : Int} (h : insideFileRank r f = true) :
    Int.tmod (sq_index r f) 8 = f ∧ Int.tdiv (sq_index r f) 8 = r := by
  have hr := inRange_sq_index h
  rw [tmod8 hr, tdiv8 hr]
  rw [insideFileRank_iff] at h
  unfold sq_index
  omega

theorem tmod_eq_fileOf {sq : Int} (h : InRange sq) : Int.tmod sq 8 = fileOf sq := by
  rw [tmod8 h, fileOf_eq h.1]

theorem tdiv_eq_rankOf {sq : Int} (h : InRange sq) : Int.tdiv sq 8 = rankOf sq := by
  rw [tdiv8 h, rankOf_eq]

theorem not_occupied_codeAt {b : Board} (ho : OccupanciesConsistent b) (ha : Agree b) {s : Int}
    (h : InRange s) (hn : ¬ (b.occupied &&& bit s ≠ 0)) : findPieceCodeAt b s = 0 := by
  unfold findPieceCodeAt
  rw [pieceAt_eq_codeAt b h]
  by_contra hc
  exact hn ((occupied_iff ho ha h).mpr hc)

theorem reversible_castle {b : Board} {mv : Move} (f t rf rt : Int)
    (hcode : findPieceCodeAt b mv.from_ = 6 ∨ findPieceCodeAt b mv.from_ = 14)
    (hpromo : mv.promotionPiece = 0) (hf : mv.from_ = f) (ht : mv.to_ = t)
    (hrf : castleRookFrom mv = rf) (hrt : castleRookTo mv = rt)
    (hF : InRange f) (hT : InRange t) (hRF : InRange rf) (hRT : InRange rt)
    (d1 : f ≠ t) (d2 : rf ≠ f) (d3 : rf ≠ t) (d4 : rt ≠ f) (d5 : rt ≠ t) (d6 : rf ≠ rt)
    (hempty : findPieceCodeAt b rt = 0) : Reversible b mv := by
  have hne0 : findPieceCodeAt b mv.from_ ≠ 0 := by rcases hcode with c | c <;> rw [c] <;> decide
  have hplaced : ValidCode (placedCode b mv) := by
    unfold placedCode
    rw [if_neg (by simpa using hpromo)]
    rcases hcode with c | c <;> rw [c] <;> unfold ValidCode <;> decide
  have hnep : ¬ isEnPassantCapture b mv := by
    intro he
    have := he.1
    rcases hcode with c | c <;> rw [c] at this <;> exact absurd this (by decide)
  refine ⟨by rw [hf]; exact hF, by rw [ht]; exact hT, by rw [hf, ht]; exact d1, hne0, hplaced,
    fun he => absurd he hnep, fun _ => ?_⟩
  rw [hrf, hrt, hf, ht]
  exact ⟨hRF, hRT, d2, d3, d4, d5, d6, hempty⟩

theorem reversible_king {b : Board} (ho : OccupanciesConsistent b) (ha : Agree b) {mv : Move}
    {sq : Int} (hs : InRange sq) (hc : codeAt b sq.toNat = 6 ∨ codeAt b sq.toNat = 14)
    (h : StepGen sq kingOffsets
        (if Int.land (findPieceCodeAt b sq) COLOR_MASK = WHITE then b.whitePieces
          else b.blackPieces) mv ∨ CastleGen b sq mv) : Reversible b mv := by
  have hcode : findPieceCodeAt b sq = 6 ∨ findPieceCodeAt b sq = 14 := by
    unfold findPieceCodeAt; rw [pieceAt_eq_codeAt b hs]; exact hc
  rcases h with ⟨h1, h2, -, h4, h5, o, o1, o2, o3⟩ | ⟨h1, h2, -, h4⟩
  · subst h1
    apply reversible_simple hs h4 _ (by rcases hcode with c | c <;> rw [c] <;> decide) h2
      (by rcases hcode with c | c <;> rw [c] <;> decide)
    · intro hk
      have hk2 := hk.2
      rw [tmod_eq_fileOf hs, o3, (file_sq_index o2).1] at hk2
      have := kingOffsets_file o1
      omega
    · intro he
      rw [← he] at h5
      rcases hcode with c | c
      · rw [c] at h5
        rw [if_pos (by decide)] at h5
        have c6 : codeAt b mv.from_.toNat = 6 := by
          rw [← pieceAt_eq_codeAt b hs]; exact c
        exact h5 ((white_iff ho ha hs).mpr (Or.inr (Or.inr (Or.inr (Or.inr (Or.inr c6))))))
      · rw [c] at h5
        rw [if_neg (by decide)] at h5
        have c14 : codeAt b mv.from_.toNat = 14 := by
          rw [← pieceAt_eq_codeAt b hs]; exact c
        exact h5 ((black_iff ho ha hs).mpr (Or.inr (Or.inr (Or.inr (Or.inr (Or.inr c14))))))
  · subst h1
    rcases h4 with ⟨-, hsq, hto, -, e1, -, -⟩ | ⟨-, hsq, hto, -, e1, -, -⟩ |
        ⟨-, hsq, hto, -, e1, -, -⟩ | ⟨-, hsq, hto, -, e1, -, -⟩
    · exact reversible_castle 4 6 7 5 hcode h2 hsq hto (by unfold castleRookFrom; rw [hto]; rfl)
        (by unfold castleRookTo; rw [hto]; rfl) (by decide) (by decide) (by decide) (by decide)
        (by decide) (by decide) (by decide) (by decide) (by decide) (by decide)
        (not_occupied_codeAt ho ha (by decide) e1)
    · exact reversible_castle 4 2 0 3 hcode h2 hsq hto (by unfold castleRookFrom; rw [hto]; rfl)
        (by unfold castleRookTo; rw [hto]; rfl) (by decide) (by decide) (by decide) (by decide)
        (by decide) (by decide) (by decide) (by decide) (by decide) (by decide)
        (not_occupied_codeAt ho ha (by decide) e1)
    · exact reversible_castle 60 62 63 61 hcode h2 hsq hto (by unfold castleRookFrom; rw [hto]; rfl)
        (by unfold castleRookTo; rw [hto]; rfl) (by decide) (by decide) (by decide) (by decide)
        (by decide) (by decide) (by decide) (by decide) (by decide) (by decide)
        (not_occupied_codeAt ho ha (by decide) e1)
    · exact reversible_castle 60 58 56 59 hcode h2 hsq hto (by unfold castleRookFrom; rw [hto]; rfl)
        (by unfold castleRookTo; rw [hto]; rfl) (by decide) (by decide) (by decide) (by decide)
        (by decide) (by decide) (by decide) (by decide) (by decide) (by decide)
        (not_occupied_codeAt ho ha (by decide) e1)

theorem promo_placed_valid {p code : Int}
    (hp : p = 0 ∨ p = 2 ∨ p = 3 ∨ p = 4 ∨ p = 5) (hc : code = 1 ∨ code = 9) :
    ValidCode (if p ≠ 0 then Int.lor p (Int.land code COLOR_MASK) else code) := by
  unfold ValidCode
  rcases hc with rfl | rfl <;> rcases hp with rfl | rfl | rfl | rfl | rfl <;> decide

theorem ite_prop_or {p : Prop} [Decidable p] {A B : Prop} (h : if p then A else B) : A ∨ B := by
  by_cases hp : p
  · rw [if_pos hp] at h; exact Or.inl h
  · rw [if_neg hp] at h; exact Or.inr h

theorem pawn_idx_ne {r f r' f' dir : Int} (hd : dir = 1 ∨ dir = -1)
    (f0 : 0 ≤ f) (f1 : f < 8) (g0 : 0 ≤ f') (g1 : f' < 8)
    (hr : r' = r + dir ∨ r' = r + 2 * dir) : r * 8 + f ≠ r' * 8 + f' := by
  omega

theorem pawn_cap_range {r f f' dir : Int} (r0 : 0 ≤ r) (r1 : r < 8) (g0 : 0 ≤ f') (g1 : f' < 8)
    (hf : f' ≠ f) :
    (0 ≤ (r + dir) * 8 + f' - dir * 8 ∧ (r + dir) * 8 + f' - dir * 8 < 64) ∧
      (r + dir) * 8 + f' - dir * 8 ≠ r * 8 + f := by
  omega

theorem reversible_pawn {b : Board} {mv : Move} {sq c : Int} (hs : InRange sq)
    (hc : (c = WHITE ∧ codeAt b sq.toNat = 1) ∨ (c = BLACK ∧ codeAt b sq.toNat = 9))
    (h : PawnGen b sq c mv) : Reversible b mv := by
  obtain ⟨h1, -, h3⟩ := h
  subst h1
  have hcode : findPieceCodeAt b mv.from_ = 1 ∨ findPieceCodeAt b mv.from_ = 9 := by
    unfold findPieceCodeAt; rw [pieceAt_eq_codeAt b hs]
    rcases hc with ⟨-, c⟩ | ⟨-, c⟩
    · exact Or.inl c
    · exact Or.inr c
  have hne0 : findPieceCodeAt b mv.from_ ≠ 0 := by rcases hcode with c | c <;> rw [c] <;> decide
  have hnk : ¬ isKingTwoFiles (findPieceCodeAt b mv.from_) mv := by
    intro hk
    have := hk.1
    rcases hcode with c | c <;> rw [c] at this <;> exact absurd this (by decide)
  have hdir : (if Int.land (findPieceCodeAt b mv.from_) COLOR_MASK = WHITE then (1 : Int) else -1) =
      (if c = WHITE then 1 else -1) := by
    rcases hc with ⟨c1, c2⟩ | ⟨c1, c2⟩
    · have : findPieceCodeAt b mv.from_ = 1 := by
        unfold findPieceCodeAt; rw [pieceAt_eq_codeAt b hs]; exact c2
      rw [this, c1]; rfl
    · have : findPieceCodeAt b mv.from_ = 9 := by
        unfold findPieceCodeAt; rw [pieceAt_eq_codeAt b hs]; exact c2
      rw [this, c1]; rfl
  have hd : (if c = WHITE then (1 : Int) else -1) = 1 ∨ (if c = WHITE then (1 : Int) else -1) = -1 := by
    split_ifs
    · exact Or.inl rfl
    · exact Or.inr rfl
  obtain ⟨r0, r1, f0, f1⟩ := inside_rank_file hs
  have esq := sq_index_rank_file hs
  have efile := tmod_eq_fileOf hs
  generalize (if c = WHITE then (1 : Int) else -1) = dir at *
  generalize rankOf mv.from_ = r at *
  generalize fileOf mv.from_ = f at *
  have key : ∀ (r' f' : Int), mv.to_ = sq_index r' f' → insideFileRank r' f' = true →
      (r' = r + dir ∨ r' = r + 2 * dir) →
      (mv.promotionPiece = 0 ∨ mv.promotionPiece = 2 ∨ mv.promotionPiece = 3 ∨
        mv.promotionPiece = 4 ∨ mv.promotionPiece = 5) →
      (f' ≠ f → r' = r + dir) → Reversible b mv := by
    intro r' f' hto hin hr hp hcap
    have hT : InRange mv.to_ := by rw [hto]; exact inRange_sq_index hin
    have hfile := (file_sq_index hin).1
    rw [← hto] at hfile
    rw [insideFileRank_iff] at hin
    refine ⟨hs, hT, ?_, hne0, ?_, ?_, fun hk => absurd hk hnk⟩
    · rw [hto, ← esq]; unfold sq_index
      exact pawn_idx_ne hd f0 f1 hin.2.2.1 hin.2.2.2 hr
    · unfold placedCode; exact promo_placed_valid hp hcode
    · intro he
      have hf' : f' ≠ f := by
        have := he.2.1
        rw [efile, hfile] at this
        exact fun h => this h.symm
      have hr' := hcap hf'
      unfold captureSquare
      rw [if_pos he, hdir, hto, ← esq, hr']
      unfold InRange sq_index
      exact pawn_cap_range r0 r1 hin.2.2.1 hin.2.2.2 hf'
  rcases h3 with ⟨t1, t2, -, t4⟩ | ⟨t1, -, t3, -, -, t6⟩ | ⟨df, -, t1, t2, -, -, t5⟩ |
      ⟨df, -, t1, t2, -, -, -, -, -, t9⟩
  · apply key _ _ t1 t2 (Or.inl rfl) _ (fun _ => rfl)
    rcases ite_prop_or t4 with t | t
    · exact Or.inr t
    · exact Or.inl t
  · exact key _ _ t1 t3 (Or.inr rfl) (Or.inl t6) (fun h => absurd rfl h)
  · apply key _ _ t1 t2 (Or.inl rfl) _ (fun _ => rfl)
    rcases ite_prop_or t5 with t | t
    · exact Or.inr t
    · exact Or.inl t
  · exact key _ _ t1 t2 (Or.inl rfl) (Or.inl t9) (fun _ => rfl)

theorem wf_of_invariants {b : Board} (h : Invariants b) : WF b :=
  ⟨h.1, agree_of_disjoint h.2.1⟩

theorem generated_reversible {b : Board} (hw : WF b) (ho : OccupanciesConsistent b) {mv : Move}
    (h : Generated b mv) : Reversible b mv := by
  obtain ⟨sq, hs, h⟩ := h
  obtain ⟨k1, k2, k3, k4, k5, k6, k7, k8, k9, k10, k11, k12⟩ := codeAt_of_testBit hw.2 sq.toNat
  rcases h with ⟨-, h⟩ | ⟨-, h⟩ | ⟨t, -, h⟩ | ⟨t, -, h⟩ | ⟨t, -, h⟩ | ⟨t, -, h⟩
  · rcases h with ⟨hb, h⟩ | ⟨-, hb, h⟩
    · exact reversible_pawn hs (Or.inl ⟨rfl, k1 ((and_bit_ne_zero_iff _ hs).mp hb)⟩) h
    · exact reversible_pawn hs (Or.inr ⟨rfl, k7 ((and_bit_ne_zero_iff _ hs).mp hb)⟩) h
  · exact reversible_knight ho hw.2 hs h
  · apply reversible_slide hw.2 hs _ h
    split_ifs at t
    · exact Or.inl (k3 t)
    · exact Or.inr (Or.inr (Or.inr (Or.inl (k9 t))))
  · apply reversible_slide hw.2 hs _ h
    split_ifs at t
    · exact Or.inr (Or.inl (k4 t))
    · exact Or.inr (Or.inr (Or.inr (Or.inr (Or.inl (k10 t)))))
  · apply reversible_slide hw.2 hs _ h
    split_ifs at t
    · exact Or.inr (Or.inr (Or.inl (k5 t)))
    · exact Or.inr (Or.inr (Or.inr (Or.inr (Or.inr (k11 t)))))
  · apply reversible_king ho hw.2 hs _ h
    split_ifs at t
    · exact Or.inl (k6 t)
    · exact Or.inr (k12 t)

theorem generateMoves_reversible {b : Board} (hw : WF b) (ho : OccupanciesConsistent b)
    {mv : Move} (h : mv ∈ (generateMoves b []).2) : Reversible b mv := by
  rcases mem_generateMoves hw.1 h with h | h
  · simp at h
  · rw [updateOccupancies_eq_self ho] at h
    exact generated_reversible hw ho h

/-- C1: on a board that satisfies the data-model invariants, `applyMove` of a
move produced by `generateMoves` followed by `unmakeMove` with the undo record
gives back the original board, in every field. -/
theorem applyMove_unmakeMove_restores (b : Board) (hinv : Invariants b) (m : Move)
    (hm : m ∈ (generateMoves b []).2) :
    unmakeMove (applyMove b m).2.1 (applyMove b m).2.2 = b :=
  unmake_apply (wf_of_invariants hinv) hinv.2.2.1
    (generateMoves_reversible (wf_of_invariants hinv) hinv.2.2.1 hm)

theorem generated_score {b : Board} {mv : Move} (h : Generated b mv) : mv.score = 0 := by
  obtain ⟨sq, -, h⟩ := h
  rcases h with ⟨-, h⟩ | ⟨-, h⟩ | ⟨-, -, h⟩ | ⟨-, -, h⟩ | ⟨-, -, h⟩ | ⟨-, -, h⟩
  · rcases h with ⟨-, h⟩ | ⟨-, -, h⟩ <;> exact h.2.1
  · rcases h with ⟨-, h⟩ | ⟨-, -, h⟩ <;> exact h.2.2.1
  · exact h.2.2.1
  · exact h.2.2.1
  · exact h.2.2.1
  · rcases h with h | h <;> exact h.2.2.1

theorem foldl_addMoveToArray (maxMoves : Nat) (l : List Move) :
    ∀ acc : List Move,
      l.foldl (fun moves m => addMoveToArray moves maxMoves m) acc =
        acc ++ (l.take (maxMoves - acc.length)).map (fun m => { m with score := 0 }) := by
  induction l with
  | nil => intro acc; simp
  | cons m rest ih =>
    intro acc
    rw [List.foldl_cons, ih]
    unfold addMoveToArray
    by_cases h : acc.length < maxMoves
    · rw [if_pos h]
      have e : maxMoves - acc.length = (maxMoves - (acc.length + 1)) + 1 := by omega
      rw [e, List.take_succ_cons]
      simp
    · rw [if_neg h]
      have e : maxMoves - acc.length = 0 := by omega
      rw [e]
      simp

theorem generateMovesToArray_eq {b : Board} (hb : Bounded b) (maxMoves : Nat) :
    generateMovesToArray b maxMoves =
      (updateOccupancies b, (generateMoves b []).2.take maxMoves) := by
  unfold generateMovesToArray
  simp only []
  rw [foldl_addMoveToArray]
  have h1 : (generateMoves b []).1 = updateOccupancies b := rfl
  rw [h1]
  simp only [List.length_nil, Nat.sub_zero, List.nil_append]
  congr 1
  have : ∀ m ∈ (generateMoves b []).2.take maxMoves, (fun m : Move => { m with score := 0 }) m = m := by
    intro m hm
    have hm' := List.mem_of_mem_take hm
    rcases mem_generateMoves hb hm' with h | h
    · simp at h
    · have := generated_score h
      cases m
      simp_all
  rw [List.map_congr_left this]
  simp

theorem applyMove_fst {b : Board} {mv : Move} (h : findPieceCodeAt b mv.from_ ≠ 0) :
    (applyMove b mv).1 = true := by
  unfold applyMove
  rw [if_neg h]

theorem applyMove_prevMover (b : Board) (mv : Move) : (applyMove b mv).2.2.prevMover = b.mover := by
  unfold applyMove
  split_ifs
  · rfl
  · exact undo_prevMover _ _ _

theorem legalLoop_eq {b : Board} (hw : WF b) (ho : OccupanciesConsistent b) (maxMoves : Nat)
    (l : List Move) :
    ∀ out : List Move, (∀ m ∈ l, Reversible b m) → out.length + l.length ≤ maxMoves →
      legalLoop maxMoves l b out =
        (b, out ++ l.filter (fun m => kingSafe (applyMove b m).2.1 b.mover)) := by
  induction l with
  | nil => intro out _ _; simp [legalLoop]
  | cons m rest ih =>
    intro out hr hlen
    have hm := hr m (List.mem_cons_self _ _)
    have hrest : ∀ x ∈ rest, Reversible b x := fun x hx => hr x (List.mem_cons_of_mem _ hx)
    unfold legalLoop
    rw [if_neg (by rw [applyMove_fst hm.2.2.2.1]; decide), unmake_apply hw ho hm,
      applyMove_prevMover]
    simp only [List.length_cons] at hlen
    have hlt : out.length < maxMoves := by omega
    by_cases hs : kingSafe (applyMove b m).2.1 b.mover = true
    · rw [if_pos ⟨hs, hlt⟩, ih _ hrest (by simp; omega)]
      simp [List.filter_cons, hs]
    · rw [if_neg (fun h => hs h.1), ih _ hrest (by omega)]
      simp [List.filter_cons, hs]

theorem generateLegalMovesToArray_eq {b : Board} (hw : WF b) (ho : OccupanciesConsistent b) :
    generateLegalMovesToArray b 512 = (b, legalMoves b) := by
  unfold generateLegalMovesToArray legalMoves
  simp only []
  rw [generateMovesToArray_eq hw.1, updateOccupancies_eq_self ho]
  simp only []
  rw [legalLoop_eq hw ho 512 _ [] (fun m hm => generateMoves_reversible hw ho (List.mem_of_mem_take hm))
    (by simp [List.length_take])]
  simp

theorem occ_updateOccupancies (b : Board) : OccupanciesConsistent (updateOccupancies b) :=
  ⟨rfl, rfl, rfl⟩

theorem occ_finalizeMove (b : Board) : OccupanciesConsistent (finalizeMove b) :=
  ⟨rfl, rfl, rfl⟩

theorem applyMove_snd {b : Board} {mv : Move} (h : findPieceCodeAt b mv.from_ ≠ 0) :
    (applyMove b mv).2.1 =
      finalizeMove (updateEnPassantSquare (updateCastlingRights
        (applyCastlingRook (applyMovePieces b mv) mv (findPieceCodeAt b mv.from_)) mv
        (findPieceCodeAt b mv.from_)
        (applyMoveUndo b mv (applyMovePieces b mv)).capturedPieceCode) mv
        (findPieceCodeAt b mv.from_)) := by
  unfold applyMove
  rw [if_neg h]

theorem occ_applyMove {b : Board} {mv : Move} (h : findPieceCodeAt b mv.from_ ≠ 0) :
    OccupanciesConsistent (applyMove b mv).2.1 := by
  rw [applyMove_snd h]
  exact occ_finalizeMove _

theorem wf_applyMove {b : Board} (hw : WF b) {mv : Move} (hr : Reversible b mv) :
    WF (applyMove b mv).2.1 := by
  obtain ⟨hfrom, hto, -, hcode, hplaced, hep, -⟩ := hr
  have hcs : InRange (captureSquare b mv) := by
    by_cases h : isEnPassantCapture b mv
    · exact (hep h).1
    · unfold captureSquare; rw [if_neg h]; exact hto
  have hb4 := wf_applyMovePieces hw hfrom hto hcs hplaced
  have hb5 := wf_applyCastlingRook hb4 mv (findPieceCodeAt b mv.from_)
    (castleRookFrom_inRange hto) (castleRookTo_inRange hto)
  rw [applyMove_snd hcode]
  apply wf_congr _ hb5
  rw [pieces_finalizeMove, pieces_updateEnPassantSquare, pieces_updateCastlingRights]

theorem mem_legalMoves {b : Board} {m : Move} (h : m ∈ legalMoves b) :
    m ∈ (generateMoves b []).2 ∧ kingSafe (applyMove b m).2.1 b.mover = true := by
  unfold legalMoves at h
  rw [List.mem_filter] at h
  exact ⟨List.mem_of_mem_take h.1, h.2⟩

theorem countLoop_eq {b : Board} (hw : WF b) (ho : OccupanciesConsistent b)
    (child : Board → Board × Nat) (l : List Move)
    (hchild : ∀ m ∈ l, (child (applyMove b m).2.1).1 = (applyMove b m).2.1)
    (hr : ∀ m ∈ l, Reversible b m) :
    ∀ count : Nat, countLoop child l b count =
      (b, l.foldl (fun acc m => (acc + (child (applyMove b m).2.1).2) % 2 ^ 64) count) := by
  induction l with
  | nil => intro count; rfl
  | cons m rest ih =>
    intro count
    unfold countLoop
    rw [hchild m (List.mem_cons_self _ _), unmake_apply hw ho (hr m (List.mem_cons_self _ _)),
      ih (fun x hx => hchild x (List.mem_cons_of_mem _ hx))
        (fun x hx => hr x (List.mem_cons_of_mem _ hx))]
    rfl

theorem foldl_add_mod (f : Move → Nat) (l : List Move) :
    ∀ count : Nat, l.foldl (fun acc m => (acc + f m) % 2 ^ 64) count % 2 ^ 64 =
      (count + (l.map f).sum) % 2 ^ 64 := by
  induction l with
  | nil => intro count; simp
  | cons m rest ih =>
    intro count
    rw [List.foldl_cons, ih, List.map_cons, List.sum_cons]
    omega

theorem foldl_add_mod_zero (f : Move → Nat) (l : List Move) :
    l.foldl (fun acc m => (acc + f m) % 2 ^ 64) 0 = (l.map f).sum % 2 ^ 64 := by
  have h := foldl_add_mod f l 0
  rw [Nat.zero_add] at h
  rw [← h]
  cases l with
  | nil => rfl
  | cons m rest =>
    symm
    apply Nat.mod_eq_of_lt
    clear h
    have : ∀ (l : List Move) (c : Nat), c < 2 ^ 64 →
        l.foldl (fun acc m => (acc + f m) % 2 ^ 64) c < 2 ^ 64 := by
      intro l
      induction l with
      | nil => intro c hc; exact hc
      | cons x xs ih => intro c _; exact ih _ (Nat.mod_lt _ (by norm_num))
    exact this _ 0 (by norm_num)

theorem countMoves_frame (d : Nat) : ∀ b : Board, WF b → OccupanciesConsistent b →
    (countMoves d b).1 = b ∧
      (countMoves (d + 1) b).2 =
        ((legalMoves b).map (fun m => (countMoves d (applyMove b m).2.1).2)).sum % 2 ^ 64 := by
  induction d with
  | zero =>
    intro b hw ho
    refine ⟨rfl, ?_⟩
    unfold countMoves
    rw [generateLegalMovesToArray_eq hw ho]
    simp only []
    rw [countLoop_eq hw ho _ _ (fun m _ => rfl)
      (fun m hm => generateMoves_reversible hw ho (mem_legalMoves hm).1)]
    simp only []
    exact foldl_add_mod_zero _ _
  | succ k ih =>
    intro b hw ho
    have hrev : ∀ m ∈ legalMoves b, Reversible b m :=
      fun m hm => generateMoves_reversible hw ho (mem_legalMoves hm).1
    have hchild : ∀ (j : Nat), (∀ c : Board, WF c → OccupanciesConsistent c → (countMoves j c).1 = c) →
        ∀ m ∈ legalMoves b,
        (countMoves j (applyMove b m).2.1).1 = (applyMove b m).2.1 :=
      fun j hj m hm => hj _ (wf_applyMove hw (hrev m hm)) (occ_applyMove (hrev m hm).2.2.2.1)
    have frame_k : ∀ c : Board, WF c → OccupanciesConsistent c → (countMoves k c).1 = c :=
      fun c hc hoc => (ih c hc hoc).1
    have frame_k1 : ∀ c : Board, WF c → OccupanciesConsistent c → (countMoves (k + 1) c).1 = c := by
      intro c hc hoc
      have hrevc : ∀ m ∈ legalMoves c, Reversible c m :=
        fun m hm => generateMoves_reversible hc hoc (mem_legalMoves hm).1
      show (countMoves (k + 1) c).1 = c
      rw [countMoves, generateLegalMovesToArray_eq hc hoc]
      simp only []
      rw [countLoop_eq hc hoc _ _
        (fun m hm => frame_k _ (wf_applyMove hc (hrevc m hm)) (occ_applyMove (hrevc m hm).2.2.2.1))
        hrevc]
    refine ⟨frame_k1 b hw ho, ?_⟩
    show (countMoves (k + 1 + 1) b).2 = _
    rw [countMoves, generateLegalMovesToArray_eq hw ho]
    simp only []
    rw [countLoop_eq hw ho _ _ (hchild (k + 1) frame_k1) hrev]
    simp only []
    exact foldl_add_mod_zero _ _

theorem boardSetup_eq (b : Board) : boardSetup b = startBoard := by
  unfold boardSetup
  decide

theorem invariants_startBoard : Invariants startBoard := by decide

theorem countMoves_eq_perft (d : Nat) : ∀ b : Board, WF b → OccupanciesConsistent b →
    (countMoves d b).2 = perft d b := by
  induction d with
  | zero => intro b _ _; rfl
  | succ d ih =>
    intro b hw ho
    rw [(countMoves_frame d b hw ho).2]
    unfold perft
    congr 2
    apply List.map_congr_left
    intro m hm
    obtain ⟨hg, _⟩ := mem_legalMoves hm
    have hr := generateMoves_reversible hw ho hg
    exact ih _ (wf_applyMove hw hr) (occ_applyMove hr.2.2.2.1)

theorem perft_one (b : Board) : perft 1 b = (legalMoves b).length := by
  have hlen : (legalMoves b).length ≤ 512 := by
    unfold legalMoves
    exact le_trans (List.length_filter_le _ _) (List.length_take_le _ _)
  have hsum : ∀ l : List Move, (l.map (fun _ => 1)).sum = l.length := by
    intro l; induction l with
    | nil => rfl
    | cons a t ih => simp [ih, Nat.add_comm]
  show ((legalMoves b).map (fun m => perft 0 (applyMove b m).2.1)).sum % 2 ^ 64 = _
  have : (fun m => perft 0 (applyMove b m).2.1) = (fun _ : Move => 1) := rfl
  rw [this, hsum]
  exact Nat.mod_eq_of_lt (by omega)

theorem perft_start_1 : perft 1 startBoard = 20 := by decide!

theorem perft_e2e4 : perft 1 (applyUciMove startBoard "e2e4") = 20 := by decide!

theorem perft_e2e4_e7e5 : perft 1 (applyUciMove (applyUciMove startBoard "e2e4") "e7e5") = 29 := by
  decide!

theorem inv_e2e4 : Invariants (applyUciMove startBoard "e2e4") := by decide!

theorem inv_e2e4_e7e5 : Invariants (applyUciMove (applyUciMove startBoard "e2e4") "e7e5") := by
  decide!

/-- C1 (instance): the double pawn push e2e4 from the start position. -/
theorem applyMove_unmakeMove_restores_witness :
    unmakeMove (applyMove startBoard ⟨12, 28, 0, 0⟩).2.1 (applyMove startBoard ⟨12, 28, 0, 0⟩).2.2 =
      startBoard :=
  applyMove_unmakeMove_restores startBoard (by decide) ⟨12, 28, 0, 0⟩ (by decide!)

/-- C2 (as stated, refuted): on `overlapBoard`, whose occupancies are
consistent, the knight move d1b2 is produced by `generateMoves` and leaves the
white king on the board and not attacked after `applyMove`, yet
`generateLegalMovesToArray` omits it. -/
theorem generateLegalMovesToArray_overlap_omits :
    OccupanciesConsistent overlapBoard ∧
      (⟨3, 9, 0, 0⟩ : Move) ∈ (generateMoves overlapBoard []).2 ∧
      kingSafe (applyMove overlapBoard ⟨3, 9, 0, 0⟩).2.1 overlapBoard.mover = true ∧
      (⟨3, 9, 0, 0⟩ : Move) ∉ (generateLegalMovesToArray overlapBoard 512).2 := by
  decide!

/-- C2 (amended): for every board satisfying the data-model invariants,
`generateLegalMovesToArray` with `maxMoves = 512` leaves the board as it was and
returns exactly those of the first 512 moves of `generateMoves`, in the same
relative order, for which after `applyMove` the king of the side that moved is
on the board and `isAttacked` on that king's square is false. -/
theorem generateLegalMovesToArray_filter (b : Board) (hinv : Invariants b) :
    generateLegalMovesToArray b 512 =
      (b, ((generateMoves b []).2.take 512).filter
        (fun m => kingSafe (applyMove b m).2.1 b.mover)) :=
  generateLegalMovesToArray_eq (wf_of_invariants hinv) hinv.2.2.1

/-- C2 (instance): the start position. -/
theorem generateLegalMovesToArray_filter_witness :
    generateLegalMovesToArray startBoard 512 =
      (startBoard, ((generateMoves startBoard []).2.take 512).filter
        (fun m => kingSafe (applyMove startBoard m).2.1 startBoard.mover)) :=
  generateLegalMovesToArray_filter startBoard (by decide)

/-- C4: on the board produced by `boardSetup`, `countMoves(board, 1) = 20`. -/
theorem countMoves_start_depth1 (b : Board) : (countMoves 1 (boardSetup b)).2 = 20 := by
  rw [boardSetup_eq, countMoves_eq_perft 1 _ (wf_of_invariants invariants_startBoard)
    invariants_startBoard.2.2.1]
  exact perft_start_1

/-- C7: from `boardSetup`, after the coordinate move "e2e4" applied with
`applyUciMove`, `countMoves(board, 1) = 20`. -/
theorem countMoves_after_e2e4 (b : Board) :
    (countMoves 1 (applyUciMove (boardSetup b) "e2e4")).2 = 20 := by
  rw [boardSetup_eq, countMoves_eq_perft 1 _ (wf_of_invariants inv_e2e4) inv_e2e4.2.2.1]
  exact perft_e2e4

/-- C8 (as stated, refuted): from `boardSetup`, after "e2e4" and "e7e5",
`countMoves(board, 1)` is not 20. -/
theorem countMoves_after_e2e4_e7e5_ne_20 :
    (countMoves 1 (applyUciMove (applyUciMove (boardSetup emptyBoard) "e2e4") "e7e5")).2 ≠ 20 := by
  rw [boardSetup_eq, countMoves_eq_perft 1 _ (wf_of_invariants inv_e2e4_e7e5) inv_e2e4_e7e5.2.2.1,
    perft_e2e4_e7e5]
  decide

/-- C8 (amended): from `boardSetup`, after the coordinate moves "e2e4" then
"e7e5" applied with `applyUciMove`, `countMoves(board, 1) = 29`. -/
theorem countMoves_after_e2e4_e7e5 (b : Board) :
    (countMoves 1 (applyUciMove (applyUciMove (boardSetup b) "e2e4") "e7e5")).2 = 29 := by
  rw [boardSetup_eq, countMoves_eq_perft 1 _ (wf_of_invariants inv_e2e4_e7e5) inv_e2e4_e7e5.2.2.1]
  exact perft_e2e4_e7e5

theorem fileOf_sq_index {r f : Int} (h : insideFileRank r f = true) : fileOf (sq_index r f) = f := by
  rw [insideFileRank_iff] at h
  rw [fileOf_eq (by unfold sq_index; omega)]
  unfold sq_index
  omega

theorem stepGen_king_file {sq : Int} {own : U64} {mv : Move} (h : StepGen sq kingOffsets own mv) :
    fileOf mv.to_ - fileOf mv.from_ ≠ 2 ∧ fileOf mv.from_ - fileOf mv.to_ ≠ 2 := by
  obtain ⟨hf, -, -, -, -, o, ho, hin, hto⟩ := h
  have hk := kingOffsets_file ho
  rw [hto, fileOf_sq_index hin, hf]
  omega

/-- C9: every move emitted by `kingMoves` in which the king changes file by
two is a castling move of the colour `c` of the king on `sq`, from file 4 of
that colour's home rank `r`: `isAttacked` is false for the start square, and
either the move goes to file 6, the king-side right of `c` is set, files 5 and
6 of the rank are empty and `isAttacked` is false for files 5 and 6, or the
move goes to file 2, the queen-side right of `c` is set, files 3, 2 and 1 are
empty and `isAttacked` is false for files 3 and 2. -/
theorem kingMoves_castling_guards (b : Board) (mL : List Move) (sq : Int) (mv : Move)
    (hmv : mv ∈ kingMoves b mL sq) (hnew : mv ∉ mL)
    (hfile : fileOf mv.to_ - fileOf mv.from_ = 2 ∨ fileOf mv.from_ - fileOf mv.to_ = 2) :
    mv.from_ = sq ∧ fileOf sq = 4 ∧ rankOf mv.to_ = rankOf sq ∧
      isAttacked b (rankOf sq) 4 (Int.land (findPieceCodeAt b sq) COLOR_MASK) = false ∧
      ((fileOf mv.to_ = 6 ∧
          (if Int.land (findPieceCodeAt b sq) COLOR_MASK = WHITE then b.shortWhite
            else b.shortBlack) = true ∧
          b.occupied &&& bit (sq_index (rankOf sq) 5) = 0 ∧
          b.occupied &&& bit (sq_index (rankOf sq) 6) = 0 ∧
          isAttacked b (rankOf sq) 5 (Int.land (findPieceCodeAt b sq) COLOR_MASK) = false ∧
          isAttacked b (rankOf sq) 6 (Int.land (findPieceCodeAt b sq) COLOR_MASK) = false) ∨
        (fileOf mv.to_ = 2 ∧
          (if Int.land (findPieceCodeAt b sq) COLOR_MASK = WHITE then b.longWhite
            else b.longBlack) = true ∧
          b.occupied &&& bit (sq_index (rankOf sq) 3) = 0 ∧
          b.occupied &&& bit (sq_index (rankOf sq) 2) = 0 ∧
          b.occupied &&& bit (sq_index (rankOf sq) 1) = 0 ∧
          isAttacked b (rankOf sq) 3 (Int.land (findPieceCodeAt b sq) COLOR_MASK) = false ∧
          isAttacked b (rankOf sq) 2 (Int.land (findPieceCodeAt b sq) COLOR_MASK) = false)) := by
  rcases mem_kingMoves hmv with h | ⟨-, h | h⟩
  · exact absurd h hnew
  · have := stepGen_king_file h
    rcases hfile with h2 | h2
    · exact absurd h2 this.1
    · exact absurd h2 this.2
  · obtain ⟨hf, -, -, hc⟩ := h
    rcases hc with ⟨hc, hs, ht, hr, e5, e6, a4, a5, a6⟩ | ⟨hc, hs, ht, hr, e3, e2, e1, a4, a3, a2⟩ |
        ⟨hc, hs, ht, hr, e5, e6, a4, a5, a6⟩ | ⟨hc, hs, ht, hr, e3, e2, e1, a4, a3, a2⟩
    · rw [hc, ht, hs]
      refine ⟨hf.trans hs, by decide, by decide, a4, Or.inl ⟨by decide, hr, ?_, ?_, a5, a6⟩⟩
      · exact not_not.mp e5
      · exact not_not.mp e6
    · rw [hc, ht, hs]
      refine ⟨hf.trans hs, by decide, by decide, a4, Or.inr ⟨by decide, hr, ?_, ?_, ?_, a3, a2⟩⟩
      · exact not_not.mp e3
      · exact not_not.mp e2
      · exact not_not.mp e1
    · rw [hc, ht, hs]
      refine ⟨hf.trans hs, by decide, by decide, a4, Or.inl ⟨by decide, hr, ?_, ?_, a5, a6⟩⟩
      · exact not_not.mp e5
      · exact not_not.mp e6
    · rw [hc, ht, hs]
      refine ⟨hf.trans hs, by decide, by decide, a4, Or.inr ⟨by decide, hr, ?_, ?_, ?_, a3, a2⟩⟩
      · exact not_not.mp e3
      · exact not_not.mp e2
      · exact not_not.mp e1

theorem and_ne_zero_iff_testBit (x y : Nat) :
    x &&& y ≠ 0 ↔ ∃ n, x.testBit n = true ∧ y.testBit n = true := by
  rw [Ne, and_eq_zero_iff_testBit]
  push_neg
  simp

theorem rayHit_step {occ : U64} {r f dr df : Int} {n : Nat}
    (hin : insideFileRank (r + dr) (f + df) = true)
    (hfree : occ &&& bit (sq_index (r + dr) (f + df)) = 0) :
    RayHit occ r f dr df n ↔
      ((sq_index (r + dr) (f + df)).toNat = n ∨ RayHit occ (r + dr) (f + df) dr df n) := by
  have e : ∀ j : Nat, r + dr + (j : Int) * dr = r + ((j + 1 : Nat) : Int) * dr := by
    intro j; push_cast; ring
  have e2 : ∀ j : Nat, f + df + (j : Int) * df = f + ((j + 1 : Nat) : Int) * df := by
    intro j; push_cast; ring
  constructor
  · rintro ⟨k, hk, hi, hn, hj⟩
    by_cases h1 : k = 1
    · subst h1
      left
      simpa using hn
    · right
      obtain ⟨k2, rfl⟩ : ∃ k2, k = k2 + 1 := ⟨k - 1, by omega⟩
      refine ⟨k2, by omega, ?_, ?_, ?_⟩
      · rw [e, e2]; exact hi
      · rw [e, e2]; exact hn
      · intro j hj0 hjk
        rw [e, e2]
        exact hj (j + 1) (by omega) (by omega)
  · rintro (h | ⟨k, hk, hi, hn, hj⟩)
    · refine ⟨1, by omega, ?_, ?_, ?_⟩
      · simpa using hin
      · simpa using h
      · intro j h0 h1; omega
    · refine ⟨k + 1, by omega, ?_, ?_, ?_⟩
      · rw [← e, ← e2]; exact hi
      · rw [← e, ← e2]; exact hn
      · intro j hj0 hjk
        by_cases h1 : j = 1
        · subst h1
          simpa using hfree
        · obtain ⟨j2, rfl⟩ : ∃ j2, j = j2 + 1 := ⟨j - 1, by omega⟩
          rw [← e, ← e2]
          exact hj j2 (by omega) (by omega)

theorem rayHit_blocked {occ : U64} {r f dr df : Int} {n : Nat}
    (hocc : occ &&& bit (sq_index (r + dr) (f + df)) ≠ 0) :
    RayHit occ r f dr df n ↔
      (insideFileRank (r + dr) (f + df) = true ∧ (sq_index (r + dr) (f + df)).toNat = n) := by
  constructor
  · rintro ⟨k, hk, hi, hn, hj⟩
    by_cases h1 : k = 1
    · subst h1
      exact ⟨by simpa using hi, by simpa using hn⟩
    · exfalso
      apply hocc
      simpa using hj 1 (by omega) (by omega)
  · rintro ⟨hi, hn⟩
    refine ⟨1, by omega, by simpa using hi, by simpa using hn, ?_⟩
    intro j h0 h1; omega

theorem rayWalk_spec (occ : U64) (dr df : Int) (μ : Int → Int → Int)
    (h1 : ∀ r f, insideFileRank r f = true → 0 ≤ μ r f)
    (h2 : ∀ r f, insideFileRank (r + dr) (f + df) = true → μ (r + dr) (f + df) = μ r f - 1)
    (h3 : ∀ r f, insideFileRank r f = true → insideFileRank (r + dr) (f + df) = false →
      ∀ k : Nat, 0 < k → insideFileRank (r + k * dr) (f + k * df) = false) :
    ∀ (fuel : Nat) (r f : Int) (acc : U64), insideFileRank r f = true → μ r f < fuel →
      ∃ res, rayWalk fuel r f dr df occ acc = some res ∧
        ∀ n, res.testBit n = true ↔ (acc.testBit n = true ∨ RayHit occ r f dr df n) := by
  intro fuel
  induction fuel with
  | zero =>
    intro r f acc hin hμ
    have := h1 r f hin
    simp at hμ
    omega
  | succ fuel ih =>
    intro r f acc hin hμ
    unfold rayWalk
    by_cases hnext : insideFileRank (r + dr) (f + df) = true
    · rw [if_pos hnext]
      by_cases hocc : occ &&& bit (sq_index (r + dr) (f + df)) ≠ 0
      · rw [if_pos hocc]
        refine ⟨_, rfl, ?_⟩
        intro n
        rw [testBit_or_bit _ (inRange_sq_index hnext), rayHit_blocked hocc]
        simp [hnext]
      · rw [if_neg hocc]
        have hμ2 : μ (r + dr) (f + df) < fuel := by
          rw [h2 r f hnext]
          push_cast at hμ
          omega
        obtain ⟨res, hres, hspec⟩ := ih (r + dr) (f + df)
          (acc ||| bit (sq_index (r + dr) (f + df))) hnext hμ2
        refine ⟨res, hres, ?_⟩
        intro n
        rw [hspec, testBit_or_bit _ (inRange_sq_index hnext), rayHit_step hnext (not_not.mp hocc)]
        simp only [Bool.or_eq_true, decide_eq_true_eq]
        tauto
    · rw [if_neg hnext]
      refine ⟨_, rfl, ?_⟩
      intro n
      constructor
      · intro h; exact Or.inl h
      · rintro (h | ⟨k, hk, hi, -, -⟩)
        · exact h
        · rw [h3 r f hin (by simpa using hnext) k hk] at hi
          exact absurd hi (by simp)

theorem rankOf_sq_index {r f : Int} (h : insideFileRank r f = true) : rankOf (sq_index r f) = r := by
  rw [insideFileRank_iff] at h
  rw [rankOf_eq]
  unfold sq_index
  omega

theorem insideFileRank_false_iff (r f : Int) :
    insideFileRank r f = false ↔ ¬ (0 ≤ r ∧ r < 8 ∧ 0 ≤ f ∧ f < 8) := by
  rw [← insideFileRank_iff]
  simp

theorem rayWalk_total (occ : U64) {dr df : Int} (hd : UnitDir dr df) (r f : Int)
    (hin : insideFileRank r f = true) :
    ∃ res, rayWalk 8 r f dr df occ 0 = some res ∧
      ∀ n, res.testBit n = true ↔ RayHit occ r f dr df n := by
  have key : ∀ μ : Int → Int → Int,
      (∀ r f, insideFileRank r f = true → 0 ≤ μ r f ∧ μ r f < 8) →
      (∀ r f, insideFileRank (r + dr) (f + df) = true → μ (r + dr) (f + df) = μ r f - 1) →
      (∀ r f, insideFileRank r f = true → insideFileRank (r + dr) (f + df) = false →
        ∀ k : Nat, 0 < k → insideFileRank (r + k * dr) (f + k * df) = false) →
      ∃ res, rayWalk 8 r f dr df occ 0 = some res ∧
        ∀ n, res.testBit n = true ↔ RayHit occ r f dr df n := by
    intro μ a1 a2 a3
    obtain ⟨res, h, hs⟩ := rayWalk_spec occ dr df μ (fun r f h => (a1 r f h).1) a2 a3 8 r f 0 hin
      (by have := (a1 r f hin).2; push_cast; omega)
    exact ⟨res, h, fun n => by rw [hs]; simp⟩
  obtain ⟨h1, h2, h3⟩ := hd
  rcases h1 with rfl | rfl | rfl
  · apply key (fun r _ => r)
    · intro r f h; rw [insideFileRank_iff] at h; constructor <;> omega
    · intro r f _; ring
    · intro r f h hn k hk
      rw [insideFileRank_iff] at h
      rw [insideFileRank_false_iff] at hn ⊢
      rcases h2 with rfl | rfl | rfl <;> omega
  · rcases h2 with rfl | rfl | rfl
    · apply key (fun _ f => f)
      · intro r f h; rw [insideFileRank_iff] at h; constructor <;> omega
      · intro r f _; ring
      · intro r f h hn k hk
        rw [insideFileRank_iff] at h
        rw [insideFileRank_false_iff] at hn ⊢
        omega
    · exact absurd rfl (h3.elim id id)
    · apply key (fun _ f => 7 - f)
      · intro r f h; rw [insideFileRank_iff] at h; constructor <;> omega
      · intro r f _; ring
      · intro r f h hn k hk
        rw [insideFileRank_iff] at h
        rw [insideFileRank_false_iff] at hn ⊢
        omega
  · apply key (fun r _ => 7 - r)
    · intro r f h; rw [insideFileRank_iff] at h; constructor <;> omega
    · intro r f _; ring
    · intro r f h hn k hk
      rw [insideFileRank_iff] at h
      rw [insideFileRank_false_iff] at hn ⊢
      rcases h2 with rfl | rfl | rfl <;> omega

theorem testBit_rayAttacksFrom (occ : U64) {dr df : Int} (hd : UnitDir dr df) {r f : Int}
    (hin : insideFileRank r f = true) (n : Nat) :
    (rayAttacksFrom (sq_index r f) dr df occ).testBit n = true ↔ RayHit occ r f dr df n := by
  unfold rayAttacksFrom
  rw [rankOf_sq_index hin, fileOf_sq_index hin]
  obtain ⟨res, h, hs⟩ := rayWalk_total occ hd r f hin
  rw [h]
  exact hs n

theorem rayHit_and_iff (occ X : U64) (r f dr df : Int) :
    (∃ n, RayHit occ r f dr df n ∧ X.testBit n = true) ↔
      ∃ k : Nat, 0 < k ∧ PieceOn X (r + k * dr) (f + k * df) ∧
        ∀ j : Nat, 0 < j → j < k → occ &&& bit (sq_index (r + j * dr) (f + j * df)) = 0 := by
  constructor
  · rintro ⟨n, ⟨k, hk, hi, hn, hj⟩, hx⟩
    refine ⟨k, hk, ⟨hi, ?_⟩, hj⟩
    rw [and_bit_ne_zero_iff _ (inRange_sq_index hi), hn]
    exact hx
  · rintro ⟨k, hk, ⟨hi, hx⟩, hj⟩
    rw [and_bit_ne_zero_iff _ (inRange_sq_index hi)] at hx
    exact ⟨_, ⟨k, hk, hi, rfl, hj⟩, hx⟩

theorem clear_iff_noneBetween (occ : U64) {dr df : Int} (hd : UnitDir dr df) (r f : Int) (k : Nat) :
    (∀ j : Nat, 0 < j → j < k → occ &&& bit (sq_index (r + j * dr) (f + j * df)) = 0) ↔
      NoneBetween occ r f (r + k * dr) (f + k * df) := by
  obtain ⟨h1, h2, h3⟩ := hd
  constructor
  · intro h x y hb
    have hx : ∃ j : Nat, 0 < j ∧ j < k ∧ r + (j : Int) * dr = x ∧ f + (j : Int) * df = y := by
      refine ⟨max (x - r).natAbs (y - f).natAbs, ?_⟩
      unfold StrictlyBetween at hb
      rcases h1 with rfl | rfl | rfl <;> rcases h2 with rfl | rfl | rfl <;> omega
    obtain ⟨j, j0, jk, rfl, rfl⟩ := hx
    exact h j j0 jk
  · intro h j j0 jk
    apply h
    unfold StrictlyBetween
    rcases h1 with rfl | rfl | rfl <;> rcases h2 with rfl | rfl | rfl <;> omega

theorem rook_unit {d : Int × Int} (h : d ∈ rookOffsets) : UnitDir d.1 d.2 := by
  unfold rookOffsets at h
  simp only [List.mem_cons, List.mem_singleton, List.not_mem_nil, or_false] at h
  rcases h with h | h | h | h <;> subst h <;> unfold UnitDir <;> decide

theorem bishop_unit {d : Int × Int} (h : d ∈ bishopOffsets) : UnitDir d.1 d.2 := by
  unfold bishopOffsets at h
  simp only [List.mem_cons, List.mem_singleton, List.not_mem_nil, or_false] at h
  rcases h with h | h | h | h <;> subst h <;> unfold UnitDir <;> decide

theorem pieceOn_or (X Y : U64) (r f : Int) :
    PieceOn (X ||| Y) r f ↔ (PieceOn X r f ∨ PieceOn Y r f) := by
  unfold PieceOn
  by_cases h : insideFileRank r f = true
  · simp only [h, true_and, and_bit_ne_zero_iff _ (inRange_sq_index h), Nat.testBit_or,
      Bool.or_eq_true]
  · simp [h]

/-- The ray test of `isAttacked` in one direction, in terms of squares. -/
theorem ray_test_iff (occ X : U64) {dr df : Int} (hd : UnitDir dr df) {r f : Int}
    (hin : insideFileRank r f = true) :
    rayAttacksFrom (sq_index r f) dr df occ &&& X ≠ 0 ↔
      ∃ k : Nat, 0 < k ∧ PieceOn X (r + k * dr) (f + k * df) ∧
        NoneBetween occ r f (r + k * dr) (f + k * df) := by
  rw [and_ne_zero_iff_testBit]
  simp only [testBit_rayAttacksFrom occ hd hin]
  rw [rayHit_and_iff]
  simp only [clear_iff_noneBetween occ hd]

theorem rook_lines_iff (occ X : U64) (r f : Int) :
    (∃ d ∈ rookOffsets, ∃ k : Nat, 0 < k ∧ PieceOn X (r + k * d.1) (f + k * d.2) ∧
        NoneBetween occ r f (r + k * d.1) (f + k * d.2)) ↔
      ∃ r2 f2, PieceOn X r2 f2 ∧ SameRankOrFile r f r2 f2 ∧ NoneBetween occ r f r2 f2 := by
  constructor
  · rintro ⟨d, hd, k, hk, hp, hn⟩
    refine ⟨_, _, hp, ?_, hn⟩
    unfold rookOffsets at hd
    simp only [List.mem_cons, List.mem_singleton, List.not_mem_nil, or_false] at hd
    unfold SameRankOrFile
    rcases hd with h | h | h | h <;> subst h <;> simp only [] <;> omega
  · rintro ⟨r2, f2, hp, hs, hn⟩
    unfold SameRankOrFile at hs
    have hx : ∃ d ∈ rookOffsets, ∃ k : Nat, 0 < k ∧ r + (k : Int) * d.1 = r2 ∧
        f + (k : Int) * d.2 = f2 := by
      by_cases c1 : r2 < r
      · exact ⟨(-1, 0), by simp [rookOffsets], (r - r2).toNat, by omega, by simp only []; omega,
          by simp only []; omega⟩
      by_cases c2 : r < r2
      · exact ⟨(1, 0), by simp [rookOffsets], (r2 - r).toNat, by omega, by simp only []; omega,
          by simp only []; omega⟩
      by_cases c3 : f2 < f
      · exact ⟨(0, -1), by simp [rookOffsets], (f - f2).toNat, by omega, by simp only []; omega,
          by simp only []; omega⟩
      · exact ⟨(0, 1), by simp [rookOffsets], (f2 - f).toNat, by omega, by simp only []; omega,
          by simp only []; omega⟩
    obtain ⟨d, hd, k, hk, rfl, rfl⟩ := hx
    exact ⟨d, hd, k, hk, hp, hn⟩

theorem bishop_lines_iff (occ X : U64) (r f : Int) :
    (∃ d ∈ bishopOffsets, ∃ k : Nat, 0 < k ∧ PieceOn X (r + k * d.1) (f + k * d.2) ∧
        NoneBetween occ r f (r + k * d.1) (f + k * d.2)) ↔
      ∃ r2 f2, PieceOn X r2 f2 ∧ SameDiagonal r f r2 f2 ∧ NoneBetween occ r f r2 f2 := by
  constructor
  · rintro ⟨d, hd, k, hk, hp, hn⟩
    refine ⟨_, _, hp, ?_, hn⟩
    unfold bishopOffsets at hd
    simp only [List.mem_cons, List.mem_singleton, List.not_mem_nil, or_false] at hd
    unfold SameDiagonal
    rcases hd with h | h | h | h <;> subst h <;> simp only [] <;> omega
  · rintro ⟨r2, f2, hp, hs, hn⟩
    unfold SameDiagonal at hs
    have hx : ∃ d ∈ bishopOffsets, ∃ k : Nat, 0 < k ∧ r + (k : Int) * d.1 = r2 ∧
        f + (k : Int) * d.2 = f2 := by
      by_cases c1 : r2 < r
      · by_cases c2 : f2 < f
        · exact ⟨(-1, -1), by simp [bishopOffsets], (r - r2).toNat, by omega,
            by simp only []; omega, by simp only []; omega⟩
        · exact ⟨(-1, 1), by simp [bishopOffsets], (r - r2).toNat, by omega,
            by simp only []; omega, by simp only []; omega⟩
      · by_cases c2 : f2 < f
        · exact ⟨(1, -1), by simp [bishopOffsets], (r2 - r).toNat, by omega,
            by simp only []; omega, by simp only []; omega⟩
        · exact ⟨(1, 1), by simp [bishopOffsets], (r2 - r).toNat, by omega,
            by simp only []; omega, by simp only []; omega⟩
    obtain ⟨d, hd, k, hk, rfl, rfl⟩ := hx
    exact ⟨d, hd, k, hk, hp, hn⟩

theorem offset_test_iff (offs : List (Int × Int)) (X : U64) {r f : Int}
    (hin : insideFileRank r f = true) :
    offsetAttacks offs (rankOf (sq_index r f)) (fileOf (sq_index r f)) &&& X ≠ 0 ↔
      ∃ o ∈ offs, PieceOn X (r + o.1) (f + o.2) := by
  rw [and_ne_zero_iff_testBit, rankOf_sq_index hin, fileOf_sq_index hin]
  simp only [testBit_offsetAttacks]
  constructor
  · rintro ⟨n, ⟨o, ho, hi, hn⟩, hx⟩
    refine ⟨o, ho, hi, ?_⟩
    rw [and_bit_ne_zero_iff _ (inRange_sq_index hi), hn]
    exact hx
  · rintro ⟨o, ho, hi, hx⟩
    rw [and_bit_ne_zero_iff _ (inRange_sq_index hi)] at hx
    exact ⟨_, ⟨o, ho, hi, rfl⟩, hx⟩

theorem knight_offsets_iff (X : U64) (r f : Int) :
    (∃ o ∈ knightOffsets, PieceOn X (r + o.1) (f + o.2)) ↔
      ∃ r2 f2, PieceOn X r2 f2 ∧ KnightJump r f r2 f2 := by
  constructor
  · rintro ⟨o, ho, hp⟩
    refine ⟨_, _, hp, ?_⟩
    unfold knightOffsets at ho
    simp only [List.mem_cons, List.mem_singleton, List.not_mem_nil, or_false] at ho
    unfold KnightJump
    rcases ho with h | h | h | h | h | h | h | h <;> subst h <;> simp only [] <;> omega
  · rintro ⟨r2, f2, hp, hk⟩
    refine ⟨(r2 - r, f2 - f), ?_, ?_⟩
    · unfold KnightJump at hk
      have hv : ((r2 - r = 1 ∨ r2 - r = -1) ∧ (f2 - f = 2 ∨ f2 - f = -2)) ∨
          ((r2 - r = 2 ∨ r2 - r = -2) ∧ (f2 - f = 1 ∨ f2 - f = -1)) := by omega
      rcases hv with ⟨h1 | h1, h2 | h2⟩ | ⟨h1 | h1, h2 | h2⟩ <;> rw [h1, h2] <;> decide
    · have e1 : r + (r2 - r) = r2 := by ring
      have e2 : f + (f2 - f) = f2 := by ring
      simp only [e1, e2]
      exact hp

theorem king_offsets_iff (X : U64) (r f : Int) :
    (∃ o ∈ kingOffsets, PieceOn X (r + o.1) (f + o.2)) ↔
      ∃ r2 f2, PieceOn X r2 f2 ∧ Adjacent r f r2 f2 := by
  constructor
  · rintro ⟨o, ho, hp⟩
    refine ⟨_, _, hp, ?_⟩
    unfold kingOffsets at ho
    simp only [List.mem_cons, List.mem_singleton, List.not_mem_nil, or_false] at ho
    unfold Adjacent
    rcases ho with h | h | h | h | h | h | h | h <;> subst h <;> simp only [] <;> omega
  · rintro ⟨r2, f2, hp, hk⟩
    refine ⟨(r2 - r, f2 - f), ?_, ?_⟩
    · unfold Adjacent at hk
      have hv : (r2 - r = -1 ∨ r2 - r = 0 ∨ r2 - r = 1) ∧ (f2 - f = -1 ∨ f2 - f = 0 ∨ f2 - f = 1) ∧
          (r2 - r ≠ 0 ∨ f2 - f ≠ 0) := by omega
      obtain ⟨h1, h2, h3⟩ := hv
      rcases h1 with h1 | h1 | h1 <;> rcases h2 with h2 | h2 | h2 <;> rw [h1, h2] at h3 ⊢ <;>
        first
          | decide
          | exact absurd rfl (h3.elim id id)
    · have e1 : r + (r2 - r) = r2 := by ring
      have e2 : f + (f2 - f) = f2 := by ring
      simp only [e1, e2]
      exact hp

theorem pawnOn_iff (X : U64) (r f : Int) : pawnOn X r f = true ↔ PieceOn X r f := by
  unfold pawnOn PieceOn
  simp

theorem isAttacked_unfold (b : Board) (row col color : Int) :
    isAttacked b row col color = true ↔
      (knightAttacks (sq_index row col) &&&
          (if (if color = WHITE then BLACK else WHITE) = WHITE then b.wn else b.bn) ≠ 0 ∨
        kingAttacks (sq_index row col) &&&
          (if (if color = WHITE then BLACK else WHITE) = WHITE then b.wk else b.bk) ≠ 0 ∨
        (if (if color = WHITE then BLACK else WHITE) = WHITE then
            pawnOn b.wp (row - 1) (col + -1) || pawnOn b.wp (row - 1) (col + 1)
          else pawnOn b.bp (row + 1) (col + -1) || pawnOn b.bp (row + 1) (col + 1)) = true ∨
        (∃ d ∈ rookOffsets, rayAttacksFrom (sq_index row col) d.1 d.2 b.occupied &&&
          ((if (if color = WHITE then BLACK else WHITE) = WHITE then b.wr else b.br) |||
            (if (if color = WHITE then BLACK else WHITE) = WHITE then b.wq else b.bq)) ≠ 0) ∨
        (∃ d ∈ bishopOffsets, rayAttacksFrom (sq_index row col) d.1 d.2 b.occupied &&&
          ((if (if color = WHITE then BLACK else WHITE) = WHITE then b.wb else b.bb) |||
            (if (if color = WHITE then BLACK else WHITE) = WHITE then b.wq else b.bq)) ≠ 0)) := by
  unfold isAttacked
  simp only []
  generalize (if color = WHITE then BLACK else WHITE) = a
  by_cases h1 : knightAttacks (sq_index row col) &&& (if a = WHITE then b.wn else b.bn) ≠ 0
  · rw [if_pos h1]; exact ⟨fun _ => Or.inl h1, fun _ => rfl⟩
  rw [if_neg h1]
  by_cases h2 : kingAttacks (sq_index row col) &&& (if a = WHITE then b.wk else b.bk) ≠ 0
  · rw [if_pos h2]; exact ⟨fun _ => Or.inr (Or.inl h2), fun _ => rfl⟩
  rw [if_neg h2]
  by_cases h3 : (if a = WHITE then
            pawnOn b.wp (row - 1) (col + -1) || pawnOn b.wp (row - 1) (col + 1)
          else pawnOn b.bp (row + 1) (col + -1) || pawnOn b.bp (row + 1) (col + 1)) = true
  · rw [if_pos h3]; exact ⟨fun _ => Or.inr (Or.inr (Or.inl h3)), fun _ => rfl⟩
  rw [if_neg h3]
  have e4 : (rookOffsets.any fun d => decide
        (rayAttacksFrom (sq_index row col) d.1 d.2 b.occupied &&&
          ((if a = WHITE then b.wr else b.br) ||| (if a = WHITE then b.wq else b.bq)) ≠ 0)) = true ↔
      ∃ d ∈ rookOffsets, rayAttacksFrom (sq_index row col) d.1 d.2 b.occupied &&&
        ((if a = WHITE then b.wr else b.br) ||| (if a = WHITE then b.wq else b.bq)) ≠ 0 := by
    rw [List.any_eq_true]
    simp only [decide_eq_true_eq]
  have e5 : (bishopOffsets.any fun d => decide
        (rayAttacksFrom (sq_index row col) d.1 d.2 b.occupied &&&
          ((if a = WHITE then b.wb else b.bb) ||| (if a = WHITE then b.wq else b.bq)) ≠ 0)) = true ↔
      ∃ d ∈ bishopOffsets, rayAttacksFrom (sq_index row col) d.1 d.2 b.occupied &&&
        ((if a = WHITE then b.wb else b.bb) ||| (if a = WHITE then b.wq else b.bq)) ≠ 0 := by
    rw [List.any_eq_true]
    simp only [decide_eq_true_eq]
  rw [← e4, ← e5]
  by_cases h4 : (rookOffsets.any fun d => decide
        (rayAttacksFrom (sq_index row col) d.1 d.2 b.occupied &&&
          ((if a = WHITE then b.wr else b.br) ||| (if a = WHITE then b.wq else b.bq)) ≠ 0)) = true
  · rw [if_pos h4]; exact ⟨fun _ => Or.inr (Or.inr (Or.inr (Or.inl h4))), fun _ => rfl⟩
  rw [if_neg h4]
  by_cases h5 : (bishopOffsets.any fun d => decide
        (rayAttacksFrom (sq_index row col) d.1 d.2 b.occupied &&&
          ((if a = WHITE then b.wb else b.bb) ||| (if a = WHITE then b.wq else b.bq)) ≠ 0)) = true
  · rw [if_pos h5]; exact ⟨fun _ => Or.inr (Or.inr (Or.inr (Or.inr h5))), fun _ => rfl⟩
  rw [if_neg h5]
  constructor
  · intro h; exact absurd h (by decide)
  · rintro (h | h | h | h | h)
    · exact absurd h h1
    · exact absurd h h2
    · exact absurd h h3
    · exact absurd h h4
    · exact absurd h h5

theorem rook_part_iff (b : Board) (a : Int) {row col : Int} (hsq : insideFileRank row col = true) :
    (∃ d ∈ rookOffsets, rayAttacksFrom (sq_index row col) d.1 d.2 b.occupied &&&
        ((if a = WHITE then b.wr else b.br) ||| (if a = WHITE then b.wq else b.bq)) ≠ 0) ↔
      ∃ r2 f2, (PieceOn (if a = WHITE then b.wr else b.br) r2 f2 ∨
          PieceOn (if a = WHITE then b.wq else b.bq) r2 f2) ∧
        SameRankOrFile row col r2 f2 ∧ NoneBetween b.occupied row col r2 f2 := by
  constructor
  · rintro ⟨d, hd, h⟩
    obtain ⟨r2, f2, hp, hs, hn⟩ :=
      (rook_lines_iff _ _ _ _).mp ⟨d, hd, (ray_test_iff _ _ (rook_unit hd) hsq).mp h⟩
    exact ⟨r2, f2, (pieceOn_or _ _ _ _).mp hp, hs, hn⟩
  · rintro ⟨r2, f2, hp, hs, hn⟩
    obtain ⟨d, hd, h⟩ := (rook_lines_iff _ _ _ _).mpr ⟨r2, f2, (pieceOn_or _ _ _ _).mpr hp, hs, hn⟩
    exact ⟨d, hd, (ray_test_iff _ _ (rook_unit hd) hsq).mpr h⟩

theorem bishop_part_iff (b : Board) (a : Int) {row col : Int}
    (hsq : insideFileRank row col = true) :
    (∃ d ∈ bishopOffsets, rayAttacksFrom (sq_index row col) d.1 d.2 b.occupied &&&
        ((if a = WHITE then b.wb else b.bb) ||| (if a = WHITE then b.wq else b.bq)) ≠ 0) ↔
      ∃ r2 f2, (PieceOn (if a = WHITE then b.wb else b.bb) r2 f2 ∨
          PieceOn (if a = WHITE then b.wq else b.bq) r2 f2) ∧
        SameDiagonal row col r2 f2 ∧ NoneBetween b.occupied row col r2 f2 := by
  constructor
  · rintro ⟨d, hd, h⟩
    obtain ⟨r2, f2, hp, hs, hn⟩ :=
      (bishop_lines_iff _ _ _ _).mp ⟨d, hd, (ray_test_iff _ _ (bishop_unit hd) hsq).mp h⟩
    exact ⟨r2, f2, (pieceOn_or _ _ _ _).mp hp, hs, hn⟩
  · rintro ⟨r2, f2, hp, hs, hn⟩
    obtain ⟨d, hd, h⟩ := (bishop_lines_iff _ _ _ _).mpr ⟨r2, f2, (pieceOn_or _ _ _ _).mpr hp, hs, hn⟩
    exact ⟨d, hd, (ray_test_iff _ _ (bishop_unit hd) hsq).mpr h⟩

theorem pawn_part_iff (b : Board) (a row col : Int) :
    (if a = WHITE then pawnOn b.wp (row - 1) (col + -1) || pawnOn b.wp (row - 1) (col + 1)
      else pawnOn b.bp (row + 1) (col + -1) || pawnOn b.bp (row + 1) (col + 1)) = true ↔
      ((a = WHITE ∧ (PieceOn b.wp (row - 1) (col - 1) ∨ PieceOn b.wp (row - 1) (col + 1))) ∨
        (a ≠ WHITE ∧ (PieceOn b.bp (row + 1) (col - 1) ∨ PieceOn b.bp (row + 1) (col + 1)))) := by
  have e : col + -1 = col - 1 := by ring
  rw [e]
  by_cases h : a = WHITE
  · rw [if_pos h, Bool.or_eq_true, pawnOn_iff, pawnOn_iff]
    constructor
    · intro x; exact Or.inl ⟨h, x⟩
    · rintro (⟨-, x⟩ | ⟨n, -⟩)
      · exact x
      · exact absurd h n
  · rw [if_neg h, Bool.or_eq_true, pawnOn_iff, pawnOn_iff]
    constructor
    · intro x; exact Or.inr ⟨h, x⟩
    · rintro (⟨n, -⟩ | ⟨-, x⟩)
      · exact absurd n h
      · exact x

/-- C10: for a square `(row, col)` of the board, `isAttacked(board, row, col,
color)` is true if and only if some piece of the opposite colour (Black when
`color` is `WHITE`, White otherwise) attacks the square: a knight a knight's
jump away, a king on an adjacent square, a white pawn on `(row - 1, col ± 1)`
or a black pawn on `(row + 1, col ± 1)`, a rook or queen on the same rank or
file with no occupied square strictly between, or a bishop or queen on a shared
diagonal with no occupied square strictly between. -/
theorem isAttacked_iff_attacked (b : Board) (row col color : Int)
    (hsq : insideFileRank row col = true) :
    isAttacked b row col color = true ↔
      Attacked b row col (if color = WHITE then BLACK else WHITE) := by
  rw [isAttacked_unfold]
  unfold Attacked
  generalize (if color = WHITE then BLACK else WHITE) = a
  rw [pawn_part_iff, or_assoc]
  refine or_congr ?_ (or_congr ?_ (or_congr Iff.rfl (or_congr Iff.rfl
    (or_congr (rook_part_iff b a hsq) (bishop_part_iff b a hsq)))))
  · unfold knightAttacks
    rw [offset_test_iff _ _ hsq, knight_offsets_iff]
  · unfold kingAttacks
    rw [offset_test_iff _ _ hsq, king_offsets_iff]

/-- C10 (instance): the square a5 is attacked by the white rook on a1 of
`rookFileBoard`. -/
theorem isAttacked_iff_attacked_witness :
    isAttacked rookFileBoard 4 0 BLACK = true ↔ Attacked rookFileBoard 4 0 WHITE :=
  isAttacked_iff_attacked rookFileBoard 4 0 BLACK (by decide)

/-- C9 (instance): the king-side castling move e1g1 emitted on `castleBoard`. -/
theorem kingMoves_castling_guards_witness :
    isAttacked castleBoard (rankOf 4) 4 (Int.land (findPieceCodeAt castleBoard 4) COLOR_MASK) =
      false :=
  (kingMoves_castling_guards castleBoard [] 4 ⟨4, 6, 0, 0⟩ (by decide!) (by simp)
    (Or.inl (by decide))).2.2.2.1

/-- C3 (amended): for every board satisfying the invariants, `countMoves(board,
0) = 1`; for every depth `d`, `countMoves(board, d + 1)` is the sum, reduced
modulo `2 ^ 64` (the width of the counter), over the legal moves `m` of the
board of `countMoves(board after applyMove m, d)`; and `countMoves(board, 1)` is
the number of legal moves. -/
theorem countMoves_recurrence (b : Board) (hinv : Invariants b) (d : Nat) :
    (countMoves 0 b).2 = 1 ∧
      (countMoves (d + 1) b).2 =
        ((generateLegalMovesToArray b 512).2.map
          (fun m => (countMoves d (applyMove b m).2.1).2)).sum % 2 ^ 64 ∧
      (countMoves 1 b).2 = (generateLegalMovesToArray b 512).2.length := by
  have hw := wf_of_invariants hinv
  have ho := hinv.2.2.1
  refine ⟨rfl, ?_, ?_⟩
  · rw [generateLegalMovesToArray_eq hw ho]
    exact (countMoves_frame d b hw ho).2
  · rw [generateLegalMovesToArray_eq hw ho, countMoves_eq_perft 1 b hw ho]
    exact perft_one b

/-- C3 (instance): the start position at depth 1. -/
theorem countMoves_recurrence_witness :
    (countMoves 0 startBoard).2 = 1 ∧
      (countMoves (0 + 1) startBoard).2 =
        ((generateLegalMovesToArray startBoard 512).2.map
          (fun m => (countMoves 0 (applyMove startBoard m).2.1).2)).sum % 2 ^ 64 ∧
      (countMoves 1 startBoard).2 = (generateLegalMovesToArray startBoard 512).2.length :=
  countMoves_recurrence startBoard (by decide) 0

theorem fortressClosed_true : fortressClosed = true := by decide!

theorem fortress_spec {b : Board} (hb : b ∈ fortressBoards) :
    Invariants b ∧ (legalMoves b).length = 2 ∧
      ∀ m ∈ legalMoves b, (applyMove b m).2.1 ∈ fortressBoards := by
  have h := fortressClosed_true
  unfold fortressClosed at h
  rw [List.all_eq_true] at h
  have hb2 := h b hb
  simp only [Bool.and_eq_true, decide_eq_true_eq, List.all_eq_true] at hb2
  exact ⟨hb2.1.1, hb2.1.2, hb2.2⟩

theorem sum_map_const_two {l : List Move} (hl : l.length = 2) (f : Move → Nat) (c : Nat)
    (hf : ∀ m ∈ l, f m = c) : (l.map f).sum = 2 * c := by
  match l, hl with
  | [x, y], _ =>
    have h1 := hf x (by simp)
    have h2 := hf y (by simp)
    simp only [List.map_cons, List.map_nil, List.sum_cons, List.sum_nil, h1, h2]
    omega

theorem perft_fortress (d : Nat) : ∀ b ∈ fortressBoards, perft d b = 2 ^ d % 2 ^ 64 := by
  induction d with
  | zero => intro b _; rfl
  | succ d ih =>
    intro b hb
    obtain ⟨-, hlen, hnext⟩ := fortress_spec hb
    show ((legalMoves b).map (fun m => perft d (applyMove b m).2.1)).sum % 2 ^ 64 = _
    rw [sum_map_const_two hlen _ (2 ^ d % 2 ^ 64) (fun m hm => ih _ (hnext m hm))]
    rw [pow_succ]
    omega

/-- C3 (as stated, refuted): on the blocked position with the kings on a1 and
h8 and White to move, which satisfies the invariants, `countMoves(board, 64)`
is not the sum over the legal moves `m` of `countMoves(board after m, 63)`:
each of the two legal moves contributes `2 ^ 63` and the 64-bit counter wraps
to `0`. -/
theorem countMoves_fortress_wraps :
    Invariants (fortress 0 63 0) ∧
      (countMoves (63 + 1) (fortress 0 63 0)).2 ≠
        ((generateLegalMovesToArray (fortress 0 63 0) 512).2.map
          (fun m => (countMoves 63 (applyMove (fortress 0 63 0) m).2.1).2)).sum := by
  have hb : fortress 0 63 0 ∈ fortressBoards := by unfold fortressBoards; simp
  obtain ⟨hinv, hlen, hnext⟩ := fortress_spec hb
  have hw := wf_of_invariants hinv
  have ho := hinv.2.2.1
  refine ⟨hinv, ?_⟩
  rw [countMoves_eq_perft _ _ hw ho, perft_fortress _ _ hb, generateLegalMovesToArray_eq hw ho]
  have hsum := sum_map_const_two hlen
    (fun m => (countMoves 63 (applyMove (fortress 0 63 0) m).2.1).2) (2 ^ 63 % 2 ^ 64)
    (fun m hm => by
      have hc := hnext m hm
      have hci := (fortress_spec hc).1
      show (countMoves 63 (applyMove (fortress 0 63 0) m).2.1).2 = _
      rw [countMoves_eq_perft _ _ (wf_of_invariants hci) hci.2.2.1, perft_fortress _ _ hc])
  show _ ≠ ((legalMoves (fortress 0 63 0)).map _).sum
  rw [hsum]
  norm_num

theorem hit_iff (a b : Nat) : hit a b = true ↔ a &&& b ≠ 0 := by
  unfold hit
  show (!(Nat.beq (a &&& b) 0)) = true ↔ _
  cases h : Nat.beq (a &&& b) 0
  · have : ¬ (a &&& b) = 0 := fun e => by rw [e] at h; exact absurd h (by decide)
    simp [this]
  · have : (a &&& b) = 0 := Nat.eq_of_beq_eq_true h
    simp [this]

theorem tb_eq (x n : Nat) : tb x n = x.testBit n := by
  unfold tb Nat.testBit
  show (!(Nat.beq ((x >>> n) &&& 1) 0)) = _
  rw [Nat.land_comm]
  cases h : Nat.beq (1 &&& x >>> n) 0
  · have : ¬ (1 &&& x >>> n) = 0 := fun e => by rw [e] at h; exact absurd h (by decide)
    have t2 := this
    rw [Nat.one_and_eq_mod_two] at t2
    simp [bne, this]
    omega
  · have : (1 &&& x >>> n) = 0 := Nat.eq_of_beq_eq_true h
    simp [bne, this]

theorem and_pred_odd (y : Nat) : (2 * y + 1) &&& (2 * y + 1 - 1) = 2 * y := by
  apply Nat.eq_of_testBit_eq
  intro i
  rw [Nat.testBit_and]
  cases i with
  | zero => simp [Nat.testBit_zero]
  | succ i =>
    simp only [Nat.add_sub_cancel, Nat.testBit_succ]
    have e1 : (2 * y + 1) / 2 = y := by omega
    have e2 : 2 * y / 2 = y := by omega
    rw [e1, e2, Bool.and_self]

theorem and_pred_even (y : Nat) (hy : 0 < y) : (2 * y) &&& (2 * y - 1) = 2 * (y &&& (y - 1)) := by
  apply Nat.eq_of_testBit_eq
  intro i
  rw [Nat.testBit_and]
  cases i with
  | zero =>
    have e : (2 * y) % 2 = 0 := by omega
    have e2 : (2 * (y &&& (y - 1))) % 2 = 0 := by omega
    simp [Nat.testBit_zero, e, e2]
  | succ i =>
    simp only [Nat.testBit_succ]
    have e1 : 2 * y / 2 = y := by omega
    have e2 : (2 * y - 1) / 2 = y - 1 := by omega
    have e3 : 2 * (y &&& (y - 1)) / 2 = y &&& (y - 1) := by omega
    rw [e1, e2, e3, Nat.testBit_and]

theorem tabLogOk_true : tabLogOk = true := by decide!

theorem lowBit_eq (fuel : Nat) : ∀ x : Nat, x ≠ 0 → x < 2 ^ fuel →
    x - (x &&& (x - 1)) = 2 ^ ctzFuel fuel x ∧ ctzFuel fuel x < fuel := by
  induction fuel with
  | zero => intro x h0 h1; simp at h1; exact absurd h1 h0
  | succ k ih =>
    intro x h0 h1
    unfold ctzFuel
    by_cases hodd : x % 2 = 1
    · rw [if_pos hodd]
      obtain ⟨y, rfl⟩ : ∃ y, x = 2 * y + 1 := ⟨x / 2, by omega⟩
      rw [and_pred_odd]
      constructor
      · simp
      · omega
    · rw [if_neg hodd]
      obtain ⟨y, rfl⟩ : ∃ y, x = 2 * y := ⟨x / 2, by omega⟩
      have hy : 0 < y := by omega
      have e : 2 * y / 2 = y := by omega
      obtain ⟨i1, i2⟩ := ih y (by omega) (by rw [pow_succ] at h1; omega)
      rw [e, and_pred_even y hy, ← Nat.mul_sub, i1, pow_succ]
      constructor
      · ring
      · omega

theorem ctzFuel_eq_ctzN (x : Nat) (h0 : x ≠ 0) (h1 : x < 2 ^ 64) : ctzFuel 64 x = ctzN x := by
  obtain ⟨i1, i2⟩ := lowBit_eq 64 x h0 h1
  have h := tabLogOk_true
  unfold tabLogOk at h
  rw [List.all_eq_true] at h
  have hk := Nat.eq_of_beq_eq_true (h (ctzFuel 64 x) (List.mem_range.mpr i2))
  unfold ctzN
  have e : Nat.sub x (Nat.land x (Nat.sub x 1)) = Nat.pow 2 (ctzFuel 64 x) := i1
  rw [e]
  exact hk.symm

theorem ctzll_eq_ctzN {x : Nat} (h0 : x ≠ 0) (h1 : x < 2 ^ 64) : ctzll x = (ctzN x : Nat) := by
  unfold ctzll
  rw [ctzFuel_eq_ctzN x h0 h1]

theorem tablesOk_true : tablesOk = true := by decide!

theorem tables_spec {n : Nat} (hn : n < 64) :
    look tabKN n = knightAttacks (n : Nat) ∧ look tabKG n = kingAttacks (n : Nat) ∧
      look tabRL n = lineMask rookOffsets (n : Nat) ∧
      look tabBL n = lineMask bishopOffsets (n : Nat) ∧
      look tabWP n = pawnMask (((n / 8 : Nat) : Int) - 1) ((n % 8 : Nat) : Int) ∧
      look tabBP n = pawnMask (((n / 8 : Nat) : Int) + 1) ((n % 8 : Nat) : Int) := by
  have h := tablesOk_true
  unfold tablesOk at h
  rw [List.all_eq_true] at h
  have hh := h n (List.mem_range.mpr hn)
  simp only [Bool.and_eq_true] at hh
  obtain ⟨⟨⟨⟨⟨h1, h2⟩, h3⟩, h4⟩, h5⟩, h6⟩ := hh
  exact ⟨Nat.eq_of_beq_eq_true h1, Nat.eq_of_beq_eq_true h2, Nat.eq_of_beq_eq_true h3,
    Nat.eq_of_beq_eq_true h4, Nat.eq_of_beq_eq_true h5, Nat.eq_of_beq_eq_true h6⟩

theorem sq_index_div_mod {n : Nat} (hn : n < 64) :
    insideFileRank ((n / 8 : Nat) : Int) ((n % 8 : Nat) : Int) = true ∧
      sq_index ((n / 8 : Nat) : Int) ((n % 8 : Nat) : Int) = (n : Nat) := by
  rw [insideFileRank_iff]
  unfold sq_index
  omega

theorem testBit_foldl_or (g : Int × Int → Nat) (i : Nat) (offs : List (Int × Int)) :
    ∀ acc : Nat, (offs.foldl (fun a d => a ||| g d) acc).testBit i = true ↔
      (acc.testBit i = true ∨ ∃ d ∈ offs, (g d).testBit i = true) := by
  induction offs with
  | nil => intro acc; simp
  | cons o rest ih =>
    intro acc
    rw [List.foldl_cons, ih, Nat.testBit_or, Bool.or_eq_true]
    simp only [List.mem_cons, exists_eq_or_imp]
    tauto

theorem rayHit_empty {occ : U64} {r f dr df : Int} {n : Nat} (h : RayHit occ r f dr df n) :
    RayHit 0 r f dr df n := by
  obtain ⟨k, hk, hi, hn, -⟩ := h
  exact ⟨k, hk, hi, hn, fun j _ _ => Nat.zero_and _⟩

theorem ray_subset_line (occ X : U64) (offs : List (Int × Int))
    (hu : ∀ d ∈ offs, UnitDir d.1 d.2) {r f : Int} (hin : insideFileRank r f = true)
    (h : ∃ d ∈ offs, rayAttacksFrom (sq_index r f) d.1 d.2 occ &&& X ≠ 0) :
    lineMask offs (sq_index r f) &&& X ≠ 0 := by
  obtain ⟨d, hd, hne⟩ := h
  rw [and_ne_zero_iff_testBit] at hne ⊢
  obtain ⟨i, h1, h2⟩ := hne
  refine ⟨i, ?_, h2⟩
  unfold lineMask
  rw [testBit_foldl_or (fun d => rayAttacksFrom (sq_index r f) d.1 d.2 0)]
  right
  refine ⟨d, hd, ?_⟩
  rw [testBit_rayAttacksFrom _ (hu d hd) hin] at h1 ⊢
  exact rayHit_empty h1

theorem and_or_ne_zero (P x y : Nat) : (x ||| y) &&& P ≠ 0 ↔ (P &&& x ≠ 0 ∨ P &&& y ≠ 0) := by
  simp only [and_ne_zero_iff_testBit, Nat.testBit_or, Bool.or_eq_true]
  constructor
  · rintro ⟨n, h1 | h1, h2⟩
    · exact Or.inl ⟨n, h2, h1⟩
    · exact Or.inr ⟨n, h2, h1⟩
  · rintro (⟨n, h1, h2⟩ | ⟨n, h1, h2⟩)
    · exact ⟨n, Or.inl h2, h1⟩
    · exact ⟨n, Or.inr h2, h1⟩

theorem pawnMask_iff (P : U64) (pr col : Int) :
    (pawnOn P pr (col + -1) || pawnOn P pr (col + 1)) = true ↔ pawnMask pr col &&& P ≠ 0 := by
  unfold pawnMask pawnOn
  rw [and_or_ne_zero, Bool.or_eq_true]
  have key : ∀ c : Int, (insideFileRank pr c && decide (P &&& bit (sq_index pr c) ≠ 0)) = true ↔
      P &&& (if insideFileRank pr c = true then bit (sq_index pr c) else 0) ≠ 0 := by
    intro c
    by_cases h : insideFileRank pr c = true
    · rw [if_pos h, h]; simp
    · rw [if_neg h]
      simp [h]
  rw [key, key]

theorem cond_chain_eq (X : Bool) (a b c d e : Bool) (ha : a = true → X = true)
    (hb : b = true → X = true) (hc : c = true → X = true)
    (hX : X = true → a = true ∨ b = true ∨ c = true ∨ d = true ∨ e = true) :
    X = cond a true (cond b true (cond c true (cond d X (cond e X false)))) := by
  cases a
  · cases b
    · cases c
      · cases d
        · cases e
          · cases X
            · rfl
            · simpa using hX rfl
          · rfl
        · rfl
      · exact hc rfl
    · exact hb rfl
  · exact ha rfl

/-- The table-driven attack test agrees with `isAttacked`. -/
theorem attackedBy_eq (B : Board) (color : Int) {n : Nat} (hn : n < 64) :
    isAttacked B ((n / 8 : Nat) : Int) ((n % 8 : Nat) : Int) color =
      attackedBy (if (if color = WHITE then BLACK else WHITE) = WHITE then B.wn else B.bn)
        (if (if color = WHITE then BLACK else WHITE) = WHITE then B.wk else B.bk)
        (if (if color = WHITE then BLACK else WHITE) = WHITE then B.wp else B.bp)
        ((if (if color = WHITE then BLACK else WHITE) = WHITE then B.wr else B.br) |||
          (if (if color = WHITE then BLACK else WHITE) = WHITE then B.wq else B.bq))
        ((if (if color = WHITE then BLACK else WHITE) = WHITE then B.wb else B.bb) |||
          (if (if color = WHITE then BLACK else WHITE) = WHITE then B.wq else B.bq))
        (if (if color = WHITE then BLACK else WHITE) = WHITE then tabWP else tabBP) n
        (isAttacked B ((n / 8 : Nat) : Int) ((n % 8 : Nat) : Int) color) := by
  have hu := isAttacked_unfold B ((n / 8 : Nat) : Int) ((n % 8 : Nat) : Int) color
  obtain ⟨hin, hsq⟩ := sq_index_div_mod hn
  obtain ⟨t1, t2, t3, t4, t5, t6⟩ := tables_spec hn
  generalize (if color = WHITE then BLACK else WHITE) = a at hu ⊢
  generalize isAttacked B ((n / 8 : Nat) : Int) ((n % 8 : Nat) : Int) color = X at hu ⊢
  rw [hsq] at hu
  unfold attackedBy
  apply cond_chain_eq
  · intro h
    rw [hit_iff, t1] at h
    exact hu.mpr (Or.inl h)
  · intro h
    rw [hit_iff, t2] at h
    exact hu.mpr (Or.inr (Or.inl h))
  · intro h
    rw [hit_iff] at h
    apply hu.mpr
    right; right; left
    by_cases hw : a = WHITE
    · rw [if_pos hw] at h ⊢
      rw [if_pos hw, t5] at h
      exact (pawnMask_iff _ _ _).mpr h
    · rw [if_neg hw] at h ⊢
      rw [if_neg hw, t6] at h
      exact (pawnMask_iff _ _ _).mpr h
  · intro hx
    rcases hu.mp hx with h | h | h | h | h
    · left; rw [hit_iff, t1]; exact h
    · right; left; rw [hit_iff, t2]; exact h
    · right; right; left
      rw [hit_iff]
      by_cases hw : a = WHITE
      · rw [if_pos hw] at h ⊢
        rw [if_pos hw, t5]
        exact (pawnMask_iff _ _ _).mp h
      · rw [if_neg hw] at h ⊢
        rw [if_neg hw, t6]
        exact (pawnMask_iff _ _ _).mp h
    · right; right; right; left
      rw [hit_iff, t3, ← hsq]
      rw [← hsq] at h
      exact ray_subset_line _ _ _ (fun d hd => rook_unit hd) hin h
    · right; right; right; right
      rw [hit_iff, t4, ← hsq]
      rw [← hsq] at h
      exact ray_subset_line _ _ _ (fun d hd => bishop_unit hd) hin h

theorem bit_ofNat {n : Nat} (hn : n < 64) : bit (n : Nat) = Nat.shiftLeft 1 n := by
  have h : InRange ((n : Nat) : Int) := ⟨by omega, by omega⟩
  rw [bit_eq_two_pow h]
  show _ = 1 <<< n
  rw [Nat.one_shiftLeft]
  simp

theorem testBit_moveMask {f t : Nat} (hf : f < 64) (ht : t < 64) (i : Nat) :
    (moveMask f t).testBit i = (decide (i < 64) && !decide (f = i) && !decide (t = i)) := by
  unfold moveMask
  show ((18446744073709551615 : Nat) ^^^ (1 <<< f ||| 1 <<< t)).testBit i = _
  have e : (18446744073709551615 : Nat) = 2 ^ 64 - 1 := by norm_num
  rw [Nat.testBit_xor, Nat.testBit_or, e, Nat.testBit_two_pow_sub_one, Nat.one_shiftLeft,
    Nat.one_shiftLeft, Nat.testBit_two_pow, Nat.testBit_two_pow]
  by_cases h1 : i < 64 <;> by_cases h2 : f = i <;> by_cases h3 : t = i <;> simp [h1, h2, h3] <;>
    omega

theorem clear3_eq (x : Nat) {f t : Nat} (hf : f < 64) (ht : t < 64) :
    ((x &&& not64 (bit (t : Nat))) &&& not64 (bit (f : Nat))) &&& not64 (bit (t : Nat)) =
      Nat.land x (moveMask f t) := by
  have hF : InRange ((f : Nat) : Int) := ⟨by omega, by omega⟩
  have hT : InRange ((t : Nat) : Int) := ⟨by omega, by omega⟩
  apply Nat.eq_of_testBit_eq
  intro i
  show _ = (x &&& moveMask f t).testBit i
  simp only [Nat.testBit_and, testBit_not64, testBit_bit hF, testBit_bit hT,
    testBit_moveMask hf ht, Int.toNat_ofNat]
  by_cases h1 : i < 64 <;> by_cases h2 : f = i <;> by_cases h3 : t = i <;>
    cases x.testBit i <;> simp [h1, h2, h3] <;> omega

theorem movePiecesF_eq {b : Board} (hw : WF b) {f t : Nat} (hf : f < 64) (ht : t < 64)
    (hc : codeAt b f ≠ 0) :
    setPiece (clearSquare (clearSquare b (t : Nat)) (f : Nat)) (t : Nat) (codeAt b f) =
      movePiecesF b f t := by
  obtain ⟨q1, q2, q3, q4, q5, q6, q7, q8, q9, q10, q11, q12⟩ := hw.2 f
  unfold movePiecesF moveBits setPiece
  rcases codeAt_cases b f with c | c | c | c | c | c | c | c | c | c | c | c | c
  · exact absurd c hc
  all_goals
    rw [c] at q1 q2 q3 q4 q5 q6 q7 q8 q9 q10 q11 q12 ⊢
    norm_num at q1 q2 q3 q4 q5 q6 q7 q8 q9 q10 q11 q12
    simp only [tb_eq, q1, q2, q3, q4, q5, q6, q7, q8, q9, q10, q11, q12, cond_true, cond_false]
    first
      | rw [orPiece_1] | rw [orPiece_2] | rw [orPiece_3] | rw [orPiece_4] | rw [orPiece_5]
      | rw [orPiece_6] | rw [orPiece_9] | rw [orPiece_10] | rw [orPiece_11] | rw [orPiece_12]
      | rw [orPiece_13] | rw [orPiece_14]
    unfold clearSquare
    simp only [clear3_eq _ hf ht]
    simp only [bit_ofNat ht]
    rfl

theorem isWhite_iff (c : Int) : isWhite c = true ↔ c = WHITE := by
  unfold isWhite
  split
  · simp [WHITE]
  · rename_i h
    constructor
    · intro x; exact absurd x (by simp)
    · intro x; exact absurd x (fun e => h (by rw [e]; rfl))

theorem moveBits_or (x y f t : Nat) :
    moveBits (x ||| y) f t = moveBits x f t ||| moveBits y f t := by
  unfold moveBits
  simp only [tb_eq, Nat.testBit_or]
  have key : ∀ (a b M T : Nat), (a ||| b) &&& M = (a &&& M) ||| (b &&& M) ∧
      ((a ||| b) &&& M) ||| T = ((a &&& M) ||| T) ||| (b &&& M) ∧
      ((a ||| b) &&& M) ||| T = (a &&& M) ||| ((b &&& M) ||| T) ∧
      ((a ||| b) &&& M) ||| T = ((a &&& M) ||| T) ||| ((b &&& M) ||| T) := by
    intro a b M T
    refine ⟨?_, ?_, ?_, ?_⟩ <;>
    · apply Nat.eq_of_testBit_eq
      intro i
      simp only [Nat.testBit_or, Nat.testBit_and]
      cases a.testBit i <;> cases b.testBit i <;> cases M.testBit i <;> cases T.testBit i <;> rfl
  obtain ⟨k1, k2, k3, k4⟩ := key x y (moveMask f t) (Nat.shiftLeft 1 t)
  cases x.testBit f <;> cases y.testBit f
  · exact k1
  · exact k3
  · exact k2
  · exact k4

theorem tmod8_ofNat (n : Nat) : Int.tmod (n : Nat) 8 = ((n % 8 : Nat) : Int) := by
  rw [Int.tmod_eq_emod (Int.ofNat_nonneg n) (by norm_num)]
  exact (Int.ofNat_emod n 8).symm

theorem twoApart_of_natAbs {f t : Nat}
    (h : Int.natAbs (Int.tmod (f : Nat) 8 - Int.tmod (t : Nat) 8) = 2) :
    twoApart (Nat.mod f 8) (Nat.mod t 8) = true := by
  rw [tmod8_ofNat, tmod8_ofNat] at h
  unfold twoApart
  show (Nat.beq (f % 8 + 2) (t % 8) || Nat.beq (t % 8 + 2) (f % 8)) = true
  rw [Bool.or_eq_true]
  have : f % 8 + 2 = t % 8 ∨ t % 8 + 2 = f % 8 := by omega
  rcases this with e | e
  · left; rw [e]; exact Nat.beq_refl _
  · right; rw [e]; exact Nat.beq_refl _

theorem king_testBit {b : Board} (ha : Agree b) {n : Nat} (h : Int.land (codeAt b n) 7 = KING) :
    tb (Nat.lor b.wk b.bk) n = true := by
  rw [tb_eq]
  show (b.wk ||| b.bk).testBit n = true
  obtain ⟨-, -, -, -, -, q6, -, -, -, -, -, q12⟩ := ha n
  rw [Nat.testBit_or, q6, q12]
  rcases codeAt_cases b n with c | c | c | c | c | c | c | c | c | c | c | c | c <;>
    rw [c] at h ⊢ <;> first | rfl | exact absurd h (by decide)

theorem mover_revokeBoth (b : Board) (c : Int) : (revokeBoth b c).mover = b.mover := by
  unfold revokeBoth; split_ifs <;> rfl

theorem mover_revokeCorner (b : Board) (s : Int) : (revokeCorner b s).mover = b.mover := by
  unfold revokeCorner; simp only []; split_ifs <;> rfl

theorem mover_updateCastlingRights (b : Board) (mv : Move) (c d : Int) :
    (updateCastlingRights b mv c d).mover = b.mover := by
  unfold updateCastlingRights; simp only []
  split_ifs <;> simp only [mover_revokeBoth, mover_revokeCorner]

theorem mover_updateEnPassantSquare (b : Board) (mv : Move) (c : Int) :
    (updateEnPassantSquare b mv c).mover = b.mover := by
  unfold updateEnPassantSquare; split_ifs <;> rfl

theorem applyMovePieces_plain {b : Board} (hw : WF b) {m : Move} (hr : Reversible b m) {f t : Nat}
    (hf : m.from_ = (f : Nat)) (ht : m.to_ = (t : Nat)) (hp : m.promotionPiece = 0)
    (hpl : plainMove b f t = true) :
    applyCastlingRook (applyMovePieces b m) m (findPieceCodeAt b m.from_) = movePiecesF b f t := by
  obtain ⟨hfrom, hto, -, hcode, -, -, -⟩ := hr
  have f64 : f < 64 := by have := hfrom.2; rw [hf] at this; omega
  have t64 : t < 64 := by have := hto.2; rw [ht] at this; omega
  have hcf : findPieceCodeAt b m.from_ = codeAt b f := by
    unfold findPieceCodeAt
    rw [pieceAt_eq_codeAt b hfrom, hf]
    rfl
  unfold plainMove at hpl
  rw [Bool.and_eq_true] at hpl
  obtain ⟨h1, h2⟩ := hpl
  have hnep : ¬ isEnPassantCapture b m := by
    rintro ⟨-, -, -, e4⟩
    rw [e4, ht] at h1
    have : Nat.beq t t = true := Nat.beq_refl t
    simp [this] at h1
  have hnk : ¬ isKingTwoFiles (findPieceCodeAt b m.from_) m := by
    rintro ⟨k1, k2⟩
    rw [hcf] at k1
    rw [hf, ht] at k2
    rw [king_testBit hw.2 k1, twoApart_of_natAbs k2] at h2
    exact absurd h2 (by decide)
  unfold applyCastlingRook
  rw [if_neg hnk]
  have hcs : captureSquare b m = m.to_ := by unfold captureSquare; rw [if_neg hnep]
  have hpc : placedCode b m = codeAt b f := by
    unfold placedCode
    rw [if_neg (by rw [hp]; simp), hcf]
  rw [applyMovePieces_eq hw hfrom hto (by rw [hcs]; exact hto), hcs, hpc]
  unfold placePieceAt
  rw [if_neg (by rw [← hcf]; exact hcode), hf, ht]
  exact movePiecesF_eq hw f64 t64 (by rw [← hcf]; exact hcode)

theorem applyF_eq {b : Board} (hw : WF b) (ho : OccupanciesConsistent b) {m : Move}
    (hr : Reversible b m) : applyF b m = (applyMove b m).2.1 := by
  unfold applyF
  split
  · rename_i f t hf ht hp
    by_cases hpl : plainMove b f t = true
    · rw [hpl, cond_true]
      have hcode := hr.2.2.2.1
      have hS := @applyMove_snd b m hcode
      have hP := applyMovePieces_plain hw hr hf ht hp hpl
      rw [hP] at hS
      have hoS := @occ_applyMove b m hcode
      obtain ⟨o1, o2, o3⟩ := hoS
      have hpc : pieces (applyMove b m).2.1 = pieces (movePiecesF b f t) := by
        rw [hS, pieces_finalizeMove, pieces_updateEnPassantSquare, pieces_updateCastlingRights]
      simp only [pieces, movePiecesF, List.cons.injEq, and_true] at hpc
      obtain ⟨e1, e2, e3, e4, e5, e6, e7, e8, e9, e10, e11, e12⟩ := hpc
      have ew : (applyMove b m).2.1.whitePieces = moveBits b.whitePieces f t := by
        rw [o1, e1, e2, e3, e4, e5, e6, ho.1]
        simp only [moveBits_or]
      have ek : (applyMove b m).2.1.blackPieces = moveBits b.blackPieces f t := by
        rw [o2, e7, e8, e9, e10, e11, e12, ho.2.1]
        simp only [moveBits_or]
      have eo : (applyMove b m).2.1.occupied = moveBits b.occupied f t := by
        rw [o3, ew, ek, ho.2.2, moveBits_or]
      have em : (applyMove b m).2.1.mover = cond (isWhite b.mover) BLACK WHITE := by
        rw [hS]
        show (if (updateEnPassantSquare _ _ _).mover = WHITE then BLACK else WHITE) = _
        rw [mover_updateEnPassantSquare, mover_updateCastlingRights]
        show (if b.mover = WHITE then BLACK else WHITE) = _
        by_cases hm : b.mover = WHITE
        · rw [if_pos hm, (isWhite_iff _).mpr hm]; rfl
        · rw [if_neg hm]
          have : isWhite b.mover = false := by
            rw [← Bool.not_eq_true, isWhite_iff]; exact hm
          rw [this]; rfl
      rw [← e1, ← e2, ← e3, ← e4, ← e5, ← e6, ← e7, ← e8, ← e9, ← e10, ← e11, ← e12, ← ew, ← ek,
        ← eo, ← em]
    · rw [Bool.not_eq_true] at hpl
      rw [hpl, cond_false]
  · rfl

theorem nat_beq_false {a b : Nat} (h : a ≠ b) : Nat.beq a b = false := by
  cases h2 : Nat.beq a b
  · rfl
  · exact absurd (Nat.eq_of_beq_eq_true h2) h

theorem rank_file_ofNat (k : Nat) :
    rankOf ((k : Nat) : Int) = ((k / 8 : Nat) : Int) ∧ fileOf ((k : Nat) : Int) = ((k % 8 : Nat) : Int) := by
  rw [rankOf_eq, fileOf_eq (Int.ofNat_nonneg k)]
  omega

theorem kingSafe_core (B : Board) (c : Int) (kings : Nat) (hk : kings < 2 ^ 64) :
    (if (if kings ≠ 0 then ctzll kings else -1) = -1 then false
      else if isAttacked B (rankOf (if kings ≠ 0 then ctzll kings else -1))
          (fileOf (if kings ≠ 0 then ctzll kings else -1)) c = true then false
      else true) =
    cond (Nat.beq kings 0) false
      (not (isAttacked B (Int.ofNat (Nat.div (ctzN kings) 8)) (Int.ofNat (Nat.mod (ctzN kings) 8)) c)) := by
  by_cases h0 : kings = 0
  · subst h0
    rfl
  · have hb : Nat.beq kings 0 = false := nat_beq_false h0
    rw [hb, cond_false, if_pos h0, ctzll_eq_ctzN h0 hk]
    rw [if_neg (by omega), (rank_file_ofNat _).1, (rank_file_ofNat _).2]
    show _ = !(isAttacked B ((ctzN kings / 8 : Nat) : Int) ((ctzN kings % 8 : Nat) : Int) c)
    cases isAttacked B ((ctzN kings / 8 : Nat) : Int) ((ctzN kings % 8 : Nat) : Int) c <;> rfl

theorem ctzN_lt {x : Nat} (h0 : x ≠ 0) (h1 : x < 2 ^ 64) : ctzN x < 64 := by
  have h := (ctzll_spec h0 h1).1
  rw [ctzll_eq_ctzN h0 h1] at h
  have := h.2
  omega

theorem kingSafeF_eq {B : Board} (hb : Bounded B) (c : Int) : kingSafeF B c = kingSafe B c := by
  obtain ⟨-, -, -, -, -, b6, -, -, -, -, -, b12⟩ := hb
  unfold kingSafeF kingSafe
  simp only []
  by_cases hc : c = WHITE
  · rw [(isWhite_iff c).mpr hc, cond_true, if_pos hc, kingSafe_core B c B.wk b6]
    by_cases h0 : B.wk = 0
    · rw [h0]; rfl
    · have hbq : Nat.beq B.wk 0 = false := nat_beq_false h0
      rw [hbq, cond_false, cond_false]
      have := attackedBy_eq B c (ctzN_lt h0 b6)
      rw [if_pos hc, if_neg (by decide), if_neg (by decide), if_neg (by decide), if_neg (by decide),
        if_neg (by decide), if_neg (by decide)] at this
      exact congrArg not this.symm
  · have hw : isWhite c = false := by rw [← Bool.not_eq_true, isWhite_iff]; exact hc
    rw [hw, cond_false, if_neg hc, kingSafe_core B c B.bk b12]
    by_cases h0 : B.bk = 0
    · rw [h0]; rfl
    · have hbq : Nat.beq B.bk 0 = false := nat_beq_false h0
      rw [hbq, cond_false, cond_false]
      have := attackedBy_eq B c (ctzN_lt h0 b12)
      rw [if_neg hc, if_pos rfl, if_pos rfl, if_pos rfl, if_pos rfl, if_pos rfl, if_pos rfl] at this
      exact congrArg not this.symm

theorem bitF_eq (sq : Int) : bitF sq = bit sq := by
  cases sq <;> rfl

theorem insideF_eq (r f : Int) : insideF r f = insideFileRank r f := by
  unfold insideFileRank
  cases r with
  | ofNat r =>
    cases f with
    | ofNat f =>
      show (Nat.blt r 8 && Nat.blt f 8) = _
      have e1 : Nat.blt r 8 = decide ((r : Int) < 8) := by
        by_cases h : r < 8
        · have : Nat.blt r 8 = true := by simp [Nat.blt, Nat.ble_eq]; omega
          rw [this]; symm; simp; omega
        · have : Nat.blt r 8 = false := by
            rw [← Bool.not_eq_true]; simp [Nat.blt, Nat.ble_eq]; omega
          rw [this]; symm; simp; omega
      have e2 : Nat.blt f 8 = decide ((f : Int) < 8) := by
        by_cases h : f < 8
        · have : Nat.blt f 8 = true := by simp [Nat.blt, Nat.ble_eq]; omega
          rw [this]; symm; simp; omega
        · have : Nat.blt f 8 = false := by
            rw [← Bool.not_eq_true]; simp [Nat.blt, Nat.ble_eq]; omega
          rw [this]; symm; simp; omega
      rw [e1, e2]
      have h1 : decide ((0 : Int) ≤ Int.ofNat r) = true := by simp
      have h2 : decide ((0 : Int) ≤ Int.ofNat f) = true := by simp
      rw [h1, h2]
      simp
    | negSucc f =>
      show false = _
      have : decide ((0 : Int) ≤ Int.negSucc f) = false := by
        simp only [decide_eq_false_iff_not, not_le]; exact Int.negSucc_lt_zero f
      rw [this]; simp
  | negSucc r =>
    have : decide ((0 : Int) ≤ Int.negSucc r) = false := by
      simp only [decide_eq_false_iff_not, not_le]; exact Int.negSucc_lt_zero r
    rw [this]
    cases f <;> rfl

theorem sqF_eq (r f : Int) : sqF r f = sq_index r f := by
  unfold sqF
  split
  · unfold sq_index
    show ((_ * 8 + _ : Nat) : Int) = _
    push_cast
    rfl
  · rfl

theorem rankF_eq (sq : Int) : rankF sq = rankOf sq := by
  unfold rankF
  split
  · rename_i n
    exact (rank_file_ofNat n).1.symm
  · rfl

theorem fileF_eq (sq : Int) : fileF sq = fileOf sq := by
  unfold fileF
  split
  · rename_i n
    exact (rank_file_ofNat n).2.symm
  · rfl

theorem isZeroI_iff (c : Int) : isZeroI c = true ↔ c = 0 := by
  unfold isZeroI
  split
  · simp
  · rename_i h
    constructor
    · intro x; exact absurd x (by simp)
    · intro x; exact absurd x (fun e => h (by rw [e]; rfl))

theorem notF_eq (x : Nat) : notF x = not64 x := rfl

theorem ite_eq_cond {α : Type} {P : Prop} [Decidable P] {p : Bool} (h : p = true ↔ P) (a b : α) :
    (if P then a else b) = cond p a b := by
  by_cases hp : P
  · rw [if_pos hp, h.mpr hp]; rfl
  · rw [if_neg hp]
    have : p = false := by rw [← Bool.not_eq_true]; exact fun e => hp (h.mp e)
    rw [this]; rfl

theorem forEachBit_eqF {α : Type} (body bodyF : Int → α → α)
    (hbody : ∀ n : Nat, n < 64 → ∀ acc, body (n : Nat) acc = bodyF (n : Nat) acc) :
    ∀ (fuel : Nat) (t : Nat) (acc : α), t < 2 ^ 64 →
      forEachBit body fuel t acc = forEachBitF bodyF fuel t acc := by
  intro fuel
  induction fuel with
  | zero => intro t acc _; rfl
  | succ k ih =>
    intro t acc ht
    unfold forEachBit forEachBitF
    by_cases h0 : t = 0
    · rw [if_pos h0, h0]; rfl
    · rw [if_neg h0, nat_beq_false h0, cond_false]
      unfold pop_lsb
      simp only []
      rw [ctzll_eq_ctzN h0 ht, hbody _ (ctzN_lt h0 ht)]
      exact ih _ _ (lt_of_le_of_lt Nat.and_le_left ht)

theorem neI_iff (a b : Int) : neI a b = true ↔ a ≠ b := by
  unfold neI
  split
  · rename_i x y
    by_cases h : x = y
    · subst h; simp [Nat.beq_refl]
    · rw [nat_beq_false h]; simp; exact h
  · rename_i x y
    by_cases h : x = y
    · subst h; simp [Nat.beq_refl]
    · rw [nat_beq_false h]; simp; exact h
  · rename_i h1 h2
    simp only [true_iff]
    intro e
    subst e
    cases a with
    | ofNat x => exact h1 x x rfl rfl
    | negSucc x => exact h2 x x rfl rfl

theorem landI_eq (a b : Int) : landI a b = Int.land a b := by
  unfold landI
  split <;> rfl

theorem hit_or (x y m : Nat) : hit (x ||| y) m = (hit x m || hit y m) := by
  rw [Bool.eq_iff_iff, Bool.or_eq_true, hit_iff, hit_iff, hit_iff, and_or_ne_zero,
    Nat.and_comm m x, Nat.and_comm m y]

theorem pieceAtO_eq {b : Board} (ho : OccupanciesConsistent b) (sq : Int) :
    pieceAtO b sq = pieceAt b sq := by
  obtain ⟨o1, o2, o3⟩ := ho
  unfold pieceAtO pieceAt
  simp only [o3, o1, o2, hit_or, bitF_eq]
  simp only [ite_eq_cond (hit_iff _ _)]
  cases hit b.wp (bit sq); swap; · rfl
  cases hit b.wn (bit sq); swap; · rfl
  cases hit b.wb (bit sq); swap; · rfl
  cases hit b.wr (bit sq); swap; · rfl
  cases hit b.wq (bit sq); swap; · rfl
  cases hit b.wk (bit sq); swap; · rfl
  cases hit b.bp (bit sq); swap; · rfl
  cases hit b.bn (bit sq); swap; · rfl
  cases hit b.bb (bit sq); swap; · rfl
  cases hit b.br (bit sq); swap; · rfl
  cases hit b.bq (bit sq); swap; · rfl
  cases hit b.bk (bit sq); swap; · rfl
  rfl

theorem int_add_eq (a b : Int) : Int.add a b = a + b := rfl

theorem slideWalkF_eq {b : Board} (ho : OccupanciesConsistent b) (sq colorBit dr df : Int) :
    ∀ (fuel : Nat) (r f : Int) (mL : List Move),
      slideWalk b sq colorBit dr df fuel r f mL = slideWalkF b sq colorBit dr df fuel r f mL := by
  intro fuel
  induction fuel with
  | zero => intro r f mL; rfl
  | succ k ih =>
    intro r f mL
    unfold slideWalk slideWalkF
    simp only [int_add_eq, sqF_eq, insideF_eq, landI_eq, pieceAtO_eq ho, ← ih]
    unfold findPieceCodeAt
    rw [ite_eq_cond (p := insideFileRank (r + dr) (f + df)) Iff.rfl,
      ite_eq_cond (isZeroI_iff _), ite_eq_cond (neI_iff _ _)]
    rfl

theorem slidingMovesF_eq {b : Board} (ho : OccupanciesConsistent b) (mL : List Move) (sq : Int)
    (directions : List (Int × Int)) (dirCount : Nat) :
    slidingMoves b mL sq directions dirCount = slidingMovesF b mL sq directions dirCount := by
  unfold slidingMoves slidingMovesF
  simp only [rankF_eq, fileF_eq, landI_eq, pieceAtO_eq ho, ← slideWalkF_eq ho]
  unfold findPieceCodeAt
  rw [ite_eq_cond (isZeroI_iff _)]
  rfl

theorem eqI_iff (a b : Int) : eqI a b = true ↔ a = b := by
  unfold eqI
  rw [Bool.not_eq_true', ← Bool.not_eq_true, neI_iff]
  exact not_not

theorem and_iff {p q : Bool} {P Q : Prop} (hp : p = true ↔ P) (hq : q = true ↔ Q) :
    (p && q) = true ↔ P ∧ Q := by
  rw [Bool.and_eq_true, hp, hq]

theorem not_iff {p : Bool} {P : Prop} (hp : p = true ↔ P) : (!p) = true ↔ ¬ P := by
  rw [Bool.not_eq_true', ← Bool.not_eq_true, hp]

theorem pawnPushesK_eq (b : Board) (mL : List Move) (sq colorBit : Int) :
    pawnPushes b mL sq colorBit =
      pawnPushesK b mL sq (if colorBit = WHITE then 1 else -1)
        (2 * (if colorBit = WHITE then 1 else -1)) (if colorBit = WHITE then 1 else 6)
        (if colorBit = WHITE then 7 else 0) := by
  unfold pawnPushes pawnPushesK
  simp only [int_add_eq, sqF_eq, insideF_eq, rankF_eq, fileF_eq, bitF_eq]
  generalize (if colorBit = WHITE then (1 : Int) else -1) = dir
  generalize (if colorBit = WHITE then (1 : Int) else 6) = startRank
  generalize (if colorBit = WHITE then (7 : Int) else 0) = promotionRank
  rw [ite_eq_cond (and_iff (p := insideFileRank _ _) Iff.rfl (not_iff (hit_iff _ _))),
    ite_eq_cond (and_iff (eqI_iff _ _)
      (and_iff (p := insideFileRank _ _) Iff.rfl (not_iff (hit_iff _ _)))),
    ite_eq_cond (eqI_iff _ _)]

theorem pawnCaptureK_eq {b : Board} (ho : OccupanciesConsistent b) (sq colorBit : Int)
    (mL : List Move) (df : Int) :
    pawnCapture b sq colorBit mL df =
      pawnCaptureK b sq colorBit (if colorBit = WHITE then 1 else -1)
        (if colorBit = WHITE then 7 else 0) mL df := by
  unfold pawnCapture pawnCaptureK
  simp only [int_add_eq, sqF_eq, insideF_eq, rankF_eq, fileF_eq, landI_eq, pieceAtO_eq ho]
  unfold findPieceCodeAt
  generalize (if colorBit = WHITE then (1 : Int) else -1) = dir
  generalize (if colorBit = WHITE then (7 : Int) else 0) = promotionRank
  rw [ite_eq_cond (not_iff (p := insideFileRank _ _) Iff.rfl),
    ite_eq_cond (not_iff (isZeroI_iff _)), ite_eq_cond (neI_iff _ _), ite_eq_cond (eqI_iff _ _),
    ite_eq_cond (eqI_iff _ _),
    ite_eq_cond (and_iff (not_iff (isZeroI_iff _)) (and_iff (eqI_iff _ _) (neI_iff _ _)))]
  cases insideFileRank (rankOf sq + dir) (fileOf sq + df) <;>
    cases isZeroI (pieceAt b (sq_index (rankOf sq + dir) (fileOf sq + df))) <;> rfl

theorem pawnMovesF_eq {b : Board} (ho : OccupanciesConsistent b) (mL : List Move) (sq : Int) :
    pawnMoves b mL sq = pawnMovesF b mL sq := by
  unfold pawnMoves pawnMovesF
  simp only [bitF_eq]
  by_cases h1 : b.wp &&& bit sq ≠ 0
  · rw [(hit_iff _ _).mpr h1, cond_true]
    simp only [if_pos h1, List.foldl_cons, List.foldl_nil, pawnCaptureK_eq ho, pawnPushesK_eq]
    rfl
  · have e1 : hit b.wp (bit sq) = false := by rw [← Bool.not_eq_true, hit_iff]; exact h1
    rw [e1, cond_false]
    by_cases h2 : b.bp &&& bit sq ≠ 0
    · rw [(hit_iff _ _).mpr h2, cond_true]
      simp only [if_neg h1, if_pos h2, List.foldl_cons, List.foldl_nil, pawnCaptureK_eq ho,
        pawnPushesK_eq]
      rfl
    · have e2 : hit b.bp (bit sq) = false := by rw [← Bool.not_eq_true, hit_iff]; exact h2
      rw [e2, cond_false]
      simp only [if_neg h1, if_neg h2]
      rfl

theorem nat_blt_iff (a b : Nat) : Nat.blt a b = true ↔ a < b := by
  simp [Nat.blt, Nat.ble_eq]
  omega

theorem knightAttacksF_eq (sq : Int) : knightAttacksF sq = knightAttacks sq := by
  unfold knightAttacksF
  split
  · rename_i n
    by_cases h : n < 64
    · rw [(nat_blt_iff n 64).mpr h, cond_true]
      exact (tables_spec h).1
    · have : Nat.blt n 64 = false := by rw [← Bool.not_eq_true, nat_blt_iff]; exact h
      rw [this, cond_false]
  · rfl

theorem kingAttacksF_eq (sq : Int) : kingAttacksF sq = kingAttacks sq := by
  unfold kingAttacksF
  split
  · rename_i n
    by_cases h : n < 64
    · rw [(nat_blt_iff n 64).mpr h, cond_true]
      exact (tables_spec h).2.1
    · have : Nat.blt n 64 = false := by rw [← Bool.not_eq_true, nat_blt_iff]; exact h
      rw [this, cond_false]
  · rfl

theorem stepLoop_eqF (sq : Int) (t : Nat) (ht : t < 2 ^ 64) (mL : List Move) :
    forEachBit (fun toSq acc => addMoveToListFromTo acc sq toSq 0) 64 t mL =
      forEachBitF (fun toSq acc => addMoveToListFromTo acc sq toSq 0) 64 t mL :=
  forEachBit_eqF _ _ (fun _ _ _ => rfl) 64 t mL ht

theorem knightMovesF_eq (b : Board) (mL : List Move) (sq : Int) :
    knightMoves b mL sq = knightMovesF b mL sq := by
  unfold knightMoves knightMovesF
  simp only [bitF_eq, knightAttacksF_eq, notF_eq]
  have hlt : ∀ own : Nat, knightAttacks sq &&& not64 own < 2 ^ 64 := fun own =>
    lt_of_le_of_lt Nat.and_le_left (offsetAttacks_lt _ _ _)
  by_cases h1 : b.wn &&& bit sq ≠ 0
  · rw [(hit_iff _ _).mpr h1, cond_true, if_pos h1, if_neg (by decide), if_pos rfl]
    exact stepLoop_eqF sq _ (hlt _) mL
  · have e1 : hit b.wn (bit sq) = false := by rw [← Bool.not_eq_true, hit_iff]; exact h1
    rw [e1, cond_false, if_neg h1]
    by_cases h2 : b.bn &&& bit sq ≠ 0
    · rw [(hit_iff _ _).mpr h2, cond_true, if_pos h2, if_neg (by decide), if_neg (by decide)]
      exact stepLoop_eqF sq _ (hlt _) mL
    · have e2 : hit b.bn (bit sq) = false := by rw [← Bool.not_eq_true, hit_iff]; exact h2
      rw [e2, cond_false, if_neg h2, if_pos rfl]

theorem castle_iff2 (occ m1 m2 : Nat) (right a1 a2 a3 : Bool) :
    (!(hit occ m1) && (!(hit occ m2) && (right && (!a1 && (!a2 && !a3))))) = true ↔
      (right = true ∧ ¬ (occ &&& m1 ≠ 0) ∧ ¬ (occ &&& m2 ≠ 0) ∧
        a1 = false ∧ a2 = false ∧ a3 = false) := by
  rw [← hit_iff, ← hit_iff]
  cases hit occ m1 <;> cases hit occ m2 <;> cases right <;> cases a1 <;> cases a2 <;>
    cases a3 <;> simp

theorem castle_iff3 (occ m1 m2 m3 : Nat) (right a1 a2 a3 : Bool) :
    (!(hit occ m1) && (!(hit occ m2) && (!(hit occ m3) &&
      (right && (!a1 && (!a2 && !a3)))))) = true ↔
      (right = true ∧ ¬ (occ &&& m1 ≠ 0) ∧ ¬ (occ &&& m2 ≠ 0) ∧ ¬ (occ &&& m3 ≠ 0) ∧
        a1 = false ∧ a2 = false ∧ a3 = false) := by
  rw [← hit_iff, ← hit_iff, ← hit_iff]
  cases hit occ m1 <;> cases hit occ m2 <;> cases hit occ m3 <;> cases right <;> cases a1 <;>
    cases a2 <;> cases a3 <;> simp

theorem whiteCastlingF_eq (b : Board) (mL : List Move) (sq : Int) :
    whiteCastling b mL sq = whiteCastlingF b mL sq := by
  unfold whiteCastling whiteCastlingF
  have e1 : bit (sq_index 0 5) = 32 := rfl
  have e2 : bit (sq_index 0 6) = 64 := rfl
  have e3 : bit (sq_index 0 3) = 8 := rfl
  have e4 : bit (sq_index 0 2) = 4 := rfl
  have e5 : bit (sq_index 0 1) = 2 := rfl
  have e6 : sq_index 0 6 = 6 := rfl
  have e7 : sq_index 0 2 = 2 := rfl
  simp only [e1, e2, e3, e4, e5]
  simp only [e6, e7]
  rw [ite_eq_cond (castle_iff2 b.occupied 32 64 b.shortWhite _ _ _),
    ite_eq_cond (castle_iff3 b.occupied 8 4 2 b.longWhite _ _ _)]

theorem blackCastlingF_eq (b : Board) (mL : List Move) (sq : Int) :
    blackCastling b mL sq = blackCastlingF b mL sq := by
  unfold blackCastling blackCastlingF
  have e1 : bit (sq_index 7 5) = 2305843009213693952 := rfl
  have e2 : bit (sq_index 7 6) = 4611686018427387904 := rfl
  have e3 : bit (sq_index 7 3) = 576460752303423488 := rfl
  have e4 : bit (sq_index 7 2) = 288230376151711744 := rfl
  have e5 : bit (sq_index 7 1) = 144115188075855872 := rfl
  have e6 : sq_index 7 6 = 62 := rfl
  have e7 : sq_index 7 2 = 58 := rfl
  simp only [e1, e2, e3, e4, e5]
  simp only [e6, e7]
  rw [ite_eq_cond (castle_iff2 b.occupied 2305843009213693952 4611686018427387904 b.shortBlack _ _ _),
    ite_eq_cond (castle_iff3 b.occupied 576460752303423488 288230376151711744
      144115188075855872 b.longBlack _ _ _)]

theorem nat_land_eq (a b : Nat) : Nat.land a b = a &&& b := rfl

theorem kingMovesF_eq {b : Board} (ho : OccupanciesConsistent b) (mL : List Move) (sq : Int) :
    kingMoves b mL sq = kingMovesF b mL sq := by
  unfold kingMoves kingMovesF
  simp only [landI_eq, pieceAtO_eq ho, kingAttacksF_eq, notF_eq, nat_land_eq, ← whiteCastlingF_eq,
    ← blackCastlingF_eq]
  unfold findPieceCodeAt
  have hlt : ∀ own : Nat, kingAttacks sq &&& not64 own < 2 ^ 64 := fun own =>
    lt_of_le_of_lt Nat.and_le_left (offsetAttacks_lt _ _ _)
  have e4 : sq_index 0 4 = 4 := rfl
  have e60 : sq_index 7 4 = 60 := rfl
  rw [e4, e60]
  by_cases h0 : pieceAt b sq = 0
  · rw [if_pos h0, (isZeroI_iff _).mpr h0, cond_true]
  · have z : isZeroI (pieceAt b sq) = false := by rw [← Bool.not_eq_true, isZeroI_iff]; exact h0
    rw [if_neg h0, z, cond_false]
    by_cases hw : Int.land (pieceAt b sq) COLOR_MASK = WHITE
    · have hw8 : Int.land (pieceAt b sq) 8 = WHITE := hw
      have hnb : ¬ (Int.land (pieceAt b sq) COLOR_MASK = BLACK ∧ sq = 60) :=
        fun h => absurd (hw.symm.trans h.1) (by decide)
      rw [(isWhite_iff _).mpr hw8, cond_true, if_pos hw, if_neg hnb,
        stepLoop_eqF sq _ (hlt _) mL]
      by_cases h4 : sq = 4
      · rw [(eqI_iff _ _).mpr h4, cond_true, if_pos ⟨hw, h4⟩]
      · have : eqI sq 4 = false := by rw [← Bool.not_eq_true, eqI_iff]; exact h4
        rw [this, cond_false, if_neg (fun h => h4 h.2)]
    · have hw8 : ¬ Int.land (pieceAt b sq) 8 = WHITE := hw
      have w : isWhite (Int.land (pieceAt b sq) 8) = false := by
        rw [← Bool.not_eq_true, isWhite_iff]; exact hw8
      have hnw : ¬ (Int.land (pieceAt b sq) COLOR_MASK = WHITE ∧ sq = 4) := fun h => hw h.1
      rw [w, cond_false, if_neg hw, if_neg hnw, stepLoop_eqF sq _ (hlt _) mL]
      exact ite_eq_cond (and_iff (eqI_iff (Int.land (pieceAt b sq) 8) 8) (eqI_iff sq 60)) _ _

theorem generateMovesF_eq {b : Board} (hb : Bounded b) (ho : OccupanciesConsistent b) :
    (generateMoves b []).2 = generateMovesF b := by
  obtain ⟨b1, b2, b3, b4, b5, b6, b7, b8, b9, b10, b11, b12⟩ := hb
  have hp : ∀ (n : Nat), n < 64 → ∀ acc, (fun sq acc => pawnMoves b acc sq) (n : Nat) acc =
      (fun sq acc => pawnMovesF b acc sq) (n : Nat) acc := fun n _ acc => pawnMovesF_eq ho acc _
  have hn : ∀ (n : Nat), n < 64 → ∀ acc, (fun sq acc => knightMoves b acc sq) (n : Nat) acc =
      (fun sq acc => knightMovesF b acc sq) (n : Nat) acc := fun n _ acc => knightMovesF_eq b acc _
  have hbi : ∀ (n : Nat), n < 64 → ∀ acc, (fun sq acc => bishopMoves b acc sq) (n : Nat) acc =
      (fun sq acc => slidingMovesF b acc sq bishopOffsets 4) (n : Nat) acc :=
    fun n _ acc => slidingMovesF_eq ho acc _ _ _
  have hr : ∀ (n : Nat), n < 64 → ∀ acc, (fun sq acc => rookMoves b acc sq) (n : Nat) acc =
      (fun sq acc => slidingMovesF b acc sq rookOffsets 4) (n : Nat) acc :=
    fun n _ acc => slidingMovesF_eq ho acc _ _ _
  have hq : ∀ (n : Nat), n < 64 → ∀ acc, (fun sq acc => queenMoves b acc sq) (n : Nat) acc =
      (fun sq acc => slidingMovesF b (slidingMovesF b acc sq bishopOffsets 4) sq rookOffsets 4)
        (n : Nat) acc := by
    intro n _ acc
    show queenMoves b acc _ = _
    unfold queenMoves rookMoves bishopMoves
    rw [slidingMovesF_eq ho, slidingMovesF_eq ho]
  have hk : ∀ (n : Nat), n < 64 → ∀ acc, (fun sq acc => kingMoves b acc sq) (n : Nat) acc =
      (fun sq acc => kingMovesF b acc sq) (n : Nat) acc := fun n _ acc => kingMovesF_eq ho acc _
  unfold generateMoves generateMovesF
  simp only []
  rw [updateOccupancies_eq_self ho]
  by_cases hm : b.mover = WHITE
  · rw [(isWhite_iff _).mpr hm, cond_true]
    simp only [if_pos hm]
    rw [
      forEachBit_eqF (fun sq acc => kingMoves b acc sq)
        (fun sq acc => kingMovesF b acc sq) hk 64 b.wk _ b6,
      forEachBit_eqF (fun sq acc => queenMoves b acc sq)
        (fun sq acc => slidingMovesF b (slidingMovesF b acc sq bishopOffsets 4) sq rookOffsets 4) hq 64 b.wq _ b5,
      forEachBit_eqF (fun sq acc => rookMoves b acc sq)
        (fun sq acc => slidingMovesF b acc sq rookOffsets 4) hr 64 b.wr _ b4,
      forEachBit_eqF (fun sq acc => bishopMoves b acc sq)
        (fun sq acc => slidingMovesF b acc sq bishopOffsets 4) hbi 64 b.wb _ b3,
      forEachBit_eqF (fun sq acc => knightMoves b acc sq)
        (fun sq acc => knightMovesF b acc sq) hn 64 b.wn _ b2,
      forEachBit_eqF (fun sq acc => pawnMoves b acc sq)
        (fun sq acc => pawnMovesF b acc sq) hp 64 b.wp _ b1]
  · have w : isWhite b.mover = false := by rw [← Bool.not_eq_true, isWhite_iff]; exact hm
    rw [w, cond_false]
    simp only [if_neg hm]
    rw [
      forEachBit_eqF (fun sq acc => kingMoves b acc sq)
        (fun sq acc => kingMovesF b acc sq) hk 64 b.bk _ b12,
      forEachBit_eqF (fun sq acc => queenMoves b acc sq)
        (fun sq acc => slidingMovesF b (slidingMovesF b acc sq bishopOffsets 4) sq rookOffsets 4) hq 64 b.bq _ b11,
      forEachBit_eqF (fun sq acc => rookMoves b acc sq)
        (fun sq acc => slidingMovesF b acc sq rookOffsets 4) hr 64 b.br _ b10,
      forEachBit_eqF (fun sq acc => bishopMoves b acc sq)
        (fun sq acc => slidingMovesF b acc sq bishopOffsets 4) hbi 64 b.bb _ b9,
      forEachBit_eqF (fun sq acc => knightMoves b acc sq)
        (fun sq acc => knightMovesF b acc sq) hn 64 b.bn _ b8,
      forEachBit_eqF (fun sq acc => pawnMoves b acc sq)
        (fun sq acc => pawnMovesF b acc sq) hp 64 b.bp _ b7]

theorem legalMovesF_eq {b : Board} (hw : WF b) (ho : OccupanciesConsistent b) :
    legalMovesF b = legalMoves b := by
  unfold legalMovesF legalMoves
  rw [← generateMovesF_eq hw.1 ho]
  apply List.filter_congr
  intro m hm
  have hr := generateMoves_reversible hw ho (List.mem_of_mem_take hm)
  rw [applyF_eq hw ho hr, kingSafeF_eq (wf_applyMove hw hr).1]

theorem perftF_eq (d : Nat) : ∀ b : Board, WF b → OccupanciesConsistent b →
    perftF d b = perft d b := by
  induction d with
  | zero => intro b _ _; rfl
  | succ d ih =>
    intro b hw ho
    unfold perftF perft
    rw [legalMovesF_eq hw ho]
    congr 2
    apply List.map_congr_left
    intro m hm
    have hr := generateMoves_reversible hw ho (mem_legalMoves hm).1
    rw [applyF_eq hw ho hr]
    exact ih _ (wf_applyMove hw hr) (occ_applyMove hr.2.2.2.1)

theorem perftF_start_2 : perftF 2 startBoard = 400 := by decide!

theorem perftF_succ (d : Nat) (b : Board) :
    perftF (d + 1) b = ((legalMovesF b).map (fun m => perftF d (applyF b m))).sum % 2 ^ 64 := rfl

theorem legalMovesF_start :
    legalMovesF startBoard =
      [⟨8, 16, 0, 0⟩, ⟨8, 24, 0, 0⟩, ⟨9, 17, 0, 0⟩, ⟨9, 25, 0, 0⟩, ⟨10, 18, 0, 0⟩,
        ⟨10, 26, 0, 0⟩, ⟨11, 19, 0, 0⟩, ⟨11, 27, 0, 0⟩, ⟨12, 20, 0, 0⟩, ⟨12, 28, 0, 0⟩,
        ⟨13, 21, 0, 0⟩, ⟨13, 29, 0, 0⟩, ⟨14, 22, 0, 0⟩, ⟨14, 30, 0, 0⟩, ⟨15, 23, 0, 0⟩,
        ⟨15, 31, 0, 0⟩, ⟨1, 16, 0, 0⟩, ⟨1, 18, 0, 0⟩, ⟨6, 21, 0, 0⟩, ⟨6, 23, 0, 0⟩] := by
  decide!

theorem perftF_start_8_16 : perftF 2 (applyF startBoard ⟨8, 16, 0, 0⟩) = 380 := by decide!

theorem perftF_start_8_24 : perftF 2 (applyF startBoard ⟨8, 24, 0, 0⟩) = 420 := by decide!

theorem perftF_start_9_17 : perftF 2 (applyF startBoard ⟨9, 17, 0, 0⟩) = 420 := by decide!

theorem perftF_start_9_25 : perftF 2 (applyF startBoard ⟨9, 25, 0, 0⟩) = 421 := by decide!

theorem perftF_start_10_18 : perftF 2 (applyF startBoard ⟨10, 18, 0, 0⟩) = 420 := by decide!

theorem perftF_start_10_26 : perftF 2 (applyF startBoard ⟨10, 26, 0, 0⟩) = 441 := by decide!

theorem perftF_start_11_19 : perftF 2 (applyF startBoard ⟨11, 19, 0, 0⟩) = 539 := by decide!

theorem perftF_start_11_27 : perftF 2 (applyF startBoard ⟨11, 27, 0, 0⟩) = 560 := by decide!

theorem perftF_start_12_20 : perftF 2 (applyF startBoard ⟨12, 20, 0, 0⟩) = 599 := by decide!

theorem perftF_start_12_28 : perftF 2 (applyF startBoard ⟨12, 28, 0, 0⟩) = 600 := by decide!

theorem perftF_start_13_21 : perftF 2 (applyF startBoard ⟨13, 21, 0, 0⟩) = 380 := by decide!

theorem perftF_start_13_29 : perftF 2 (applyF startBoard ⟨13, 29, 0, 0⟩) = 401 := by decide!

theorem perftF_start_14_22 : perftF 2 (applyF startBoard ⟨14, 22, 0, 0⟩) = 420 := by decide!

theorem perftF_start_14_30 : perftF 2 (applyF startBoard ⟨14, 30, 0, 0⟩) = 421 := by decide!

theorem perftF_start_15_23 : perftF 2 (applyF startBoard ⟨15, 23, 0, 0⟩) = 380 := by decide!

theorem perftF_start_15_31 : perftF 2 (applyF startBoard ⟨15, 31, 0, 0⟩) = 420 := by decide!

theorem perftF_start_1_16 : perftF 2 (applyF startBoard ⟨1, 16, 0, 0⟩) = 400 := by decide!

theorem perftF_start_1_18 : perftF 2 (applyF startBoard ⟨1, 18, 0, 0⟩) = 440 := by decide!

theorem perftF_start_6_21 : perftF 2 (applyF startBoard ⟨6, 21, 0, 0⟩) = 440 := by decide!

theorem perftF_start_6_23 : perftF 2 (applyF startBoard ⟨6, 23, 0, 0⟩) = 400 := by decide!

theorem perftF_start_3 : perftF 3 startBoard = 8902 :=
  calc perftF 3 startBoard
      = ((legalMovesF startBoard).map (fun m => perftF 2 (applyF startBoard m))).sum % 2 ^ 64 :=
        perftF_succ 2 startBoard
    _ =
        (([⟨8, 16, 0, 0⟩, ⟨8, 24, 0, 0⟩, ⟨9, 17, 0, 0⟩, ⟨9, 25, 0, 0⟩, ⟨10, 18, 0, 0⟩,
          ⟨10, 26, 0, 0⟩, ⟨11, 19, 0, 0⟩, ⟨11, 27, 0, 0⟩, ⟨12, 20, 0, 0⟩, ⟨12, 28, 0, 0⟩,
          ⟨13, 21, 0, 0⟩, ⟨13, 29, 0, 0⟩, ⟨14, 22, 0, 0⟩, ⟨14, 30, 0, 0⟩, ⟨15, 23, 0, 0⟩,
          ⟨15, 31, 0, 0⟩, ⟨1, 16, 0, 0⟩, ⟨1, 18, 0, 0⟩, ⟨6, 21, 0, 0⟩, ⟨6, 23, 0, 0⟩] : List Move).map
          (fun m => perftF 2 (applyF startBoard m))).sum % 2 ^ 64 :=
        congrArg (fun l => (List.map (fun m => perftF 2 (applyF startBoard m)) l).sum % 2 ^ 64)
          legalMovesF_start
    _ =
        ([380, 420, 420, 421, 420, 441, 539, 560, 599, 600, 380, 401, 420, 421, 380, 420,
          400, 440, 440, 400] : List Nat).sum % 2 ^ 64 :=
        congrArg (fun l : List Nat => l.sum % 2 ^ 64)
          (congrArg₂ List.cons perftF_start_8_16
          (congrArg₂ List.cons perftF_start_8_24
          (congrArg₂ List.cons perftF_start_9_17
          (congrArg₂ List.cons perftF_start_9_25
          (congrArg₂ List.cons perftF_start_10_18
          (congrArg₂ List.cons perftF_start_10_26
          (congrArg₂ List.cons perftF_start_11_19
          (congrArg₂ List.cons perftF_start_11_27
          (congrArg₂ List.cons perftF_start_12_20
          (congrArg₂ List.cons perftF_start_12_28
          (congrArg₂ List.cons perftF_start_13_21
          (congrArg₂ List.cons perftF_start_13_29
          (congrArg₂ List.cons perftF_start_14_22
          (congrArg₂ List.cons perftF_start_14_30
          (congrArg₂ List.cons perftF_start_15_23
          (congrArg₂ List.cons perftF_start_15_31
          (congrArg₂ List.cons perftF_start_1_16
          (congrArg₂ List.cons perftF_start_1_18
          (congrArg₂ List.cons perftF_start_6_21
          (congrArg₂ List.cons perftF_start_6_23
          rfl))))))))))))))))))))
    _ = 8902 := by decide

theorem perft_start_2 : perft 2 startBoard = 400 := by
  rw [← perftF_eq 2 _ (wf_of_invariants invariants_startBoard) invariants_startBoard.2.2.1]
  exact perftF_start_2

/-- C5: on the board produced by `boardSetup`, `countMoves(board, 2) = 400`. -/
theorem countMoves_start_depth2 (b : Board) : (countMoves 2 (boardSetup b)).2 = 400 := by
  rw [boardSetup_eq, countMoves_eq_perft 2 _ (wf_of_invariants invariants_startBoard)
    invariants_startBoard.2.2.1]
  exact perft_start_2

/-- C6: on the board produced by `boardSetup`, `countMoves(board, 3) = 8902`. -/
theorem countMoves_start_depth3 (b : Board) : (countMoves 3 (boardSetup b)).2 = 8902 := by
  rw [boardSetup_eq, countMoves_eq_perft 3 _ (wf_of_invariants invariants_startBoard)
    invariants_startBoard.2.2.1,
    ← perftF_eq 3 _ (wf_of_invariants invariants_startBoard) invariants_startBoard.2.2.1]
  exact perftF_start_3

theorem rayWalk_succ (dr df : Int) (occ : U64) (fuel : Nat) :
    ∀ (r f : Int) (acc res : U64), rayWalk fuel r f dr df occ acc = some res →
      rayWalk (fuel + 1) r f dr df occ acc = some res := by
  induction fuel with
  | zero => intro r f acc res h; simp [rayWalk] at h
  | succ fuel ih =>
    intro r f acc res h
    unfold rayWalk at h ⊢
    by_cases hnext : insideFileRank (r + dr) (f + df) = true
    · rw [if_pos hnext] at h ⊢
      by_cases hocc : occ &&& bit (sq_index (r + dr) (f + df)) ≠ 0
      · rw [if_pos hocc] at h ⊢
        exact h
      · rw [if_neg hocc] at h ⊢
        exact ih _ _ _ _ h
    · rw [if_neg hnext] at h ⊢
      exact h

theorem rayWalk_mono (dr df : Int) (occ : U64) (r f : Int) (acc res : U64) (fuel : Nat)
    (h : rayWalk fuel r f dr df occ acc = some res) :
    ∀ fuel2 : Nat, fuel ≤ fuel2 → rayWalk fuel2 r f dr df occ acc = some res := by
  intro fuel2 hle
  induction fuel2 with
  | zero =>
    have : fuel = 0 := by omega
    subst this
    exact h
  | succ k ih =>
    by_cases hk : fuel ≤ k
    · exact rayWalk_succ dr df occ k r f acc res (ih hk)
    · have : fuel = k + 1 := by omega
      subst this
      exact h

theorem inside_between {r f dr df : Int} (hd : UnitDir dr df) (h0 : insideFileRank r f = true)
    {k j : Nat} (hk : insideFileRank (r + k * dr) (f + k * df) = true) (hj : j < k) :
    insideFileRank (r + j * dr) (f + j * df) = true := by
  rw [insideFileRank_iff] at h0 hk ⊢
  obtain ⟨h1, h2, -⟩ := hd
  rcases h1 with rfl | rfl | rfl <;> rcases h2 with rfl | rfl | rfl <;> omega

theorem rayHit_iff_testBit {occ : U64} {r f dr df : Int} (hd : UnitDir dr df)
    (h0 : insideFileRank r f = true) (n : Nat) :
    RayHit occ r f dr df n ↔
      ∃ k : Nat, 1 ≤ k ∧ insideFileRank (r + k * dr) (f + k * df) = true ∧
        n = (sq_index (r + k * dr) (f + k * df)).toNat ∧
        ∀ j : Nat, 1 ≤ j → j < k →
          occ.testBit (sq_index (r + j * dr) (f + j * df)).toNat = false := by
  constructor
  · rintro ⟨k, hk, hin, hn, hj⟩
    refine ⟨k, hk, hin, hn.symm, fun j j1 j2 => ?_⟩
    have hi := inRange_sq_index (inside_between hd h0 hin j2)
    have := hj j j1 j2
    by_contra hc
    rw [Bool.not_eq_false] at hc
    exact (and_bit_ne_zero_iff occ hi).mpr hc this
  · rintro ⟨k, hk, hin, hn, hj⟩
    refine ⟨k, hk, hin, hn.symm, fun j j1 j2 => ?_⟩
    have hi := inRange_sq_index (inside_between hd h0 hin j2)
    by_contra hc
    have := (and_bit_ne_zero_iff occ hi).mp hc
    rw [hj j j1 j2] at this
    exact Bool.false_ne_true this

/-- C11: for a square `sq` in 0..63, a unit direction `(dr, df)` other than
`(0, 0)` and any occupancy, the loop of `rayAttacksFrom` ends (with any fuel of
at least 8 steps it returns the value of `rayAttacksFrom`), and the result holds
exactly the on-board squares `sq + k (dr, df)`, `k ≥ 1`, for which no square
`sq + j (dr, df)` with `1 ≤ j < k` is in the occupancy; `sq` itself is never in
the result. -/
theorem rayAttacksFrom_exact (sq dr df : Int) (occupancy : U64) (hsq : InRange sq)
    (hd : UnitDir dr df) :
    (∀ fuel : Nat, 8 ≤ fuel →
      rayWalk fuel (rankOf sq) (fileOf sq) dr df occupancy 0 =
        some (rayAttacksFrom sq dr df occupancy)) ∧
    (∀ n : Nat, (rayAttacksFrom sq dr df occupancy).testBit n = true ↔
      ∃ k : Nat, 1 ≤ k ∧
        insideFileRank (rankOf sq + k * dr) (fileOf sq + k * df) = true ∧
        n = (sq_index (rankOf sq + k * dr) (fileOf sq + k * df)).toNat ∧
        ∀ j : Nat, 1 ≤ j → j < k →
          occupancy.testBit (sq_index (rankOf sq + j * dr) (fileOf sq + j * df)).toNat = false) ∧
    (rayAttacksFrom sq dr df occupancy).testBit sq.toNat = false := by
  have hin := (insideFileRank_iff _ _).mpr (inside_rank_file hsq)
  obtain ⟨res, hres, hspec⟩ := rayWalk_total occupancy hd (rankOf sq) (fileOf sq) hin
  have hval : rayAttacksFrom sq dr df occupancy = res := by
    unfold rayAttacksFrom
    rw [hres]
    rfl
  have hchar : ∀ n : Nat, (rayAttacksFrom sq dr df occupancy).testBit n = true ↔
      ∃ k : Nat, 1 ≤ k ∧
        insideFileRank (rankOf sq + k * dr) (fileOf sq + k * df) = true ∧
        n = (sq_index (rankOf sq + k * dr) (fileOf sq + k * df)).toNat ∧
        ∀ j : Nat, 1 ≤ j → j < k →
          occupancy.testBit (sq_index (rankOf sq + j * dr) (fileOf sq + j * df)).toNat = false := by
    intro n
    rw [hval, hspec n, rayHit_iff_testBit hd hin]
  refine ⟨fun fuel hf => ?_, hchar, ?_⟩
  · rw [hval]
    exact rayWalk_mono dr df occupancy _ _ 0 res 8 hres fuel hf
  · by_contra hc
    rw [Bool.not_eq_false] at hc
    obtain ⟨k, hk, hik, hn, -⟩ := (hchar sq.toNat).mp hc
    have e := toNat_inj hsq (inRange_sq_index hik) hn
    have e0 := sq_index_rank_file hsq
    rw [insideFileRank_iff] at hin hik
    obtain ⟨h1, h2, h3⟩ := hd
    unfold sq_index at e e0
    rcases h1 with rfl | rfl | rfl <;> rcases h2 with rfl | rfl | rfl <;> omega

/-- C11 at a concrete input: the ray from a1 (square 0) towards the h-file along
the first rank, with blockers on d1 and f1, holds b1, c1 and d1 only. -/
theorem rayAttacksFrom_exact_witness :
    (InRange 0 ∧ UnitDir 0 1) ∧ rayAttacksFrom 0 0 1 40 = 14 ∧
      (rayAttacksFrom 0 0 1 40).testBit (0 : Int).toNat = false :=
  ⟨⟨by decide, Or.inr (Or.inl rfl), Or.inr (Or.inr rfl), Or.inr (by decide)⟩, by decide,
    (rayAttacksFrom_exact 0 0 1 40 (by decide)
      ⟨Or.inr (Or.inl rfl), Or.inr (Or.inr rfl), Or.inr (by decide)⟩).2.2⟩

theorem rightsLe_of_eq {b2 b1 : Board} (h : rights b2 = rights b1) : RightsLe b2 b1 := by
  unfold rights at h
  simp only [Prod.mk.injEq] at h
  obtain ⟨h1, h2, h3, h4⟩ := h
  exact ⟨fun h => h1 ▸ h, fun h => h2 ▸ h, fun h => h3 ▸ h, fun h => h4 ▸ h⟩

theorem rightsLe_trans {b3 b2 b1 : Board} (h : RightsLe b3 b2) (k : RightsLe b2 b1) :
    RightsLe b3 b1 :=
  ⟨fun x => k.1 (h.1 x), fun x => k.2.1 (h.2.1 x), fun x => k.2.2.1 (h.2.2.1 x),
    fun x => k.2.2.2 (h.2.2.2 x)⟩

theorem rights_clearSquare (b : Board) (s : Int) : rights (clearSquare b s) = rights b := rfl

theorem rights_orPiece (b : Board) (s c : Int) : rights (orPiece b s c) = rights b := by
  unfold orPiece
  split_ifs <;> rfl

theorem rights_setPiece (b : Board) (s c : Int) : rights (setPiece b s c) = rights b := by
  unfold setPiece
  rw [rights_orPiece, rights_clearSquare]

theorem rights_placePieceAt (b : Board) (s c : Int) : rights (placePieceAt b s c) = rights b := by
  unfold placePieceAt
  split_ifs
  · rfl
  · exact rights_setPiece b s c

theorem removePieceAt_fst_rec (P : Board → Prop) (b : Board) (s : Int) (h0 : P b)
    (h1 : P { b with wp := b.wp &&& not64 (bit s) })
    (h2 : P { b with wn := b.wn &&& not64 (bit s) })
    (h3 : P { b with wb := b.wb &&& not64 (bit s) })
    (h4 : P { b with wr := b.wr &&& not64 (bit s) })
    (h5 : P { b with wq := b.wq &&& not64 (bit s) })
    (h6 : P { b with wk := b.wk &&& not64 (bit s) })
    (h7 : P { b with bp := b.bp &&& not64 (bit s) })
    (h8 : P { b with bn := b.bn &&& not64 (bit s) })
    (h9 : P { b with bb := b.bb &&& not64 (bit s) })
    (h10 : P { b with br := b.br &&& not64 (bit s) })
    (h11 : P { b with bq := b.bq &&& not64 (bit s) })
    (h12 : P { b with bk := b.bk &&& not64 (bit s) }) :
    P (removePieceAt b s).1 := by
  unfold removePieceAt
  by_cases t1 : b.wp &&& bit s ≠ 0
  · rw [if_pos t1]
    exact h1
  rw [if_neg t1]
  by_cases t2 : b.wn &&& bit s ≠ 0
  · rw [if_pos t2]
    exact h2
  rw [if_neg t2]
  by_cases t3 : b.wb &&& bit s ≠ 0
  · rw [if_pos t3]
    exact h3
  rw [if_neg t3]
  by_cases t4 : b.wr &&& bit s ≠ 0
  · rw [if_pos t4]
    exact h4
  rw [if_neg t4]
  by_cases t5 : b.wq &&& bit s ≠ 0
  · rw [if_pos t5]
    exact h5
  rw [if_neg t5]
  by_cases t6 : b.wk &&& bit s ≠ 0
  · rw [if_pos t6]
    exact h6
  rw [if_neg t6]
  by_cases t7 : b.bp &&& bit s ≠ 0
  · rw [if_pos t7]
    exact h7
  rw [if_neg t7]
  by_cases t8 : b.bn &&& bit s ≠ 0
  · rw [if_pos t8]
    exact h8
  rw [if_neg t8]
  by_cases t9 : b.bb &&& bit s ≠ 0
  · rw [if_pos t9]
    exact h9
  rw [if_neg t9]
  by_cases t10 : b.br &&& bit s ≠ 0
  · rw [if_pos t10]
    exact h10
  rw [if_neg t10]
  by_cases t11 : b.bq &&& bit s ≠ 0
  · rw [if_pos t11]
    exact h11
  rw [if_neg t11]
  by_cases t12 : b.bk &&& bit s ≠ 0
  · rw [if_pos t12]
    exact h12
  rw [if_neg t12]
  exact h0

theorem rights_removePieceAt (b : Board) (s : Int) : rights (removePieceAt b s).1 = rights b :=
  removePieceAt_fst_rec (fun x => rights x = rights b) b s rfl rfl rfl rfl rfl rfl rfl rfl rfl rfl
    rfl rfl rfl

theorem rights_applyMovePieces (b : Board) (mv : Move) :
    rights (applyMovePieces b mv) = rights b := by
  unfold applyMovePieces
  simp only []
  split_ifs <;>
    simp only [rights_placePieceAt, rights_removePieceAt]

theorem rights_updateEnPassantSquare (b : Board) (mv : Move) (c : Int) :
    rights (updateEnPassantSquare b mv c) = rights b := by
  unfold updateEnPassantSquare
  split_ifs <;> rfl

theorem rights_finalizeMove (b : Board) : rights (finalizeMove b) = rights b := rfl

theorem rightsLe_revokeBoth (b : Board) (c : Int) : RightsLe (revokeBoth b c) b := by
  unfold revokeBoth RightsLe
  split_ifs <;> simp

theorem rightsLe_revokeCorner (b : Board) (s : Int) : RightsLe (revokeCorner b s) b := by
  unfold revokeCorner RightsLe
  simp only []
  split_ifs <;> simp

theorem rightsLe_applyCastlingRook (b : Board) (mv : Move) (c : Int) :
    RightsLe (applyCastlingRook b mv c) b := by
  unfold applyCastlingRook
  split_ifs
  · simp only []
    refine rightsLe_trans (rightsLe_revokeBoth _ _) (rightsLe_of_eq ?_)
    split_ifs
    · rw [rights_placePieceAt, rights_removePieceAt]
    · rw [rights_removePieceAt]
  · exact rightsLe_of_eq rfl

theorem rightsLe_updateCastlingRights (b : Board) (mv : Move) (c d : Int) :
    RightsLe (updateCastlingRights b mv c d) b := by
  unfold updateCastlingRights
  simp only []
  have h6 : RightsLe (if Int.land c 7 = KING then revokeBoth b (Int.land c COLOR_MASK) else b) b := by
    split_ifs
    · exact rightsLe_revokeBoth _ _
    · exact rightsLe_of_eq rfl
  generalize (if Int.land c 7 = KING then revokeBoth b (Int.land c COLOR_MASK) else b) = b6 at h6
  have h7 : RightsLe (if Int.land c 7 = ROOK then revokeCorner b6 mv.from_ else b6) b6 := by
    split_ifs
    · exact rightsLe_revokeCorner _ _
    · exact rightsLe_of_eq rfl
  generalize (if Int.land c 7 = ROOK then revokeCorner b6 mv.from_ else b6) = b7 at h7
  have h8 : RightsLe (if Int.land d 7 = ROOK then revokeCorner b7 mv.to_ else b7) b7 := by
    split_ifs
    · exact rightsLe_revokeCorner _ _
    · exact rightsLe_of_eq rfl
  exact rightsLe_trans h8 (rightsLe_trans h7 h6)

theorem rightsLe_applyMove (b : Board) (mv : Move) : RightsLe (applyMove b mv).2.1 b := by
  unfold applyMove
  split_ifs
  · exact rightsLe_of_eq rfl
  · simp only []
    refine rightsLe_trans (rightsLe_of_eq (rights_finalizeMove _)) ?_
    refine rightsLe_trans (rightsLe_of_eq (rights_updateEnPassantSquare _ _ _)) ?_
    refine rightsLe_trans (rightsLe_updateCastlingRights _ _ _ _) ?_
    refine rightsLe_trans (rightsLe_applyCastlingRook _ _ _) ?_
    exact rightsLe_of_eq (rights_applyMovePieces _ _)

theorem findPieceCodeAt_eq_zero_iff (b : Board) (sq : Int) :
    findPieceCodeAt b sq = 0 ↔ SquareEmpty b sq := by
  unfold findPieceCodeAt pieceAt SquareEmpty
  constructor
  · intro h
    by_cases t1 : b.wp &&& bit sq ≠ 0
    · rw [if_pos t1] at h
      exact absurd h (by decide)
    rw [if_neg t1] at h
    by_cases t2 : b.wn &&& bit sq ≠ 0
    · rw [if_pos t2] at h
      exact absurd h (by decide)
    rw [if_neg t2] at h
    by_cases t3 : b.wb &&& bit sq ≠ 0
    · rw [if_pos t3] at h
      exact absurd h (by decide)
    rw [if_neg t3] at h
    by_cases t4 : b.wr &&& bit sq ≠ 0
    · rw [if_pos t4] at h
      exact absurd h (by decide)
    rw [if_neg t4] at h
    by_cases t5 : b.wq &&& bit sq ≠ 0
    · rw [if_pos t5] at h
      exact absurd h (by decide)
    rw [if_neg t5] at h
    by_cases t6 : b.wk &&& bit sq ≠ 0
    · rw [if_pos t6] at h
      exact absurd h (by decide)
    rw [if_neg t6] at h
    by_cases t7 : b.bp &&& bit sq ≠ 0
    · rw [if_pos t7] at h
      exact absurd h (by decide)
    rw [if_neg t7] at h
    by_cases t8 : b.bn &&& bit sq ≠ 0
    · rw [if_pos t8] at h
      exact absurd h (by decide)
    rw [if_neg t8] at h
    by_cases t9 : b.bb &&& bit sq ≠ 0
    · rw [if_pos t9] at h
      exact absurd h (by decide)
    rw [if_neg t9] at h
    by_cases t10 : b.br &&& bit sq ≠ 0
    · rw [if_pos t10] at h
      exact absurd h (by decide)
    rw [if_neg t10] at h
    by_cases t11 : b.bq &&& bit sq ≠ 0
    · rw [if_pos t11] at h
      exact absurd h (by decide)
    rw [if_neg t11] at h
    by_cases t12 : b.bk &&& bit sq ≠ 0
    · rw [if_pos t12] at h
      exact absurd h (by decide)
    rw [if_neg t12] at h
    exact ⟨not_not.mp t1, not_not.mp t2, not_not.mp t3, not_not.mp t4, not_not.mp t5, not_not.mp t6, not_not.mp t7, not_not.mp t8, not_not.mp t9, not_not.mp t10, not_not.mp t11, not_not.mp t12⟩
  · rintro ⟨h1, h2, h3, h4, h5, h6, h7, h8, h9, h10, h11, h12⟩
    rw [if_neg (not_not.mpr h1), if_neg (not_not.mpr h2), if_neg (not_not.mpr h3), if_neg (not_not.mpr h4), if_neg (not_not.mpr h5), if_neg (not_not.mpr h6), if_neg (not_not.mpr h7), if_neg (not_not.mpr h8), if_neg (not_not.mpr h9), if_neg (not_not.mpr h10), if_neg (not_not.mpr h11), if_neg (not_not.mpr h12)]

theorem mover_orPiece (b : Board) (s c : Int) : (orPiece b s c).mover = b.mover := by
  unfold orPiece
  split_ifs <;> rfl

theorem mover_placePieceAt (b : Board) (s c : Int) : (placePieceAt b s c).mover = b.mover := by
  unfold placePieceAt setPiece
  split_ifs
  · rfl
  · rw [mover_orPiece]
    rfl

theorem mover_removePieceAt (b : Board) (s : Int) : (removePieceAt b s).1.mover = b.mover :=
  removePieceAt_fst_rec (fun x => x.mover = b.mover) b s rfl rfl rfl rfl rfl rfl rfl rfl rfl rfl
    rfl rfl rfl

theorem mover_applyMovePieces (b : Board) (mv : Move) :
    (applyMovePieces b mv).mover = b.mover := by
  unfold applyMovePieces
  simp only []
  split_ifs <;>
    simp only [mover_placePieceAt, mover_removePieceAt]

theorem mover_applyMove {b : Board} {mv : Move} (h : findPieceCodeAt b mv.from_ ≠ 0) :
    (applyMove b mv).2.1.mover = if b.mover = WHITE then BLACK else WHITE := by
  rw [applyMove_snd h]
  have e : ∀ (x : Board), (finalizeMove x).mover = if x.mover = WHITE then BLACK else WHITE :=
    fun _ => rfl
  rw [e, mover_updateEnPassantSquare, mover_updateCastlingRights]
  have e2 : ∀ (x : Board) (c : Int), (applyCastlingRook x mv c).mover = x.mover := by
    intro x c
    unfold applyCastlingRook
    split_ifs
    · simp only []
      rw [mover_revokeBoth]
      split_ifs
      · rw [mover_placePieceAt, mover_removePieceAt]
      · rw [mover_removePieceAt]
    · rfl
  rw [e2, mover_applyMovePieces]

/-- C14: `applyMove` never restores a castling right: on every board and for
every move, each of `shortWhite`, `longWhite`, `shortBlack`, `longBlack` that is
true after `applyMove` was already true before it. -/
theorem applyMove_rights_not_restored (b : Board) (mv : Move) :
    ((applyMove b mv).2.1.shortWhite = true → b.shortWhite = true) ∧
    ((applyMove b mv).2.1.longWhite = true → b.longWhite = true) ∧
    ((applyMove b mv).2.1.shortBlack = true → b.shortBlack = true) ∧
    ((applyMove b mv).2.1.longBlack = true → b.longBlack = true) :=
  rightsLe_applyMove b mv

/-- C16: `applyMove` returns false exactly when the from-square of the move
holds no piece, and then the board is returned unchanged in every field; when
the from-square holds a piece it returns true and the side to move is flipped
(`BLACK` after `WHITE`, `WHITE` otherwise). -/
theorem applyMove_false_iff_from_empty (b : Board) (mv : Move) :
    ((applyMove b mv).1 = false ↔ SquareEmpty b mv.from_) ∧
    (SquareEmpty b mv.from_ → (applyMove b mv).2.1 = b) ∧
    (¬ SquareEmpty b mv.from_ →
      (applyMove b mv).1 = true ∧
        (applyMove b mv).2.1.mover = (if b.mover = WHITE then BLACK else WHITE)) := by
  rw [← findPieceCodeAt_eq_zero_iff]
  by_cases h : findPieceCodeAt b mv.from_ = 0
  · have e : applyMove b mv = (false, b, saveUndo b mv) := by
      unfold applyMove
      rw [if_pos h]
    rw [e]
    exact ⟨⟨fun _ => h, fun _ => rfl⟩, fun _ => rfl, fun k => absurd h k⟩
  · refine ⟨⟨fun k => ?_, fun k => absurd k h⟩, fun k => absurd k h,
      fun _ => ⟨applyMove_fst h, mover_applyMove h⟩⟩
    rw [applyMove_fst h] at k
    exact absurd k (by decide)

theorem legalLoop_fst {b : Board} (hw : WF b) (ho : OccupanciesConsistent b) (maxMoves : Nat)
    (l : List Move) :
    ∀ out : List Move, (∀ m ∈ l, Reversible b m) → (legalLoop maxMoves l b out).1 = b := by
  induction l with
  | nil => intro out _; rfl
  | cons m rest ih =>
    intro out hr
    have hm := hr m (List.mem_cons_self _ _)
    have hrest : ∀ x ∈ rest, Reversible b x := fun x hx => hr x (List.mem_cons_of_mem _ hx)
    unfold legalLoop
    rw [if_neg (by rw [applyMove_fst hm.2.2.2.1]; decide), unmake_apply hw ho hm]
    exact ih _ hrest

theorem generateLegalMovesToArray_fst {b : Board} (hw : WF b) (ho : OccupanciesConsistent b)
    (maxMoves : Nat) : (generateLegalMovesToArray b maxMoves).1 = b := by
  unfold generateLegalMovesToArray
  simp only []
  rw [generateMovesToArray_eq hw.1, updateOccupancies_eq_self ho]
  exact legalLoop_fst hw ho maxMoves _ []
    (fun m hm => generateMoves_reversible hw ho (List.mem_of_mem_take hm))

/-- C17: on a board satisfying the data-model invariants, for every depth
`countMoves` leaves the board equal to its state before the call in every field,
and so does `generateLegalMovesToArray`, for every capacity of the output
array. -/
theorem countMoves_leaves_board (b : Board) (hinv : Invariants b) (depth maxMoves : Nat) :
    (countMoves depth b).1 = b ∧ (generateLegalMovesToArray b maxMoves).1 = b :=
  ⟨(countMoves_frame depth b (wf_of_invariants hinv) hinv.2.2.1).1,
    generateLegalMovesToArray_fst (wf_of_invariants hinv) hinv.2.2.1 maxMoves⟩

/-- C17 (instance): the start position, at depth 2 and with room for 256
moves. -/
theorem countMoves_leaves_board_witness :
    Invariants startBoard ∧ (countMoves 2 startBoard).1 = startBoard ∧
      (generateLegalMovesToArray startBoard 256).1 = startBoard :=
  ⟨by decide, countMoves_leaves_board startBoard (by decide) 2 256⟩

theorem captureSquare_inRange {b : Board} {mv : Move} (hr : Reversible b mv) :
    InRange (captureSquare b mv) := by
  by_cases h : isEnPassantCapture b mv
  · exact (hr.2.2.2.2.2.1 h).1
  · unfold captureSquare
    rw [if_neg h]
    exact hr.2.1

theorem codeAt_applyMove {b : Board} (hw : WF b) {mv : Move} (hr : Reversible b mv) (n : Nat)
    (hn : n < 64) :
    codeAt (applyMove b mv).2.1 n =
      if isKingTwoFiles (findPieceCodeAt b mv.from_) mv then
        if (castleRookTo mv).toNat = n ∧
            codeAt (applyMovePieces b mv) (castleRookFrom mv).toNat ≠ 0 then
          codeAt (applyMovePieces b mv) (castleRookFrom mv).toNat
        else if (castleRookFrom mv).toNat = n then 0
        else codeAt (applyMovePieces b mv) n
      else codeAt (applyMovePieces b mv) n := by
  have hcs := captureSquare_inRange hr
  obtain ⟨hfrom, hto, -, hcode, hplaced, -, -⟩ := hr
  have hb4 := wf_applyMovePieces hw hfrom hto hcs hplaced
  rw [applyMove_snd hcode]
  have e : pieces (finalizeMove (updateEnPassantSquare (updateCastlingRights
        (applyCastlingRook (applyMovePieces b mv) mv (findPieceCodeAt b mv.from_)) mv
        (findPieceCodeAt b mv.from_)
        (applyMoveUndo b mv (applyMovePieces b mv)).capturedPieceCode) mv
        (findPieceCodeAt b mv.from_))) =
      pieces (applyCastlingRook (applyMovePieces b mv) mv (findPieceCodeAt b mv.from_)) := by
    rw [pieces_finalizeMove, pieces_updateEnPassantSquare, pieces_updateCastlingRights]
  rw [codeAt_congr e]
  exact codeAt_applyCastlingRook hb4 mv _ (castleRookFrom_inRange hto) (castleRookTo_inRange hto)
    n hn

theorem codeAt_applyMove_to {b : Board} (hw : WF b) {mv : Move} (hr : Reversible b mv) :
    codeAt (applyMove b mv).2.1 mv.to_.toNat = placedCode b mv := by
  have hcs := captureSquare_inRange hr
  have hto := hr.2.1
  have h64 := toNat_lt hto
  have e4 : codeAt (applyMovePieces b mv) mv.to_.toNat = placedCode b mv := by
    rw [codeAt_applyMovePieces hw hr.1 hto hcs hr.2.2.2.2.1 _ h64, if_pos rfl]
  rw [codeAt_applyMove hw hr _ h64, e4]
  by_cases hk : isKingTwoFiles (findPieceCodeAt b mv.from_) mv
  · obtain ⟨r1, r2, -, r4, -, r6, -⟩ := hr.2.2.2.2.2.2 hk
    rw [if_pos hk, if_neg (fun h => toNat_ne r2 hto r6 h.1), if_neg (toNat_ne r1 hto r4)]
  · rw [if_neg hk]

theorem codeAt_applyMove_other {b : Board} (hw : WF b) {mv : Move} (hr : Reversible b mv)
    (n : Nat) (hn : n < 64) (h1 : mv.to_.toNat ≠ n) (h2 : mv.from_.toNat ≠ n)
    (h3 : (captureSquare b mv).toNat ≠ n)
    (h4 : isKingTwoFiles (findPieceCodeAt b mv.from_) mv →
      (castleRookTo mv).toNat ≠ n ∧ (castleRookFrom mv).toNat ≠ n) :
    codeAt (applyMove b mv).2.1 n = codeAt b n := by
  have hcs := captureSquare_inRange hr
  have e4 : codeAt (applyMovePieces b mv) n = codeAt b n := by
    rw [codeAt_applyMovePieces hw hr.1 hr.2.1 hcs hr.2.2.2.2.1 _ hn, if_neg h1, if_neg h2,
      if_neg h3]
  rw [codeAt_applyMove hw hr _ hn, e4]
  by_cases hk : isKingTwoFiles (findPieceCodeAt b mv.from_) mv
  · rw [if_pos hk, if_neg (fun h => (h4 hk).1 h.1), if_neg (h4 hk).2]
  · rw [if_neg hk]

theorem color_of_code (b : Board) (n : Nat) :
    (Int.land (codeAt b n) COLOR_MASK = WHITE ↔ codeAt b n ≤ 6) ∧
    (Int.land (codeAt b n) COLOR_MASK = BLACK ↔ 9 ≤ codeAt b n) := by
  rcases codeAt_cases b n with c | c | c | c | c | c | c | c | c | c | c | c | c <;>
    rw [c] <;> decide

theorem code_range (b : Board) (n : Nat) :
    0 ≤ codeAt b n ∧ codeAt b n ≤ 14 ∧ (codeAt b n ≤ 6 ∨ 9 ≤ codeAt b n) := by
  rcases codeAt_cases b n with c | c | c | c | c | c | c | c | c | c | c | c | c <;>
    rw [c] <;> decide

theorem not_white_target {b : Board} (ho : OccupanciesConsistent b) (ha : Agree b) {s : Int}
    (h : InRange s) (hn : ¬ (b.whitePieces &&& bit s ≠ 0)) :
    codeAt b s.toNat = 0 ∨ 9 ≤ codeAt b s.toNat := by
  rw [white_iff ho ha h] at hn
  have := code_range b s.toNat
  omega

theorem not_black_target {b : Board} (ho : OccupanciesConsistent b) (ha : Agree b) {s : Int}
    (h : InRange s) (hn : ¬ (b.blackPieces &&& bit s ≠ 0)) : codeAt b s.toNat ≤ 6 := by
  rw [black_iff ho ha h] at hn
  have := code_range b s.toNat
  omega

theorem not_occupied_target {b : Board} (ho : OccupanciesConsistent b) (ha : Agree b) {s : Int}
    (h : InRange s) (hn : ¬ (b.occupied &&& bit s ≠ 0)) : codeAt b s.toNat = 0 := by
  rw [occupied_iff ho ha h] at hn
  exact not_not.mp hn

theorem other_colour_target (b : Board) {s t : Int} (hs : InRange s) (ht : InRange t)
    (h : findPieceCodeAt b t = 0 ∨
      Int.land (findPieceCodeAt b t) COLOR_MASK ≠ Int.land (findPieceCodeAt b s) COLOR_MASK) :
    (codeAt b s.toNat ≤ 6 → codeAt b t.toNat = 0 ∨ 9 ≤ codeAt b t.toNat) ∧
    (9 ≤ codeAt b s.toNat → codeAt b t.toNat ≤ 6) := by
  unfold findPieceCodeAt at h
  rw [pieceAt_eq_codeAt b hs, pieceAt_eq_codeAt b ht] at h
  obtain ⟨w1, b1⟩ := color_of_code b t.toNat
  obtain ⟨w2, b2⟩ := color_of_code b s.toNat
  have r := code_range b t.toNat
  constructor
  · intro hc
    rcases h with h | h
    · exact Or.inl h
    · rw [w2.mpr hc] at h
      have : ¬ codeAt b t.toNat ≤ 6 := fun x => h (w1.mpr x)
      omega
  · intro hc
    rcases h with h | h
    · omega
    · rw [b2.mpr hc] at h
      have : ¬ 9 ≤ codeAt b t.toNat := fun x => h (b1.mpr x)
      omega

theorem pawnGen_target {b : Board} (hw : WF b) (ho : OccupanciesConsistent b) {mv : Move}
    {sq c : Int} (hto : InRange mv.to_)
    (hc : c = WHITE ∨ c = BLACK) (h : PawnGen b sq c mv) :
    mv.from_ = sq ∧
      (if c = WHITE then codeAt b mv.to_.toNat = 0 ∨ 9 ≤ codeAt b mv.to_.toNat
        else codeAt b mv.to_.toNat ≤ 6) := by
  obtain ⟨h1, -, h3⟩ := h
  refine ⟨h1, ?_⟩
  have hz : codeAt b mv.to_.toNat = 0 →
      (if c = WHITE then codeAt b mv.to_.toNat = 0 ∨ 9 ≤ codeAt b mv.to_.toNat
        else codeAt b mv.to_.toNat ≤ 6) := by
    intro z
    split_ifs
    · exact Or.inl z
    · omega
  rcases h3 with ⟨-, -, hocc, -⟩ | ⟨-, -, -, -, hocc, -⟩ | ⟨df, -, -, -, hne, hcol, -⟩ |
    ⟨df, -, -, -, he, -⟩
  · exact hz (not_occupied_target ho hw.2 hto hocc)
  · exact hz (not_occupied_target ho hw.2 hto hocc)
  · unfold findPieceCodeAt at hne hcol
    rw [pieceAt_eq_codeAt b hto] at hne hcol
    obtain ⟨w1, b1⟩ := color_of_code b mv.to_.toNat
    have r := code_range b mv.to_.toNat
    rcases hc with rfl | rfl
    · rw [if_pos rfl]
      have : ¬ codeAt b mv.to_.toNat ≤ 6 := fun x => hcol (w1.mpr x)
      omega
    · rw [if_neg (by decide)]
      have : ¬ 9 ≤ codeAt b mv.to_.toNat := fun x => hcol (b1.mpr x)
      omega
  · unfold findPieceCodeAt at he
    rw [pieceAt_eq_codeAt b hto] at he
    exact hz he

/-- The moving piece of a generated move has the colour to move, and the target
square holds no piece of that colour. -/
theorem generated_target {b : Board} (hw : WF b) (ho : OccupanciesConsistent b) {mv : Move}
    (h : Generated b mv) :
    (b.mover = WHITE → 1 ≤ codeAt b mv.from_.toNat ∧ codeAt b mv.from_.toNat ≤ 6) ∧
    (b.mover ≠ WHITE → 9 ≤ codeAt b mv.from_.toNat) ∧
    (codeAt b mv.from_.toNat ≤ 6 → codeAt b mv.to_.toNat = 0 ∨ 9 ≤ codeAt b mv.to_.toNat) ∧
    (9 ≤ codeAt b mv.from_.toNat → codeAt b mv.to_.toNat ≤ 6) := by
  have hr := generated_reversible hw ho h
  have hto := hr.2.1
  obtain ⟨sq, hs, h⟩ := h
  obtain ⟨k1, k2, k3, k4, k5, k6, k7, k8, k9, k10, k11, k12⟩ := codeAt_of_testBit hw.2 sq.toNat
  rcases h with ⟨t, h⟩ | ⟨t, h⟩ | ⟨t, -, h⟩ | ⟨t, -, h⟩ | ⟨t, -, h⟩ | ⟨t, -, h⟩
  · have hm : (b.mover = WHITE → codeAt b sq.toNat = 1) ∧ (b.mover ≠ WHITE → codeAt b sq.toNat = 9) :=
      ⟨fun e => by rw [if_pos e] at t; exact k1 t, fun e => by rw [if_neg e] at t; exact k7 t⟩
    rcases h with ⟨hb, hg⟩ | ⟨-, hb, hg⟩
    · have c := k1 ((and_bit_ne_zero_iff _ hs).mp hb)
      obtain ⟨e, ht⟩ := pawnGen_target hw ho hto (Or.inl rfl) hg
      rw [if_pos rfl] at ht
      rw [e]
      exact ⟨fun _ => by omega, fun m => by have := hm.2 m; omega, fun _ => ht, fun _ => by omega⟩
    · have c := k7 ((and_bit_ne_zero_iff _ hs).mp hb)
      obtain ⟨e, ht⟩ := pawnGen_target hw ho hto (Or.inr rfl) hg
      rw [if_neg (by decide)] at ht
      rw [e]
      exact ⟨fun m => by have := hm.1 m; omega, fun _ => by omega, fun _ => by omega, fun _ => ht⟩
  · have hm : (b.mover = WHITE → codeAt b sq.toNat = 2) ∧ (b.mover ≠ WHITE → codeAt b sq.toNat = 10) :=
      ⟨fun e => by rw [if_pos e] at t; exact k2 t, fun e => by rw [if_neg e] at t; exact k8 t⟩
    rcases h with ⟨hb, e, -, -, -, hg, -⟩ | ⟨-, hb, e, -, -, -, hg, -⟩
    · have c := k2 ((and_bit_ne_zero_iff _ hs).mp hb)
      have ht := not_white_target ho hw.2 hto hg
      rw [e]
      exact ⟨fun _ => by omega, fun m => by have := hm.2 m; omega, fun _ => ht, fun _ => by omega⟩
    · have c := k8 ((and_bit_ne_zero_iff _ hs).mp hb)
      have ht := not_black_target ho hw.2 hto hg
      rw [e]
      exact ⟨fun m => by have := hm.1 m; omega, fun _ => by omega, fun _ => by omega, fun _ => ht⟩
  · have hm : (b.mover = WHITE → codeAt b sq.toNat = 3) ∧ (b.mover ≠ WHITE → codeAt b sq.toNat = 11) :=
      ⟨fun e => by rw [if_pos e] at t; exact k3 t, fun e => by rw [if_neg e] at t; exact k9 t⟩
    obtain ⟨e, -, -, -, hg⟩ := h
    have ht := other_colour_target b hs hto hg
    rw [e]
    exact ⟨fun m => by have := hm.1 m; omega, fun m => by have := hm.2 m; omega, ht.1, ht.2⟩
  · have hm : (b.mover = WHITE → codeAt b sq.toNat = 4) ∧ (b.mover ≠ WHITE → codeAt b sq.toNat = 12) :=
      ⟨fun e => by rw [if_pos e] at t; exact k4 t, fun e => by rw [if_neg e] at t; exact k10 t⟩
    obtain ⟨e, -, -, -, hg⟩ := h
    have ht := other_colour_target b hs hto hg
    rw [e]
    exact ⟨fun m => by have := hm.1 m; omega, fun m => by have := hm.2 m; omega, ht.1, ht.2⟩
  · have hm : (b.mover = WHITE → codeAt b sq.toNat = 5) ∧ (b.mover ≠ WHITE → codeAt b sq.toNat = 13) :=
      ⟨fun e => by rw [if_pos e] at t; exact k5 t, fun e => by rw [if_neg e] at t; exact k11 t⟩
    obtain ⟨e, -, -, -, hg⟩ := h
    have ht := other_colour_target b hs hto hg
    rw [e]
    exact ⟨fun m => by have := hm.1 m; omega, fun m => by have := hm.2 m; omega, ht.1, ht.2⟩
  · have hm : (b.mover = WHITE → codeAt b sq.toNat = 6) ∧ (b.mover ≠ WHITE → codeAt b sq.toNat = 14) :=
      ⟨fun e => by rw [if_pos e] at t; exact k6 t, fun e => by rw [if_neg e] at t; exact k12 t⟩
    have hfc : findPieceCodeAt b sq = codeAt b sq.toNat := by
      unfold findPieceCodeAt
      exact pieceAt_eq_codeAt b hs
    obtain ⟨w2, b2⟩ := color_of_code b sq.toNat
    rcases h with ⟨e, -, -, -, hg, -⟩ | ⟨e, -, -, hg⟩
    · rw [hfc] at hg
      rw [e]
      refine ⟨fun m => by have := hm.1 m; omega, fun m => by have := hm.2 m; omega, ?_, ?_⟩
      · intro hc
        rw [if_pos (w2.mpr hc)] at hg
        exact not_white_target ho hw.2 hto hg
      · intro hc
        rw [if_neg (by rw [b2.mpr hc]; decide)] at hg
        exact not_black_target ho hw.2 hto hg
    · have hz : codeAt b mv.to_.toNat = 0 := by
        rcases hg with ⟨-, -, e2, -, -, o, -⟩ | ⟨-, -, e2, -, -, o, -⟩ | ⟨-, -, e2, -, -, o, -⟩ |
          ⟨-, -, e2, -, -, o, -⟩ <;>
        · rw [← e2] at o
          exact not_occupied_target ho hw.2 hto o
      rw [e]
      exact ⟨fun m => by have := hm.1 m; omega, fun m => by have := hm.2 m; omega,
        fun _ => Or.inl hz, fun _ => by omega⟩

theorem legalLoop_subset (maxMoves : Nat) (l : List Move) :
    ∀ (b : Board) (out : List Move) (m : Move), m ∈ (legalLoop maxMoves l b out).2 →
      m ∈ out ∨ m ∈ l := by
  induction l with
  | nil => intro b out m h; exact Or.inl h
  | cons x rest ih =>
    intro b out m h
    unfold legalLoop at h
    split_ifs at h with h1 h2
    · rcases ih _ _ _ h with k | k
      · exact Or.inl k
      · exact Or.inr (List.mem_cons_of_mem _ k)
    · rcases ih _ _ _ h with k | k
      · rw [List.mem_append, List.mem_singleton] at k
        rcases k with k | k
        · exact Or.inl k
        · exact Or.inr (k ▸ List.mem_cons_self _ _)
      · exact Or.inr (List.mem_cons_of_mem _ k)
    · rcases ih _ _ _ h with k | k
      · exact Or.inl k
      · exact Or.inr (List.mem_cons_of_mem _ k)

theorem mem_generateLegalMovesToArray {b : Board} (hw : WF b) (ho : OccupanciesConsistent b)
    {maxMoves : Nat} {m : Move} (h : m ∈ (generateLegalMovesToArray b maxMoves).2) :
    Generated b m := by
  unfold generateLegalMovesToArray at h
  simp only [] at h
  rw [generateMovesToArray_eq hw.1] at h
  rcases legalLoop_subset _ _ _ _ _ h with k | k
  · simp at k
  · rcases mem_generateMoves hw.1 (List.mem_of_mem_take k) with j | j
    · simp at j
    · rw [updateOccupancies_eq_self ho] at j
      exact j

/-- C18: on a board satisfying the data-model invariants, for every move
returned by `generateLegalMovesToArray` the destination square holds no piece of
the colour to move, and after `applyMove` the bitboards are pairwise disjoint
and the piece found on the destination square is the piece that moved, or the
promotion piece in the colour of the piece that moved. -/
theorem legal_move_destination (b : Board) (hinv : Invariants b) (maxMoves : Nat) (m : Move)
    (hm : m ∈ (generateLegalMovesToArray b maxMoves).2) :
    (if b.mover = WHITE then b.whitePieces else b.blackPieces) &&& bit m.to_ = 0 ∧
    PiecesDisjoint (applyMove b m).2.1 ∧
    findPieceCodeAt (applyMove b m).2.1 m.to_ ≠ 0 ∧
    findPieceCodeAt (applyMove b m).2.1 m.to_ =
      (if m.promotionPiece ≠ 0 then
        Int.lor m.promotionPiece (Int.land (findPieceCodeAt b m.from_) COLOR_MASK)
      else findPieceCodeAt b m.from_) := by
  have hw := wf_of_invariants hinv
  have ho := hinv.2.2.1
  have hg := mem_generateLegalMovesToArray hw ho hm
  have hr := generated_reversible hw ho hg
  obtain ⟨g1, g2, g3, g4⟩ := generated_target hw ho hg
  have hto := hr.2.1
  have hafter : findPieceCodeAt (applyMove b m).2.1 m.to_ = placedCode b m := by
    unfold findPieceCodeAt
    rw [pieceAt_eq_codeAt _ hto]
    exact codeAt_applyMove_to hw hr
  refine ⟨?_, disjoint_of_agree (wf_applyMove hw hr).2, ?_, hafter⟩
  · by_cases hmv : b.mover = WHITE
    · rw [if_pos hmv]
      by_contra hc
      have := (white_iff ho hw.2 hto).mp hc
      have := g1 hmv
      have := g3 (g1 hmv).2
      omega
    · rw [if_neg hmv]
      by_contra hc
      have := (black_iff ho hw.2 hto).mp hc
      have := g4 (g2 hmv)
      omega
  · rw [hafter]
    exact validCode_ne_zero hr.2.2.2.2.1

/-- C18 (instance): the knight move g1f3 from the start position. -/
theorem legal_move_destination_witness :
    startBoard.whitePieces &&& bit 21 = 0 ∧
      findPieceCodeAt (applyMove startBoard ⟨6, 21, 0, 0⟩).2.1 21 = 2 :=
  ⟨(legal_move_destination startBoard (by decide) 512 ⟨6, 21, 0, 0⟩ (by decide!)).1,
    (legal_move_destination startBoard (by decide) 512 ⟨6, 21, 0, 0⟩ (by decide!)).2.2.2⟩

/-- The generator that emitted a generated move, by the piece on its
from-square. -/
theorem generated_cases {b : Board} (hw : WF b) {mv : Move} (h : Generated b mv) :
    InRange mv.from_ ∧
    ((codeAt b mv.from_.toNat = 1 ∧ PawnGen b mv.from_ WHITE mv) ∨
      (codeAt b mv.from_.toNat = 9 ∧ PawnGen b mv.from_ BLACK mv) ∨
      (codeAt b mv.from_.toNat = 2 ∧ StepGen mv.from_ knightOffsets b.whitePieces mv) ∨
      (codeAt b mv.from_.toNat = 10 ∧ StepGen mv.from_ knightOffsets b.blackPieces mv) ∨
      ((codeAt b mv.from_.toNat = 3 ∨ codeAt b mv.from_.toNat = 4 ∨ codeAt b mv.from_.toNat = 5 ∨
          codeAt b mv.from_.toNat = 11 ∨ codeAt b mv.from_.toNat = 12 ∨
          codeAt b mv.from_.toNat = 13) ∧ SlideGen b mv.from_ mv) ∨
      (codeAt b mv.from_.toNat = 6 ∧
        (StepGen mv.from_ kingOffsets b.whitePieces mv ∨ CastleGen b mv.from_ mv)) ∨
      (codeAt b mv.from_.toNat = 14 ∧
        (StepGen mv.from_ kingOffsets b.blackPieces mv ∨ CastleGen b mv.from_ mv))) := by
  obtain ⟨sq, hs, h⟩ := h
  obtain ⟨k1, k2, k3, k4, k5, k6, k7, k8, k9, k10, k11, k12⟩ := codeAt_of_testBit hw.2 sq.toNat
  rcases h with ⟨-, h⟩ | ⟨-, h⟩ | ⟨t, -, h⟩ | ⟨t, -, h⟩ | ⟨t, -, h⟩ | ⟨t, -, h⟩
  · rcases h with ⟨hb, hg⟩ | ⟨-, hb, hg⟩
    · have e := hg.1
      subst e
      exact ⟨hs, Or.inl ⟨k1 ((and_bit_ne_zero_iff _ hs).mp hb), hg⟩⟩
    · have e := hg.1
      subst e
      exact ⟨hs, Or.inr (Or.inl ⟨k7 ((and_bit_ne_zero_iff _ hs).mp hb), hg⟩)⟩
  · rcases h with ⟨hb, hg⟩ | ⟨-, hb, hg⟩
    · have e := hg.1
      subst e
      exact ⟨hs, Or.inr (Or.inr (Or.inl ⟨k2 ((and_bit_ne_zero_iff _ hs).mp hb), hg⟩))⟩
    · have e := hg.1
      subst e
      exact ⟨hs, Or.inr (Or.inr (Or.inr (Or.inl ⟨k8 ((and_bit_ne_zero_iff _ hs).mp hb), hg⟩)))⟩
  · have e := h.1
    subst e
    refine ⟨hs, Or.inr (Or.inr (Or.inr (Or.inr (Or.inl ⟨?_, h⟩))))⟩
    split_ifs at t
    · exact Or.inl (k3 t)
    · exact Or.inr (Or.inr (Or.inr (Or.inl (k9 t))))
  · have e := h.1
    subst e
    refine ⟨hs, Or.inr (Or.inr (Or.inr (Or.inr (Or.inl ⟨?_, h⟩))))⟩
    split_ifs at t
    · exact Or.inr (Or.inl (k4 t))
    · exact Or.inr (Or.inr (Or.inr (Or.inr (Or.inl (k10 t)))))
  · have e := h.1
    subst e
    refine ⟨hs, Or.inr (Or.inr (Or.inr (Or.inr (Or.inl ⟨?_, h⟩))))⟩
    split_ifs at t
    · exact Or.inr (Or.inr (Or.inl (k5 t)))
    · exact Or.inr (Or.inr (Or.inr (Or.inr (Or.inr (k11 t)))))
  · have e : mv.from_ = sq := by
      rcases h with h | h
      · exact h.1
      · exact h.1
    subst e
    have hfc : findPieceCodeAt b mv.from_ = codeAt b mv.from_.toNat := by
      unfold findPieceCodeAt
      exact pieceAt_eq_codeAt b hs
    rw [hfc] at h
    have hc : codeAt b mv.from_.toNat = 6 ∨ codeAt b mv.from_.toNat = 14 := by
      split_ifs at t
      · exact Or.inl (k6 t)
      · exact Or.inr (k12 t)
    rcases hc with c | c
    · rw [c, if_pos (by decide)] at h
      exact ⟨hs, Or.inr (Or.inr (Or.inr (Or.inr (Or.inr (Or.inl ⟨c, h⟩)))))⟩
    · rw [c, if_neg (by decide)] at h
      exact ⟨hs, Or.inr (Or.inr (Or.inr (Or.inr (Or.inr (Or.inr ⟨c, h⟩)))))⟩

theorem enPassant_applyMove {b : Board} {mv : Move} (h : findPieceCodeAt b mv.from_ ≠ 0) :
    (applyMove b mv).2.1.enPassantSquare =
      if Int.land (findPieceCodeAt b mv.from_) 7 = PAWN ∧
          Int.natAbs (Int.tdiv mv.to_ 8 - Int.tdiv mv.from_ 8) = 2 then
        Int.tdiv (Int.tdiv mv.from_ 8 + Int.tdiv mv.to_ 8) 2 * 8 + Int.tmod mv.from_ 8
      else -1 := by
  rw [applyMove_snd h]
  have e : ∀ x : Board, (finalizeMove x).enPassantSquare = x.enPassantSquare := fun _ => rfl
  rw [e]
  unfold updateEnPassantSquare
  split_ifs <;> rfl

theorem enPassant_applyMove_ranks {b : Board} {mv : Move} (hfrom : InRange mv.from_)
    (hto : InRange mv.to_) (h : findPieceCodeAt b mv.from_ ≠ 0) :
    (applyMove b mv).2.1.enPassantSquare =
      if Int.land (findPieceCodeAt b mv.from_) 7 = PAWN ∧
          (rankOf mv.to_ - rankOf mv.from_ = 2 ∨ rankOf mv.from_ - rankOf mv.to_ = 2) then
        sq_index ((rankOf mv.from_ + rankOf mv.to_) / 2) (fileOf mv.from_)
      else -1 := by
  rw [enPassant_applyMove h, tdiv_eq_rankOf hfrom, tdiv_eq_rankOf hto, tmod_eq_fileOf hfrom]
  obtain ⟨r0, r1, -, -⟩ := inside_rank_file hfrom
  obtain ⟨s0, s1, -, -⟩ := inside_rank_file hto
  rw [Int.tdiv_eq_ediv (by omega) (by norm_num)]
  have e : Int.natAbs (rankOf mv.to_ - rankOf mv.from_) = 2 ↔
      (rankOf mv.to_ - rankOf mv.from_ = 2 ∨ rankOf mv.from_ - rankOf mv.to_ = 2) := by omega
  simp only [e]
  rfl

/-- C15: on a board satisfying the data-model invariants, after `applyMove` of a
move produced by `generateMoves` the en-passant square is the square passed
over (the file of the from-square, the rank midway between from and to) when
the moved piece is a pawn that advanced two ranks, and `-1` otherwise; so it is
`-1`, or a square of rank 2 after a white pawn went from rank 1 to rank 3, or a
square of rank 5 after a black pawn went from rank 6 to rank 4. -/
theorem applyMove_enPassantSquare (b : Board) (hinv : Invariants b) (m : Move)
    (hm : m ∈ (generateMoves b []).2) :
    (applyMove b m).2.1.enPassantSquare =
      (if Int.land (findPieceCodeAt b m.from_) 7 = PAWN ∧
          (rankOf m.to_ - rankOf m.from_ = 2 ∨ rankOf m.from_ - rankOf m.to_ = 2) then
        sq_index ((rankOf m.from_ + rankOf m.to_) / 2) (fileOf m.from_)
      else -1) ∧
    ((applyMove b m).2.1.enPassantSquare = -1 ∨
      (findPieceCodeAt b m.from_ = Int.lor PAWN WHITE ∧ rankOf m.from_ = 1 ∧ rankOf m.to_ = 3 ∧
        fileOf m.to_ = fileOf m.from_ ∧
        (applyMove b m).2.1.enPassantSquare = sq_index 2 (fileOf m.from_) ∧
        rankOf (applyMove b m).2.1.enPassantSquare = 2) ∨
      (findPieceCodeAt b m.from_ = Int.lor PAWN BLACK ∧ rankOf m.from_ = 6 ∧ rankOf m.to_ = 4 ∧
        fileOf m.to_ = fileOf m.from_ ∧
        (applyMove b m).2.1.enPassantSquare = sq_index 5 (fileOf m.from_) ∧
        rankOf (applyMove b m).2.1.enPassantSquare = 5)) := by
  have hw := wf_of_invariants hinv
  have ho := hinv.2.2.1
  have hg : Generated b m := by
    rcases mem_generateMoves hw.1 hm with j | j
    · simp at j
    · rw [updateOccupancies_eq_self ho] at j
      exact j
  have hr := generated_reversible hw ho hg
  obtain ⟨hfrom, hto, -, hcode, -, -, -⟩ := hr
  have hep := enPassant_applyMove_ranks hfrom hto hcode
  refine ⟨hep, ?_⟩
  rw [hep]
  have hfc : findPieceCodeAt b m.from_ = codeAt b m.from_.toNat := by
    unfold findPieceCodeAt
    exact pieceAt_eq_codeAt b hfrom
  obtain ⟨r0, r1, f0, f1⟩ := inside_rank_file hfrom
  have pawn : ∀ c : Int, (c = WHITE ∨ c = BLACK) →
      findPieceCodeAt b m.from_ = Int.lor PAWN c → PawnGen b m.from_ c m →
      ((if Int.land (findPieceCodeAt b m.from_) 7 = PAWN ∧
          (rankOf m.to_ - rankOf m.from_ = 2 ∨ rankOf m.from_ - rankOf m.to_ = 2) then
        sq_index ((rankOf m.from_ + rankOf m.to_) / 2) (fileOf m.from_)
      else -1) = -1 ∨
      (findPieceCodeAt b m.from_ = Int.lor PAWN c ∧
        rankOf m.from_ = (if c = WHITE then 1 else 6) ∧
        rankOf m.to_ = (if c = WHITE then 3 else 4) ∧
        fileOf m.to_ = fileOf m.from_ ∧
        (if Int.land (findPieceCodeAt b m.from_) 7 = PAWN ∧
            (rankOf m.to_ - rankOf m.from_ = 2 ∨ rankOf m.from_ - rankOf m.to_ = 2) then
          sq_index ((rankOf m.from_ + rankOf m.to_) / 2) (fileOf m.from_)
        else -1) = sq_index (if c = WHITE then 2 else 5) (fileOf m.from_))) := by
    intro c hc hcd hg
    obtain ⟨-, -, h3⟩ := hg
    have hd : (if c = WHITE then (1 : Int) else -1) = 1 ∨
        (if c = WHITE then (1 : Int) else -1) = -1 := by
      split_ifs
      · exact Or.inl rfl
      · exact Or.inr rfl
    rcases h3 with ⟨e, hin, -⟩ | ⟨e, hrk, hin, -⟩ | ⟨df, -, e, hin, -⟩ | ⟨df, -, e, hin, -⟩
    · left
      rw [if_neg]
      rintro ⟨-, k⟩
      rw [e, rankOf_sq_index hin] at k
      omega
    · right
      have k1 : rankOf m.to_ = rankOf m.from_ + 2 * (if c = WHITE then (1 : Int) else -1) := by
        rw [e, rankOf_sq_index hin]
      have k2 : fileOf m.to_ = fileOf m.from_ := by
        rw [e, fileOf_sq_index hin]
      have hp : Int.land (findPieceCodeAt b m.from_) 7 = PAWN := by
        rw [hcd]
        rcases hc with rfl | rfl <;> decide
      rcases hc with rfl | rfl
      · rw [if_pos rfl] at hrk k1
        simp only [if_pos]
        rw [if_pos ⟨hp, by omega⟩, k1, hrk]
        exact ⟨hcd, rfl, rfl, k2, rfl⟩
      · rw [if_neg (by decide)] at hrk k1
        simp only [show ¬ (BLACK = WHITE) by decide, if_false]
        rw [if_pos ⟨hp, by omega⟩, k1, hrk]
        exact ⟨hcd, rfl, rfl, k2, rfl⟩
    · left
      rw [if_neg]
      rintro ⟨-, k⟩
      rw [e, rankOf_sq_index hin] at k
      omega
    · left
      rw [if_neg]
      rintro ⟨-, k⟩
      rw [e, rankOf_sq_index hin] at k
      omega
  have other : Int.land (codeAt b m.from_.toNat) 7 ≠ PAWN →
      (if Int.land (findPieceCodeAt b m.from_) 7 = PAWN ∧
          (rankOf m.to_ - rankOf m.from_ = 2 ∨ rankOf m.from_ - rankOf m.to_ = 2) then
        sq_index ((rankOf m.from_ + rankOf m.to_) / 2) (fileOf m.from_)
      else -1) = -1 := by
    intro hn
    rw [if_neg]
    rintro ⟨k, -⟩
    rw [hfc] at k
    exact hn k
  have rk : ∀ r : Int, 0 ≤ r → r < 8 → rankOf (sq_index r (fileOf m.from_)) = r := by
    intro r h0 h1
    exact rankOf_sq_index ((insideFileRank_iff _ _).mpr ⟨h0, h1, f0, f1⟩)
  rcases (generated_cases hw hg).2 with ⟨c, g⟩ | ⟨c, g⟩ | ⟨c, -⟩ | ⟨c, -⟩ | ⟨c, -⟩ | ⟨c, -⟩ |
    ⟨c, -⟩
  · rcases pawn WHITE (Or.inl rfl) (by rw [hfc, c]; rfl) g with k | ⟨k1, k2, k3, k4, k5⟩
    · exact Or.inl k
    · rw [if_pos (rfl : WHITE = WHITE)] at k2 k3 k5
      exact Or.inr (Or.inl ⟨k1, k2, k3, k4, k5, by rw [k5]; exact rk 2 (by decide) (by decide)⟩)
  · rcases pawn BLACK (Or.inr rfl) (by rw [hfc, c]; rfl) g with k | ⟨k1, k2, k3, k4, k5⟩
    · exact Or.inl k
    · rw [if_neg (show ¬ (BLACK = WHITE) by decide)] at k2 k3 k5
      exact Or.inr (Or.inr ⟨k1, k2, k3, k4, k5, by rw [k5]; exact rk 5 (by decide) (by decide)⟩)
  · exact Or.inl (other (by rw [c]; decide))
  · exact Or.inl (other (by rw [c]; decide))
  · exact Or.inl (other (by rcases c with c | c | c | c | c | c <;> rw [c] <;> decide))
  · exact Or.inl (other (by rw [c]; decide))
  · exact Or.inl (other (by rw [c]; decide))

/-- C15 (instance): after e2e4 from the start position the en-passant square is
e3 (square 20). -/
theorem applyMove_enPassantSquare_witness :
    (applyMove startBoard ⟨12, 28, 0, 0⟩).2.1.enPassantSquare = 20 :=
  (applyMove_enPassantSquare startBoard (by decide) ⟨12, 28, 0, 0⟩ (by decide!)).1.trans
    (by decide)

theorem bit_cases (s : Int) : InRange s ∨ bit s = 0 ∨ bit s = bit 0 := by
  by_cases h0 : 0 ≤ s
  · by_cases h1 : s < 64
    · exact Or.inl ⟨h0, h1⟩
    · right; left
      unfold bit
      have h64 : 64 ≤ s.toNat := by omega
      rw [Nat.shiftLeft_eq, Nat.one_mul]
      exact Nat.mod_eq_zero_of_dvd (Nat.pow_dvd_pow 2 h64)
  · right; right
    unfold bit
    have e : s.toNat = 0 := by omega
    rw [e]
    rfl

theorem and_not64_zero {x : Nat} (hx : x < 2 ^ 64) : x &&& not64 0 = x := by
  apply Nat.eq_of_testBit_eq
  intro n
  rw [Nat.testBit_and, testBit_not64]
  by_cases h : n < 64
  · simp [h]
  · simp [h, testBit_eq_false_of_lt hx (not_lt.mp h)]

theorem pieces_clearSquare_zero {b : Board} (hb : Bounded b) {s : Int} (h : bit s = 0) :
    pieces (clearSquare b s) = pieces b := by
  obtain ⟨b1, b2, b3, b4, b5, b6, b7, b8, b9, b10, b11, b12⟩ := hb
  unfold clearSquare pieces
  simp only [h, and_not64_zero b1, and_not64_zero b2, and_not64_zero b3, and_not64_zero b4,
    and_not64_zero b5, and_not64_zero b6, and_not64_zero b7, and_not64_zero b8,
    and_not64_zero b9, and_not64_zero b10, and_not64_zero b11, and_not64_zero b12]

theorem inRange_zero : InRange 0 := ⟨le_refl _, by norm_num⟩

theorem wf_clearSquare_any {b : Board} (hw : WF b) (s : Int) : WF (clearSquare b s) := by
  rcases bit_cases s with h | h | h
  · exact wf_clearSquare hw h
  · exact wf_congr (pieces_clearSquare_zero hw.1 h).symm hw
  · have e : clearSquare b s = clearSquare b 0 := by
      unfold clearSquare
      rw [h]
    rw [e]
    exact wf_clearSquare hw inRange_zero

theorem pieces_orPiece_zero (b : Board) {s : Int} (h : bit s = 0) (c : Int) :
    pieces (orPiece b s c) = pieces b := by
  unfold orPiece
  split_ifs <;> simp [pieces, h]

theorem orPiece_zero_code (b : Board) (s : Int) : orPiece b s 0 = b := rfl

theorem orPiece_norm (c : Int) :
    ∃ d : Int, (d = 0 ∨ ValidCode d) ∧ ∀ (x : Board) (s : Int), orPiece x s c = orPiece x s d := by
  by_cases hw : Int.land c COLOR_MASK = WHITE
  · by_cases h1 : Int.land c 7 = PAWN
    · refine ⟨1, Or.inr (by unfold ValidCode; decide), fun x s => ?_⟩
      rw [orPiece_1]
      unfold orPiece
      rw [if_pos hw, if_pos h1]
    by_cases h2 : Int.land c 7 = KNIGHT
    · refine ⟨2, Or.inr (by unfold ValidCode; decide), fun x s => ?_⟩
      rw [orPiece_2]
      unfold orPiece
      rw [if_pos hw, if_neg h1, if_pos h2]
    by_cases h3 : Int.land c 7 = BISHOP
    · refine ⟨3, Or.inr (by unfold ValidCode; decide), fun x s => ?_⟩
      rw [orPiece_3]
      unfold orPiece
      rw [if_pos hw, if_neg h1, if_neg h2, if_pos h3]
    by_cases h4 : Int.land c 7 = ROOK
    · refine ⟨4, Or.inr (by unfold ValidCode; decide), fun x s => ?_⟩
      rw [orPiece_4]
      unfold orPiece
      rw [if_pos hw, if_neg h1, if_neg h2, if_neg h3, if_pos h4]
    by_cases h5 : Int.land c 7 = QUEEN
    · refine ⟨5, Or.inr (by unfold ValidCode; decide), fun x s => ?_⟩
      rw [orPiece_5]
      unfold orPiece
      rw [if_pos hw, if_neg h1, if_neg h2, if_neg h3, if_neg h4, if_pos h5]
    by_cases h6 : Int.land c 7 = KING
    · refine ⟨6, Or.inr (by unfold ValidCode; decide), fun x s => ?_⟩
      rw [orPiece_6]
      unfold orPiece
      rw [if_pos hw, if_neg h1, if_neg h2, if_neg h3, if_neg h4, if_neg h5, if_pos h6]
    refine ⟨0, Or.inl rfl, fun x s => ?_⟩
    rw [orPiece_zero_code]
    unfold orPiece
    rw [if_pos hw, if_neg h1, if_neg h2, if_neg h3, if_neg h4, if_neg h5, if_neg h6]
  · by_cases h1 : Int.land c 7 = PAWN
    · refine ⟨9, Or.inr (by unfold ValidCode; decide), fun x s => ?_⟩
      rw [orPiece_9]
      unfold orPiece
      rw [if_neg hw, if_pos h1]
    by_cases h2 : Int.land c 7 = KNIGHT
    · refine ⟨10, Or.inr (by unfold ValidCode; decide), fun x s => ?_⟩
      rw [orPiece_10]
      unfold orPiece
      rw [if_neg hw, if_neg h1, if_pos h2]
    by_cases h3 : Int.land c 7 = BISHOP
    · refine ⟨11, Or.inr (by unfold ValidCode; decide), fun x s => ?_⟩
      rw [orPiece_11]
      unfold orPiece
      rw [if_neg hw, if_neg h1, if_neg h2, if_pos h3]
    by_cases h4 : Int.land c 7 = ROOK
    · refine ⟨12, Or.inr (by unfold ValidCode; decide), fun x s => ?_⟩
      rw [orPiece_12]
      unfold orPiece
      rw [if_neg hw, if_neg h1, if_neg h2, if_neg h3, if_pos h4]
    by_cases h5 : Int.land c 7 = QUEEN
    · refine ⟨13, Or.inr (by unfold ValidCode; decide), fun x s => ?_⟩
      rw [orPiece_13]
      unfold orPiece
      rw [if_neg hw, if_neg h1, if_neg h2, if_neg h3, if_neg h4, if_pos h5]
    by_cases h6 : Int.land c 7 = KING
    · refine ⟨14, Or.inr (by unfold ValidCode; decide), fun x s => ?_⟩
      rw [orPiece_14]
      unfold orPiece
      rw [if_neg hw, if_neg h1, if_neg h2, if_neg h3, if_neg h4, if_neg h5, if_pos h6]
    refine ⟨0, Or.inl rfl, fun x s => ?_⟩
    rw [orPiece_zero_code]
    unfold orPiece
    rw [if_neg hw, if_neg h1, if_neg h2, if_neg h3, if_neg h4, if_neg h5, if_neg h6]

theorem wf_setPiece_any {b : Board} (hw : WF b) (s c : Int) : WF (setPiece b s c) := by
  have inr : ∀ t : Int, InRange t → WF (setPiece b t c) := by
    intro t ht
    obtain ⟨d, hd, e⟩ := orPiece_norm c
    have e2 : setPiece b t c = setPiece b t d := by
      unfold setPiece
      exact e _ _
    rw [e2]
    rcases hd with rfl | hd
    · exact wf_clearSquare hw ht
    · exact wf_setPiece hw ht hd
  rcases bit_cases s with h | h | h
  · exact inr s h
  · apply wf_congr _ hw
    unfold setPiece
    rw [pieces_orPiece_zero _ h, pieces_clearSquare_zero hw.1 h]
  · have e : setPiece b s c = setPiece b 0 c := by
      unfold setPiece clearSquare orPiece
      simp only [h]
    rw [e]
    exact inr 0 inRange_zero

theorem wf_placePieceAt_any {b : Board} (hw : WF b) (s c : Int) : WF (placePieceAt b s c) := by
  unfold placePieceAt
  split_ifs
  · exact hw
  · exact wf_setPiece_any hw s c

theorem wf_removePieceAt_any {b : Board} (hw : WF b) (s : Int) : WF (removePieceAt b s).1 := by
  rcases bit_cases s with h | h | h
  · rw [removePieceAt_fst hw.1 hw.2 h]
    exact wf_clearSquare hw h
  · have e : (removePieceAt b s).1 = b := by
      unfold removePieceAt
      simp [h]
    rw [e]
    exact hw
  · have e : removePieceAt b s = removePieceAt b 0 := by
      unfold removePieceAt
      simp only [h]
    rw [e, removePieceAt_fst hw.1 hw.2 inRange_zero]
    exact wf_clearSquare hw inRange_zero

theorem wf_ite {p : Prop} [Decidable p] {x y : Board} (hx : WF x) (hy : WF y) :
    WF (if p then x else y) := by
  split_ifs <;> assumption

theorem wf_applyMovePieces_any {b : Board} (hw : WF b) (mv : Move) :
    WF (applyMovePieces b mv) := by
  unfold applyMovePieces
  simp only []
  exact wf_ite
    (wf_placePieceAt_any (wf_removePieceAt_any (wf_ite (wf_removePieceAt_any
      (wf_ite (wf_removePieceAt_any hw _) hw) _) (wf_ite (wf_removePieceAt_any hw _) hw)) _) _ _)
    (wf_placePieceAt_any (wf_removePieceAt_any (wf_ite (wf_removePieceAt_any
      (wf_ite (wf_removePieceAt_any hw _) hw) _) (wf_ite (wf_removePieceAt_any hw _) hw)) _) _ _)

theorem wf_applyCastlingRook_any {b : Board} (hw : WF b) (mv : Move) (c : Int) :
    WF (applyCastlingRook b mv c) := by
  unfold applyCastlingRook
  split_ifs
  · simp only []
    apply wf_congr (pieces_revokeBoth _ _).symm
    split_ifs
    · exact wf_placePieceAt_any (wf_removePieceAt_any hw _) _ _
    · exact wf_removePieceAt_any hw _
  · exact hw

theorem wf_applyMove_any {b : Board} (hw : WF b) (mv : Move) : WF (applyMove b mv).2.1 := by
  by_cases he : findPieceCodeAt b mv.from_ = 0
  · have e : (applyMove b mv).2.1 = b := by
      unfold applyMove
      rw [if_pos he]
    rw [e]
    exact hw
  · rw [applyMove_snd he]
    have h5 := wf_applyCastlingRook_any (wf_applyMovePieces_any hw mv) mv
      (findPieceCodeAt b mv.from_)
    refine wf_congr ?_ h5
    rw [pieces_finalizeMove, pieces_updateEnPassantSquare, pieces_updateCastlingRights]

theorem wf_unmakePieces_any {b : Board} (hw : WF b) (u : Undo) : WF (unmakePieces b u) := by
  unfold unmakePieces
  simp only []
  have h4 := wf_placePieceAt_any (wf_clearSquare_any (wf_clearSquare_any hw u.from_) u.to_)
    u.from_ u.movedPieceCode
  exact wf_ite (wf_placePieceAt_any (wf_clearSquare_any
      (wf_ite (wf_placePieceAt_any h4 _ _) h4) _) _ _)
    (wf_ite (wf_placePieceAt_any h4 _ _) h4)

theorem wf_unmakeMove_any {b : Board} (hw : WF b) (u : Undo) : WF (unmakeMove b u) := by
  rw [unmakeMove_eq]
  exact wf_congr rfl (wf_unmakePieces_any hw u)

theorem occ_unmakeMove (b : Board) (u : Undo) : OccupanciesConsistent (unmakeMove b u) := by
  rw [unmakeMove_eq]
  exact occ_updateOccupancies _

theorem placement_of_wf {b : Board} (hw : WF b) (ho : OccupanciesConsistent b) :
    PlacementInvariant b := by
  refine ⟨disjoint_of_agree hw.2, ho.1, ho.2.1, ?_, ho.2.2⟩
  rw [and_eq_zero_iff_testBit]
  intro n hn
  rw [ho.1] at hn
  rw [ho.2.1]
  obtain ⟨q1, q2, q3, q4, q5, q6, q7, q8, q9, q10, q11, q12⟩ := hw.2 n
  simp only [Nat.testBit_or, q1, q2, q3, q4, q5, q6, q7, q8, q9, q10, q11, q12, Bool.or_eq_true,
    decide_eq_true_eq, Bool.or_eq_false_iff, decide_eq_false_iff_not] at hn ⊢
  omega

/-- C12 (as stated, refuted): `staleBoard` has pairwise disjoint bitboards and
the move a1b1 has both squares in 0..63, but a1 is empty, so `applyMove`
returns false and leaves `whitePieces` as it was, which is not the union of the
white bitboards. -/
theorem applyMove_stale_occupancies :
    Bounded staleBoard ∧ PiecesDisjoint staleBoard ∧ InRange (0 : Int) ∧ InRange (1 : Int) ∧
      (applyMove staleBoard ⟨0, 1, 0, 0⟩).1 = false ∧
      (applyMove staleBoard ⟨0, 1, 0, 0⟩).2.1.whitePieces ≠
        ((applyMove staleBoard ⟨0, 1, 0, 0⟩).2.1.wp ||| (applyMove staleBoard ⟨0, 1, 0, 0⟩).2.1.wn |||
          (applyMove staleBoard ⟨0, 1, 0, 0⟩).2.1.wb ||| (applyMove staleBoard ⟨0, 1, 0, 0⟩).2.1.wr |||
          (applyMove staleBoard ⟨0, 1, 0, 0⟩).2.1.wq ||| (applyMove staleBoard ⟨0, 1, 0, 0⟩).2.1.wk) ∧
      ¬ PlacementInvariant (applyMove staleBoard ⟨0, 1, 0, 0⟩).2.1 := by
  decide

/-- C12 (amended): for every board whose twelve 64-bit bitboards are pairwise
disjoint and every move with from and to in 0..63 whose from-square holds a
piece (or on a board whose occupancies are already consistent), after
`applyMove`, and again after the paired `unmakeMove`, the twelve bitboards are
pairwise disjoint, `whitePieces` and `blackPieces` are the unions of the
bitboards of their colour and are disjoint, and `occupied` is their union. -/
theorem applyMove_placement_invariant (b : Board) (mv : Move) (hb : Bounded b)
    (hd : PiecesDisjoint b) (_hfrom : InRange mv.from_) (_hto : InRange mv.to_)
    (h : ¬ SquareEmpty b mv.from_ ∨ OccupanciesConsistent b) :
    PlacementInvariant (applyMove b mv).2.1 ∧
      PlacementInvariant (unmakeMove (applyMove b mv).2.1 (applyMove b mv).2.2) := by
  have hw : WF b := ⟨hb, agree_of_disjoint hd⟩
  have hw2 := wf_applyMove_any hw mv
  refine ⟨placement_of_wf hw2 ?_, placement_of_wf (wf_unmakeMove_any hw2 _) (occ_unmakeMove _ _)⟩
  by_cases he : findPieceCodeAt b mv.from_ = 0
  · rcases h with h | h
    · exact absurd ((findPieceCodeAt_eq_zero_iff b mv.from_).mp he) h
    · have e : (applyMove b mv).2.1 = b := by
        unfold applyMove
        rw [if_pos he]
      rw [e]
      exact h
  · exact occ_applyMove he

/-- C12 (instance): the capture-free move e2e4 from the start position. -/
theorem applyMove_placement_invariant_witness :
    PlacementInvariant (applyMove startBoard ⟨12, 28, 0, 0⟩).2.1 ∧
      PlacementInvariant (unmakeMove (applyMove startBoard ⟨12, 28, 0, 0⟩).2.1
        (applyMove startBoard ⟨12, 28, 0, 0⟩).2.2) :=
  applyMove_placement_invariant startBoard ⟨12, 28, 0, 0⟩ (by decide) (by decide) (by decide)
    (by decide) (Or.inl (by decide))

theorem rights_revokeBoth_eq (b : Board) (col : Int) :
    rights (revokeBoth b col) =
      (b.shortWhite && !decide (col = WHITE), b.longWhite && !decide (col = WHITE),
        b.shortBlack && decide (col = WHITE), b.longBlack && decide (col = WHITE)) := by
  unfold revokeBoth rights
  by_cases h : col = WHITE
  · rw [if_pos h]
    simp [h]
  · rw [if_neg h]
    simp only [WHITE] at h
    simp [h]

theorem rights_revokeCorner_eq (b : Board) (s : Int) :
    rights (revokeCorner b s) =
      (b.shortWhite && !decide (s = 7), b.longWhite && !decide (s = 0),
        b.shortBlack && !decide (s = 63), b.longBlack && !decide (s = 56)) := by
  unfold revokeCorner rights
  simp only []
  split_ifs <;> simp_all

theorem shortWhite_revokeBoth (b : Board) (col : Int) :
    (revokeBoth b col).shortWhite = (b.shortWhite && !decide (col = WHITE)) :=
  congrArg (fun r => r.1) (rights_revokeBoth_eq b col)

theorem shortWhite_revokeCorner (b : Board) (s : Int) :
    (revokeCorner b s).shortWhite = (b.shortWhite && !decide (s = 7)) :=
  congrArg (fun r => r.1) (rights_revokeCorner_eq b s)

theorem shortWhite_updateCastlingRights (b5 : Board) (mv : Move) (c d : Int) :
    (updateCastlingRights b5 mv c d).shortWhite =
      (b5.shortWhite && !(decide (Int.land c 7 = KING) && decide (Int.land c COLOR_MASK = WHITE)) &&
        !(decide (Int.land c 7 = ROOK) && decide (mv.from_ = 7)) &&
        !(decide (Int.land d 7 = ROOK) && decide (mv.to_ = 7))) := by
  unfold updateCastlingRights
  simp only []
  by_cases hK : Int.land c 7 = KING <;> by_cases hR : Int.land c 7 = ROOK <;>
    by_cases hD : Int.land d 7 = ROOK <;>
    simp_all [shortWhite_revokeCorner, shortWhite_revokeBoth]

theorem shortWhite_applyMove {b : Board} {mv : Move} (h : findPieceCodeAt b mv.from_ ≠ 0) :
    (applyMove b mv).2.1.shortWhite =
      (updateCastlingRights (applyCastlingRook (applyMovePieces b mv) mv
        (findPieceCodeAt b mv.from_)) mv (findPieceCodeAt b mv.from_)
        (findPieceCodeAt b (captureSquare b mv))).shortWhite := by
  rw [applyMove_snd h, undo_captured]
  exact congrArg (fun r => r.1)
    ((rights_finalizeMove _).trans (rights_updateEnPassantSquare _ _ _))

theorem longWhite_revokeBoth (b : Board) (col : Int) :
    (revokeBoth b col).longWhite = (b.longWhite && !decide (col = WHITE)) :=
  congrArg (fun r => r.2.1) (rights_revokeBoth_eq b col)

theorem longWhite_revokeCorner (b : Board) (s : Int) :
    (revokeCorner b s).longWhite = (b.longWhite && !decide (s = 0)) :=
  congrArg (fun r => r.2.1) (rights_revokeCorner_eq b s)

theorem longWhite_updateCastlingRights (b5 : Board) (mv : Move) (c d : Int) :
    (updateCastlingRights b5 mv c d).longWhite =
      (b5.longWhite && !(decide (Int.land c 7 = KING) && decide (Int.land c COLOR_MASK = WHITE)) &&
        !(decide (Int.land c 7 = ROOK) && decide (mv.from_ = 0)) &&
        !(decide (Int.land d 7 = ROOK) && decide (mv.to_ = 0))) := by
  unfold updateCastlingRights
  simp only []
  by_cases hK : Int.land c 7 = KING <;> by_cases hR : Int.land c 7 = ROOK <;>
    by_cases hD : Int.land d 7 = ROOK <;>
    simp_all [longWhite_revokeCorner, longWhite_revokeBoth]

theorem longWhite_applyMove {b : Board} {mv : Move} (h : findPieceCodeAt b mv.from_ ≠ 0) :
    (applyMove b mv).2.1.longWhite =
      (updateCastlingRights (applyCastlingRook (applyMovePieces b mv) mv
        (findPieceCodeAt b mv.from_)) mv (findPieceCodeAt b mv.from_)
        (findPieceCodeAt b (captureSquare b mv))).longWhite := by
  rw [applyMove_snd h, undo_captured]
  exact congrArg (fun r => r.2.1)
    ((rights_finalizeMove _).trans (rights_updateEnPassantSquare _ _ _))

theorem shortBlack_revokeBoth (b : Board) (col : Int) :
    (revokeBoth b col).shortBlack = (b.shortBlack && decide (col = WHITE)) :=
  congrArg (fun r => r.2.2.1) (rights_revokeBoth_eq b col)

theorem shortBlack_revokeCorner (b : Board) (s : Int) :
    (revokeCorner b s).shortBlack = (b.shortBlack && !decide (s = 63)) :=
  congrArg (fun r => r.2.2.1) (rights_revokeCorner_eq b s)

theorem shortBlack_updateCastlingRights (b5 : Board) (mv : Move) (c d : Int) :
    (updateCastlingRights b5 mv c d).shortBlack =
      (b5.shortBlack && !(decide (Int.land c 7 = KING) && !decide (Int.land c COLOR_MASK = WHITE)) &&
        !(decide (Int.land c 7 = ROOK) && decide (mv.from_ = 63)) &&
        !(decide (Int.land d 7 = ROOK) && decide (mv.to_ = 63))) := by
  unfold updateCastlingRights
  simp only []
  by_cases hK : Int.land c 7 = KING <;> by_cases hR : Int.land c 7 = ROOK <;>
    by_cases hD : Int.land d 7 = ROOK <;>
    simp_all [shortBlack_revokeCorner, shortBlack_revokeBoth]

theorem shortBlack_applyMove {b : Board} {mv : Move} (h : findPieceCodeAt b mv.from_ ≠ 0) :
    (applyMove b mv).2.1.shortBlack =
      (updateCastlingRights (applyCastlingRook (applyMovePieces b mv) mv
        (findPieceCodeAt b mv.from_)) mv (findPieceCodeAt b mv.from_)
        (findPieceCodeAt b (captureSquare b mv))).shortBlack := by
  rw [applyMove_snd h, undo_captured]
  exact congrArg (fun r => r.2.2.1)
    ((rights_finalizeMove _).trans (rights_updateEnPassantSquare _ _ _))

theorem longBlack_revokeBoth (b : Board) (col : Int) :
    (revokeBoth b col).longBlack = (b.longBlack && decide (col = WHITE)) :=
  congrArg (fun r => r.2.2.2) (rights_revokeBoth_eq b col)

theorem longBlack_revokeCorner (b : Board) (s : Int) :
    (revokeCorner b s).longBlack = (b.longBlack && !decide (s = 56)) :=
  congrArg (fun r => r.2.2.2) (rights_revokeCorner_eq b s)

theorem longBlack_updateCastlingRights (b5 : Board) (mv : Move) (c d : Int) :
    (updateCastlingRights b5 mv c d).longBlack =
      (b5.longBlack && !(decide (Int.land c 7 = KING) && !decide (Int.land c COLOR_MASK = WHITE)) &&
        !(decide (Int.land c 7 = ROOK) && decide (mv.from_ = 56)) &&
        !(decide (Int.land d 7 = ROOK) && decide (mv.to_ = 56))) := by
  unfold updateCastlingRights
  simp only []
  by_cases hK : Int.land c 7 = KING <;> by_cases hR : Int.land c 7 = ROOK <;>
    by_cases hD : Int.land d 7 = ROOK <;>
    simp_all [longBlack_revokeCorner, longBlack_revokeBoth]

theorem longBlack_applyMove {b : Board} {mv : Move} (h : findPieceCodeAt b mv.from_ ≠ 0) :
    (applyMove b mv).2.1.longBlack =
      (updateCastlingRights (applyCastlingRook (applyMovePieces b mv) mv
        (findPieceCodeAt b mv.from_)) mv (findPieceCodeAt b mv.from_)
        (findPieceCodeAt b (captureSquare b mv))).longBlack := by
  rw [applyMove_snd h, undo_captured]
  exact congrArg (fun r => r.2.2.2)
    ((rights_finalizeMove _).trans (rights_updateEnPassantSquare _ _ _))

theorem home_stays {b : Board} (hw : WF b) (hep : EnPassantConsistent b) {mv : Move}
    (hr : Reversible b mv) (n : Nat) (hn : n < 8 ∨ (56 ≤ n ∧ n < 64)) (hc : codeAt b n ≠ 0)
    (hfrom : mv.from_.toNat ≠ n) (hto : mv.to_.toNat ≠ n)
    (hrook : isKingTwoFiles (findPieceCodeAt b mv.from_) mv → (castleRookFrom mv).toNat ≠ n) :
    codeAt (applyMove b mv).2.1 n = codeAt b n := by
  apply codeAt_applyMove_other hw hr n (by omega) hto hfrom
  · unfold captureSquare
    by_cases he : isEnPassantCapture b mv
    · rw [if_pos he]
      have e := he.2.2.2
      have ht := hr.2.1
      have hd : (if Int.land (findPieceCodeAt b mv.from_) COLOR_MASK = WHITE then (1 : Int) else -1) = 1 ∨
          (if Int.land (findPieceCodeAt b mv.from_) COLOR_MASK = WHITE then (1 : Int) else -1) = -1 := by
        split_ifs
        · exact Or.inl rfl
        · exact Or.inr rfl
      unfold EnPassantConsistent at hep
      rw [e] at hep
      obtain ⟨t0, t1⟩ := ht
      rcases hd with d | d <;> rw [d] <;> omega
    · rw [if_neg he]
      exact hto
  · intro hk
    refine ⟨?_, hrook hk⟩
    obtain ⟨-, r2, -, -, -, -, -, r8⟩ := hr.2.2.2.2.2.2 hk
    intro e
    unfold findPieceCodeAt at r8
    rw [pieceAt_eq_codeAt b r2, e] at r8
    exact hc r8

theorem generated_king_two_files {b : Board} (hw : WF b) {mv : Move} (hg : Generated b mv)
    (hk : isKingTwoFiles (findPieceCodeAt b mv.from_) mv) :
    (codeAt b mv.from_.toNat = 6 ∧ mv.from_ = 4 ∧ (mv.to_ = 6 ∨ mv.to_ = 2)) ∨
      (codeAt b mv.from_.toNat = 14 ∧ mv.from_ = 60 ∧ (mv.to_ = 62 ∨ mv.to_ = 58)) := by
  obtain ⟨hfrom, hcases⟩ := generated_cases hw hg
  obtain ⟨k1, k2⟩ := hk
  unfold findPieceCodeAt at k1
  rw [pieceAt_eq_codeAt b hfrom] at k1
  have step : ∀ own : U64, ¬ StepGen mv.from_ kingOffsets own mv := by
    intro own hs
    have hto : InRange mv.to_ := hs.2.2.2.1
    have := stepGen_king_file hs
    rw [tmod_eq_fileOf hfrom, tmod_eq_fileOf hto] at k2
    omega
  have hfc : findPieceCodeAt b mv.from_ = codeAt b mv.from_.toNat := by
    unfold findPieceCodeAt
    exact pieceAt_eq_codeAt b hfrom
  rcases hcases with ⟨c, -⟩ | ⟨c, -⟩ | ⟨c, -⟩ | ⟨c, -⟩ | ⟨c, -⟩ | ⟨c, g⟩ | ⟨c, g⟩
  · rw [c] at k1; exact absurd k1 (by decide)
  · rw [c] at k1; exact absurd k1 (by decide)
  · rw [c] at k1; exact absurd k1 (by decide)
  · rw [c] at k1; exact absurd k1 (by decide)
  · rcases c with c | c | c | c | c | c <;> rw [c] at k1 <;> exact absurd k1 (by decide)
  · rcases g with g | g
    · exact absurd g (step _)
    · obtain ⟨-, -, -, g⟩ := g
      rw [hfc, c] at g
      rcases g with ⟨-, e1, e2, -⟩ | ⟨-, e1, e2, -⟩ | ⟨x, -⟩ | ⟨x, -⟩
      · exact Or.inl ⟨c, e1, Or.inl e2⟩
      · exact Or.inl ⟨c, e1, Or.inr e2⟩
      · exact absurd x (by decide)
      · exact absurd x (by decide)
  · rcases g with g | g
    · exact absurd g (step _)
    · obtain ⟨-, -, -, g⟩ := g
      rw [hfc, c] at g
      rcases g with ⟨x, -⟩ | ⟨x, -⟩ | ⟨-, e1, e2, -⟩ | ⟨-, e1, e2, -⟩
      · exact absurd x (by decide)
      · exact absurd x (by decide)
      · exact Or.inr ⟨c, e1, Or.inl e2⟩
      · exact Or.inr ⟨c, e1, Or.inr e2⟩

/-- A king and a rook on their home squares stay there under a generated move
that neither captures a king, nor moves that king, nor moves or captures that
rook. -/
theorem right_backed {b : Board} (hw : WF b) (ho : OccupanciesConsistent b)
    (hep : EnPassantConsistent b) {mv : Move} (hg : Generated b mv)
    (hk : Int.land (findPieceCodeAt b mv.to_) 7 ≠ KING) (ks rs kc rc : Int)
    (hks : (ks = 4 ∧ kc = 6 ∧ rc = 4 ∧ (rs = 0 ∨ rs = 7)) ∨
      (ks = 60 ∧ kc = 14 ∧ rc = 12 ∧ (rs = 56 ∨ rs = 63)))
    (hkc : codeAt b ks.toNat = kc) (hrc : codeAt b rs.toNat = rc)
    (n1 : findPieceCodeAt b mv.from_ ≠ kc)
    (n2 : ¬ (Int.land (findPieceCodeAt b mv.from_) 7 = ROOK ∧ mv.from_ = rs))
    (n3 : ¬ (Int.land (findPieceCodeAt b (captureSquare b mv)) 7 = ROOK ∧ mv.to_ = rs)) :
    codeAt (applyMove b mv).2.1 ks.toNat = kc ∧ codeAt (applyMove b mv).2.1 rs.toNat = rc := by
  have hr := generated_reversible hw ho hg
  obtain ⟨hfrom, hto, -, -, -, hepc, -⟩ := hr
  have hfc : findPieceCodeAt b mv.from_ = codeAt b mv.from_.toNat := by
    unfold findPieceCodeAt
    exact pieceAt_eq_codeAt b hfrom
  have htc : findPieceCodeAt b mv.to_ = codeAt b mv.to_.toNat := by
    unfold findPieceCodeAt
    exact pieceAt_eq_codeAt b hto
  have hksr : InRange ks := by
    rcases hks with ⟨e, -⟩ | ⟨e, -⟩ <;> rw [e] <;> exact ⟨by norm_num, by norm_num⟩
  have hrsr : InRange rs := by
    rcases hks with ⟨-, -, -, e | e⟩ | ⟨-, -, -, e | e⟩ <;> rw [e] <;>
      exact ⟨by norm_num, by norm_num⟩
  have hkc0 : kc ≠ 0 ∧ Int.land kc 7 = KING := by
    rcases hks with ⟨-, e, -⟩ | ⟨-, e, -⟩ <;> rw [e] <;> decide
  have hrc0 : rc ≠ 0 ∧ Int.land rc 7 = ROOK := by
    rcases hks with ⟨-, -, e, -⟩ | ⟨-, -, e, -⟩ <;> rw [e] <;> decide
  have hrf : ∀ hk2 : isKingTwoFiles (findPieceCodeAt b mv.from_) mv,
      (castleRookFrom mv = 7 ∨ castleRookFrom mv = 0) ∧ codeAt b mv.from_.toNat = 6 ∨
      (castleRookFrom mv = 63 ∨ castleRookFrom mv = 56) ∧ codeAt b mv.from_.toNat = 14 := by
    intro hk2
    rcases generated_king_two_files hw hg hk2 with ⟨c, -, e | e⟩ | ⟨c, -, e | e⟩
    · exact Or.inl ⟨Or.inl (by unfold castleRookFrom; rw [e]; decide), c⟩
    · exact Or.inl ⟨Or.inr (by unfold castleRookFrom; rw [e]; decide), c⟩
    · exact Or.inr ⟨Or.inl (by unfold castleRookFrom; rw [e]; decide), c⟩
    · exact Or.inr ⟨Or.inr (by unfold castleRookFrom; rw [e]; decide), c⟩
  constructor
  · rw [← hkc]
    apply home_stays hw hep (generated_reversible hw ho hg) ks.toNat
    · rcases hks with ⟨e, -⟩ | ⟨e, -⟩ <;> rw [e] <;> decide
    · rw [hkc]; exact hkc0.1
    · intro e
      rw [hfc, e, hkc] at n1
      exact n1 rfl
    · intro e
      rw [htc, e, hkc] at hk
      exact hk hkc0.2
    · intro hk2 e
      have e2 := toNat_inj (castleRookFrom_inRange hto) hksr e
      rcases hrf hk2 with ⟨x | x, -⟩ | ⟨x | x, -⟩ <;>
        rcases hks with ⟨y, -⟩ | ⟨y, -⟩ <;> omega
  · rw [← hrc]
    apply home_stays hw hep (generated_reversible hw ho hg) rs.toNat
    · rcases hks with ⟨-, -, -, e | e⟩ | ⟨-, -, -, e | e⟩ <;> rw [e] <;> decide
    · rw [hrc]; exact hrc0.1
    · intro e
      apply n2
      rw [hfc, e, hrc]
      exact ⟨hrc0.2, toNat_inj hfrom hrsr e⟩
    · intro e
      apply n3
      have hne : ¬ isEnPassantCapture b mv := by
        intro he
        have := he.2.2.1
        rw [htc, e, hrc] at this
        exact hrc0.1 this
      unfold captureSquare
      rw [if_neg hne, htc, e, hrc]
      exact ⟨hrc0.2, toNat_inj hto hrsr e⟩
    · intro hk2 e
      have e2 := toNat_inj (castleRookFrom_inRange hto) hrsr e
      rw [hfc] at n1
      rcases hrf hk2 with ⟨x, c⟩ | ⟨x, c⟩
      · rcases hks with ⟨-, y, -⟩ | ⟨-, -, -, y⟩
        · rw [c, y] at n1
          exact n1 rfl
        · omega
      · rcases hks with ⟨-, -, -, y⟩ | ⟨-, y, -⟩
        · omega
        · rw [c, y] at n1
          exact n1 rfl

theorem king_rook_bits {b : Board} (ha : Agree b) (n : Nat) :
    (codeAt b n = 6 → b.wk.testBit n = true) ∧ (codeAt b n = 4 → b.wr.testBit n = true) ∧
    (codeAt b n = 14 → b.bk.testBit n = true) ∧ (codeAt b n = 12 → b.br.testBit n = true) := by
  obtain ⟨-, -, -, q4, -, q6, -, -, -, q10, -, q12⟩ := ha n
  refine ⟨fun h => ?_, fun h => ?_, fun h => ?_, fun h => ?_⟩
  · rw [q6, h]; rfl
  · rw [q4, h]; rfl
  · rw [q12, h]; rfl
  · rw [q10, h]; rfl

/-- C13 (as stated, refuted): `kingCaptureBoard` satisfies the data-model
invariants and has one king of each colour; `generateMoves` produces the queen
move e2e1, which captures the white king, and after `applyMove` the right
`shortWhite` is still set although no white king is on e1. -/
theorem applyMove_king_capture_keeps_right :
    Invariants kingCaptureBoard ∧ kingCaptureBoard.wk = bit 4 ∧ kingCaptureBoard.bk = bit 60 ∧
      (⟨12, 4, 0, 0⟩ : Move) ∈ (generateMoves kingCaptureBoard []).2 ∧
      (applyMove kingCaptureBoard ⟨12, 4, 0, 0⟩).2.1.shortWhite = true ∧
      (applyMove kingCaptureBoard ⟨12, 4, 0, 0⟩).2.1.wk &&& bit 4 = 0 ∧
      ¬ CastlingConsistent (applyMove kingCaptureBoard ⟨12, 4, 0, 0⟩).2.1 := by
  decide!

/-- C13 (amended): on a board satisfying the data-model invariants, after
`applyMove` of a move produced by `generateMoves` that does not capture a king,
every castling right still set implies that the king of that colour is on its
home square (e1, e8) and the rook of that colour on its home corner (h1, a1, h8,
a8). -/
theorem applyMove_castling_consistent (b : Board) (hinv : Invariants b) (m : Move)
    (hm : m ∈ (generateMoves b []).2)
    (hk : Int.land (findPieceCodeAt b m.to_) 7 ≠ KING) :
    CastlingConsistent (applyMove b m).2.1 := by
  have hw := wf_of_invariants hinv
  have ho := hinv.2.2.1
  obtain ⟨c1, c2, c3, c4⟩ := hinv.2.2.2.1
  have hep := hinv.2.2.2.2
  have hg : Generated b m := by
    rcases mem_generateMoves hw.1 hm with j | j
    · simp at j
    · rw [updateOccupancies_eq_self ho] at j
      exact j
  have hr := generated_reversible hw ho hg
  have hcode := hr.2.2.2.1
  have hw2 := wf_applyMove hw hr
  have le := rightsLe_applyMove b m
  have r4 : InRange (4 : Int) := ⟨by norm_num, by norm_num⟩
  have r60 : InRange (60 : Int) := ⟨by norm_num, by norm_num⟩
  have r0 : InRange (0 : Int) := ⟨by norm_num, by norm_num⟩
  have r7 : InRange (7 : Int) := ⟨by norm_num, by norm_num⟩
  have r56 : InRange (56 : Int) := ⟨by norm_num, by norm_num⟩
  have r63 : InRange (63 : Int) := ⟨by norm_num, by norm_num⟩
  have kb : ∀ s : Int, InRange s →
      (b.wk &&& bit s ≠ 0 → codeAt b s.toNat = 6) ∧ (b.wr &&& bit s ≠ 0 → codeAt b s.toNat = 4) ∧
      (b.bk &&& bit s ≠ 0 → codeAt b s.toNat = 14) ∧
      (b.br &&& bit s ≠ 0 → codeAt b s.toNat = 12) := by
    intro s hs
    obtain ⟨-, -, -, k4, -, k6, -, -, -, k10, -, k12⟩ := codeAt_of_testBit hw.2 s.toNat
    exact ⟨fun h => k6 ((and_bit_ne_zero_iff _ hs).mp h), fun h => k4 ((and_bit_ne_zero_iff _ hs).mp h),
      fun h => k12 ((and_bit_ne_zero_iff _ hs).mp h), fun h => k10 ((and_bit_ne_zero_iff _ hs).mp h)⟩
  have ka : ∀ s : Int, InRange s →
      (codeAt (applyMove b m).2.1 s.toNat = 6 → (applyMove b m).2.1.wk &&& bit s ≠ 0) ∧
      (codeAt (applyMove b m).2.1 s.toNat = 4 → (applyMove b m).2.1.wr &&& bit s ≠ 0) ∧
      (codeAt (applyMove b m).2.1 s.toNat = 14 → (applyMove b m).2.1.bk &&& bit s ≠ 0) ∧
      (codeAt (applyMove b m).2.1 s.toNat = 12 → (applyMove b m).2.1.br &&& bit s ≠ 0) := by
    intro s hs
    obtain ⟨q1, q2, q3, q4⟩ := king_rook_bits hw2.2 s.toNat
    exact ⟨fun h => (and_bit_ne_zero_iff _ hs).mpr (q1 h), fun h => (and_bit_ne_zero_iff _ hs).mpr (q2 h),
      fun h => (and_bit_ne_zero_iff _ hs).mpr (q3 h), fun h => (and_bit_ne_zero_iff _ hs).mpr (q4 h)⟩
  refine ⟨fun h => ?_, fun h => ?_, fun h => ?_, fun h => ?_⟩
  · obtain ⟨p1, p2⟩ := c1 (le.1 h)
    rw [shortWhite_applyMove hcode, shortWhite_updateCastlingRights] at h
    simp only [Bool.and_eq_true, Bool.not_eq_true', Bool.and_eq_false_iff, decide_eq_true_eq,
      decide_eq_false_iff_not] at h
    obtain ⟨⟨⟨-, h1⟩, h2⟩, h3⟩ := h
    obtain ⟨x, y⟩ := right_backed hw ho hep hg hk 4 7 6 4 (Or.inl ⟨rfl, rfl, rfl, Or.inr rfl⟩)
      ((kb 4 r4).1 p1) ((kb 7 r7).2.1 p2)
      (fun e => by rw [e] at h1; revert h1; decide)
      (fun e => by rcases h2 with k | k; exact k e.1; exact k e.2)
      (fun e => by rcases h3 with k | k; exact k e.1; exact k e.2)
    exact ⟨(ka 4 r4).1 x, (ka 7 r7).2.1 y⟩
  · obtain ⟨p1, p2⟩ := c2 (le.2.1 h)
    rw [longWhite_applyMove hcode, longWhite_updateCastlingRights] at h
    simp only [Bool.and_eq_true, Bool.not_eq_true', Bool.and_eq_false_iff, decide_eq_true_eq,
      decide_eq_false_iff_not] at h
    obtain ⟨⟨⟨-, h1⟩, h2⟩, h3⟩ := h
    obtain ⟨x, y⟩ := right_backed hw ho hep hg hk 4 0 6 4 (Or.inl ⟨rfl, rfl, rfl, Or.inl rfl⟩)
      ((kb 4 r4).1 p1) ((kb 0 r0).2.1 p2)
      (fun e => by rw [e] at h1; revert h1; decide)
      (fun e => by rcases h2 with k | k; exact k e.1; exact k e.2)
      (fun e => by rcases h3 with k | k; exact k e.1; exact k e.2)
    exact ⟨(ka 4 r4).1 x, (ka 0 r0).2.1 y⟩
  · obtain ⟨p1, p2⟩ := c3 (le.2.2.1 h)
    rw [shortBlack_applyMove hcode, shortBlack_updateCastlingRights] at h
    simp only [Bool.and_eq_true, Bool.not_eq_true', Bool.and_eq_false_iff, decide_eq_true_eq,
      decide_eq_false_iff_not, Bool.not_eq_false'] at h
    obtain ⟨⟨⟨-, h1⟩, h2⟩, h3⟩ := h
    obtain ⟨x, y⟩ := right_backed hw ho hep hg hk 60 63 14 12
      (Or.inr ⟨rfl, rfl, rfl, Or.inr rfl⟩)
      ((kb 60 r60).2.2.1 p1) ((kb 63 r63).2.2.2 p2)
      (fun e => by rw [e] at h1; revert h1; decide)
      (fun e => by rcases h2 with k | k; exact k e.1; exact k e.2)
      (fun e => by rcases h3 with k | k; exact k e.1; exact k e.2)
    exact ⟨(ka 60 r60).2.2.1 x, (ka 63 r63).2.2.2 y⟩
  · obtain ⟨p1, p2⟩ := c4 (le.2.2.2 h)
    rw [longBlack_applyMove hcode, longBlack_updateCastlingRights] at h
    simp only [Bool.and_eq_true, Bool.not_eq_true', Bool.and_eq_false_iff, decide_eq_true_eq,
      decide_eq_false_iff_not, Bool.not_eq_false'] at h
    obtain ⟨⟨⟨-, h1⟩, h2⟩, h3⟩ := h
    obtain ⟨x, y⟩ := right_backed hw ho hep hg hk 60 56 14 12
      (Or.inr ⟨rfl, rfl, rfl, Or.inl rfl⟩)
      ((kb 60 r60).2.2.1 p1) ((kb 56 r56).2.2.2 p2)
      (fun e => by rw [e] at h1; revert h1; decide)
      (fun e => by rcases h2 with k | k; exact k e.1; exact k e.2)
      (fun e => by rcases h3 with k | k; exact k e.1; exact k e.2)
    exact ⟨(ka 60 r60).2.2.1 x, (ka 56 r56).2.2.2 y⟩

/-- C13 (instance): the rook move h1g1 on `castleReadyBoard`, after which only
the queen-side right of White is left. -/
theorem applyMove_castling_consistent_witness :
    (applyMove castleReadyBoard ⟨7, 6, 0, 0⟩).2.1.longWhite = true ∧
      (applyMove castleReadyBoard ⟨7, 6, 0, 0⟩).2.1.shortWhite = false ∧
      CastlingConsistent (applyMove castleReadyBoard ⟨7, 6, 0, 0⟩).2.1 :=
  ⟨by decide, by decide,
    applyMove_castling_consistent castleReadyBoard (by decide) ⟨7, 6, 0, 0⟩ (by decide!)
      (by decide)⟩

theorem evalSums_mover (pst : PieceSquareTables) (b : Board) (c : Int) :
    evalSums pst { b with mover := c } = evalSums pst b := rfl

theorem computePhase_mover (b : Board) (c : Int) :
    computePhase { b with mover := c } = computePhase b := rfl

theorem evalPawnStructure_eq (b : Board) (acc : Int × Int) :
    evalPawnStructure b acc =
      (acc.1 + 10 * (doubledPawns b WHITE - doubledPawns b BLACK) +
          10 * (isolatedPawns b WHITE - isolatedPawns b BLACK) +
          10 * (passedPawns b WHITE - passedPawns b BLACK),
        acc.2 + 10 * (doubledPawns b WHITE - doubledPawns b BLACK) +
          20 * (isolatedPawns b WHITE - isolatedPawns b BLACK) +
          30 * (passedPawns b WHITE - passedPawns b BLACK)) := by
  unfold evalPawnStructure DOUBLED_PAWN_BONUS ISOLATED_PAWN_BONUS_MG ISOLATED_PAWN_BONUS_EG
    PASSED_PAWN_BONUS_MG PASSED_PAWN_BONUS_EG
  simp only [Prod.mk.injEq]
  constructor <;> ring

/-- C19: `evaluate` is antisymmetric in the side to move, for any piece-square
tables: the value with `mover = BLACK` is the negation of the value with
`mover = WHITE`, and the latter is `(mg * phase + eg * (24 - phase)) / 24` with
truncating division, `mg` and `eg` being the two sums and `phase` the value of
`computePhase`. -/
theorem evaluate_antisymmetric (pst : PieceSquareTables) (b : Board) :
    evaluate pst { b with mover := BLACK } = - evaluate pst { b with mover := WHITE } ∧
    evaluate pst { b with mover := WHITE } =
      Int.tdiv ((evalSums pst b).1 * computePhase b + (evalSums pst b).2 * (24 - computePhase b))
        24 := by
  have e : MAX_PHASE = 24 := by decide
  unfold evaluate
  simp only [evalSums_mover, computePhase_mover, e]
  constructor
  · rw [if_neg (show ¬ (BLACK = WHITE) by decide)]
    simp only [if_true]
  · simp only [if_true]

/-- C20 (the code at a concrete position): on `doubledBoard` the white-minus-black
counts are `dp = 1`, `ip = 0`, `pp = 0`, and section "PAWN STRUCTURE" of
`evaluate` adds `+10` to each of `mg` and `eg`, not `-10`. -/
theorem evalPawnStructure_doubledBoard :
    doubledPawns doubledBoard WHITE - doubledPawns doubledBoard BLACK = 1 ∧
      isolatedPawns doubledBoard WHITE - isolatedPawns doubledBoard BLACK = 0 ∧
      passedPawns doubledBoard WHITE - passedPawns doubledBoard BLACK = 0 ∧
      evalPawnStructure doubledBoard (0, 0) = (10, 10) := by
  decide

theorem charAt_mk (l : List Char) (i : Nat) :
    charAt (String.mk l) i = ((l.getD i (Char.ofNat 0)).toNat : Nat) := rfl

theorem fileChar_toNat (f : Int) (h0 : 0 ≤ f) (h8 : f < 8) (lower : Bool) :
    (((if lower then (fileChar f).toLower else fileChar f).toNat : Nat) : Int) - 97 = f := by
  have h : f = 0 ∨ f = 1 ∨ f = 2 ∨ f = 3 ∨ f = 4 ∨ f = 5 ∨ f = 6 ∨ f = 7 := by omega
  rcases h with h | h | h | h | h | h | h | h <;> subst h <;> cases lower <;> decide

theorem rankChar_toNat (r : Int) (h0 : 0 ≤ r) (h8 : r < 8) (lower : Bool) :
    (((if lower then (rankChar r).toLower else rankChar r).toNat : Nat) : Int) - 49 = r := by
  have h : r = 0 ∨ r = 1 ∨ r = 2 ∨ r = 3 ∨ r = 4 ∨ r = 5 ∨ r = 6 ∨ r = 7 := by omega
  rcases h with h | h | h | h | h | h | h | h <;> subst h <;> cases lower <;> decide

theorem tdiv_tmod_range (x : Int) (h : InRange x) :
    0 ≤ Int.tmod x 8 ∧ Int.tmod x 8 < 8 ∧ 0 ≤ Int.tdiv x 8 ∧ Int.tdiv x 8 < 8 ∧
      Int.tdiv x 8 * 8 + Int.tmod x 8 = x := by
  obtain ⟨h0, h1⟩ := h
  have e1 : Int.tdiv x 8 = x / 8 := Int.tdiv_eq_ediv h0 (by decide)
  have e2 : Int.tmod x 8 = x % 8 := Int.tmod_eq_emod h0 (by decide)
  rw [e1, e2]
  omega

/-- C27 (coordinate notation round trip): for every `from` and `to` in `0..63`
and every promotion piece in `{0, KNIGHT, BISHOP, ROOK, QUEEN}`, the move that
`applyUciMove` decodes from the string written by `printMove` (file and rank
character of `from`, file and rank character of `to`, then the promotion
character when the promotion piece is not zero, in upper or in lower case) has
exactly that `from`, `to` and `promotionPiece`; and `"e2e4"` decodes to
`from = 12`, `to = 28` without promotion. -/
theorem decodeUciMove_printMove :
    (∀ (m : Move) (lower : Bool), InRange m.from_ → InRange m.to_ →
      (m.promotionPiece = 0 ∨ m.promotionPiece = KNIGHT ∨ m.promotionPiece = BISHOP ∨
        m.promotionPiece = ROOK ∨ m.promotionPiece = QUEEN) →
      (decodeUciMove (coordinateString m lower)).from_ = m.from_ ∧
      (decodeUciMove (coordinateString m lower)).to_ = m.to_ ∧
      (decodeUciMove (coordinateString m lower)).promotionPiece = m.promotionPiece) ∧
    (decodeUciMove "e2e4").from_ = 12 ∧ (decodeUciMove "e2e4").to_ = 28 ∧
      (decodeUciMove "e2e4").promotionPiece = 0 := by
  refine ⟨?_, by decide, by decide, by decide⟩
  intro m lower hf ht hp
  obtain ⟨f0, f1, f2, f3, f4⟩ := tdiv_tmod_range m.from_ hf
  obtain ⟨t0, t1, t2, t3, t4⟩ := tdiv_tmod_range m.to_ ht
  have a0 := fileChar_toNat _ f0 f1 lower
  have a1 := rankChar_toNat _ f2 f3 lower
  have a2 := fileChar_toNat _ t0 t1 lower
  have a3 := rankChar_toNat _ t2 t3 lower
  refine ⟨?_, ?_, ?_⟩
  · show (charAt _ 1 - 49) * 8 + (charAt _ 0 - 97) = m.from_
    have e0 : charAt (coordinateString m lower) 0 - 97 = Int.tmod m.from_ 8 := a0
    have e1 : charAt (coordinateString m lower) 1 - 49 = Int.tdiv m.from_ 8 := a1
    rw [e0, e1]; exact f4
  · show (charAt _ 3 - 49) * 8 + (charAt _ 2 - 97) = m.to_
    have e0 : charAt (coordinateString m lower) 2 - 97 = Int.tmod m.to_ 8 := a2
    have e1 : charAt (coordinateString m lower) 3 - 49 = Int.tdiv m.to_ 8 := a3
    rw [e0, e1]; exact t4
  · obtain ⟨mf, mt, mp, ms⟩ := m
    simp only at hp
    rcases hp with h | h | h | h | h <;> subst h <;> cases lower <;> rfl

theorem testBit_rank_one (n : Nat) : Nat.testBit 65280 n = decide (8 ≤ n ∧ n < 16) := by
  by_cases h : n < 16
  · interval_cases n <;> decide
  · have h2 : Nat.testBit 65280 n = false :=
      Nat.testBit_lt_two_pow (lt_of_lt_of_le (by decide : 65280 < 2 ^ 16)
        (Nat.pow_le_pow_right (by decide) (Nat.le_of_not_lt h)))
    rw [h2]; symm; exact decide_eq_false (fun k => h k.2)

theorem testBit_rank_six (n : Nat) :
    Nat.testBit 71776119061217280 n = decide (48 ≤ n ∧ n < 56) := by
  by_cases h : n < 56
  · interval_cases n <;> decide
  · have h2 : Nat.testBit 71776119061217280 n = false :=
      Nat.testBit_lt_two_pow (lt_of_lt_of_le (by decide : 71776119061217280 < 2 ^ 56)
        (Nat.pow_le_pow_right (by decide) (Nat.le_of_not_lt h)))
    rw [h2]; symm; exact decide_eq_false (fun k => h k.2)

/-- C26: `boardSetup` overwrites any board with the standard start position:
white rooks on a1 and h1, knights on b1 and g1, bishops on c1 and f1, queen on
d1, king on e1, pawns exactly on rank index 1, the mirrored black pieces on
rank indices 7 and 6, all four castling rights set, `enPassantSquare = -1`,
`mover = WHITE`, consistent occupancies; the result satisfies the data-model
invariants and has exactly one king per side. -/
theorem boardSetup_standard (b : Board) :
    (boardSetup b).wr = bit 0 ||| bit 7 ∧ (boardSetup b).wn = bit 1 ||| bit 6 ∧
    (boardSetup b).wb = bit 2 ||| bit 5 ∧ (boardSetup b).wq = bit 3 ∧
    (boardSetup b).wk = bit 4 ∧
    (∀ n : Nat, (boardSetup b).wp.testBit n = decide (8 ≤ n ∧ n < 16)) ∧
    (boardSetup b).br = bit 56 ||| bit 63 ∧ (boardSetup b).bn = bit 57 ||| bit 62 ∧
    (boardSetup b).bb = bit 58 ||| bit 61 ∧ (boardSetup b).bq = bit 59 ∧
    (boardSetup b).bk = bit 60 ∧
    (∀ n : Nat, (boardSetup b).bp.testBit n = decide (48 ≤ n ∧ n < 56)) ∧
    (boardSetup b).shortWhite = true ∧ (boardSetup b).longWhite = true ∧
    (boardSetup b).shortBlack = true ∧ (boardSetup b).longBlack = true ∧
    (boardSetup b).enPassantSquare = -1 ∧ (boardSetup b).mover = WHITE ∧
    OccupanciesConsistent (boardSetup b) ∧ Invariants (boardSetup b) ∧
    popcountll (boardSetup b).wk = 1 ∧ popcountll (boardSetup b).bk = 1 := by
  rw [boardSetup_eq]
  exact ⟨by decide, by decide, by decide, by decide, by decide, testBit_rank_one,
    by decide, by decide, by decide, by decide, by decide, testBit_rank_six,
    rfl, rfl, rfl, rfl, rfl, rfl, by decide, invariants_startBoard, by decide, by decide⟩

theorem codeAt_placePieceAt_other (b : Board) {s : Int} (h : InRange s) (c : Int) (n : Nat)
    (hn : n < 64) (hne : s.toNat ≠ n) : codeAt (placePieceAt b s c) n = codeAt b n := by
  unfold placePieceAt
  split_ifs
  · rfl
  · obtain ⟨d, hd, e⟩ := orPiece_norm c
    have e2 : setPiece b s c = setPiece b s d := by
      unfold setPiece
      exact e _ _
    rw [e2]
    rcases hd with rfl | hd
    · have e3 : setPiece b s 0 = clearSquare b s := rfl
      rw [e3, codeAt_clearSquare _ h, if_pos ⟨hn, hne⟩]
    · rw [codeAt_setPiece b h hd n hn, if_neg hne]

theorem codeAt_applyMovePieces_any {b : Board} (hw : WF b) {mv : Move} (hfrom : InRange mv.from_)
    (hto : InRange mv.to_) (hcs : InRange (captureSquare b mv)) :
    ∃ pc : Int, ∀ n : Nat, n < 64 →
      codeAt (applyMovePieces b mv) n =
        if mv.to_.toNat = n then pc
        else if mv.from_.toNat = n then 0
        else if (captureSquare b mv).toNat = n then 0
        else codeAt b n := by
  refine ⟨codeAt (applyMovePieces b mv) mv.to_.toNat, fun n hn => ?_⟩
  by_cases h : mv.to_.toNat = n
  · rw [if_pos h, h]
  · rw [if_neg h, applyMovePieces_eq hw hfrom hto hcs, codeAt_placePieceAt_other _ hto _ n hn h,
      codeAt_clearSquare _ hfrom, codeAt_clearSquare _ hcs]
    split_ifs <;> simp_all

theorem roundtrip_core_plain_any (c : Nat → Int) (f t cs n : Nat) (pc : Int)
    (e2 : cs = t ∨ c t = 0) (hcode : c f ≠ 0) :
    (if c cs ≠ 0 ∧ cs = n then c cs
      else if f = n ∧ c f ≠ 0 then c f
      else if t = n ∨ f = n then 0
      else if t = n then pc
      else if f = n then 0
      else if cs = n then 0 else c n) = c n := by
  by_cases h1 : cs = n
  · subst h1
    by_cases h2 : c cs = 0
    · by_cases h3 : f = cs
      · subst h3; exact absurd h2 hcode
      · by_cases h4 : t = cs
        · subst h4; simp [h2, h3]
        · simp [h2, h3, h4]
    · simp [h2]
  · by_cases h2 : f = n
    · subst h2; simp [h1, hcode]
    · by_cases h3 : t = n
      · subst h3
        rcases e2 with e | e
        · exact absurd e h1
        · simp [h1, h2, e]
      · simp [h1, h2, h3]

theorem roundtrip_core_castle_any (c : Nat → Int) (f t rf rt n : Nat) (pc : Int)
    (c2 : rf ≠ t) (c5 : rf ≠ rt) (c6 : c rt = 0) (hcode : c f ≠ 0) :
    (if rf = n ∧ ¬ (if f = rf then 0 else c rf) = 0 then (if f = rf then 0 else c rf)
      else if rt = n then 0
      else if ¬ c t = 0 ∧ t = n then c t
      else if f = n ∧ ¬ c f = 0 then c f
      else if t = n ∨ f = n then 0
      else if rt = n ∧ ¬ (if f = rf then 0 else c rf) = 0 then (if f = rf then 0 else c rf)
      else if rf = n then 0
      else if t = n then pc
      else if f = n then 0
      else if t = n then 0 else c n) = c n := by
  by_cases h1 : rf = n
  · subst h1
    by_cases h5 : f = rf
    · subst h5; simp [hcode, c5.symm, c2.symm]
    · by_cases h2 : c rf = 0
      · simp [h2, h5, c5.symm, c2.symm]
      · simp [h2, h5]
  · by_cases h2 : rt = n
    · subst h2; simp [h1, c6]
    · by_cases h3 : t = n
      · subst h3
        by_cases h4 : c t = 0
        · simp [h1, h2, h4]
          intro h; rw [h] at hcode; exact absurd h4 hcode
        · simp [h1, h2, h4]
      · by_cases h4 : f = n
        · subst h4; simp [h1, h2, h3, hcode]
        · simp [h1, h2, h3, h4]

theorem castleRook_ne (mv : Move) : castleRookFrom mv ≠ castleRookTo mv := by
  unfold castleRookFrom castleRookTo
  split_ifs <;> omega

theorem unmake_apply_any {b : Board} (hw : WF b) (ho : OccupanciesConsistent b) {mv : Move}
    (hfrom : InRange mv.from_) (hto : InRange mv.to_) (hcode : findPieceCodeAt b mv.from_ ≠ 0)
    (hcs : InRange (captureSquare b mv))
    (hcastle : isKingTwoFiles (findPieceCodeAt b mv.from_) mv →
      findPieceCodeAt b (castleRookTo mv) = 0 ∧ castleRookFrom mv ≠ mv.to_) :
    unmakeMove (applyMove b mv).2.1 (applyMove b mv).2.2 = b := by
  have hrf := castleRookFrom_inRange hto
  have hrt := castleRookTo_inRange hto
  have hb4 := wf_applyMovePieces_any hw mv
  have hb5 := wf_applyCastlingRook hb4 mv (findPieceCodeAt b mv.from_) hrf hrt
  obtain ⟨pc, hpc⟩ := codeAt_applyMovePieces_any hw hfrom hto hcs
  unfold applyMove
  rw [if_neg hcode]
  simp only []
  rw [unmakeMove_eq]
  have hF : pieces (finalizeMove (updateEnPassantSquare (updateCastlingRights
      (applyCastlingRook (applyMovePieces b mv) mv (findPieceCodeAt b mv.from_)) mv
      (findPieceCodeAt b mv.from_)
      (applyMoveUndo b mv (applyMovePieces b mv)).capturedPieceCode) mv
      (findPieceCodeAt b mv.from_))) =
      pieces (applyCastlingRook (applyMovePieces b mv) mv (findPieceCodeAt b mv.from_)) := by
    rw [pieces_finalizeMove, pieces_updateEnPassantSquare, pieces_updateCastlingRights]
  have hwF := wf_congr hF.symm hb5
  generalize hFdef : finalizeMove (updateEnPassantSquare (updateCastlingRights
      (applyCastlingRook (applyMovePieces b mv) mv (findPieceCodeAt b mv.from_)) mv
      (findPieceCodeAt b mv.from_)
      (applyMoveUndo b mv (applyMovePieces b mv)).capturedPieceCode) mv
      (findPieceCodeAt b mv.from_)) = F at hF hwF ⊢
  generalize hu : applyMoveUndo b mv (applyMovePieces b mv) = u
  have u1 : u.from_ = mv.from_ := by rw [← hu]; exact undo_from _ _ _
  have u2 : u.to_ = mv.to_ := by rw [← hu]; exact undo_to _ _ _
  have u3 : u.movedPieceCode = findPieceCodeAt b mv.from_ := by rw [← hu]; exact undo_moved _ _ _
  have u4 : u.capturedSquare = captureSquare b mv := by rw [← hu]; exact undo_capturedSquare _ _ _
  have u5 : u.capturedPieceCode = findPieceCodeAt b (captureSquare b mv) := by
    rw [← hu]; exact undo_captured _ _ _
  have u6 := undo_rookFrom b mv (applyMovePieces b mv)
  have u7 := undo_rookTo b mv (applyMovePieces b mv)
  have u8 := undo_rookCode b mv (applyMovePieces b mv)
  have u9 := undo_prevMover b mv (applyMovePieces b mv)
  have u10 := undo_prevEnPassant b mv (applyMovePieces b mv)
  have u11 := undo_prevShortWhite b mv (applyMovePieces b mv)
  have u12 := undo_prevLongWhite b mv (applyMovePieces b mv)
  have u13 := undo_prevShortBlack b mv (applyMovePieces b mv)
  have u14 := undo_prevLongBlack b mv (applyMovePieces b mv)
  rw [hu] at u6 u7 u8 u9 u10 u11 u12 u13 u14
  have hvm : u.movedPieceCode = 0 ∨ ValidCode u.movedPieceCode := by
    rw [u3]; exact pieceAt_valid b hfrom
  have hvc : u.capturedPieceCode = 0 ∨ ValidCode u.capturedPieceCode := by
    rw [u5]; exact pieceAt_valid b hcs
  have hvr : u.rookPieceCode = 0 ∨ ValidCode u.rookPieceCode := by
    rw [u8]; split_ifs
    · exact pieceAt_valid _ hrf
    · exact Or.inl rfl
  have hrr : u.rookFromSq ≠ -1 → InRange u.rookFromSq ∧ InRange u.rookToSq := by
    intro h
    rw [u6, u7]
    rw [u6] at h
    split_ifs at h ⊢
    · exact ⟨hrf, hrt⟩
    · exact absurd rfl h
  have hUf : InRange u.from_ := by rw [u1]; exact hfrom
  have hUt : InRange u.to_ := by rw [u2]; exact hto
  have hUc : InRange u.capturedSquare := by rw [u4]; exact hcs
  have hwU := wf_unmakePieces hwF hUf hUt hvm hvc hUc hrr hvr
  have hp : pieces (unmakePieces F u) = pieces b := by
    apply pieces_ext hwU hw
    intro n hn
    rw [codeAt_unmakePieces F hUf hUt hvm hvc hUc hrr hvr n hn, codeAt_congr hF n,
      codeAt_applyCastlingRook hb4 mv _ hrf hrt n hn,
      hpc n hn, hpc _ (toNat_lt hrf)]
    rw [u1, u2, u3, u4, u5, u6, u7, u8]
    unfold findPieceCodeAt at *
    rw [pieceAt_eq_codeAt _ hrf, hpc _ (toNat_lt hrf),
      pieceAt_eq_codeAt b hfrom, pieceAt_eq_codeAt b hcs]
    rw [pieceAt_eq_codeAt b hfrom] at hcode
    have e2 : (captureSquare b mv).toNat = mv.to_.toNat ∨ codeAt b mv.to_.toNat = 0 := by
      by_cases h : isEnPassantCapture b mv
      · right
        rw [← pieceAt_eq_codeAt b hto]
        exact h.2.2.1
      · left; unfold captureSquare; rw [if_neg h]
    by_cases hk : isKingTwoFiles (codeAt b mv.from_.toNat) mv
    · obtain ⟨c6, c2⟩ := hcastle (by rw [pieceAt_eq_codeAt b hfrom]; exact hk)
      have c2' := toNat_ne hrf hto c2
      rw [pieceAt_eq_codeAt b hrt] at c6
      have hnep : ¬ isEnPassantCapture b mv := by
        intro h
        have h1 := h.1
        have h2 := hk.1
        unfold findPieceCodeAt at h1
        rw [pieceAt_eq_codeAt b hfrom] at h1
        rw [h1] at h2
        exact absurd h2 (by decide)
      have e3 : (captureSquare b mv).toNat = mv.to_.toNat := by
        unfold captureSquare; rw [if_neg hnep]
      have hm1 : (castleRookFrom mv) ≠ -1 := by have := hrf.1; omega
      simp only [hk, if_true, hm1, ne_eq, not_false_eq_true, true_and, e3, Ne.symm c2',
        if_false]
      exact roundtrip_core_castle_any (codeAt b) _ _ _ _ n pc c2' (toNat_ne hrf hrt (castleRook_ne mv))
        c6 hcode
    · simp only [hk, if_false, ne_eq, not_true_eq_false, false_and]
      exact roundtrip_core_plain_any (codeAt b) _ _ _ n pc e2 hcode
  simp only [pieces, List.cons.injEq, and_true] at hp
  obtain ⟨p1, p2, p3, p4, p5, p6, p7, p8, p9, p10, p11, p12⟩ := hp
  obtain ⟨o1, o2, o3⟩ := ho
  rw [u9, u10, u11, u12, u13, u14]
  ext <;> simp only [updateOccupancies] <;>
    first
    | assumption
    | rfl
    | (rw [p1, p2, p3, p4, p5, p6, p7, p8, p9, p10, p11, p12, ← o1, ← o2, ← o3])
    | (rw [p1, p2, p3, p4, p5, p6, ← o1])
    | (rw [p7, p8, p9, p10, p11, p12, ← o2])

theorem captureSquare_inRange_any {b : Board} (hep : EnPassantConsistent b) {mv : Move}
    (hto : InRange mv.to_) : InRange (captureSquare b mv) := by
  unfold captureSquare
  by_cases h : isEnPassantCapture b mv
  · rw [if_pos h]
    have h4 := h.2.2.2
    unfold EnPassantConsistent at hep
    have := hto.1
    have := hto.2
    unfold InRange
    split_ifs <;> omega
  · rw [if_neg h]; exact hto

/-- C29 (as stated, refuted): on the start position, which satisfies the
invariants, the mechanical move e1-g1 (king over the own knight, two files)
makes the rook section overwrite the bishop on f1, and `unmakeMove` gives back
a board without that bishop; on `cornerKingBoard` the mechanical move c1-a1
ends on the rook corner, the king itself is carried on as the rook, and
`unmakeMove` leaves a second white king on a1. -/
theorem applyMove_unmakeMove_castle_squares :
    (Invariants startBoard ∧ ¬ SquareEmpty startBoard 4 ∧
      unmakeMove (applyMove startBoard ⟨4, 6, 0, 0⟩).2.1 (applyMove startBoard ⟨4, 6, 0, 0⟩).2.2 ≠
        startBoard ∧
      startBoard.wb = 36 ∧
      (unmakeMove (applyMove startBoard ⟨4, 6, 0, 0⟩).2.1
        (applyMove startBoard ⟨4, 6, 0, 0⟩).2.2).wb = 4) ∧
    (Invariants cornerKingBoard ∧ ¬ SquareEmpty cornerKingBoard 2 ∧
      unmakeMove (applyMove cornerKingBoard ⟨2, 0, 0, 0⟩).2.1
        (applyMove cornerKingBoard ⟨2, 0, 0, 0⟩).2.2 ≠ cornerKingBoard ∧
      cornerKingBoard.wk = 4 ∧
      (unmakeMove (applyMove cornerKingBoard ⟨2, 0, 0, 0⟩).2.1
        (applyMove cornerKingBoard ⟨2, 0, 0, 0⟩).2.2).wk = 5) := by
  decide

/-- C29 (amended): for every board satisfying the data-model invariants and
every move with `from` and `to` in `0..63` whose from-square is occupied,
pseudo-legal or not, `applyMove` followed by `unmakeMove` returns the board to
its pre-apply state in every field, provided that a move taking a king across
two files finds the rook target square empty and does not end on the rook
corner square. -/
theorem applyMove_unmakeMove_mechanical (b : Board) (hinv : Invariants b) (mv : Move)
    (hfrom : InRange mv.from_) (hto : InRange mv.to_) (hocc : ¬ SquareEmpty b mv.from_)
    (hrook : isKingTwoFiles (findPieceCodeAt b mv.from_) mv →
      SquareEmpty b (castleRookTo mv) ∧ castleRookFrom mv ≠ mv.to_) :
    unmakeMove (applyMove b mv).2.1 (applyMove b mv).2.2 = b := by
  obtain ⟨hb, hd, ho, -, hep⟩ := hinv
  have hw : WF b := ⟨hb, agree_of_disjoint hd⟩
  refine unmake_apply_any hw ho hfrom hto ?_ (captureSquare_inRange_any hep hto) ?_
  · exact fun h => hocc ((findPieceCodeAt_eq_zero_iff b mv.from_).mp h)
  · exact fun h => ⟨(findPieceCodeAt_eq_zero_iff b _).mpr (hrook h).1, (hrook h).2⟩

theorem applyMove_unmakeMove_mechanical_witness :
    unmakeMove (applyMove cornerKingBoard ⟨2, 4, 0, 0⟩).2.1
      (applyMove cornerKingBoard ⟨2, 4, 0, 0⟩).2.2 = cornerKingBoard :=
  applyMove_unmakeMove_mechanical cornerKingBoard (by decide) ⟨2, 4, 0, 0⟩ (by decide) (by decide)
    (by decide) (by decide)

theorem orderInner_perm (rest : List Move) :
    ∀ cur : Move, List.Perm ((orderInner cur rest).1 :: (orderInner cur rest).2) (cur :: rest) := by
  induction rest with
  | nil => intro cur; exact List.Perm.refl _
  | cons x rest ih =>
    intro cur
    unfold orderInner
    by_cases h : x.score > cur.score
    · rw [if_pos h]
      exact (List.Perm.swap cur (orderInner x rest).1 (orderInner x rest).2).trans
        (List.Perm.cons cur (ih x))
    · rw [if_neg h]
      exact ((List.Perm.swap x (orderInner cur rest).1 (orderInner cur rest).2).trans
        (List.Perm.cons x (ih cur))).trans (List.Perm.swap cur x rest)

theorem orderInner_length (rest : List Move) :
    ∀ cur : Move, (orderInner cur rest).2.length = rest.length := by
  induction rest with
  | nil => intro cur; rfl
  | cons x rest ih =>
    intro cur
    unfold orderInner
    by_cases h : x.score > cur.score
    · rw [if_pos h]; simp only [List.length_cons, ih x]
    · rw [if_neg h]; simp only [List.length_cons, ih cur]

theorem orderInner_max (rest : List Move) :
    ∀ cur : Move, cur.score ≤ (orderInner cur rest).1.score ∧
      ∀ y ∈ (orderInner cur rest).2, y.score ≤ (orderInner cur rest).1.score := by
  induction rest with
  | nil => intro cur; exact ⟨le_refl _, fun y hy => absurd hy (List.not_mem_nil y)⟩
  | cons x rest ih =>
    intro cur
    unfold orderInner
    by_cases h : x.score > cur.score
    · rw [if_pos h]
      obtain ⟨h1, h2⟩ := ih x
      refine ⟨by simp only []; omega, fun y hy => ?_⟩
      rcases List.mem_cons.mp hy with rfl | hy
      · simp only []; omega
      · exact h2 y hy
    · rw [if_neg h]
      obtain ⟨h1, h2⟩ := ih cur
      refine ⟨h1, fun y hy => ?_⟩
      rcases List.mem_cons.mp hy with rfl | hy
      · simp only []; omega
      · exact h2 y hy

theorem orderInner_sorted_id (rest : List Move) :
    ∀ cur : Move, (∀ y ∈ rest, y.score ≤ cur.score) → orderInner cur rest = (cur, rest) := by
  induction rest with
  | nil => intro cur _; rfl
  | cons x rest ih =>
    intro cur h
    unfold orderInner
    have hx : ¬ x.score > cur.score := not_lt.mpr (h x (List.mem_cons_self x rest))
    rw [if_neg hx, ih cur (fun y hy => h y (List.mem_cons_of_mem x hy))]

theorem orderOuter_perm (k : Nat) : ∀ l : List Move, List.Perm (orderOuter k l) l := by
  induction k with
  | zero => intro l; exact List.Perm.refl _
  | succ k ih =>
    intro l
    cases l with
    | nil => exact List.Perm.refl _
    | cons cur rest =>
      show List.Perm ((orderInner cur rest).1 :: orderOuter k (orderInner cur rest).2) (cur :: rest)
      exact (List.Perm.cons _ (ih _)).trans (orderInner_perm rest cur)

theorem orderOuter_sorted (k : Nat) :
    ∀ l : List Move, l.length ≤ k + 1 →
      List.Pairwise (fun a c : Move => c.score ≤ a.score) (orderOuter k l) := by
  induction k with
  | zero =>
    intro l hl
    show List.Pairwise _ l
    cases l with
    | nil => exact List.Pairwise.nil
    | cons a l =>
      cases l with
      | nil => exact List.pairwise_singleton _ a
      | cons c l => simp only [List.length_cons] at hl; omega
  | succ k ih =>
    intro l hl
    cases l with
    | nil => exact List.Pairwise.nil
    | cons cur rest =>
      show List.Pairwise _ ((orderInner cur rest).1 :: orderOuter k (orderInner cur rest).2)
      refine List.Pairwise.cons (fun y hy => ?_) (ih _ ?_)
      · exact (orderInner_max rest cur).2 y ((orderOuter_perm k _).mem_iff.mp hy)
      · rw [orderInner_length]
        simp only [List.length_cons] at hl
        omega

theorem orderOuter_sorted_id (k : Nat) :
    ∀ l : List Move, List.Pairwise (fun a c : Move => c.score ≤ a.score) l → orderOuter k l = l := by
  induction k with
  | zero => intro l _; rfl
  | succ k ih =>
    intro l hl
    cases l with
    | nil => rfl
    | cons cur rest =>
      show (orderInner cur rest).1 :: orderOuter k (orderInner cur rest).2 = cur :: rest
      rw [orderInner_sorted_id rest cur (fun y hy => List.rel_of_pairwise_cons hl hy)]
      show cur :: orderOuter k rest = cur :: rest
      rw [ih rest (List.Pairwise.of_cons hl)]

theorem scoreMove_score (MVV_LVA : Int → Int → Int) (t : SearchTables) (b : Board) (m : Move)
    (s ply : Int) : scoreMove MVV_LVA t b { m with score := s } ply = scoreMove MVV_LVA t b m ply :=
  rfl

theorem mem_scoreMoves {MVV_LVA : Int → Int → Int} {t : SearchTables} {b : Board}
    {moves : List Move} {depth : Int} {x : Move} (h : x ∈ scoreMoves MVV_LVA t b moves depth) :
    ∃ m ∈ moves, x = { m with score := scoreMove MVV_LVA t b m depth } := by
  unfold scoreMoves at h
  obtain ⟨m, hm, e⟩ := List.mem_map.mp h
  exact ⟨m, hm, e.symm⟩

theorem orderMoves_perm (MVV_LVA : Int → Int → Int) (t : SearchTables) (b : Board)
    (moves : List Move) (depth : Int) :
    List.Perm (orderMoves MVV_LVA t b moves depth) (scoreMoves MVV_LVA t b moves depth) :=
  orderOuter_perm _ _

theorem mem_orderMoves {MVV_LVA : Int → Int → Int} {t : SearchTables} {b : Board}
    {moves : List Move} {depth : Int} {x : Move} (h : x ∈ orderMoves MVV_LVA t b moves depth) :
    ∃ m ∈ moves, x = { m with score := scoreMove MVV_LVA t b m depth } :=
  mem_scoreMoves ((orderMoves_perm MVV_LVA t b moves depth).mem_iff.mp h)

theorem orderMoves_score {MVV_LVA : Int → Int → Int} {t : SearchTables} {b : Board}
    {moves : List Move} {depth : Int} {x : Move} (h : x ∈ orderMoves MVV_LVA t b moves depth) :
    x.score = scoreMove MVV_LVA t b x depth := by
  obtain ⟨m, -, rfl⟩ := mem_orderMoves h
  rfl

theorem orderMoves_pairwise (MVV_LVA : Int → Int → Int) (t : SearchTables) (b : Board)
    (moves : List Move) (depth : Int) :
    List.Pairwise (fun a c : Move => c.score ≤ a.score) (orderMoves MVV_LVA t b moves depth) := by
  apply orderOuter_sorted
  unfold scoreMoves
  rw [List.length_map]
  omega

theorem scoreMoves_id (MVV_LVA : Int → Int → Int) (t : SearchTables) (b : Board) (depth : Int)
    (l : List Move) (h : ∀ m ∈ l, m.score = scoreMove MVV_LVA t b m depth) :
    scoreMoves MVV_LVA t b l depth = l := by
  unfold scoreMoves
  conv_rhs => rw [← List.map_id l]
  apply List.map_congr_left
  intro m hm
  rw [← h m hm]
  rfl

/-- C24: for every board, all tables and every array of moves, after
`orderMoves` the array is a permutation of the input moves (the same multiset of
`from`/`to`/`promotionPiece` triples), the score field of each move is
`scoreMove` of that move, and the scores are non-increasing from the first
element to the last. -/
theorem orderMoves_sorted_permutation (MVV_LVA : Int → Int → Int) (t : SearchTables) (b : Board)
    (moves : List Move) (depth : Int) :
    List.Perm
      ((orderMoves MVV_LVA t b moves depth).map (fun m => (m.from_, m.to_, m.promotionPiece)))
      (moves.map (fun m => (m.from_, m.to_, m.promotionPiece))) ∧
    (∀ m ∈ orderMoves MVV_LVA t b moves depth, m.score = scoreMove MVV_LVA t b m depth) ∧
    List.Pairwise (fun a c : Move => c.score ≤ a.score) (orderMoves MVV_LVA t b moves depth) := by
  refine ⟨?_, fun m hm => orderMoves_score hm, orderMoves_pairwise MVV_LVA t b moves depth⟩
  have h := (orderMoves_perm MVV_LVA t b moves depth).map
    (fun m : Move => (m.from_, m.to_, m.promotionPiece))
  have e : (scoreMoves MVV_LVA t b moves depth).map
      (fun m : Move => (m.from_, m.to_, m.promotionPiece)) =
      moves.map (fun m => (m.from_, m.to_, m.promotionPiece)) := by
    unfold scoreMoves
    rw [List.map_map]
    rfl
  rw [e] at h
  exact h

/-- C25: `orderMoves` is idempotent: for every board, fixed killer and history
tables and every array of moves, a second run of `orderMoves` on the array
produced by a first run leaves the array as it is. -/
theorem orderMoves_idempotent (MVV_LVA : Int → Int → Int) (t : SearchTables) (b : Board)
    (moves : List Move) (depth : Int) :
    orderMoves MVV_LVA t b (orderMoves MVV_LVA t b moves depth) depth =
      orderMoves MVV_LVA t b moves depth := by
  have h1 := scoreMoves_id MVV_LVA t b depth (orderMoves MVV_LVA t b moves depth)
    (fun m hm => orderMoves_score hm)
  have h2 := orderMoves_pairwise MVV_LVA t b moves depth
  generalize orderMoves MVV_LVA t b moves depth = l at h1 h2
  unfold orderMoves
  rw [h1]
  exact orderOuter_sorted_id _ l h2

theorem minimax_zero (pst : PieceSquareTables) (MVV_LVA : Int → Int → Int) (board : Board)
    (t : SearchTables) (alpha beta ply : Int) :
    minimax pst MVV_LVA 0 board t alpha beta ply =
      match quiescence pst 65 board alpha beta with
      | none => none
      | some r => some (r.1, t, r.2) := rfl

theorem minimax_succ (pst : PieceSquareTables) (MVV_LVA : Int → Int → Int) (depth : Nat)
    (board : Board) (t : SearchTables) (alpha beta ply : Int) :
    minimax pst MVV_LVA (depth + 1) board t alpha beta ply =
      if (generateLegalMovesToArray board 512).2.length = 0 then
        if inCheck_bit (generateLegalMovesToArray board 512).1
            (generateLegalMovesToArray board 512).1.mover = true then
          some ((generateLegalMovesToArray board 512).1, t, -100000 - ((depth + 1 : Nat) : Int))
        else some ((generateLegalMovesToArray board 512).1, t, 0)
      else
        minimaxLoop (fun b t' a be => minimax pst MVV_LVA depth b t' a be (ply + 1))
          ((depth + 1 : Nat) : Int) ply beta
          (orderMoves MVV_LVA t (generateLegalMovesToArray board 512).1
            (generateLegalMovesToArray board 512).2 ((depth + 1 : Nat) : Int))
          (generateLegalMovesToArray board 512).1 t alpha := rfl

theorem minimax_of_no_moves (pst : PieceSquareTables) (MVV_LVA : Int → Int → Int) (depth : Nat)
    (board : Board) (t : SearchTables) (alpha beta ply : Int)
    (h : (generateLegalMovesToArray board 512).2 = []) :
    minimax pst MVV_LVA (depth + 1) board t alpha beta ply =
      some ((generateLegalMovesToArray board 512).1, t,
        if inCheck_bit (generateLegalMovesToArray board 512).1
            (generateLegalMovesToArray board 512).1.mover = true then
          -100000 - ((depth + 1 : Nat) : Int)
        else 0) := by
  rw [minimax_succ, if_pos (by rw [h]; rfl)]
  split_ifs <;> rfl

theorem generateLegalMovesToArray_start :
    generateLegalMovesToArray startBoard 512 = (startBoard, startMoves) := by
  have hw := wf_of_invariants invariants_startBoard
  have ho := invariants_startBoard.2.2.1
  rw [generateLegalMovesToArray_eq hw ho, ← legalMovesF_eq hw ho, legalMovesF_start]
  rfl

/-- C22: `search` is independent of earlier searches: for every board, every
depth and any two initial contents of `historyTable` and `killerMoves`,
`search` has the same result (value, board and tables left behind), because
both tables are zeroed on entry. -/
theorem search_independent_of_tables (pst : PieceSquareTables) (MVV_LVA : Int → Int → Int)
    (t1 t2 : SearchTables) (b : Board) (depth : Int) :
    search pst MVV_LVA t1 b depth = search pst MVV_LVA t2 b depth ∧
      memsetKillerMoves (memsetHistoryTable t1) = emptySearchTables ∧
      (0 ≤ depth → search pst MVV_LVA t1 b depth =
        minimax pst MVV_LVA depth.toNat b emptySearchTables (-10000000) 10000000 1) :=
  ⟨rfl, rfl, fun h => if_neg (not_lt.mpr h)⟩

/-- C23: for every board, every depth `>= 1` and all `alpha`, `beta`, `ply`: if
the side to move has no legal move, `minimax` returns `-100000 - depth` when
`inCheck_bit` finds the king of the side to move attacked (checkmate) and `0`
when it does not (stalemate), whatever `alpha` and `beta` are; on a board
satisfying the invariants the board tested is the board passed in. -/
theorem minimax_no_legal_move (pst : PieceSquareTables) (MVV_LVA : Int → Int → Int)
    (board : Board) (t : SearchTables) (depth : Nat) (alpha beta ply : Int) (hd : 1 ≤ depth)
    (h : (generateLegalMovesToArray board 512).2 = []) :
    minimax pst MVV_LVA depth board t alpha beta ply =
      some ((generateLegalMovesToArray board 512).1, t,
        if inCheck_bit (generateLegalMovesToArray board 512).1
            (generateLegalMovesToArray board 512).1.mover = true then
          -100000 - (depth : Int)
        else 0) ∧
    (Invariants board → (generateLegalMovesToArray board 512).1 = board) := by
  obtain ⟨d, rfl⟩ : ∃ d, depth = d + 1 := ⟨depth - 1, by omega⟩
  exact ⟨minimax_of_no_moves pst MVV_LVA d board t alpha beta ply h,
    fun hinv => generateLegalMovesToArray_fst (wf_of_invariants hinv) hinv.2.2.1 512⟩

theorem minimax_no_legal_move_witness :
    minimax flatTables flatMvvLva 2 backRankMateBoard emptySearchTables (-50) 50 1 =
      some (backRankMateBoard, emptySearchTables, -100002) := by
  have h := (minimax_no_legal_move flatTables flatMvvLva backRankMateBoard emptySearchTables 2
    (-50) 50 1 (by decide) (by decide!)).1
  have e : (generateLegalMovesToArray backRankMateBoard 512).1 = backRankMateBoard := by decide!
  rw [e] at h
  rw [h]
  rfl

/-- C30 (as the code runs, at the root call of `search(start position, 3)`, a
node with depth 3 and ply 1): `minimax` orders the moves of the node with
`orderMoves(..., depth)`, so `scoreMove` reads the killer slots of index 3; a
quiet move stored by a beta cutoff at this node, which writes the slots of
index 1 (the ply), is scored afterwards by its history counter `3 * 3` alone
and not as a killer, while the slots of the ply would give `SCORE_KILLER`. -/
theorem minimax_orders_by_depth_slot (pst : PieceSquareTables) (MVV_LVA : Int → Int → Int)
    (t : SearchTables) (alpha beta : Int) :
    minimax pst MVV_LVA 3 startBoard t alpha beta 1 =
      minimaxLoop (fun b t' a be => minimax pst MVV_LVA 2 b t' a be 2) 3 1 beta
        (orderMoves MVV_LVA t startBoard startMoves 3) startBoard t alpha ∧
    (storeKiller emptySearchTables ⟨6, 21, 0, 0⟩ 3 1).killerMoves 0 1 = ⟨6, 21, 0, 0⟩ ∧
    (storeKiller emptySearchTables ⟨6, 21, 0, 0⟩ 3 1).killerMoves 0 3 = ⟨0, 0, 0, 0⟩ ∧
    scoreMove MVV_LVA (storeKiller emptySearchTables ⟨6, 21, 0, 0⟩ 3 1) startBoard
      ⟨6, 21, 0, 0⟩ 3 = SCORE_HISTORY + 9 ∧
    scoreMove MVV_LVA (storeKiller emptySearchTables ⟨6, 21, 0, 0⟩ 3 1) startBoard
      ⟨6, 21, 0, 0⟩ 1 = SCORE_KILLER := by
  refine ⟨?_, rfl, rfl, ?_, ?_⟩
  · rw [minimax_succ, generateLegalMovesToArray_start]
    rfl
  · rfl
  · rfl

theorem pieceAt_rec (P : Int → Prop) (b : Board) (s : Int) (h0 : P 0)
    (h1 : b.wp &&& bit s ≠ 0 → P 1)
    (h2 : b.wn &&& bit s ≠ 0 → P 2)
    (h3 : b.wb &&& bit s ≠ 0 → P 3)
    (h4 : b.wr &&& bit s ≠ 0 → P 4)
    (h5 : b.wq &&& bit s ≠ 0 → P 5)
    (h6 : b.wk &&& bit s ≠ 0 → P 6)
    (h7 : b.bp &&& bit s ≠ 0 → P 9)
    (h8 : b.bn &&& bit s ≠ 0 → P 10)
    (h9 : b.bb &&& bit s ≠ 0 → P 11)
    (h10 : b.br &&& bit s ≠ 0 → P 12)
    (h11 : b.bq &&& bit s ≠ 0 → P 13)
    (h12 : b.bk &&& bit s ≠ 0 → P 14) :
    P (pieceAt b s) := by
  unfold pieceAt
  by_cases t1 : b.wp &&& bit s ≠ 0
  · rw [if_pos t1]
    exact h1 t1
  rw [if_neg t1]
  by_cases t2 : b.wn &&& bit s ≠ 0
  · rw [if_pos t2]
    exact h2 t2
  rw [if_neg t2]
  by_cases t3 : b.wb &&& bit s ≠ 0
  · rw [if_pos t3]
    exact h3 t3
  rw [if_neg t3]
  by_cases t4 : b.wr &&& bit s ≠ 0
  · rw [if_pos t4]
    exact h4 t4
  rw [if_neg t4]
  by_cases t5 : b.wq &&& bit s ≠ 0
  · rw [if_pos t5]
    exact h5 t5
  rw [if_neg t5]
  by_cases t6 : b.wk &&& bit s ≠ 0
  · rw [if_pos t6]
    exact h6 t6
  rw [if_neg t6]
  by_cases t7 : b.bp &&& bit s ≠ 0
  · rw [if_pos t7]
    exact h7 t7
  rw [if_neg t7]
  by_cases t8 : b.bn &&& bit s ≠ 0
  · rw [if_pos t8]
    exact h8 t8
  rw [if_neg t8]
  by_cases t9 : b.bb &&& bit s ≠ 0
  · rw [if_pos t9]
    exact h9 t9
  rw [if_neg t9]
  by_cases t10 : b.br &&& bit s ≠ 0
  · rw [if_pos t10]
    exact h10 t10
  rw [if_neg t10]
  by_cases t11 : b.bq &&& bit s ≠ 0
  · rw [if_pos t11]
    exact h11 t11
  rw [if_neg t11]
  by_cases t12 : b.bk &&& bit s ≠ 0
  · rw [if_pos t12]
    exact h12 t12
  rw [if_neg t12]
  exact h0

theorem kingOf_congr {b b' : Board} (h : pieces b = pieces b') (c : Int) :
    kingOf c b = kingOf c b' := by
  simp only [pieces, List.cons.injEq, and_true] at h
  obtain ⟨-, -, -, -, -, h6, -, -, -, -, -, h12⟩ := h
  unfold kingOf
  rw [h6, h12]

theorem kingOf_clearSquare {c : Int} {b : Board} (h : kingOf c b = 0) (s : Int) :
    kingOf c (clearSquare b s) = 0 := by
  unfold kingOf at h ⊢
  unfold clearSquare
  by_cases hc : c = WHITE
  · rw [if_pos hc] at h ⊢
    simp only [h, Nat.zero_and]
  · rw [if_neg hc] at h ⊢
    simp only [h, Nat.zero_and]

theorem kingOf_orPiece {c d : Int} (hd : ¬ KingCode c d) (b : Board) (s : Int) :
    kingOf c (orPiece b s d) = kingOf c b := by
  unfold KingCode at hd
  unfold kingOf orPiece
  by_cases hc : c = WHITE
  · simp only [hc, if_true, iff_true] at hd ⊢
    split_ifs <;> first | rfl | (exfalso; exact hd ⟨by assumption, by assumption⟩)
  · simp only [hc, if_false, iff_false] at hd ⊢
    split_ifs <;> first | rfl | (exfalso; exact hd ⟨by assumption, by assumption⟩)

theorem kingOf_placePieceAt {c d : Int} (hd : ¬ KingCode c d) {b : Board} (h : kingOf c b = 0)
    (s : Int) : kingOf c (placePieceAt b s d) = 0 := by
  unfold placePieceAt setPiece
  split_ifs
  · exact h
  · rw [kingOf_orPiece hd]
    exact kingOf_clearSquare h s

theorem kingOf_removePieceAt {c : Int} {b : Board} (h : kingOf c b = 0) (s : Int) :
    kingOf c (removePieceAt b s).1 = 0 := by
  have hw : ∀ x : U64, kingOf c { b with wk := b.wk &&& x } = 0 := by
    intro x
    unfold kingOf at h ⊢
    by_cases hc : c = WHITE
    · rw [if_pos hc] at h ⊢
      simp only [h, Nat.zero_and]
    · rw [if_neg hc] at h ⊢
      exact h
  have hb : ∀ x : U64, kingOf c { b with bk := b.bk &&& x } = 0 := by
    intro x
    unfold kingOf at h ⊢
    by_cases hc : c = WHITE
    · rw [if_pos hc] at h ⊢
      exact h
    · rw [if_neg hc] at h ⊢
      simp only [h, Nat.zero_and]
  exact removePieceAt_fst_rec (fun x => kingOf c x = 0) b s h h h h h h (hw _) h h h h h (hb _)

theorem not_kingCode_zero (c : Int) : ¬ KingCode c 0 := fun h => absurd h.1 (by decide)

theorem not_kingCode_pieceAt {c : Int} {b : Board} (h : kingOf c b = 0) (s : Int) :
    ¬ KingCode c (pieceAt b s) := by
  unfold kingOf at h
  apply pieceAt_rec (fun d => ¬ KingCode c d) b s
  · exact not_kingCode_zero c
  · exact fun _ k => absurd k.1 (by decide)
  · exact fun _ k => absurd k.1 (by decide)
  · exact fun _ k => absurd k.1 (by decide)
  · exact fun _ k => absurd k.1 (by decide)
  · exact fun _ k => absurd k.1 (by decide)
  · intro t k
    have hc : c = WHITE := k.2.mp (by decide)
    rw [if_pos hc] at h
    rw [h, Nat.zero_and] at t
    exact t rfl
  · exact fun _ k => absurd k.1 (by decide)
  · exact fun _ k => absurd k.1 (by decide)
  · exact fun _ k => absurd k.1 (by decide)
  · exact fun _ k => absurd k.1 (by decide)
  · exact fun _ k => absurd k.1 (by decide)
  · intro t k
    have hc : ¬ c = WHITE := fun e => absurd (k.2.mpr e) (by decide)
    rw [if_neg hc] at h
    rw [h, Nat.zero_and] at t
    exact t rfl

theorem not_kingCode_promotion (c : Int) (b : Board) (s : Int) {p : Int}
    (hp : p = 2 ∨ p = 3 ∨ p = 4 ∨ p = 5) :
    ¬ KingCode c (Int.lor p (Int.land (pieceAt b s) COLOR_MASK)) := by
  apply pieceAt_rec (fun d => ¬ KingCode c (Int.lor p (Int.land d COLOR_MASK))) b s <;>
    first
    | (rcases hp with rfl | rfl | rfl | rfl <;> exact fun k => absurd k.1 (by decide))
    | (intro _; rcases hp with rfl | rfl | rfl | rfl <;> exact fun k => absurd k.1 (by decide))

theorem kingOf_applyMovePieces {c : Int} {b : Board} (h : kingOf c b = 0) {mv : Move}
    (hp : PromotionOk mv) : kingOf c (applyMovePieces b mv) = 0 := by
  unfold applyMovePieces
  simp only []
  have h1 : kingOf c (if isEnPassantCapture b mv then
      (removePieceAt b (mv.to_ - (if Int.land (findPieceCodeAt b mv.from_) COLOR_MASK = WHITE then 1
        else -1) * 8)).1 else b) = 0 := by
    split_ifs
    · exact kingOf_removePieceAt h _
    · exact kingOf_removePieceAt h _
    · exact h
  generalize (if isEnPassantCapture b mv then
      (removePieceAt b (mv.to_ - (if Int.land (findPieceCodeAt b mv.from_) COLOR_MASK = WHITE then 1
        else -1) * 8)).1 else b) = b1 at h1 ⊢
  have h2 : kingOf c (if ¬ isEnPassantCapture b mv ∧ findPieceCodeAt b mv.to_ ≠ 0 then
      (removePieceAt b1 mv.to_).1 else b1) = 0 := by
    split_ifs
    · exact kingOf_removePieceAt h1 _
    · exact h1
  generalize (if ¬ isEnPassantCapture b mv ∧ findPieceCodeAt b mv.to_ ≠ 0 then
      (removePieceAt b1 mv.to_).1 else b1) = b2 at h2 ⊢
  have h3 := kingOf_removePieceAt h2 mv.from_
  by_cases h0 : mv.promotionPiece ≠ 0
  · rw [if_pos h0]
    have hp2 : mv.promotionPiece = 2 ∨ mv.promotionPiece = 3 ∨ mv.promotionPiece = 4 ∨
        mv.promotionPiece = 5 := by
      rcases hp with k | k
      · exact absurd k h0
      · exact k
    exact kingOf_placePieceAt (not_kingCode_promotion c b mv.from_ hp2) h3 _
  · rw [if_neg h0]
    exact kingOf_placePieceAt (not_kingCode_pieceAt h mv.from_) h3 _

theorem kingOf_revokeBoth (c : Int) (b : Board) (col : Int) :
    kingOf c (revokeBoth b col) = kingOf c b :=
  (kingOf_congr (pieces_revokeBoth b col) c)

theorem kingOf_applyCastlingRook {c : Int} {b4 : Board} (h : kingOf c b4 = 0) (mv : Move)
    (code : Int) : kingOf c (applyCastlingRook b4 mv code) = 0 := by
  unfold applyCastlingRook
  split_ifs
  · simp only []
    rw [kingOf_revokeBoth]
    split_ifs
    · rw [removePieceAt_snd]
      exact kingOf_placePieceAt (not_kingCode_pieceAt h _) (kingOf_removePieceAt h _) _
    · exact kingOf_removePieceAt h _
  · exact h

theorem kingOf_applyMove {c : Int} {b : Board} (h : kingOf c b = 0) {mv : Move}
    (hp : PromotionOk mv) : kingOf c (applyMove b mv).2.1 = 0 := by
  by_cases h0 : findPieceCodeAt b mv.from_ = 0
  · unfold applyMove
    rw [if_pos h0]
    exact h
  · rw [applyMove_snd h0]
    have e : kingOf c (finalizeMove (updateEnPassantSquare (updateCastlingRights
        (applyCastlingRook (applyMovePieces b mv) mv (findPieceCodeAt b mv.from_)) mv
        (findPieceCodeAt b mv.from_)
        (applyMoveUndo b mv (applyMovePieces b mv)).capturedPieceCode) mv
        (findPieceCodeAt b mv.from_))) =
        kingOf c (applyCastlingRook (applyMovePieces b mv) mv (findPieceCodeAt b mv.from_)) :=
      kingOf_congr
        (by rw [pieces_finalizeMove, pieces_updateEnPassantSquare, pieces_updateCastlingRights]) c
    rw [e]
    exact kingOf_applyCastlingRook (kingOf_applyMovePieces h hp) mv _

theorem kingOf_unmakePieces {c : Int} {b : Board} (h : kingOf c b = 0) (u : Undo)
    (h1 : ¬ KingCode c u.movedPieceCode) (h2 : ¬ KingCode c u.capturedPieceCode)
    (h3 : ¬ KingCode c u.rookPieceCode) : kingOf c (unmakePieces b u) = 0 := by
  unfold unmakePieces
  simp only []
  have k4 := kingOf_placePieceAt h1 (kingOf_clearSquare (kingOf_clearSquare h u.from_) u.to_)
    u.from_
  have k5 : kingOf c (if u.capturedPieceCode ≠ 0 ∧ u.capturedSquare ≠ -1 then
      placePieceAt (placePieceAt (clearSquare (clearSquare b u.from_) u.to_) u.from_
        u.movedPieceCode) u.capturedSquare u.capturedPieceCode
    else placePieceAt (clearSquare (clearSquare b u.from_) u.to_) u.from_ u.movedPieceCode) = 0 := by
    split_ifs
    · exact kingOf_placePieceAt h2 k4 _
    · exact k4
  by_cases hr : u.rookFromSq ≠ -1
  · rw [if_pos hr]
    exact kingOf_placePieceAt h3 (kingOf_clearSquare k5 _) _
  · rw [if_neg hr]
    exact k5

theorem kingOf_unmakeMove (c : Int) (b : Board) (u : Undo) :
    kingOf c (unmakeMove b u) = kingOf c (unmakePieces b u) := by
  rw [unmakeMove_eq]
  rfl

theorem mover_unmakeMove (b : Board) (u : Undo) : (unmakeMove b u).mover = u.prevMover := by
  rw [unmakeMove_eq]
  rfl

theorem kingOf_apply_unmake {c : Int} {b : Board} (h : kingOf c b = 0) {mv : Move}
    (hp : PromotionOk mv) :
    kingOf c (unmakeMove (applyMove b mv).2.1 (applyMove b mv).2.2) = 0 := by
  rw [kingOf_unmakeMove]
  apply kingOf_unmakePieces (kingOf_applyMove h hp)
  · unfold applyMove
    split_ifs
    · exact not_kingCode_pieceAt h _
    · simp only []
      rw [undo_moved]
      exact not_kingCode_pieceAt h _
  · unfold applyMove
    split_ifs
    · exact not_kingCode_pieceAt h _
    · simp only []
      rw [undo_captured]
      exact not_kingCode_pieceAt h _
  · unfold applyMove
    split_ifs
    · exact not_kingCode_zero c
    · simp only []
      rw [undo_rookCode]
      split_ifs
      · exact not_kingCode_pieceAt (kingOf_applyMovePieces h hp) _
      · exact not_kingCode_zero c

theorem kingSafe_of_no_king {c : Int} {b : Board} (h : kingOf c b = 0) : kingSafe b c = false := by
  unfold kingOf at h
  unfold kingSafe
  simp only [h, ne_eq, not_true_eq_false, if_false, if_true]

theorem inCheck_bit_of_no_king {c : Int} {b : Board} (h : kingOf c b = 0) :
    inCheck_bit b c = false := by
  unfold kingOf at h
  unfold inCheck_bit
  simp only [h, if_true]

theorem legalLoop_no_king (maxMoves : Nat) (l : List Move) :
    ∀ (b : Board) (out : List Move), kingOf b.mover b = 0 → (∀ m ∈ l, PromotionOk m) →
      (legalLoop maxMoves l b out).2 = out ∧
        kingOf (legalLoop maxMoves l b out).1.mover (legalLoop maxMoves l b out).1 = 0 := by
  induction l with
  | nil => intro b out h _; exact ⟨rfl, h⟩
  | cons m rest ih =>
    intro b out h hp
    have hm := hp m (List.mem_cons_self _ _)
    have hrest : ∀ x ∈ rest, PromotionOk x := fun x hx => hp x (List.mem_cons_of_mem _ hx)
    unfold legalLoop
    by_cases h0 : findPieceCodeAt b m.from_ = 0
    · have e : applyMove b m = (false, b, saveUndo b m) := by
        unfold applyMove
        rw [if_pos h0]
      rw [e]
      simp only [if_true]
      exact ih b out h hrest
    · rw [if_neg (by rw [applyMove_fst h0]; decide)]
      have hs : kingSafe (applyMove b m).2.1 (applyMove b m).2.2.prevMover = false := by
        rw [applyMove_prevMover]
        exact kingSafe_of_no_king (kingOf_applyMove h hm)
      rw [if_neg (fun k => by rw [hs] at k; exact absurd k.1 (by decide))]
      apply ih
      · rw [mover_unmakeMove, applyMove_prevMover]
        exact kingOf_apply_unmake h hm
      · exact hrest

theorem generated_promotionOk {b : Board} {m : Move} (h : Generated b m) : PromotionOk m := by
  obtain ⟨sq, -, h⟩ := h
  unfold PromotionOk
  have pawn : ∀ c : Int, PawnGen b sq c m → PromotionOk m := by
    intro c hg
    unfold PromotionOk
    obtain ⟨-, -, hg⟩ := hg
    rcases hg with ⟨-, -, -, k⟩ | ⟨-, -, -, -, -, k⟩ | ⟨df, -, -, -, -, -, k⟩ |
      ⟨df, -, -, -, -, -, -, -, -, k⟩
    · split_ifs at k <;> first | exact Or.inr k | exact Or.inl k
    · exact Or.inl k
    · split_ifs at k <;> first | exact Or.inr k | exact Or.inl k
    · exact Or.inl k
  rcases h with ⟨-, h⟩ | ⟨-, h⟩ | ⟨-, -, h⟩ | ⟨-, -, h⟩ | ⟨-, -, h⟩ | ⟨-, -, h⟩
  · rcases h with ⟨-, h⟩ | ⟨-, -, h⟩
    · exact pawn _ h
    · exact pawn _ h
  · rcases h with ⟨-, h⟩ | ⟨-, -, h⟩
    · exact Or.inl h.2.1
    · exact Or.inl h.2.1
  · exact Or.inl h.2.1
  · exact Or.inl h.2.1
  · exact Or.inl h.2.1
  · rcases h with h | h
    · exact Or.inl h.2.1
    · exact Or.inl h.2.1

theorem generateLegalMovesToArray_of_no_king {b : Board} (hb : Bounded b)
    (hk : kingOf b.mover b = 0) (maxMoves : Nat) :
    (generateLegalMovesToArray b maxMoves).2 = [] ∧
      kingOf (generateLegalMovesToArray b maxMoves).1.mover
        (generateLegalMovesToArray b maxMoves).1 = 0 := by
  unfold generateLegalMovesToArray
  simp only []
  rw [generateMovesToArray_eq hb]
  apply legalLoop_no_king
  · exact hk
  · intro m hm
    rcases mem_generateMoves hb (List.mem_of_mem_take hm) with k | k
    · simp at k
    · exact generated_promotionOk k

/-- C28: a missing king is handled without failure: on every board (of 64-bit
bitboards) on which the side to move has no king, `generateLegalMovesToArray`
returns zero moves for every capacity, and `minimax` at every depth `>= 1`
returns the value `0`, with the tables untouched. -/
theorem minimax_no_king (b : Board) (hb : Bounded b)
    (hk : (if b.mover = WHITE then b.wk else b.bk) = 0) :
    (∀ maxMoves : Nat, (generateLegalMovesToArray b maxMoves).2 = []) ∧
    ∀ (pst : PieceSquareTables) (MVV_LVA : Int → Int → Int) (t : SearchTables) (depth : Nat)
      (alpha beta ply : Int), 1 ≤ depth →
      minimax pst MVV_LVA depth b t alpha beta ply =
        some ((generateLegalMovesToArray b 512).1, t, 0) := by
  refine ⟨fun maxMoves => (generateLegalMovesToArray_of_no_king hb hk maxMoves).1, ?_⟩
  intro pst MVV_LVA t depth alpha beta ply hd
  obtain ⟨d, rfl⟩ : ∃ d, depth = d + 1 := ⟨depth - 1, by omega⟩
  obtain ⟨h1, h2⟩ := generateLegalMovesToArray_of_no_king hb hk 512
  rw [minimax_of_no_moves pst MVV_LVA d b t alpha beta ply h1, inCheck_bit_of_no_king h2]
  rfl

theorem minimax_no_king_witness :
    (∀ maxMoves : Nat, (generateLegalMovesToArray noKingBoard maxMoves).2 = []) ∧
    ∀ (pst : PieceSquareTables) (MVV_LVA : Int → Int → Int) (t : SearchTables) (depth : Nat)
      (alpha beta ply : Int), 1 ≤ depth →
      minimax pst MVV_LVA depth noKingBoard t alpha beta ply =
        some ((generateLegalMovesToArray noKingBoard 512).1, t, 0) :=
  minimax_no_king noKingBoard (by decide) (by decide)

theorem pieceCount_le (b : Board) : pieceCount b ≤ 64 := by
  unfold pieceCount
  have h := List.length_filter_le (fun i => b.occupied.testBit i) (List.range 64)
  rw [List.length_range] at h
  exact h

theorem popcountll_occupied (b : Board) : popcountll b.occupied = (pieceCount b : Nat) := rfl

theorem filter_length_le {α : Type} (p q : α → Bool) (l : List α)
    (h : ∀ x ∈ l, q x = true → p x = true) : (l.filter q).length ≤ (l.filter p).length := by
  induction l with
  | nil => exact le_refl _
  | cons a l ih =>
    have ih2 := ih (fun x hx => h x (List.mem_cons_of_mem a hx))
    have ha := h a (List.mem_cons_self a l)
    rw [List.filter_cons, List.filter_cons]
    by_cases hq : q a = true
    · rw [if_pos hq, if_pos (ha hq)]
      simp only [List.length_cons]
      omega
    · rw [if_neg hq]
      split_ifs
      · simp only [List.length_cons]
        omega
      · exact ih2

theorem filter_length_lt {α : Type} (p q : α → Bool) (l : List α)
    (h : ∀ x ∈ l, q x = true → p x = true) (a : α) (ha : a ∈ l) (hp : p a = true)
    (hq : ¬ q a = true) : (l.filter q).length < (l.filter p).length := by
  induction l with
  | nil => exact absurd ha (List.not_mem_nil a)
  | cons x l ih =>
    have hl : ∀ y ∈ l, q y = true → p y = true := fun y hy => h y (List.mem_cons_of_mem x hy)
    rw [List.filter_cons, List.filter_cons]
    rcases List.mem_cons.mp ha with rfl | hmem
    · rw [if_neg hq, if_pos hp]
      have := filter_length_le p q l hl
      simp only [List.length_cons]
      omega
    · have ih2 := ih hl hmem
      have hx := h x (List.mem_cons_self x l)
      by_cases hqx : q x = true
      · rw [if_pos hqx, if_pos (hx hqx)]
        simp only [List.length_cons]
        omega
      · rw [if_neg hqx]
        split_ifs
        · simp only [List.length_cons]
          omega
        · exact ih2

theorem occupied_testBit {b : Board} (ho : OccupanciesConsistent b) (ha : Agree b) {n : Nat}
    (hn : n < 64) : b.occupied.testBit n = true ↔ codeAt b n ≠ 0 := by
  have hr : InRange (n : Int) := ⟨by omega, by omega⟩
  have h := occupied_iff ho ha hr
  rw [and_bit_ne_zero_iff _ hr] at h
  simpa using h

theorem generated_capture_plain {b : Board} (hw : WF b) {mv : Move} (hg : Generated b mv)
    (hc : b.occupied &&& bit mv.to_ ≠ 0) : ¬ isKingTwoFiles (findPieceCodeAt b mv.from_) mv := by
  intro hk
  obtain ⟨hfrom, hcases⟩ := generated_cases hw hg
  obtain ⟨k1, k2⟩ := hk
  unfold findPieceCodeAt at k1
  rw [pieceAt_eq_codeAt b hfrom] at k1
  have step : ∀ own : U64, ¬ StepGen mv.from_ kingOffsets own mv := by
    intro own hs
    have hto : InRange mv.to_ := hs.2.2.2.1
    have := stepGen_king_file hs
    rw [tmod_eq_fileOf hfrom, tmod_eq_fileOf hto] at k2
    omega
  have castle : ¬ CastleGen b mv.from_ mv := by
    intro g
    obtain ⟨-, -, -, g⟩ := g
    rcases g with ⟨-, -, e, -, -, o, -⟩ | ⟨-, -, e, -, -, o, -⟩ | ⟨-, -, e, -, -, o, -⟩ |
      ⟨-, -, e, -, -, o, -⟩
    · rw [e] at hc; exact o hc
    · rw [e] at hc; exact o hc
    · rw [e] at hc; exact o hc
    · rw [e] at hc; exact o hc
  rcases hcases with ⟨c, -⟩ | ⟨c, -⟩ | ⟨c, -⟩ | ⟨c, -⟩ | ⟨c, -⟩ | ⟨c, g⟩ | ⟨c, g⟩
  · rw [c] at k1; exact absurd k1 (by decide)
  · rw [c] at k1; exact absurd k1 (by decide)
  · rw [c] at k1; exact absurd k1 (by decide)
  · rw [c] at k1; exact absurd k1 (by decide)
  · rcases c with c | c | c | c | c | c <;> rw [c] at k1 <;> exact absurd k1 (by decide)
  · rcases g with g | g
    · exact step _ g
    · exact castle g
  · rcases g with g | g
    · exact step _ g
    · exact castle g

theorem pieceCount_capture {b : Board} (hw : WF b) (ho : OccupanciesConsistent b) {mv : Move}
    (hg : Generated b mv) (hc : isCapture b mv = true) :
    pieceCount (applyMove b mv).2.1 < pieceCount b := by
  have hr := generated_reversible hw ho hg
  have hcs := captureSquare_inRange hr
  obtain ⟨hfrom, hto, hne, hcode, hplaced, -, -⟩ := hr
  have hocc : b.occupied &&& bit mv.to_ ≠ 0 := by
    unfold isCapture at hc
    exact of_decide_eq_true hc
  have hk := generated_capture_plain hw hg hocc
  have hto0 : codeAt b mv.to_.toNat ≠ 0 := (occupied_iff ho hw.2 hto).mp hocc
  have hfrom0 : codeAt b mv.from_.toNat ≠ 0 := by
    unfold findPieceCodeAt at hcode
    rw [pieceAt_eq_codeAt b hfrom] at hcode
    exact hcode
  have hw2 := wf_applyMove hw (generated_reversible hw ho hg)
  have ho2 : OccupanciesConsistent (applyMove b mv).2.1 := occ_applyMove hcode
  have key : ∀ n : Nat, n < 64 →
      codeAt (applyMove b mv).2.1 n =
        if mv.to_.toNat = n then placedCode b mv
        else if mv.from_.toNat = n then 0
        else if (captureSquare b mv).toNat = n then 0
        else codeAt b n := by
    intro n hn
    rw [codeAt_applyMove hw (generated_reversible hw ho hg) n hn, if_neg hk,
      codeAt_applyMovePieces hw hfrom hto hcs hplaced n hn]
  have hnep : ¬ isEnPassantCapture b mv := by
    intro h
    have h3 := h.2.2.1
    unfold findPieceCodeAt at h3
    rw [pieceAt_eq_codeAt b hto] at h3
    exact hto0 h3
  have ecs : captureSquare b mv = mv.to_ := by
    unfold captureSquare
    rw [if_neg hnep]
  unfold pieceCount
  apply filter_length_lt _ _ _ _ mv.from_.toNat
  · exact List.mem_range.mpr (toNat_lt hfrom)
  · exact (occupied_testBit ho hw.2 (toNat_lt hfrom)).mpr hfrom0
  · intro h
    have h2 := (occupied_testBit ho2 hw2.2 (toNat_lt hfrom)).mp h
    rw [key _ (toNat_lt hfrom), if_neg (fun e => toNat_ne hfrom hto hne e.symm), if_pos rfl] at h2
    exact h2 rfl
  · intro n hn h
    have hn64 := List.mem_range.mp hn
    have h2 := (occupied_testBit ho2 hw2.2 hn64).mp h
    apply (occupied_testBit ho hw.2 hn64).mpr
    rw [key n hn64, ecs] at h2
    by_cases e1 : mv.to_.toNat = n
    · rw [← e1]; exact hto0
    · rw [if_neg e1] at h2
      by_cases e2 : mv.from_.toNat = n
      · rw [if_pos e2] at h2; exact absurd rfl h2
      · rw [if_neg e2, if_neg e1] at h2
        exact h2

theorem reversible_score {b : Board} {m : Move} (h : Reversible b m) (s : Int) :
    Reversible b { m with score := s } := h

theorem applyMove_score (b : Board) (m : Move) (s : Int) :
    applyMove b { m with score := s } = applyMove b m := rfl

theorem quiescenceLoop_total {b : Board} (hw : WF b) (ho : OccupanciesConsistent b)
    (child : Board → Int → Int → Option (Board × Int)) (beta : Int) (l : List Move) :
    (∀ m ∈ l, Reversible b m) →
    (∀ m ∈ l, isCapture b m = true →
      ∀ a be : Int, ∃ v, child (applyMove b m).2.1 a be = some ((applyMove b m).2.1, v)) →
    ∀ alpha sp : Int, ∃ v, quiescenceLoop child beta l b alpha sp = some (b, v) := by
  induction l with
  | nil => intro _ _ alpha sp; exact ⟨sp, rfl⟩
  | cons m rest ih =>
    intro hr hchild alpha sp
    have hm := hr m (List.mem_cons_self _ _)
    have ih2 := ih (fun x hx => hr x (List.mem_cons_of_mem _ hx))
      (fun x hx => hchild x (List.mem_cons_of_mem _ hx))
    unfold quiescenceLoop
    by_cases hc : isCapture b m = false
    · rw [if_pos hc]
      exact ih2 alpha sp
    · rw [if_neg hc]
      have hc2 : isCapture b m = true := by
        cases h : isCapture b m
        · exact absurd h hc
        · rfl
      obtain ⟨v, hv⟩ := hchild m (List.mem_cons_self _ _) hc2 (-beta) (-alpha)
      rw [hv]
      simp only []
      rw [unmake_apply hw ho hm]
      split_ifs
      · exact ⟨_, rfl⟩
      · exact ih2 _ _
      · exact ih2 _ _
      · exact ih2 _ _
      · exact ih2 _ _

theorem quiescence_total (pst : PieceSquareTables) (fuel : Nat) :
    ∀ b : Board, WF b → OccupanciesConsistent b → pieceCount b < fuel →
      ∀ alpha beta : Int, ∃ v, quiescence pst fuel b alpha beta = some (b, v) := by
  induction fuel with
  | zero => intro b _ _ h; exact absurd h (Nat.not_lt_zero _)
  | succ fuel ih =>
    intro b hw ho hlt alpha beta
    unfold quiescence
    by_cases hsp : evaluate pst b ≥ beta
    · rw [if_pos hsp]
      exact ⟨_, rfl⟩
    · rw [if_neg hsp, generateLegalMovesToArray_fst hw ho 256]
      apply quiescenceLoop_total hw ho
      · exact fun m hm => generated_reversible hw ho (mem_generateLegalMovesToArray hw ho hm)
      · intro m hm hc a be
        have hg := mem_generateLegalMovesToArray hw ho hm
        have hr := generated_reversible hw ho hg
        have := pieceCount_capture hw ho hg hc
        exact ih _ (wf_applyMove hw hr) (occ_applyMove hr.2.2.2.1) (by omega) a be

theorem minimaxLoop_total {b : Board} (hw : WF b) (ho : OccupanciesConsistent b)
    (child : Board → SearchTables → Int → Int → Option (Board × SearchTables × Int))
    (depth ply beta : Int) (l : List Move) :
    (∀ m ∈ l, Reversible b m) →
    (∀ m ∈ l, ∀ (t : SearchTables) (a be : Int),
      ∃ t' v, child (applyMove b m).2.1 t a be = some ((applyMove b m).2.1, t', v)) →
    ∀ (t : SearchTables) (alpha : Int),
      ∃ t' v, minimaxLoop child depth ply beta l b t alpha = some (b, t', v) := by
  induction l with
  | nil => intro _ _ t alpha; exact ⟨t, alpha, rfl⟩
  | cons m rest ih =>
    intro hr hchild t alpha
    have hm := hr m (List.mem_cons_self _ _)
    have ih2 := ih (fun x hx => hr x (List.mem_cons_of_mem _ hx))
      (fun x hx => hchild x (List.mem_cons_of_mem _ hx))
    unfold minimaxLoop
    obtain ⟨t', v, hv⟩ := hchild m (List.mem_cons_self _ _) t (-beta) (-alpha)
    rw [hv]
    simp only []
    rw [unmake_apply hw ho hm]
    split_ifs
    · exact ⟨_, _, rfl⟩
    · exact ⟨_, _, rfl⟩
    · exact ih2 _ _
    · exact ih2 _ _

theorem minimax_total (pst : PieceSquareTables) (MVV_LVA : Int → Int → Int) (depth : Nat) :
    ∀ b : Board, WF b → OccupanciesConsistent b →
      ∀ (t : SearchTables) (alpha beta ply : Int),
        ∃ t' v, minimax pst MVV_LVA depth b t alpha beta ply = some (b, t', v) := by
  induction depth with
  | zero =>
    intro b hw ho t alpha beta ply
    obtain ⟨v, hv⟩ := quiescence_total pst 65 b hw ho
      (lt_of_le_of_lt (pieceCount_le b) (by decide)) alpha beta
    rw [minimax_zero, hv]
    exact ⟨t, v, rfl⟩
  | succ depth ih =>
    intro b hw ho t alpha beta ply
    rw [minimax_succ, generateLegalMovesToArray_fst hw ho 512]
    split_ifs
    · exact ⟨_, _, rfl⟩
    · exact ⟨_, _, rfl⟩
    · apply minimaxLoop_total hw ho
      · intro m hm
        obtain ⟨m0, hm0, rfl⟩ := mem_orderMoves hm
        exact reversible_score
          (generated_reversible hw ho (mem_generateLegalMovesToArray hw ho hm0)) _
      · intro m hm t2 a be
        obtain ⟨m0, hm0, rfl⟩ := mem_orderMoves hm
        have hr := generated_reversible hw ho (mem_generateLegalMovesToArray hw ho hm0)
        rw [applyMove_score]
        exact ih _ (wf_applyMove hw hr) (occ_applyMove hr.2.2.2.1) t2 a be (ply + 1)

theorem search_total (pst : PieceSquareTables) (MVV_LVA : Int → Int → Int) (t : SearchTables)
    {b : Board} (hw : WF b) (ho : OccupanciesConsistent b) {depth : Int} (hd : 0 ≤ depth) :
    ∃ t' v, search pst MVV_LVA t b depth = some (b, t', v) := by
  unfold search
  rw [if_neg (not_lt.mpr hd)]
  exact minimax_total pst MVV_LVA _ b hw ho _ _ _ _

theorem pickBest_spec (f : Move → Int) (l : List Move) :
    ∀ (bs : Int) (bm : Move),
      (pickBest f l bs bm = bm ∧ ∀ x ∈ l, f x ≤ bs) ∨
      (∃ i : Nat, l[i]? = some (pickBest f l bs bm) ∧ bs < f (pickBest f l bs bm) ∧
        (∀ x ∈ l, f x ≤ f (pickBest f l bs bm)) ∧
        (∀ j : Nat, j < i → ∀ x, l[j]? = some x → f x < f (pickBest f l bs bm))) := by
  induction l with
  | nil => intro bs bm; exact Or.inl ⟨rfl, fun x hx => absurd hx (List.not_mem_nil x)⟩
  | cons m rest ih =>
    intro bs bm
    unfold pickBest
    by_cases h : f m > bs
    · rw [if_pos h]
      rcases ih (f m) m with ⟨e, hle⟩ | ⟨i, hi, hlt, hmax, hfirst⟩
      · right
        refine ⟨0, ?_, ?_, ?_, ?_⟩
        · rw [e, List.getElem?_cons_zero]
        · rw [e]; exact h
        · intro x hx
          rw [e]
          rcases List.mem_cons.mp hx with rfl | hx
          · exact le_refl _
          · exact hle x hx
        · intro j hj; exact absurd hj (Nat.not_lt_zero j)
      · right
        refine ⟨i + 1, ?_, ?_, ?_, ?_⟩
        · rw [List.getElem?_cons_succ]; exact hi
        · omega
        · intro x hx
          rcases List.mem_cons.mp hx with rfl | hx
          · omega
          · exact hmax x hx
        · intro j hj x hx
          cases j with
          | zero =>
            rw [List.getElem?_cons_zero] at hx
            cases hx
            exact hlt
          | succ j =>
            rw [List.getElem?_cons_succ] at hx
            exact hfirst j (by omega) x hx
    · rw [if_neg h]
      rcases ih bs bm with ⟨e, hle⟩ | ⟨i, hi, hlt, hmax, hfirst⟩
      · left
        refine ⟨e, fun x hx => ?_⟩
        rcases List.mem_cons.mp hx with rfl | hx
        · omega
        · exact hle x hx
      · right
        refine ⟨i + 1, ?_, hlt, ?_, ?_⟩
        · rw [List.getElem?_cons_succ]; exact hi
        · intro x hx
          rcases List.mem_cons.mp hx with rfl | hx
          · omega
          · exact hmax x hx
        · intro j hj x hx
          cases j with
          | zero =>
            rw [List.getElem?_cons_zero] at hx
            cases hx
            omega
          | succ j =>
            rw [List.getElem?_cons_succ] at hx
            exact hfirst j (by omega) x hx

theorem findBestLoop_eq {b : Board} (hw : WF b) (ho : OccupanciesConsistent b)
    (child : Board → SearchTables → Option (Board × SearchTables × Int)) (f : Move → Int)
    (l : List Move) :
    (∀ m ∈ l, Reversible b m) →
    (∀ m ∈ l, ∀ t : SearchTables,
      ∃ t', child (applyMove b m).2.1 t = some ((applyMove b m).2.1, t', -f m)) →
    ∀ (t : SearchTables) (bs : Int) (bm : Move),
      ∃ t', findBestLoop child l b t bs bm = some (b, t', pickBest f l bs bm) := by
  induction l with
  | nil => intro _ _ t bs bm; exact ⟨t, rfl⟩
  | cons m rest ih =>
    intro hr hchild t bs bm
    have hm := hr m (List.mem_cons_self _ _)
    have ih2 := ih (fun x hx => hr x (List.mem_cons_of_mem _ hx))
      (fun x hx => hchild x (List.mem_cons_of_mem _ hx))
    unfold findBestLoop pickBest
    obtain ⟨t', hv⟩ := hchild m (List.mem_cons_self _ _) t
    rw [hv]
    simp only [neg_neg]
    rw [unmake_apply hw ho hm]
    by_cases h : f m > bs
    · rw [if_pos h, if_pos h]
      exact ih2 _ _ _
    · rw [if_neg h, if_neg h]
      exact ih2 _ _ _

theorem search_rootScore (pst : PieceSquareTables) (MVV_LVA : Int → Int → Int) {b : Board}
    (hw : WF b) {m : Move} (hr : Reversible b m) {depth : Int} (hd : 1 ≤ depth)
    (t : SearchTables) :
    ∃ t', search pst MVV_LVA t (applyMove b m).2.1 (depth - 1) =
      some ((applyMove b m).2.1, t', -rootScore pst MVV_LVA b depth m) := by
  obtain ⟨t', v, hv⟩ := search_total pst MVV_LVA t (wf_applyMove hw hr)
    (occ_applyMove hr.2.2.2.1) (show 0 ≤ depth - 1 by omega)
  have e : search pst MVV_LVA emptySearchTables (applyMove b m).2.1 (depth - 1) =
      search pst MVV_LVA t (applyMove b m).2.1 (depth - 1) := rfl
  refine ⟨t', ?_⟩
  unfold rootScore
  rw [e, hv]
  simp only [neg_neg]

/-- C21: for every board satisfying the invariants and every depth `>= 1`, the
scores being C `int` values above `INT_MIN`: `search` returns on the board after
every legal move and leaves that board as it was; if the position has no legal
move, `findBestMove` returns the null move (`from = 0`, `to = 0`,
`promotionPiece = 0`); otherwise it returns the first move, in the order of
`generateLegalMovesToArray`, whose value `-search(board after the move,
depth - 1)` is maximal among all legal moves, so that the result is one of the
legal moves; the board is left as it was. -/
theorem findBestMove_first_maximal (pst : PieceSquareTables) (MVV_LVA : Int → Int → Int)
    (t : SearchTables) (b : Board) (hinv : Invariants b) (depth : Int) (hd : 1 ≤ depth)
    (hint : ∀ m ∈ (generateLegalMovesToArray b 512).2, INT_MIN < rootScore pst MVV_LVA b depth m) :
    (∀ m ∈ (generateLegalMovesToArray b 512).2, ∀ t0 : SearchTables,
      ∃ t' : SearchTables, search pst MVV_LVA t0 (applyMove b m).2.1 (depth - 1) =
        some ((applyMove b m).2.1, t', -rootScore pst MVV_LVA b depth m)) ∧
    ((generateLegalMovesToArray b 512).2 = [] →
      findBestMove pst MVV_LVA t b depth = some (b, t, ⟨0, 0, 0, 0⟩)) ∧
    ((generateLegalMovesToArray b 512).2 ≠ [] →
      ∃ (t' : SearchTables) (best : Move) (i : Nat),
        findBestMove pst MVV_LVA t b depth = some (b, t', best) ∧
        (generateLegalMovesToArray b 512).2[i]? = some best ∧
        best ∈ (generateLegalMovesToArray b 512).2 ∧
        (∀ x ∈ (generateLegalMovesToArray b 512).2,
          rootScore pst MVV_LVA b depth x ≤ rootScore pst MVV_LVA b depth best) ∧
        (∀ j : Nat, j < i → ∀ x, (generateLegalMovesToArray b 512).2[j]? = some x →
          rootScore pst MVV_LVA b depth x < rootScore pst MVV_LVA b depth best)) := by
  have hw := wf_of_invariants hinv
  have ho := hinv.2.2.1
  have hrev : ∀ m ∈ (generateLegalMovesToArray b 512).2, Reversible b m :=
    fun m hm => generated_reversible hw ho (mem_generateLegalMovesToArray hw ho hm)
  have hchild : ∀ m ∈ (generateLegalMovesToArray b 512).2, ∀ t0 : SearchTables,
      ∃ t' : SearchTables, search pst MVV_LVA t0 (applyMove b m).2.1 (depth - 1) =
        some ((applyMove b m).2.1, t', -rootScore pst MVV_LVA b depth m) :=
    fun m hm t0 => search_rootScore pst MVV_LVA hw (hrev m hm) hd t0
  refine ⟨hchild, ?_, ?_⟩
  · intro hnil
    unfold findBestMove
    rw [if_pos (by rw [hnil]; rfl), generateLegalMovesToArray_fst hw ho 512]
  · intro hne
    have hlen : ¬ (generateLegalMovesToArray b 512).2.length = 0 :=
      fun h => hne (List.length_eq_zero.mp h)
    obtain ⟨t', ht'⟩ := findBestLoop_eq hw ho
      (fun b0 t0 => search pst MVV_LVA t0 b0 (depth - 1)) (rootScore pst MVV_LVA b depth)
      (generateLegalMovesToArray b 512).2 hrev hchild t INT_MIN
      ((generateLegalMovesToArray b 512).2.headD ⟨0, 0, 0, 0⟩)
    have hfb : findBestMove pst MVV_LVA t b depth =
        some (b, t', pickBest (rootScore pst MVV_LVA b depth) (generateLegalMovesToArray b 512).2
          INT_MIN ((generateLegalMovesToArray b 512).2.headD ⟨0, 0, 0, 0⟩)) := by
      unfold findBestMove
      rw [if_neg hlen, generateLegalMovesToArray_fst hw ho 512]
      exact ht'
    rcases pickBest_spec (rootScore pst MVV_LVA b depth) (generateLegalMovesToArray b 512).2
      INT_MIN ((generateLegalMovesToArray b 512).2.headD ⟨0, 0, 0, 0⟩) with
      ⟨-, hle⟩ | ⟨i, hi, -, hmax, hfirst⟩
    · exfalso
      obtain ⟨x, hx⟩ := List.exists_mem_of_ne_nil _ hne
      have h1 := hle x hx
      have h2 := hint x hx
      omega
    · exact ⟨t', _, i, hfb, hi, (List.mem_iff_getElem?.mpr ⟨i, hi⟩), hmax, hfirst⟩

theorem findBestMove_first_maximal_witness :
    ∃ (t' : SearchTables) (best : Move) (i : Nat),
      findBestMove flatTables flatMvvLva emptySearchTables cornerKingBoard 1 =
        some (cornerKingBoard, t', best) ∧
      (generateLegalMovesToArray cornerKingBoard 512).2[i]? = some best ∧
      best ∈ (generateLegalMovesToArray cornerKingBoard 512).2 ∧
      (∀ x ∈ (generateLegalMovesToArray cornerKingBoard 512).2,
        rootScore flatTables flatMvvLva cornerKingBoard 1 x ≤
          rootScore flatTables flatMvvLva cornerKingBoard 1 best) ∧
      (∀ j : Nat, j < i → ∀ x, (generateLegalMovesToArray cornerKingBoard 512).2[j]? = some x →
        rootScore flatTables flatMvvLva cornerKingBoard 1 x <
          rootScore flatTables flatMvvLva cornerKingBoard 1 best) :=
  (findBestMove_first_maximal flatTables flatMvvLva emptySearchTables cornerKingBoard
    (by decide) 1 (by decide) (by decide!)).2.2 (by decide!)

theorem popcountll_nonneg (x : U64) : 0 ≤ popcountll x := by
  unfold popcountll
  exact Int.natCast_nonneg _

theorem popcountll_zero : popcountll 0 = 0 := by decide

theorem computePhase_range (x : Board) : 0 ≤ computePhase x ∧ computePhase x ≤ 24 := by
  have h1 := popcountll_nonneg x.wn
  have h2 := popcountll_nonneg x.bn
  have h3 := popcountll_nonneg x.wb
  have h4 := popcountll_nonneg x.bb
  have h5 := popcountll_nonneg x.wr
  have h6 := popcountll_nonneg x.br
  have h7 := popcountll_nonneg x.wq
  have h8 := popcountll_nonneg x.bq
  have e : MAX_PHASE = 24 := by decide
  unfold computePhase KNIGHT_PHASE BISHOP_PHASE ROOK_PHASE QUEEN_PHASE
  simp only [e]
  split_ifs <;> omega

theorem evaluate_phase_zero (pst : PieceSquareTables) (x : Board) (h : computePhase x = 0) :
    evaluate pst x = if x.mover = WHITE then (evalSums pst x).2 else -(evalSums pst x).2 := by
  have e : MAX_PHASE = 24 := by decide
  unfold evaluate
  simp only [h, e, mul_zero, zero_add, sub_zero]
  rw [Int.mul_tdiv_cancel _ (by decide)]

/-- C36: on the start position produced by `boardSetup`, `computePhase` returns
`0` (24 minus 4 knights, 4 bishops, twice 4 rooks and four times 2 queens), so
`evaluate` returns exactly the endgame sum `eg`, the middlegame sum `mg` having
weight zero (on every board with phase `0` the value is `eg`, negated for
Black); on every board `computePhase` lies in `0..24`, and it is `24`, its
largest value, when no knights, bishops, rooks or queens remain. -/
theorem computePhase_start (b : Board) :
    computePhase (boardSetup b) = 0 ∧
    24 - popcountll (boardSetup b).wn * 1 - popcountll (boardSetup b).bn * 1 -
      popcountll (boardSetup b).wb * 1 - popcountll (boardSetup b).bb * 1 -
      popcountll (boardSetup b).wr * 2 - popcountll (boardSetup b).br * 2 -
      popcountll (boardSetup b).wq * 4 - popcountll (boardSetup b).bq * 4 = 0 ∧
    (∀ pst : PieceSquareTables, evaluate pst (boardSetup b) = (evalSums pst (boardSetup b)).2) ∧
    (∀ (pst : PieceSquareTables) (x : Board), computePhase x = 0 →
      evaluate pst x = if x.mover = WHITE then (evalSums pst x).2 else -(evalSums pst x).2) ∧
    (∀ x : Board, 0 ≤ computePhase x ∧ computePhase x ≤ 24) ∧
    (∀ x : Board, x.wn = 0 → x.bn = 0 → x.wb = 0 → x.bb = 0 → x.wr = 0 → x.br = 0 →
      x.wq = 0 → x.bq = 0 → computePhase x = 24) := by
  rw [boardSetup_eq]
  have h0 : computePhase startBoard = 0 := by decide
  refine ⟨h0, by decide, fun pst => ?_, evaluate_phase_zero, computePhase_range, ?_⟩
  · rw [evaluate_phase_zero pst startBoard h0]
    rfl
  · intro x h1 h2 h3 h4 h5 h6 h7 h8
    unfold computePhase
    simp only [h1, h2, h3, h4, h5, h6, h7, h8, popcountll_zero]
    decide

theorem minimaxLoop_bound
    (child : Board → SearchTables → Int → Int → Option (Board × SearchTables × Int))
    (depth ply beta : Int) (l : List Move) :
    ∀ (board : Board) (t : SearchTables) (alpha : Int), alpha ≤ beta →
      ∀ r, minimaxLoop child depth ply beta l board t alpha = some r →
        alpha ≤ r.2.2 ∧ r.2.2 ≤ beta := by
  induction l with
  | nil =>
    intro board t alpha hab r hr
    unfold minimaxLoop at hr
    cases hr
    exact ⟨le_refl _, hab⟩
  | cons m rest ih =>
    intro board t alpha hab r hr
    unfold minimaxLoop at hr
    cases hc : child (applyMove board m).2.1 t (-beta) (-alpha) with
    | none => rw [hc] at hr; cases hr
    | some x =>
      rw [hc] at hr
      simp only [] at hr
      by_cases h1 : -x.2.2 ≥ beta
      · rw [if_pos h1] at hr
        split_ifs at hr <;> cases hr <;> exact ⟨hab, le_refl _⟩
      · rw [if_neg h1] at hr
        by_cases h2 : -x.2.2 > alpha
        · rw [if_pos h2] at hr
          have := ih _ _ _ (by omega) r hr
          omega
        · rw [if_neg h2] at hr
          exact ih _ _ _ hab r hr

theorem quiescenceLoop_congr {b : Board} (hw : WF b) (ho : OccupanciesConsistent b)
    (child1 child2 : Board → Int → Int → Option (Board × Int)) (beta : Int) (l : List Move) :
    (∀ m ∈ l, Reversible b m) →
    (∀ m ∈ l, isCapture b m = true → ∀ a be : Int,
      child1 (applyMove b m).2.1 a be = child2 (applyMove b m).2.1 a be ∧
        ∃ v, child1 (applyMove b m).2.1 a be = some ((applyMove b m).2.1, v)) →
    ∀ alpha sp : Int,
      quiescenceLoop child1 beta l b alpha sp = quiescenceLoop child2 beta l b alpha sp := by
  induction l with
  | nil => intro _ _ alpha sp; rfl
  | cons m rest ih =>
    intro hr hchild alpha sp
    have hm := hr m (List.mem_cons_self _ _)
    have ih2 := ih (fun x hx => hr x (List.mem_cons_of_mem _ hx))
      (fun x hx => hchild x (List.mem_cons_of_mem _ hx))
    unfold quiescenceLoop
    by_cases hc : isCapture b m = false
    · rw [if_pos hc, if_pos hc]
      exact ih2 alpha sp
    · rw [if_neg hc, if_neg hc]
      have hc2 : isCapture b m = true := by
        cases h : isCapture b m
        · exact absurd h hc
        · rfl
      obtain ⟨e, v, hv⟩ := hchild m (List.mem_cons_self _ _) hc2 (-beta) (-alpha)
      rw [← e, hv]
      simp only []
      rw [unmake_apply hw ho hm]
      split_ifs
      · rfl
      · exact ih2 _ _
      · exact ih2 _ _
      · exact ih2 _ _
      · exact ih2 _ _

theorem quiescence_fuel (pst : PieceSquareTables) (fuel1 : Nat) :
    ∀ (fuel2 : Nat) (b : Board), WF b → OccupanciesConsistent b → pieceCount b < fuel1 →
      pieceCount b < fuel2 →
      ∀ alpha beta : Int, quiescence pst fuel1 b alpha beta = quiescence pst fuel2 b alpha beta := by
  induction fuel1 with
  | zero => intro _ b _ _ h; exact absurd h (Nat.not_lt_zero _)
  | succ fuel1 ih =>
    intro fuel2 b hw ho h1 h2 alpha beta
    cases fuel2 with
    | zero => exact absurd h2 (Nat.not_lt_zero _)
    | succ fuel2 =>
      unfold quiescence
      by_cases hsp : evaluate pst b ≥ beta
      · rw [if_pos hsp, if_pos hsp]
      · rw [if_neg hsp, if_neg hsp, generateLegalMovesToArray_fst hw ho 256]
        apply quiescenceLoop_congr hw ho
        · exact fun m hm => generated_reversible hw ho (mem_generateLegalMovesToArray hw ho hm)
        · intro m hm hc a be
          have hg := mem_generateLegalMovesToArray hw ho hm
          have hr := generated_reversible hw ho hg
          have hlt := pieceCount_capture hw ho hg hc
          exact ⟨ih fuel2 _ (wf_applyMove hw hr) (occ_applyMove hr.2.2.2.1) (by omega) (by omega) a be,
            quiescence_total pst fuel1 _ (wf_applyMove hw hr) (occ_applyMove hr.2.2.2.1)
              (by omega) a be⟩

/-- C34: search terminates. For every board satisfying the data-model
invariants, every depth and all `alpha`, `beta`, `ply`, `minimax` returns a value
and leaves the board as it was; a call at depth `d + 1` with legal moves runs
its loop over calls at depth `d` and ply `ply + 1`, down to depth `0`, where the
value is that of `quiescence`; every recursive call of `quiescence` follows a
legal move onto an occupied square, which strictly lowers `popcount(occupied)`,
so that `quiescence` returns as soon as it is given more levels than there are
pieces on the board, with a result that does not depend on the levels given. -/
theorem minimax_terminates (pst : PieceSquareTables) (MVV_LVA : Int → Int → Int) (b : Board)
    (hinv : Invariants b) (depth : Nat) (t : SearchTables) (alpha beta ply : Int) :
    (∃ (t' : SearchTables) (v : Int),
      minimax pst MVV_LVA depth b t alpha beta ply = some (b, t', v)) ∧
    ((generateLegalMovesToArray b 512).2 ≠ [] →
      minimax pst MVV_LVA (depth + 1) b t alpha beta ply =
        minimaxLoop (fun b0 t0 a be => minimax pst MVV_LVA depth b0 t0 a be (ply + 1))
          ((depth + 1 : Nat) : Int) ply beta
          (orderMoves MVV_LVA t b (generateLegalMovesToArray b 512).2 ((depth + 1 : Nat) : Int))
          b t alpha) ∧
    (∃ v : Int, quiescence pst 65 b alpha beta = some (b, v) ∧
      minimax pst MVV_LVA 0 b t alpha beta ply = some (b, t, v)) ∧
    (∀ m ∈ (generateLegalMovesToArray b 256).2, isCapture b m = true →
      popcountll (applyMove b m).2.1.occupied < popcountll b.occupied) ∧
    popcountll b.occupied ≤ 64 ∧
    (∀ fuel : Nat, popcountll b.occupied < fuel →
      quiescence pst fuel b alpha beta = quiescence pst 65 b alpha beta) := by
  have hw := wf_of_invariants hinv
  have ho := hinv.2.2.1
  have h64 := pieceCount_le b
  refine ⟨minimax_total pst MVV_LVA depth b hw ho t alpha beta ply, ?_, ?_, ?_, ?_, ?_⟩
  · intro hne
    rw [minimax_succ, generateLegalMovesToArray_fst hw ho 512,
      if_neg (fun h => hne (List.length_eq_zero.mp h))]
  · obtain ⟨v, hv⟩ := quiescence_total pst 65 b hw ho (by omega) alpha beta
    refine ⟨v, hv, ?_⟩
    rw [minimax_zero, hv]
  · intro m hm hc
    have hlt := pieceCount_capture hw ho (mem_generateLegalMovesToArray hw ho hm) hc
    rw [popcountll_occupied, popcountll_occupied]
    exact Int.ofNat_lt.mpr hlt
  · rw [popcountll_occupied]
    exact Int.ofNat_le.mpr h64
  · intro fuel hf
    rw [popcountll_occupied] at hf
    exact quiescence_fuel pst fuel 65 b hw ho (Int.ofNat_lt.mp hf) (by omega) alpha beta

theorem minimax_terminates_witness :
    ∃ (t' : SearchTables) (v : Int),
      minimax flatTables flatMvvLva 3 startBoard emptySearchTables (-10000000) 10000000 1 =
        some (startBoard, t', v) :=
  (minimax_terminates flatTables flatMvvLva startBoard (by decide) 3 emptySearchTables
    (-10000000) 10000000 1).1

/-- C35: the fail-hard bound. For every board satisfying the invariants, every
depth `>= 1` and all `alpha < beta`, if the side to move has at least one legal
move, `minimax` returns a value `r` with `alpha <= r <= beta`. -/
theorem minimax_fail_hard (pst : PieceSquareTables) (MVV_LVA : Int → Int → Int) (b : Board)
    (hinv : Invariants b) (t : SearchTables) (depth : Nat) (alpha beta ply : Int) (hd : 1 ≤ depth)
    (hab : alpha < beta) (hne : (generateLegalMovesToArray b 512).2 ≠ []) :
    ∃ (t' : SearchTables) (r : Int),
      minimax pst MVV_LVA depth b t alpha beta ply = some (b, t', r) ∧ alpha ≤ r ∧ r ≤ beta := by
  have hw := wf_of_invariants hinv
  have ho := hinv.2.2.1
  obtain ⟨t', r, hr⟩ := minimax_total pst MVV_LVA depth b hw ho t alpha beta ply
  refine ⟨t', r, hr, ?_⟩
  obtain ⟨d, rfl⟩ : ∃ d, depth = d + 1 := ⟨depth - 1, by omega⟩
  rw [minimax_succ, if_neg (fun h => hne (List.length_eq_zero.mp h))] at hr
  exact minimaxLoop_bound _ _ _ _ _ _ _ _ (le_of_lt hab) _ hr

theorem minimax_fail_hard_witness :
    ∃ (t' : SearchTables) (r : Int),
      minimax flatTables flatMvvLva 1 cornerKingBoard emptySearchTables (-50) 50 1 =
        some (cornerKingBoard, t', r) ∧ -50 ≤ r ∧ r ≤ 50 :=
  minimax_fail_hard flatTables flatMvvLva cornerKingBoard (by decide) emptySearchTables 1 (-50) 50
    1 (by decide) (by decide) (by decide!)

theorem forEachBit_eq_foldl {α : Type} (body : Int → α → α) (fuel : Nat) :
    ∀ (t : U64) (acc : α),
      forEachBit body fuel t acc = (bitSquares fuel t).foldl (fun a sq => body sq a) acc := by
  induction fuel with
  | zero => intro t acc; rfl
  | succ k ih =>
    intro t acc
    unfold forEachBit bitSquares
    by_cases h0 : t = 0
    · rw [if_pos h0, if_pos h0]; rfl
    · rw [if_neg h0, if_neg h0, ih]; rfl

theorem testBit_and_pred (fuel : Nat) :
    ∀ x : Nat, x ≠ 0 → x < 2 ^ fuel → ∀ i : Nat,
      (x &&& (x - 1)).testBit i = (x.testBit i && decide (i ≠ ctzFuel fuel x)) := by
  induction fuel with
  | zero => intro x h0 h1; simp at h1; exact absurd h1 h0
  | succ k ih =>
    intro x h0 h1 i
    unfold ctzFuel
    by_cases hodd : x % 2 = 1
    · rw [if_pos hodd]
      obtain ⟨y, rfl⟩ : ∃ y, x = 2 * y + 1 := ⟨x / 2, by omega⟩
      rw [and_pred_odd]
      cases i with
      | zero => simp [Nat.testBit_zero]
      | succ j =>
        have e1 : (2 * y + 1) / 2 = y := by omega
        have e2 : (2 * y) / 2 = y := by omega
        simp [Nat.testBit_succ, e1, e2]
    · rw [if_neg hodd]
      obtain ⟨y, rfl⟩ : ∃ y, x = 2 * y := ⟨x / 2, by omega⟩
      have hy : 0 < y := by omega
      have hy2 : y < 2 ^ k := by
        rw [pow_succ] at h1
        omega
      rw [and_pred_even y hy]
      have e0 : 2 * y / 2 = y := by omega
      rw [e0]
      cases i with
      | zero =>
        have e : (2 * y) % 2 = 0 := by omega
        have e2 : (2 * (y &&& (y - 1))) % 2 = 0 := by omega
        simp [Nat.testBit_zero, e, e2]
      | succ j =>
        have e1 : (2 * y) / 2 = y := by omega
        have e2 : (2 * (y &&& (y - 1))) / 2 = y &&& (y - 1) := by omega
        simp only [Nat.testBit_succ, e1, e2]
        rw [ih y (by omega) hy2 j]
        simp

theorem ctzFuel_min (fuel : Nat) : ∀ (x i : Nat), x.testBit i = true → ctzFuel fuel x ≤ i := by
  induction fuel with
  | zero => intro x i _; exact Nat.zero_le _
  | succ k ih =>
    intro x i h
    unfold ctzFuel
    by_cases hodd : x % 2 = 1
    · rw [if_pos hodd]; exact Nat.zero_le _
    · rw [if_neg hodd]
      cases i with
      | zero =>
        rw [Nat.testBit_zero] at h
        simp at h
        exact absurd h hodd
      | succ j =>
        rw [Nat.testBit_succ] at h
        have := ih _ _ h
        omega

theorem ctzll_min (t : Nat) {i : Nat} (h : t.testBit i = true) : (ctzll t).toNat ≤ i := by
  unfold ctzll
  simp only [Int.toNat_ofNat]
  exact ctzFuel_min 64 t i h

theorem testBit_pop_lsb {t : Nat} (h0 : t ≠ 0) (h1 : t < 2 ^ 64) (i : Nat) :
    (pop_lsb t).2.testBit i = (t.testBit i && decide (i ≠ (ctzll t).toNat)) := by
  unfold pop_lsb ctzll
  simp only [Int.toNat_ofNat]
  exact testBit_and_pred 64 t h0 h1 i

theorem pop_lsb_lt {t : Nat} (h1 : t < 2 ^ 64) : (pop_lsb t).2 < 2 ^ 64 :=
  lt_of_le_of_lt Nat.and_le_left h1

theorem mem_bitSquares (fuel : Nat) :
    ∀ (t : Nat), t < 2 ^ 64 → ∀ sq : Int, sq ∈ bitSquares fuel t →
      InRange sq ∧ t.testBit sq.toNat = true := by
  induction fuel with
  | zero => intro t _ sq h; exact absurd h (List.not_mem_nil sq)
  | succ k ih =>
    intro t ht sq h
    unfold bitSquares at h
    by_cases h0 : t = 0
    · rw [if_pos h0] at h; exact absurd h (List.not_mem_nil sq)
    · rw [if_neg h0] at h
      rcases List.mem_cons.mp h with rfl | h
      · exact ctzll_spec h0 ht
      · obtain ⟨r1, r2⟩ := ih _ (pop_lsb_lt ht) sq h
        rw [testBit_pop_lsb h0 ht] at r2
        simp only [Bool.and_eq_true] at r2
        exact ⟨r1, r2.1⟩

theorem nodup_bitSquares (fuel : Nat) : ∀ (t : Nat), t < 2 ^ 64 → (bitSquares fuel t).Nodup := by
  induction fuel with
  | zero => intro t _; exact List.nodup_nil
  | succ k ih =>
    intro t ht
    unfold bitSquares
    by_cases h0 : t = 0
    · rw [if_pos h0]; exact List.nodup_nil
    · rw [if_neg h0]
      refine List.nodup_cons.mpr ⟨?_, ih _ (pop_lsb_lt ht)⟩
      intro h
      have r := (mem_bitSquares k _ (pop_lsb_lt ht) _ h).2
      rw [testBit_pop_lsb h0 ht] at r
      simp [pop_lsb] at r

theorem bitSquares_complete (fuel : Nat) :
    ∀ (k : Nat) (t : Nat), k + fuel = 64 → t < 2 ^ 64 → (∀ i, i < k → t.testBit i = false) →
      ∀ sq : Int, InRange sq → t.testBit sq.toNat = true → sq ∈ bitSquares fuel t := by
  induction fuel with
  | zero =>
    intro k t hk ht hlow sq hs hb
    have h64 := toNat_lt hs
    rw [hlow sq.toNat (by omega)] at hb
    cases hb
  | succ f ih =>
    intro k t hk ht hlow sq hs hb
    unfold bitSquares
    have h0 : t ≠ 0 := by
      intro e
      rw [e] at hb
      simp at hb
    rw [if_neg h0]
    obtain ⟨c1, c2⟩ := ctzll_spec h0 ht
    by_cases e : sq = (pop_lsb t).1
    · rw [e]; exact List.mem_cons_self _ _
    · apply List.mem_cons_of_mem
      have hne : sq.toNat ≠ (ctzll t).toNat := by
        intro h
        apply e
        show sq = ctzll t
        have := hs.1
        have := c1.1
        omega
      have hck : k ≤ (ctzll t).toNat := by
        by_contra hlt
        rw [hlow _ (by omega)] at c2
        cases c2
      apply ih (k + 1) _ (by omega) (pop_lsb_lt ht)
      · intro i hi
        rw [testBit_pop_lsb h0 ht]
        cases hb2 : t.testBit i
        · rfl
        · have hmin := ctzll_min t hb2
          have hc : i = (ctzll t).toNat := by omega
          simp [hc]
      · exact hs
      · rw [testBit_pop_lsb h0 ht, hb]
        simp [hne]

theorem foldl_sub_pair (f g : Int → Int) (l : List Int) :
    ∀ acc : Int × Int,
      l.foldl (fun a sq => (a.1 - f sq, a.2 - g sq)) acc =
        (acc.1 - (l.map f).sum, acc.2 - (l.map g).sum) := by
  induction l with
  | nil => intro acc; simp
  | cons x l ih =>
    intro acc
    rw [List.foldl_cons, ih]
    simp only [List.map_cons, List.sum_cons, Prod.mk.injEq]
    constructor <;> ring

theorem subMaterial_eq (tmp : U64) (value : Int) (mgTable egTable : Int → Int → Int)
    (acc : Int × Int) :
    subMaterial tmp value mgTable egTable acc =
      (acc.1 - pieceTerms tmp value mgTable, acc.2 - pieceTerms tmp value egTable) := by
  unfold subMaterial pieceTerms
  rw [forEachBit_eq_foldl]
  exact foldl_sub_pair _ _ _ _

theorem bitSquares_spec {x : Nat} (hx : x < 2 ^ 64) :
    (bitSquares 64 x).Nodup ∧
      ∀ sq : Int, sq ∈ bitSquares 64 x ↔ InRange sq ∧ x.testBit sq.toNat = true :=
  ⟨nodup_bitSquares 64 x hx, fun sq =>
    ⟨mem_bitSquares 64 x hx sq, fun h =>
      bitSquares_complete 64 0 x rfl hx (fun i hi => absurd hi (Nat.not_lt_zero i)) sq h.1 h.2⟩⟩

/-- C32 (as stated, refuted): with piece-square tables that are zero except
`PST_KING_END = 7`, the black king alone on e8 subtracts `20000` from `mg` and
`20007` from `eg`: for the king the two amounts differ. -/
theorem evalMaterial_black_king :
    evalMaterial kingEndTables blackKingBoard = (-20000, -20007) ∧
      subMaterial blackKingBoard.bk 20000 kingEndTables.PST_KING_MID kingEndTables.PST_KING_END
        (0, 0) = (-20000, -20007) := by
  decide

/-- C32 (amended): in `evaluate`, every black piece class except the king
(pawn, knight, bishop, rook, queen) subtracts, for each piece on `(r, f)`, its
material value plus the middlegame table entry from both accumulators, for any
contents of the piece-square tables; the black king subtracts
`20000 + PST_KING_MID[r][f]` from `mg` and `20000 + PST_KING_END[r][f]` from
`eg`. The squares summed over are, each once, the squares set in the
bitboard. -/
theorem evalMaterial_black (pst : PieceSquareTables) (b : Board) :
    evalMaterial pst b =
      ((whiteMaterial pst b).1 - pieceTerms b.bp 100 pst.PST_PAWN -
          pieceTerms b.bn 300 pst.PST_KNIGHT - pieceTerms b.bb 300 pst.PST_BISHOP -
          pieceTerms b.br 500 pst.PST_ROOK - pieceTerms b.bq 900 pst.PST_QUEEN -
          pieceTerms b.bk 20000 pst.PST_KING_MID,
        (whiteMaterial pst b).2 - pieceTerms b.bp 100 pst.PST_PAWN -
          pieceTerms b.bn 300 pst.PST_KNIGHT - pieceTerms b.bb 300 pst.PST_BISHOP -
          pieceTerms b.br 500 pst.PST_ROOK - pieceTerms b.bq 900 pst.PST_QUEEN -
          pieceTerms b.bk 20000 pst.PST_KING_END) ∧
    (∀ x : U64, x < 2 ^ 64 → (bitSquares 64 x).Nodup ∧
      ∀ sq : Int, sq ∈ bitSquares 64 x ↔ InRange sq ∧ x.testBit sq.toNat = true) := by
  refine ⟨?_, fun x hx => bitSquares_spec hx⟩
  unfold evalMaterial
  simp only [subMaterial_eq]
  rfl

theorem scoreClass_cons (s : Int) (x : Move) (l : List Move) :
    scoreClass s (x :: l) = if x.score = s then x :: scoreClass s l else scoreClass s l := by
  unfold scoreClass
  rw [List.filter_cons]
  by_cases h : x.score = s
  · rw [if_pos h, if_pos (decide_eq_true h)]
  · rw [if_neg h, if_neg (by simpa using h)]

theorem noGreaterAfter_cons (s : Int) (x : Move) (l : List Move) :
    noGreaterAfter s (x :: l) =
      if x.score = s then l.all (fun y => decide (y.score ≤ s)) else noGreaterAfter s l := rfl

theorem all_le_iff (s : Int) (l : List Move) :
    l.all (fun y => decide (y.score ≤ s)) = true ↔ ∀ y ∈ l, y.score ≤ s := by
  simp [List.all_eq_true]

theorem noGreaterAfter_of_all {s : Int} {l : List Move} (h : ∀ y ∈ l, y.score ≤ s) :
    noGreaterAfter s l = true := by
  induction l with
  | nil => rfl
  | cons x l ih =>
    rw [noGreaterAfter_cons]
    have hl : ∀ y ∈ l, y.score ≤ s := fun y hy => h y (List.mem_cons_of_mem x hy)
    split_ifs
    · exact (all_le_iff s l).mpr hl
    · exact ih hl

theorem orderInner_mem (rest : List Move) (cur : Move) {y : Move}
    (h : y ∈ (orderInner cur rest).2) : y ∈ cur :: rest :=
  (orderInner_perm rest cur).mem_iff.mp (List.mem_cons_of_mem _ h)

theorem orderInner_class (s : Int) (rest : List Move) :
    ∀ cur : Move, noGreaterAfter s (cur :: rest) = true →
      scoreClass s ((orderInner cur rest).1 :: (orderInner cur rest).2) =
          scoreClass s (cur :: rest) ∧
        noGreaterAfter s (orderInner cur rest).2 = true := by
  induction rest with
  | nil =>
    intro cur _
    exact ⟨rfl, rfl⟩
  | cons x rest ih =>
    intro cur h
    rw [noGreaterAfter_cons] at h
    by_cases hcs : cur.score = s
    · rw [if_pos hcs] at h
      have hall := (all_le_iff s _).mp h
      have hid := orderInner_sorted_id (x :: rest) cur (fun y hy => by rw [hcs]; exact hall y hy)
      rw [hid]
      exact ⟨rfl, noGreaterAfter_of_all hall⟩
    · rw [if_neg hcs] at h
      unfold orderInner
      by_cases hsw : x.score > cur.score
      · rw [if_pos hsw]
        obtain ⟨i1, i2⟩ := ih x h
        simp only []
        constructor
        · rw [scoreClass_cons] at i1 ⊢
          rw [scoreClass_cons s cur, if_neg hcs, scoreClass_cons s cur, if_neg hcs]
          rw [scoreClass_cons s x]
          rw [scoreClass_cons s x] at i1
          exact i1
        · rw [noGreaterAfter_cons, if_neg hcs]
          exact i2
      · rw [if_neg hsw]
        simp only []
        rw [noGreaterAfter_cons] at h
        by_cases hxs : x.score = s
        · rw [if_pos hxs] at h
          have hall := (all_le_iff s _).mp h
          have hlt : s < cur.score := by
            have : cur.score ≠ s := hcs
            omega
          have hid := orderInner_sorted_id rest cur (fun y hy => by have := hall y hy; omega)
          rw [hid]
          exact ⟨rfl, by rw [noGreaterAfter_cons, if_pos hxs]; exact h⟩
        · rw [if_neg hxs] at h
          have hcr : noGreaterAfter s (cur :: rest) = true := by
            rw [noGreaterAfter_cons, if_neg hcs]; exact h
          obtain ⟨i1, i2⟩ := ih cur hcr
          constructor
          · rw [scoreClass_cons] at i1 ⊢
            rw [scoreClass_cons s x, if_neg hxs, scoreClass_cons s cur, scoreClass_cons s x,
              if_neg hxs]
            rw [scoreClass_cons s cur] at i1
            exact i1
          · rw [noGreaterAfter_cons, if_neg hxs]
            exact i2

theorem orderOuter_class (s : Int) (k : Nat) :
    ∀ l : List Move, noGreaterAfter s l = true → scoreClass s (orderOuter k l) = scoreClass s l := by
  induction k with
  | zero => intro l _; rfl
  | succ k ih =>
    intro l h
    cases l with
    | nil => rfl
    | cons cur rest =>
      show scoreClass s ((orderInner cur rest).1 :: orderOuter k (orderInner cur rest).2) =
        scoreClass s (cur :: rest)
      obtain ⟨i1, i2⟩ := orderInner_class s rest cur h
      rw [← i1, scoreClass_cons, scoreClass_cons, ih _ i2]

/-- C31 (as stated, refuted): in the position after 1. e4 d5, on the array
a2a3, a2a4, e4xd5 the two pawn moves both score `0` and the capture scores
`8000000`; `orderMoves` exchanges a2a3 with the capture, so that a2a3 ends up
behind a2a4. -/
theorem orderMoves_not_stable :
    orderMoves flatMvvLva emptySearchTables exchangeBoard
        [⟨8, 16, 0, 0⟩, ⟨8, 24, 0, 0⟩, ⟨28, 35, 0, 0⟩] 1 =
      [⟨28, 35, 0, 8000000⟩, ⟨8, 24, 0, 0⟩, ⟨8, 16, 0, 0⟩] := by
  decide

/-- C31 (amended): `orderMoves` keeps the relative order of the moves that
receive the same score `s` whenever no move that comes after the first move of
score `s` in the input has a score greater than `s`: the moves of score `s` of
the output are those of the input, in the same order. This holds in
particular for the moves of the greatest score. -/
theorem orderMoves_stable_class (MVV_LVA : Int → Int → Int) (t : SearchTables) (b : Board)
    (moves : List Move) (depth s : Int)
    (h : noGreaterAfter s (scoreMoves MVV_LVA t b moves depth) = true) :
    scoreClass s (orderMoves MVV_LVA t b moves depth) =
        scoreClass s (scoreMoves MVV_LVA t b moves depth) ∧
      ((∀ m ∈ moves, scoreMove MVV_LVA t b m depth ≤ s) →
        noGreaterAfter s (scoreMoves MVV_LVA t b moves depth) = true) := by
  refine ⟨orderOuter_class s _ _ h, fun hmax => noGreaterAfter_of_all ?_⟩
  intro y hy
  obtain ⟨m, hm, rfl⟩ := mem_scoreMoves hy
  exact hmax m hm

theorem orderMoves_stable_class_witness :
    scoreClass 0 (orderMoves flatMvvLva emptySearchTables exchangeBoard
        [⟨28, 35, 0, 0⟩, ⟨8, 16, 0, 0⟩, ⟨8, 24, 0, 0⟩] 1) =
      [⟨8, 16, 0, 0⟩, ⟨8, 24, 0, 0⟩] := by
  have h := (orderMoves_stable_class flatMvvLva emptySearchTables exchangeBoard
    [⟨28, 35, 0, 0⟩, ⟨8, 16, 0, 0⟩, ⟨8, 24, 0, 0⟩] 1 0 (by decide)).1
  rw [h]
  decide

theorem promoCount_addMove (f t p : Int) (mL : List Move) (a t0 q : Int) :
    promoCount f t p (addMoveToListFromTo mL a t0 q) =
      promoCount f t p mL + (if a = f ∧ t0 = t ∧ q = p then 1 else 0) := by
  unfold promoCount addMoveToListFromTo addMove
  rw [List.countP_append]
  congr 1
  by_cases h : a = f ∧ t0 = t ∧ q = p
  · rw [if_pos h]
    simp [List.countP_cons, h]
  · rw [if_neg h]
    simp [List.countP_cons, h]

theorem promoCount_addMove_zero {f t p : Int} (hp : p ≠ 0) (mL : List Move) (a t0 : Int) :
    promoCount f t p (addMoveToListFromTo mL a t0 0) = promoCount f t p mL := by
  rw [promoCount_addMove, if_neg (fun h => hp h.2.2.symm)]
  rfl

theorem promoCount_addPromotions {f t p : Int} (hp : p = 2 ∨ p = 3 ∨ p = 4 ∨ p = 5)
    (mL : List Move) (a t0 : Int) :
    promoCount f t p (addPromotions mL a t0) =
      promoCount f t p mL + (if a = f ∧ t0 = t then 1 else 0) := by
  unfold addPromotions
  simp only [List.foldl, promoCount_addMove]
  by_cases h : a = f ∧ t0 = t
  · obtain ⟨h1, h2⟩ := h
    rcases hp with rfl | rfl | rfl | rfl <;> simp [h1, h2]
  · rw [if_neg h]
    have e : ∀ q : Int, ¬ (a = f ∧ t0 = t ∧ q = p) := fun q k => h ⟨k.1, k.2.1⟩
    simp only [e, if_false, add_zero]

theorem promoCount_forEachBit {f t p : Int} {g : Int → List Move → List Move}
    (hg : ∀ sq acc, promoCount f t p (g sq acc) = promoCount f t p acc) (fuel : Nat) :
    ∀ (x : U64) (acc : List Move),
      promoCount f t p (forEachBit g fuel x acc) = promoCount f t p acc := by
  induction fuel with
  | zero => intro x acc; rfl
  | succ k ih =>
    intro x acc
    unfold forEachBit
    split_ifs
    · rfl
    · rw [ih, hg]

theorem promoCount_knightMoves {f t p : Int} (hp : p ≠ 0) (b : Board) (sq : Int)
    (mL : List Move) : promoCount f t p (knightMoves b mL sq) = promoCount f t p mL := by
  unfold knightMoves
  simp only []
  split_ifs <;>
    first
    | rfl
    | exact promoCount_forEachBit (fun _ _ => promoCount_addMove_zero hp _ _ _) _ _ _

theorem promoCount_slideWalk {f t p : Int} (hp : p ≠ 0) (b : Board) (sq c dr df : Int)
    (fuel : Nat) :
    ∀ (r fl : Int) (mL res : List Move), slideWalk b sq c dr df fuel r fl mL = some res →
      promoCount f t p res = promoCount f t p mL := by
  induction fuel with
  | zero => intro r fl mL res h; cases h
  | succ k ih =>
    intro r fl mL res h
    unfold slideWalk at h
    split_ifs at h
    · rw [ih _ _ _ _ h, promoCount_addMove_zero hp]
    · cases h; exact promoCount_addMove_zero hp _ _ _
    · cases h; rfl
    · cases h; rfl

theorem promoCount_slidingMoves {f t p : Int} (hp : p ≠ 0) (b : Board) (sq : Int)
    (directions : List (Int × Int)) (dirCount : Nat) (mL : List Move) :
    promoCount f t p (slidingMoves b mL sq directions dirCount) = promoCount f t p mL := by
  unfold slidingMoves
  split_ifs
  · rfl
  · generalize directions.take dirCount = ds
    induction ds generalizing mL with
    | nil => rfl
    | cons d ds ih =>
      rw [List.foldl_cons, ih]
      cases hs : slideWalk b sq (Int.land (findPieceCodeAt b sq) COLOR_MASK) d.1 d.2 8
          (rankOf sq) (fileOf sq) mL with
      | none => rfl
      | some res => exact promoCount_slideWalk hp b sq _ _ _ 8 _ _ _ _ hs

theorem promoCount_bishopMoves {f t p : Int} (hp : p ≠ 0) (b : Board) (sq : Int)
    (mL : List Move) : promoCount f t p (bishopMoves b mL sq) = promoCount f t p mL :=
  promoCount_slidingMoves hp b sq _ _ mL

theorem promoCount_rookMoves {f t p : Int} (hp : p ≠ 0) (b : Board) (sq : Int)
    (mL : List Move) : promoCount f t p (rookMoves b mL sq) = promoCount f t p mL :=
  promoCount_slidingMoves hp b sq _ _ mL

theorem promoCount_queenMoves {f t p : Int} (hp : p ≠ 0) (b : Board) (sq : Int)
    (mL : List Move) : promoCount f t p (queenMoves b mL sq) = promoCount f t p mL := by
  unfold queenMoves rookMoves bishopMoves
  rw [promoCount_slidingMoves hp, promoCount_slidingMoves hp]

theorem promoCount_whiteCastling {f t p : Int} (hp : p ≠ 0) (b : Board) (sq : Int)
    (mL : List Move) : promoCount f t p (whiteCastling b mL sq) = promoCount f t p mL := by
  unfold whiteCastling
  simp only []
  split_ifs <;> simp only [promoCount_addMove_zero hp]

theorem promoCount_blackCastling {f t p : Int} (hp : p ≠ 0) (b : Board) (sq : Int)
    (mL : List Move) : promoCount f t p (blackCastling b mL sq) = promoCount f t p mL := by
  unfold blackCastling
  simp only []
  split_ifs <;> simp only [promoCount_addMove_zero hp]

theorem promoCount_kingMoves {f t p : Int} (hp : p ≠ 0) (b : Board) (sq : Int)
    (mL : List Move) : promoCount f t p (kingMoves b mL sq) = promoCount f t p mL := by
  unfold kingMoves
  simp only []
  have e : ∀ (x : U64) (acc : List Move),
      promoCount f t p (forEachBit (fun toSq acc => addMoveToListFromTo acc sq toSq 0) 64 x acc) =
        promoCount f t p acc :=
    promoCount_forEachBit (fun _ _ => promoCount_addMove_zero hp _ _ _) 64
  split_ifs <;>
    simp only [promoCount_blackCastling hp, promoCount_whiteCastling hp, e]

theorem promoCount_pawnPushes (f t : Int) (b : Board) (mL : List Move) (sq c : Int) :
    ∃ e : Nat, e ≤ 1 ∧
      (e = 0 ∨ (sq = f ∧
        t = sq_index (rankOf sq + (if c = WHITE then 1 else -1)) (fileOf sq))) ∧
      ∀ p : Int, (p = 2 ∨ p = 3 ∨ p = 4 ∨ p = 5) →
        promoCount f t p (pawnPushes b mL sq c) = promoCount f t p mL + e := by
  unfold pawnPushes
  simp only []
  generalize (if c = WHITE then (1 : Int) else -1) = dir
  generalize (if c = WHITE then (1 : Int) else 6) = startRank
  generalize (if c = WHITE then (7 : Int) else 0) = promotionRank
  have hz : ∀ p : Int, (p = 2 ∨ p = 3 ∨ p = 4 ∨ p = 5) → p ≠ 0 := by
    intro p hp; omega
  by_cases h1 : insideFileRank (rankOf sq + dir) (fileOf sq) = true ∧
      ¬ (b.occupied &&& bit (sq_index (rankOf sq + dir) (fileOf sq)) ≠ 0)
  · rw [if_pos h1]
    by_cases h2 : rankOf sq + dir = promotionRank
    · rw [if_pos h2]
      by_cases h3 : sq = f ∧ sq_index (rankOf sq + dir) (fileOf sq) = t
      · refine ⟨1, le_refl _, Or.inr ⟨h3.1, h3.2.symm⟩, fun p hp => ?_⟩
        split_ifs <;>
          simp only [promoCount_addMove_zero (hz p hp), promoCount_addPromotions hp, if_pos h3]
      · refine ⟨0, Nat.zero_le _, Or.inl rfl, fun p hp => ?_⟩
        split_ifs <;>
          simp only [promoCount_addMove_zero (hz p hp), promoCount_addPromotions hp, if_neg h3]
    · rw [if_neg h2]
      refine ⟨0, Nat.zero_le _, Or.inl rfl, fun p hp => ?_⟩
      split_ifs <;> simp only [promoCount_addMove_zero (hz p hp), add_zero]
  · rw [if_neg h1]
    exact ⟨0, Nat.zero_le _, Or.inl rfl, fun p _ => rfl⟩

theorem promoCount_pawnCapture (f t : Int) (b : Board) (mL : List Move) (sq c df : Int) :
    ∃ e : Nat, e ≤ 1 ∧
      (e = 0 ∨ (sq = f ∧
        t = sq_index (rankOf sq + (if c = WHITE then 1 else -1)) (fileOf sq + df))) ∧
      ∀ p : Int, (p = 2 ∨ p = 3 ∨ p = 4 ∨ p = 5) →
        promoCount f t p (pawnCapture b sq c mL df) = promoCount f t p mL + e := by
  unfold pawnCapture
  simp only []
  generalize (if c = WHITE then (1 : Int) else -1) = dir
  generalize (if c = WHITE then (7 : Int) else 0) = promotionRank
  have hz : ∀ p : Int, (p = 2 ∨ p = 3 ∨ p = 4 ∨ p = 5) → p ≠ 0 := by
    intro p hp; omega
  by_cases h1 : ¬ insideFileRank (rankOf sq + dir) (fileOf sq + df) = true
  · rw [if_pos h1]
    exact ⟨0, Nat.zero_le _, Or.inl rfl, fun p _ => rfl⟩
  · rw [if_neg h1]
    by_cases h2 : findPieceCodeAt b (sq_index (rankOf sq + dir) (fileOf sq + df)) ≠ 0
    · rw [if_pos h2]
      by_cases h3 : Int.land (findPieceCodeAt b (sq_index (rankOf sq + dir) (fileOf sq + df)))
          COLOR_MASK ≠ c
      · rw [if_pos h3]
        by_cases h4 : rankOf sq + dir = promotionRank
        · rw [if_pos h4]
          by_cases h5 : sq = f ∧ sq_index (rankOf sq + dir) (fileOf sq + df) = t
          · refine ⟨1, le_refl _, Or.inr ⟨h5.1, h5.2.symm⟩, fun p hp => ?_⟩
            rw [promoCount_addPromotions hp, if_pos h5]
          · refine ⟨0, Nat.zero_le _, Or.inl rfl, fun p hp => ?_⟩
            rw [promoCount_addPromotions hp, if_neg h5]
        · rw [if_neg h4]
          exact ⟨0, Nat.zero_le _, Or.inl rfl, fun p hp => promoCount_addMove_zero (hz p hp) _ _ _⟩
      · rw [if_neg h3]
        exact ⟨0, Nat.zero_le _, Or.inl rfl, fun p _ => rfl⟩
    · rw [if_neg h2]
      refine ⟨0, Nat.zero_le _, Or.inl rfl, fun p hp => ?_⟩
      split_ifs <;> simp only [promoCount_addMove_zero (hz p hp), add_zero]

theorem promoCount_pawnMoves (f t : Int) (b : Board) (mL : List Move) (sq : Int) :
    ∃ e : Nat, e ≤ 1 ∧ (e = 0 ∨ sq = f) ∧
      ∀ p : Int, (p = 2 ∨ p = 3 ∨ p = 4 ∨ p = 5) →
        promoCount f t p (pawnMoves b mL sq) = promoCount f t p mL + e := by
  unfold pawnMoves
  simp only [List.foldl]
  generalize (if b.wp &&& bit sq ≠ 0 then WHITE else if b.bp &&& bit sq ≠ 0 then BLACK else -1) = c
  by_cases hc : c = -1
  · rw [if_pos hc]
    exact ⟨0, Nat.zero_le _, Or.inl rfl, fun p _ => rfl⟩
  · rw [if_neg hc]
    obtain ⟨e1, a1, b1, c1⟩ := promoCount_pawnPushes f t b mL sq c
    obtain ⟨e2, a2, b2, c2⟩ := promoCount_pawnCapture f t b (pawnPushes b mL sq c) sq c (-1)
    obtain ⟨e3, a3, b3, c3⟩ := promoCount_pawnCapture f t b
      (pawnCapture b sq c (pawnPushes b mL sq c) (-1)) sq c 1
    refine ⟨e1 + e2 + e3, ?_, ?_, fun p hp => ?_⟩
    · unfold sq_index at b1 b2 b3
      rcases b1 with b1 | b1 <;> rcases b2 with b2 | b2 <;> rcases b3 with b3 | b3 <;> omega
    · rcases b1 with b1 | b1
      · rcases b2 with b2 | b2
        · rcases b3 with b3 | b3
          · exact Or.inl (by omega)
          · exact Or.inr b3.1
        · exact Or.inr b2.1
      · exact Or.inr b1.1
    · rw [c3 p hp, c2 p hp, c1 p hp]
      omega

theorem promoCount_pawnLoop (f t : Int) (b : Board) (l : List Int) :
    l.Nodup → ∀ acc : List Move,
      ∃ e : Nat, e ≤ 1 ∧ (e = 0 ∨ f ∈ l) ∧
        ∀ p : Int, (p = 2 ∨ p = 3 ∨ p = 4 ∨ p = 5) →
          promoCount f t p (l.foldl (fun a sq => pawnMoves b a sq) acc) =
            promoCount f t p acc + e := by
  induction l with
  | nil => intro _ acc; exact ⟨0, Nat.zero_le _, Or.inl rfl, fun p _ => rfl⟩
  | cons sq rest ih =>
    intro hnd acc
    obtain ⟨hnot, hrest⟩ := List.nodup_cons.mp hnd
    obtain ⟨e1, a1, b1, c1⟩ := promoCount_pawnMoves f t b acc sq
    obtain ⟨e2, a2, b2, c2⟩ := ih hrest (pawnMoves b acc sq)
    refine ⟨e1 + e2, ?_, ?_, fun p hp => ?_⟩
    · rcases b1 with b1 | b1
      · omega
      · rcases b2 with b2 | b2
        · omega
        · rw [b1] at hnot
          exact absurd b2 hnot
    · rcases b1 with b1 | b1
      · rcases b2 with b2 | b2
        · exact Or.inl (by omega)
        · exact Or.inr (List.mem_cons_of_mem _ b2)
      · exact Or.inr (b1 ▸ List.mem_cons_self _ _)
    · rw [List.foldl_cons, c2 p hp, c1 p hp]
      omega

theorem promoCount_generateMoves (f t : Int) {b : Board} (hb : Bounded b) :
    ∃ e : Nat, e ≤ 1 ∧
      ∀ p : Int, (p = 2 ∨ p = 3 ∨ p = 4 ∨ p = 5) →
        promoCount f t p (generateMoves b []).2 = e := by
  obtain ⟨b1, b2, b3, b4, b5, b6, b7, b8, b9, b10, b11, b12⟩ := bounded_updateOccupancies hb
  have hlt : (if (updateOccupancies b).mover = WHITE then (updateOccupancies b).wp
      else (updateOccupancies b).bp) < 2 ^ 64 := by
    split_ifs
    · exact b1
    · exact b7
  obtain ⟨e, a1, -, c1⟩ := promoCount_pawnLoop f t (updateOccupancies b)
    (bitSquares 64 (if (updateOccupancies b).mover = WHITE then (updateOccupancies b).wp
      else (updateOccupancies b).bp))
    (nodup_bitSquares 64 _ hlt) []
  refine ⟨e, a1, fun p hp => ?_⟩
  have hz : p ≠ 0 := by omega
  have hc := c1 p hp
  rw [← forEachBit_eq_foldl] at hc
  unfold generateMoves
  simp only []
  rw [promoCount_forEachBit (fun sq acc => promoCount_kingMoves hz _ sq acc),
    promoCount_forEachBit (fun sq acc => promoCount_queenMoves hz _ sq acc),
    promoCount_forEachBit (fun sq acc => promoCount_rookMoves hz _ sq acc),
    promoCount_forEachBit (fun sq acc => promoCount_bishopMoves hz _ sq acc),
    promoCount_forEachBit (fun sq acc => promoCount_knightMoves hz _ sq acc), hc]
  exact Nat.zero_add e

theorem pawnGen_promotion {b : Board} (hep : EnPassantConsistent b) {sq c : Int} {m : Move}
    (h : PawnGen b sq c m) :
    (c = WHITE → (m.promotionPiece ≠ 0 ↔ rankOf m.to_ = 7)) ∧
      (c = BLACK → (m.promotionPiece ≠ 0 ↔ rankOf m.to_ = 0)) := by
  have hepr : ∀ x : Int, b.enPassantSquare = x → rankOf x ≠ 7 ∧ rankOf x ≠ 0 := by
    clear h
    intro x hx
    unfold EnPassantConsistent at hep
    rw [rankOf_eq]
    omega
  obtain ⟨-, -, h⟩ := h
  constructor
  · intro hc
    subst hc
    simp only [if_true] at h
    rcases h with ⟨e, hin, -, k⟩ | ⟨e, hr, hin, -, -, k⟩ | ⟨df, -, e, hin, -, -, k⟩ |
      ⟨df, -, e, hin, -, hE, -, -, -, k⟩
    · rw [e, rankOf_sq_index hin]
      split_ifs at k with h1
      · exact ⟨fun _ => h1, fun _ => by omega⟩
      · exact ⟨fun hn => absurd k hn, fun hn => absurd hn h1⟩
    · rw [e, rankOf_sq_index hin, k]
      exact ⟨fun hn => absurd rfl hn, fun hn => by omega⟩
    · rw [e, rankOf_sq_index hin]
      split_ifs at k with h1
      · exact ⟨fun _ => h1, fun _ => by omega⟩
      · exact ⟨fun hn => absurd k hn, fun hn => absurd hn h1⟩
    · rw [k]
      exact ⟨fun hn => absurd rfl hn, fun hn => absurd hn (hepr _ hE).1⟩
  · intro hc
    subst hc
    have hb : ¬ (BLACK = WHITE) := by decide
    simp only [hb, if_false] at h
    rcases h with ⟨e, hin, -, k⟩ | ⟨e, hr, hin, -, -, k⟩ | ⟨df, -, e, hin, -, -, k⟩ |
      ⟨df, -, e, hin, -, hE, -, -, -, k⟩
    · rw [e, rankOf_sq_index hin]
      split_ifs at k with h1
      · exact ⟨fun _ => h1, fun _ => by omega⟩
      · exact ⟨fun hn => absurd k hn, fun hn => absurd hn h1⟩
    · rw [e, rankOf_sq_index hin, k]
      exact ⟨fun hn => absurd rfl hn, fun hn => by omega⟩
    · rw [e, rankOf_sq_index hin]
      split_ifs at k with h1
      · exact ⟨fun _ => h1, fun _ => by omega⟩
      · exact ⟨fun hn => absurd k hn, fun hn => absurd hn h1⟩
    · rw [k]
      exact ⟨fun hn => absurd rfl hn, fun hn => absurd hn (hepr _ hE).2⟩

theorem generated_promotion_iff {b : Board} (hw : WF b) (hep : EnPassantConsistent b) {m : Move}
    (hg : Generated b m) : m.promotionPiece ≠ 0 ↔ PromotionMove b m := by
  obtain ⟨hfrom, hcases⟩ := generated_cases hw hg
  unfold PromotionMove findPieceCodeAt
  rw [pieceAt_eq_codeAt b hfrom]
  have e1 : Int.lor PAWN WHITE = 1 := rfl
  have e9 : Int.lor PAWN BLACK = 9 := rfl
  rw [e1, e9]
  have other : ∀ {k : Int}, codeAt b m.from_.toNat = k → k ≠ 1 → k ≠ 9 → m.promotionPiece = 0 →
      (m.promotionPiece ≠ 0 ↔
        (codeAt b m.from_.toNat = 1 ∧ rankOf m.to_ = 7) ∨
          (codeAt b m.from_.toNat = 9 ∧ rankOf m.to_ = 0)) := by
    intro k hk h1 h9 hp
    rw [hk]
    exact ⟨fun hn => absurd hp hn, fun h => by
      rcases h with h | h
      · exact absurd h.1 h1
      · exact absurd h.1 h9⟩
  rcases hcases with ⟨c, g⟩ | ⟨c, g⟩ | ⟨c, g⟩ | ⟨c, g⟩ | ⟨c, g⟩ | ⟨c, g⟩ | ⟨c, g⟩
  · rw [c, (pawnGen_promotion hep g).1 rfl]
    exact ⟨fun h => Or.inl ⟨rfl, h⟩, fun h => by
      rcases h with h | h
      · exact h.2
      · exact absurd h.1 (by decide)⟩
  · rw [c, (pawnGen_promotion hep g).2 rfl]
    exact ⟨fun h => Or.inr ⟨rfl, h⟩, fun h => by
      rcases h with h | h
      · exact absurd h.1 (by decide)
      · exact h.2⟩
  · exact other c (by decide) (by decide) g.2.1
  · exact other c (by decide) (by decide) g.2.1
  · rcases c with c | c | c | c | c | c <;> exact other c (by decide) (by decide) g.2.1
  · rcases g with g | g
    · exact other c (by decide) (by decide) g.2.1
    · exact other c (by decide) (by decide) g.2.1
  · rcases g with g | g
    · exact other c (by decide) (by decide) g.2.1
    · exact other c (by decide) (by decide) g.2.1

theorem promoCount_pos {f t p : Int} {l : List Move} {m : Move} (hm : m ∈ l) (h1 : m.from_ = f)
    (h2 : m.to_ = t) (h3 : m.promotionPiece = p) : 0 < promoCount f t p l := by
  unfold promoCount
  exact List.countP_pos_iff.mpr ⟨m, hm, decide_eq_true ⟨h1, h2, h3⟩⟩

/-- C33: for every board satisfying the invariants, a move produced by
`generateMoves` has `promotionPiece` in `{KNIGHT, BISHOP, ROOK, QUEEN}` exactly
when the moving piece is a pawn whose destination is on its promotion rank
(rank index 7 for White, 0 for Black), and `promotionPiece = 0` otherwise; and
for the `from`/`to` pair of such a pawn push or capture each of the four
promotion types is emitted exactly once. -/
theorem generateMoves_promotions (b : Board) (hinv : Invariants b) (m : Move)
    (hm : m ∈ (generateMoves b []).2) :
    ((m.promotionPiece = KNIGHT ∨ m.promotionPiece = BISHOP ∨ m.promotionPiece = ROOK ∨
        m.promotionPiece = QUEEN) ↔ PromotionMove b m) ∧
    (¬ PromotionMove b m → m.promotionPiece = 0) ∧
    (PromotionMove b m → ∀ p : Int, (p = KNIGHT ∨ p = BISHOP ∨ p = ROOK ∨ p = QUEEN) →
      promoCount m.from_ m.to_ p (generateMoves b []).2 = 1) := by
  have hw := wf_of_invariants hinv
  have ho := hinv.2.2.1
  have hep := hinv.2.2.2.2
  have hg : Generated b m := by
    rcases mem_generateMoves hw.1 hm with k | k
    · simp at k
    · rw [updateOccupancies_eq_self ho] at k
      exact k
  have hiff := generated_promotion_iff hw hep hg
  have hok := generated_promotionOk hg
  unfold PromotionOk at hok
  simp only [KNIGHT, BISHOP, ROOK, QUEEN]
  refine ⟨⟨fun h => hiff.mp (by omega), fun h => ?_⟩, fun h => ?_, fun h p hp => ?_⟩
  · have := hiff.mpr h
    omega
  · by_contra hn
    exact h (hiff.mp hn)
  · have hne := hiff.mpr h
    have hm4 : m.promotionPiece = 2 ∨ m.promotionPiece = 3 ∨ m.promotionPiece = 4 ∨
        m.promotionPiece = 5 := by omega
    obtain ⟨e, he, hcount⟩ := promoCount_generateMoves m.from_ m.to_ hw.1
    have hpos := promoCount_pos hm rfl rfl rfl
    rw [hcount _ hm4] at hpos
    rw [hcount p hp]
    omega

theorem generateMoves_promotions_witness :
    promoCount 48 57 KNIGHT (generateMoves promotionBoard []).2 = 1 :=
  (generateMoves_promotions promotionBoard (by decide) ⟨48, 57, 5, 0⟩ (by decide!)).2.2
    (Or.inl ⟨by decide, by decide⟩) KNIGHT (Or.inl rfl)

end Chess
